import Mathlib

/-!
# B+tree index (cmudb): shallow embedding and verification

Embedding of `src/page/b_plus_tree_leaf_page.cpp`,
`src/page/b_plus_tree_internal_page.cpp` and `src/index/b_plus_tree.cpp`.

* A page is a record with the common header (`page_type_`, `size_`, `max_size_`,
  `parent_page_id_`, `page_id_`), the leaf's `next_page_id_`, and the slot memory
  `array` (a list whose length is the capacity of the page, live slots first,
  stale slots after them).
* Keys are integers compared by `comparator`; a slot's second component is a
  record id in a leaf and a child page id in an internal page.
* The buffer pool is a map from page ids to pages together with the allocation
  counter.  Pin counts and dirty flags are not part of this state, so `UnpinPage`
  has no counterpart in the state functions and `FetchPage` is a read of the map; the
  calls that change a pin count are listed by separate functions (`GetValuePins`,
  `InsertPins`).
* A result `none` stands for an execution that leaves the model: a page that is not
  in the pool is fetched, a page is used at the wrong type, a slot outside the
  page's memory is written, a size would become negative, a node and its sibling
  are the same page, or the `fuel` bounding a loop or a recursion runs out.
-/

namespace cmudb

/-- A slot of a page: `(key, value)`.  Keys, record ids and page ids are all
integers. -/
abbrev MappingType := Int × Int

def INVALID_PAGE_ID : Int := -1

/-- Three-way key comparison (`GenericComparator`): negative, zero or positive. -/
def comparator (a b : Int) : Int :=
  if a < b then -1 else if b < a then 1 else 0

inductive IndexPageType where
  | LEAF_PAGE
  | INTERNAL_PAGE
deriving DecidableEq, Repr

/-- Page header shared by both node kinds, plus the slot memory. -/
structure BPlusTreePage where
  page_type_ : IndexPageType
  size_ : Nat
  max_size_ : Nat
  parent_page_id_ : Int
  page_id_ : Int
  next_page_id_ : Int
  array : List MappingType
deriving DecidableEq, Repr

namespace BPlusTreePage

def IsLeafPage (p : BPlusTreePage) : Bool := p.page_type_ = IndexPageType.LEAF_PAGE

def IsRootPage (p : BPlusTreePage) : Bool := p.parent_page_id_ = INVALID_PAGE_ID

/-- Read of `array[i]`; a read outside the slot memory yields the zero slot. -/
def slot (p : BPlusTreePage) (i : Nat) : MappingType := p.array.getD i (0, 0)

/-- Write of `array[i] = x`; outside the slot memory it is undefined. -/
def setSlot (p : BPlusTreePage) (i : Nat) (x : MappingType) : Option BPlusTreePage :=
  if i < p.array.length then some { p with array := p.array.set i x } else none

/-- The call `IncreaseSize(-n)`. -/
def DecreaseSize (p : BPlusTreePage) (n : Nat) : Option BPlusTreePage :=
  if n ≤ p.size_ then some { p with size_ := p.size_ - n } else none

def IncreaseSize (p : BPlusTreePage) (n : Nat) : BPlusTreePage :=
  { p with size_ := p.size_ + n }

def SetParentPageId (p : BPlusTreePage) (parent : Int) : BPlusTreePage :=
  { p with parent_page_id_ := parent }

/-- The live slots `array[0 .. size_)`. -/
def live (p : BPlusTreePage) : List MappingType := p.array.take p.size_

/-- The call `memmove(array + dst, array + src, n * sizeof(MappingType))`. -/
def memmove (p : BPlusTreePage) (dst src n : Nat) : Option BPlusTreePage :=
  if dst + n ≤ p.array.length ∧ src + n ≤ p.array.length then
    some { p with array := p.array.take dst ++ (p.array.drop src).take n ++ p.array.drop (dst + n) }
  else none

/-- Copies `items[0 .. n)` to `array[start ..]`, the loop of the `Copy...From` helpers. -/
def copyFrom (p : BPlusTreePage) (start : Nat) (items : List MappingType) :
    Nat → Option BPlusTreePage
  | 0 => some p
  | n + 1 =>
    match copyFrom p start items n with
    | none => none
    | some q => q.setSlot (start + n) (items.getD n (0, 0))

end BPlusTreePage

open BPlusTreePage IndexPageType

namespace BPlusTreePage

/-- The page `q` has the header fields of `p` other than `size_`, and as much slot
memory. -/
def SameHeader (p q : BPlusTreePage) : Prop :=
  q.page_type_ = p.page_type_ ∧ q.max_size_ = p.max_size_ ∧
    q.parent_page_id_ = p.parent_page_id_ ∧ q.page_id_ = p.page_id_ ∧
    q.next_page_id_ = p.next_page_id_ ∧ q.array.length = p.array.length

end BPlusTreePage

/-! ## Leaf pages -/

namespace BPlusTreeLeafPage

/-- Leaf `Init` on a freshly allocated (zeroed) page; `max_size` is the value that
`Init` derives from `PAGE_SIZE`. -/
def Init (max_size : Nat) (page_id : Int) (parent_id : Int) : BPlusTreePage :=
  { page_type_ := LEAF_PAGE, size_ := 0, max_size_ := max_size, parent_page_id_ := parent_id,
    page_id_ := page_id, next_page_id_ := INVALID_PAGE_ID,
    array := List.replicate max_size (0, 0) }

def SetNextPageId (p : BPlusTreePage) (next_page_id : Int) : BPlusTreePage :=
  { p with next_page_id_ := next_page_id }

def KeyAt (p : BPlusTreePage) (index : Nat) : Int := (p.slot index).1

def GetItem (p : BPlusTreePage) (index : Nat) : MappingType := p.slot index

/-- Loop of `KeyIndex`: `n` iterations remain, `i` is the loop variable. -/
def KeyIndexLoop (p : BPlusTreePage) (key : Int) : Nat → Nat → Nat
  | 0, _ => p.size_
  | n + 1, i => if comparator key (p.slot i).1 ≤ 0 then i else KeyIndexLoop p key n (i + 1)

def KeyIndex (p : BPlusTreePage) (key : Int) : Nat := KeyIndexLoop p key p.size_ 0

/-- Shifting loop of `Insert`; the argument `n` is `idx + 1`.  Returns the final
`idx + 1` and the page. -/
def InsertLoop (key : Int) : Nat → BPlusTreePage → Option (Nat × BPlusTreePage)
  | 0, p => some (0, p)
  | n + 1, p =>
    if comparator key (p.slot n).1 < 0 then
      match p.setSlot (n + 1) (p.slot n) with
      | none => none
      | some q => InsertLoop key n q
    else some (n + 1, p)

def Insert (p : BPlusTreePage) (key : Int) (value : Int) : Option BPlusTreePage :=
  match InsertLoop key p.size_ p with
  | none => none
  | some (j, q) =>
    match q.setSlot j (key, value) with
    | none => none
    | some r => some (r.IncreaseSize 1)

def CopyHalfFrom (p : BPlusTreePage) (items : List MappingType) (size : Nat) :
    Option BPlusTreePage :=
  match p.copyFrom 0 items size with
  | none => none
  | some q => some (q.IncreaseSize size)

/-- Leaf `MoveHalfTo`: returns the page and the recipient. -/
def MoveHalfTo (p recipient : BPlusTreePage) : Option (BPlusTreePage × BPlusTreePage) :=
  let size := p.size_ / 2
  match CopyHalfFrom recipient (p.array.drop (p.size_ - size)) size with
  | none => none
  | some r =>
    match p.DecreaseSize size with
    | none => none
    | some q => some (q, r)

/-- Binary search shared by `Lookup` and `RemoveAndDeleteRecord`: the index of the
slot holding `key`, if the loop finds one. -/
def search (p : BPlusTreePage) (key : Int) : Nat → Int → Int → Option Nat
  | 0, _, _ => none
  | fuel + 1, low, high =>
    if low ≤ high then
      let mid := low + (high - low) / 2
      if comparator key (p.slot mid.toNat).1 > 0 then search p key fuel (mid + 1) high
      else if comparator key (p.slot mid.toNat).1 < 0 then search p key fuel low (mid - 1)
      else some mid.toNat
    else none

/-- Index found by the guarded binary search of `Lookup`. -/
def find (p : BPlusTreePage) (key : Int) : Option Nat :=
  if p.size_ = 0 ∨ comparator key (KeyAt p 0) < 0 ∨ comparator key (KeyAt p (p.size_ - 1)) > 0 then
    none
  else search p key (p.size_ + 1) 0 ((p.size_ : Int) - 1)

/-- Leaf `Lookup`: `some value` when it returns true and stores `value`. -/
def Lookup (p : BPlusTreePage) (key : Int) : Option Int :=
  match find p key with
  | none => none
  | some mid => some (p.slot mid).2

/-- `RemoveAndDeleteRecord`: the page afterwards (its `size_` is the returned size). -/
def RemoveAndDeleteRecord (p : BPlusTreePage) (key : Int) : Option BPlusTreePage :=
  match find p key with
  | none => some p
  | some mid =>
    match p.memmove mid (mid + 1) (p.size_ - mid - 1) with
    | none => none
    | some q => q.DecreaseSize 1

def CopyAllFrom (p : BPlusTreePage) (items : List MappingType) (size : Nat) :
    Option BPlusTreePage :=
  match p.copyFrom p.size_ items size with
  | none => none
  | some q => some (q.IncreaseSize size)

/-- Leaf `MoveAllTo`: returns the page and the recipient. -/
def MoveAllTo (p recipient : BPlusTreePage) : Option (BPlusTreePage × BPlusTreePage) :=
  match CopyAllFrom recipient p.array p.size_ with
  | none => none
  | some r =>
    match p.DecreaseSize p.size_ with
    | none => none
    | some q => some (q, SetNextPageId r p.next_page_id_)

def CopyLastFrom (p : BPlusTreePage) (item : MappingType) : Option BPlusTreePage :=
  match p.setSlot p.size_ item with
  | none => none
  | some q => some (q.IncreaseSize 1)

end BPlusTreeLeafPage

/-! ## Internal pages -/

namespace BPlusTreeInternalPage

/-- Internal `Init` on a freshly allocated (zeroed) page. -/
def Init (max_size : Nat) (page_id : Int) (parent_id : Int) : BPlusTreePage :=
  { page_type_ := INTERNAL_PAGE, size_ := 1, max_size_ := max_size, parent_page_id_ := parent_id,
    page_id_ := page_id, next_page_id_ := INVALID_PAGE_ID,
    array := List.replicate max_size (0, 0) }

def KeyAt (p : BPlusTreePage) (index : Nat) : Int := (p.slot index).1

def SetKeyAt (p : BPlusTreePage) (index : Nat) (key : Int) : Option BPlusTreePage :=
  p.setSlot index (key, (p.slot index).2)

def ValueAt (p : BPlusTreePage) (index : Nat) : Int := (p.slot index).2

def SetValueAt (p : BPlusTreePage) (index : Nat) (value : Int) : Option BPlusTreePage :=
  p.setSlot index ((p.slot index).1, value)

/-- Loop of `ValueIndex`: `n` iterations remain, `idx` is the loop variable. -/
def ValueIndexLoop (p : BPlusTreePage) (value : Int) : Nat → Nat → Nat
  | 0, _ => 0
  | n + 1, idx => if (p.slot idx).2 = value then idx else ValueIndexLoop p value n (idx + 1)

def ValueIndex (p : BPlusTreePage) (value : Int) : Nat := ValueIndexLoop p value p.size_ 0

/-- Loop of internal `Lookup`: `n` iterations remain, `idx` is the loop variable. -/
def LookupLoop (p : BPlusTreePage) (key : Int) : Nat → Nat → Int
  | 0, _ => (p.slot (p.size_ - 1)).2
  | n + 1, idx =>
    if comparator key (p.slot idx).1 < 0 then (p.slot (idx - 1)).2
    else LookupLoop p key n (idx + 1)

/-- Internal `Lookup`.  With `size_ = 0` the final read is `array[-1]`, outside the
slot memory. -/
def Lookup (p : BPlusTreePage) (key : Int) : Int :=
  if p.size_ = 0 then 0 else LookupLoop p key (p.size_ - 1) 1

/-- Loop of `InsertNodeAfter`, with loop variable `i`. -/
def InsertNodeAfterLoop (old_value : Int) (new_key : Int) (new_value : Int) :
    Nat → BPlusTreePage → Option BPlusTreePage
  | 0, p => some p
  | i + 1, p =>
    if (p.slot i).2 = old_value then
      match p.setSlot (i + 1) (new_key, new_value) with
      | none => none
      | some q => some (q.IncreaseSize 1)
    else
      match p.setSlot (i + 1) (p.slot i) with
      | none => none
      | some q => InsertNodeAfterLoop old_value new_key new_value i q

/-- `InsertNodeAfter`: the page afterwards (its `size_` is the returned size). -/
def InsertNodeAfter (p : BPlusTreePage) (old_value : Int) (new_key : Int)
    (new_value : Int) : Option BPlusTreePage :=
  InsertNodeAfterLoop old_value new_key new_value p.size_ p

/-- `CopyHalfFrom`: copies `size` slots and calls `IncreaseSize(size - 1)`. -/
def CopyHalfFrom (p : BPlusTreePage) (items : List MappingType) (size : Nat) :
    Option BPlusTreePage :=
  match p.copyFrom 0 items size with
  | none => none
  | some q => if size = 0 then q.DecreaseSize 1 else some (q.IncreaseSize (size - 1))

/-- Loop of internal `Remove`: `n` iterations remain, `idx` is the loop variable. -/
def RemoveLoop : Nat → Nat → BPlusTreePage → Option BPlusTreePage
  | 0, _, p => some p
  | n + 1, idx, p =>
    match p.setSlot (idx - 1) (p.slot idx) with
    | none => none
    | some q => RemoveLoop n (idx + 1) q

def Remove (p : BPlusTreePage) (index : Nat) : Option BPlusTreePage :=
  match RemoveLoop (p.size_ - (index + 1)) (index + 1) p with
  | none => none
  | some q => q.DecreaseSize 1

def CopyAllFrom (p : BPlusTreePage) (items : List MappingType) (size : Nat) :
    Option BPlusTreePage :=
  match p.copyFrom p.size_ items size with
  | none => none
  | some q => some (q.IncreaseSize size)

def CopyLastFrom (p : BPlusTreePage) (pair : MappingType) : Option BPlusTreePage :=
  match p.setSlot p.size_ pair with
  | none => none
  | some q => some (q.IncreaseSize 1)

end BPlusTreeInternalPage

/-! ## The tree and its buffer pool -/

/-- The tree object together with the pages of its buffer pool.  `next_page_id` is
the allocation counter of the pool; `leaf_max_size` and `internal_max_size` are the
capacities that the two `Init` methods derive from `PAGE_SIZE`. -/
structure BPlusTree where
  root_page_id_ : Int
  pages : Int → Option BPlusTreePage
  next_page_id : Int
  leaf_max_size : Nat
  internal_max_size : Nat

namespace BPlusTree

/-- The tree before any page is allocated; page id 0 is the header page. -/
def empty (leaf_max_size internal_max_size : Nat) : BPlusTree :=
  { root_page_id_ := INVALID_PAGE_ID, pages := fun _ => none, next_page_id := 1,
    leaf_max_size := leaf_max_size, internal_max_size := internal_max_size }

/-- Modelled from the spec: `NewPage` of the buffer manager, which allocates a fresh
page id (the counter of the disk manager).  The zeroed page itself enters `pages`
when `Init` has run on it. -/
def NewPage (t : BPlusTree) : Int × BPlusTree :=
  (t.next_page_id, { t with next_page_id := t.next_page_id + 1 })

/-- Modelled from the spec: `DeletePage` of the buffer manager releases the page. -/
def DeletePage (t : BPlusTree) (page_id : Int) : BPlusTree :=
  { t with pages := Function.update t.pages page_id none }

/-- A store through a pointer to the page with id `page_id`. -/
def WritePage (t : BPlusTree) (page_id : Int) (p : BPlusTreePage) : BPlusTree :=
  { t with pages := Function.update t.pages page_id (some p) }

/-- `FetchPage` followed by the `reinterpret_cast` to the node type `N`. -/
def FetchAs (t : BPlusTree) (N : IndexPageType) (page_id : Int) : Option BPlusTreePage :=
  match t.pages page_id with
  | none => none
  | some p => if p.page_type_ = N then some p else none

def IsEmpty (t : BPlusTree) : Bool := t.root_page_id_ = INVALID_PAGE_ID

/-- `FindLeafPage`: the id of the leaf the loop ends at; `fuel` bounds the number of
pages visited. -/
def FindLeafPage (t : BPlusTree) (key : Int) (leftMost : Bool) :
    Nat → Int → Option Int
  | 0, _ => none
  | fuel + 1, page_id =>
    match t.pages page_id with
    | none => none
    | some page =>
      if !page.IsLeafPage then
        let next_page_id :=
          if leftMost then BPlusTreeInternalPage.ValueAt page 0
          else BPlusTreeInternalPage.Lookup page key
        FindLeafPage t key leftMost fuel next_page_id
      else some page_id

/-- `GetValue`: the returned flag and the values appended to `result`. -/
def GetValue (fuel : Nat) (t : BPlusTree) (key : Int) : Option (Bool × List Int) :=
  if t.root_page_id_ = INVALID_PAGE_ID then some (false, [])
  else
    match FindLeafPage t key false fuel t.root_page_id_ with
    | none => none
    | some leaf_id =>
      match t.FetchAs LEAF_PAGE leaf_id with
      | none => none
      | some leaf_page =>
        match BPlusTreeLeafPage.Lookup leaf_page key with
        | some tmp_value => some (true, [tmp_value])
        | none => some (true, [])

def StartNewTree (t : BPlusTree) (key : Int) (value : Int) : Option BPlusTree :=
  let (root_page_id, t1) := t.NewPage
  let node := BPlusTreeLeafPage.Init t.leaf_max_size root_page_id INVALID_PAGE_ID
  match BPlusTreeLeafPage.Insert node key value with
  | none => none
  | some node1 => some ({ t1 with root_page_id_ := root_page_id }.WritePage root_page_id node1)

/-- The statements `child_page->SetParentPageId(parent_id)` on the fetched child. -/
def reparent (t : BPlusTree) (child_id parent_id : Int) : Option BPlusTree :=
  match t.pages child_id with
  | none => none
  | some child => some (t.WritePage child_id (child.SetParentPageId parent_id))

/-- Re-parenting loop of the internal `MoveHalfTo` and `MoveAllTo`: `n` iterations
remain, `idx` is the loop variable, the children are read from page `self`. -/
def reparentLoop (self parent_id : Int) : Nat → Nat → BPlusTree → Option BPlusTree
  | 0, _, t => some t
  | n + 1, idx, t =>
    match t.pages self with
    | none => none
    | some p =>
      match t.reparent (p.slot idx).2 parent_id with
      | none => none
      | some t1 => reparentLoop self parent_id n (idx + 1) t1

/-- Internal `MoveHalfTo` of page `self` to page `recipient`. -/
def InternalMoveHalfTo (t : BPlusTree) (self recipient : Int) : Option BPlusTree := do
  let p ← t.pages self
  let r ← t.pages recipient
  let half := p.size_ / 2
  let r1 ← BPlusTreeInternalPage.CopyHalfFrom r (p.array.drop (p.size_ - half)) half
  let t1 := t.WritePage recipient r1
  let t2 ← reparentLoop self r1.page_id_ half (p.size_ - half) t1
  let p2 ← t2.pages self
  let p3 ← p2.DecreaseSize half
  some (t2.WritePage self p3)

/-- `Split<N>(node)`: the id of the new page and the state afterwards. -/
def Split (t : BPlusTree) (N : IndexPageType) (node_id : Int) :
    Option (Int × BPlusTree) := do
  let node ← t.pages node_id
  let (new_page_id, t1) := t.NewPage
  match N with
  | LEAF_PAGE =>
    let new_node := BPlusTreeLeafPage.Init t.leaf_max_size new_page_id node.parent_page_id_
    let (node1, new_node1) ← BPlusTreeLeafPage.MoveHalfTo node new_node
    some (new_page_id, (t1.WritePage new_page_id new_node1).WritePage node_id node1)
  | INTERNAL_PAGE =>
    let new_node := BPlusTreeInternalPage.Init t.internal_max_size new_page_id node.parent_page_id_
    let t2 ← (t1.WritePage new_page_id new_node).InternalMoveHalfTo node_id new_page_id
    some (new_page_id, t2)

/-- `InsertIntoParent(old_node, key, new_node)`; `fuel` bounds the recursion. -/
def InsertIntoParent : Nat → BPlusTree → Int → Int → Int → Option BPlusTree
  | 0, _, _, _, _ => none
  | fuel + 1, t, old_id, key, new_id => do
    let old_node ← t.pages old_id
    let new_node ← t.pages new_id
    if old_node.IsRootPage then
      let (root_page_id, t1) := t.NewPage
      let node := BPlusTreeInternalPage.Init t.internal_max_size root_page_id INVALID_PAGE_ID
      let node1 ← BPlusTreeInternalPage.SetValueAt node 0 old_node.page_id_
      let node2 ← BPlusTreeInternalPage.InsertNodeAfter node1 old_node.page_id_ key new_node.page_id_
      let t2 := { t1 with root_page_id_ := root_page_id }.WritePage root_page_id node2
      let t3 ← t2.reparent old_id root_page_id
      t3.reparent new_id root_page_id
    else
      let parent_page_id := old_node.parent_page_id_
      let parent_node ← t.FetchAs INTERNAL_PAGE parent_page_id
      if parent_node.size_ < parent_node.max_size_ then
        let parent1 ← BPlusTreeInternalPage.InsertNodeAfter parent_node old_node.page_id_ key
          new_node.page_id_
        some (t.WritePage parent_page_id parent1)
      else
        let (new_parent_id, t1) ← t.Split INTERNAL_PAGE parent_page_id
        let parent1 ← t1.pages parent_page_id
        let new_parent1 ← t1.pages new_parent_id
        let t2 ←
          if comparator key (BPlusTreeInternalPage.KeyAt new_parent1 0) < 0 then
            (BPlusTreeInternalPage.InsertNodeAfter parent1 old_node.page_id_ key
              new_node.page_id_).map (t1.WritePage parent_page_id)
          else
            (BPlusTreeInternalPage.InsertNodeAfter new_parent1 old_node.page_id_ key
              new_node.page_id_).bind
              (fun np => (t1.WritePage new_parent_id np).reparent new_id np.page_id_)
        let new_parent2 ← t2.pages new_parent_id
        InsertIntoParent fuel t2 parent_page_id (BPlusTreeInternalPage.KeyAt new_parent2 0)
          new_parent_id

/-- `InsertIntoLeaf`: the returned flag and the state afterwards. -/
def InsertIntoLeaf (fuel : Nat) (t : BPlusTree) (key : Int) (value : Int) :
    Option (Bool × BPlusTree) := do
  let leaf_id ← FindLeafPage t key false fuel t.root_page_id_
  let leaf_page ← t.FetchAs LEAF_PAGE leaf_id
  if (BPlusTreeLeafPage.Lookup leaf_page key).isSome then
    some (false, t)
  else if leaf_page.size_ < leaf_page.max_size_ then
    let leaf1 ← BPlusTreeLeafPage.Insert leaf_page key value
    some (true, t.WritePage leaf_id leaf1)
  else
    let (new_id, t1) ← t.Split LEAF_PAGE leaf_id
    let leaf1 ← t1.pages leaf_id
    let new1 ← t1.pages new_id
    let t2 ←
      if comparator key (BPlusTreeLeafPage.KeyAt new1 0) < 0 then
        (BPlusTreeLeafPage.Insert leaf1 key value).map (t1.WritePage leaf_id)
      else
        (BPlusTreeLeafPage.Insert new1 key value).map (t1.WritePage new_id)
    let leaf2 ← t2.pages leaf_id
    let new2 ← t2.pages new_id
    let t3 := t2.WritePage new_id (BPlusTreeLeafPage.SetNextPageId new2 leaf2.next_page_id_)
    let leaf3 ← t3.pages leaf_id
    let t4 := t3.WritePage leaf_id (BPlusTreeLeafPage.SetNextPageId leaf3 new2.page_id_)
    let new4 ← t4.pages new_id
    let t5 ← InsertIntoParent fuel t4 leaf_id (BPlusTreeLeafPage.KeyAt new4 0) new_id
    some (true, t5)

/-- `Insert`: the returned flag and the state afterwards. -/
def Insert (fuel : Nat) (t : BPlusTree) (key : Int) (value : Int) :
    Option (Bool × BPlusTree) :=
  if t.IsEmpty then
    match t.StartNewTree key value with
    | none => none
    | some t1 => some (true, t1)
  else InsertIntoLeaf fuel t key value

/-- Leaf `MoveAllTo` of page `self` to page `recipient` (two different pages). -/
def LeafMoveAllTo (t : BPlusTree) (self recipient : Int) : Option BPlusTree :=
  if self = recipient then none
  else do
    let p ← t.FetchAs LEAF_PAGE self
    let r ← t.FetchAs LEAF_PAGE recipient
    let (p1, r1) ← BPlusTreeLeafPage.MoveAllTo p r
    some ((t.WritePage recipient r1).WritePage self p1)

/-- Internal `MoveAllTo` of page `self` to page `recipient` (two different pages). -/
def InternalMoveAllTo (t : BPlusTree) (self recipient : Int) : Option BPlusTree :=
  if self = recipient then none
  else do
    let p ← t.FetchAs INTERNAL_PAGE self
    let _parent ← t.pages p.parent_page_id_
    let r ← t.FetchAs INTERNAL_PAGE recipient
    let r1 ← BPlusTreeInternalPage.CopyAllFrom r p.array p.size_
    reparentLoop self r1.page_id_ p.size_ 0 (t.WritePage recipient r1)

/-- `Coalesce<N>(neighbor_node, node, parent, index)`: `node` is moved into
`neighbor_node` and its page is deleted. -/
def Coalesce (t : BPlusTree) (N : IndexPageType) (neighbor_id node_id parent_id : Int) :
    Option BPlusTree := do
  let t1 ←
    match N with
    | LEAF_PAGE => t.LeafMoveAllTo node_id neighbor_id
    | INTERNAL_PAGE => t.InternalMoveAllTo node_id neighbor_id
  let node ← t1.pages node_id
  let parent ← t1.FetchAs INTERNAL_PAGE parent_id
  let parent1 ← BPlusTreeInternalPage.Remove parent
    (BPlusTreeInternalPage.ValueIndex parent node.page_id_)
  let t2 := t1.WritePage parent_id parent1
  let node2 ← t2.pages node_id
  let neighbor2 ← t2.pages neighbor_id
  let t3 :=
    match N with
    | LEAF_PAGE =>
      if node2.IsLeafPage then
        t2.WritePage neighbor_id (BPlusTreeLeafPage.SetNextPageId neighbor2 node2.next_page_id_)
      else t2
    | INTERNAL_PAGE => t2
  let node3 ← t3.pages node_id
  some (t3.DeletePage node3.page_id_)

/-- Leaf `MoveFirstToEndOf` of page `self` to page `recipient` (two different pages). -/
def LeafMoveFirstToEndOf (t : BPlusTree) (self recipient : Int) : Option BPlusTree :=
  if self = recipient then none
  else do
    let p ← t.FetchAs LEAF_PAGE self
    let pair := BPlusTreeLeafPage.GetItem p 0
    let p1 ← p.DecreaseSize 1
    let p2 ← p1.memmove 0 1 p1.size_
    let t1 := t.WritePage self p2
    let r ← t.FetchAs LEAF_PAGE recipient
    let r1 ← BPlusTreeLeafPage.CopyLastFrom r pair
    let t2 := t1.WritePage recipient r1
    let parent ← t2.FetchAs INTERNAL_PAGE p2.parent_page_id_
    let parent1 ← BPlusTreeInternalPage.SetKeyAt parent
      (BPlusTreeInternalPage.ValueIndex parent p2.page_id_) pair.1
    some (t2.WritePage p2.parent_page_id_ parent1)

/-- Leaf `MoveLastToFrontOf` of page `self` to page `recipient` (two different pages),
with `CopyFirstFrom`. -/
def LeafMoveLastToFrontOf (t : BPlusTree) (self recipient : Int) (parentIndex : Nat) :
    Option BPlusTree :=
  if self = recipient then none
  else do
    let p ← t.FetchAs LEAF_PAGE self
    let pair := BPlusTreeLeafPage.GetItem p (p.size_ - 1)
    let p1 ← p.DecreaseSize 1
    let t1 := t.WritePage self p1
    let r ← t.FetchAs LEAF_PAGE recipient
    let r1 ← r.memmove 1 0 r.size_
    let r2 ← (r1.IncreaseSize 1).setSlot 0 pair
    let t2 := t1.WritePage recipient r2
    let parent ← t2.FetchAs INTERNAL_PAGE r2.parent_page_id_
    let parent1 ← BPlusTreeInternalPage.SetKeyAt parent parentIndex pair.1
    some (t2.WritePage r2.parent_page_id_ parent1)

/-- Internal `MoveFirstToEndOf` of page `self` to page `recipient` (two different
pages); every page is read again after each store. -/
def InternalMoveFirstToEndOf (t : BPlusTree) (self recipient : Int) :
    Option BPlusTree :=
  if self = recipient then none
  else do
    let p ← t.FetchAs INTERNAL_PAGE self
    let pair : MappingType := (BPlusTreeInternalPage.KeyAt p 0, BPlusTreeInternalPage.ValueAt p 0)
    let child_page_id := BPlusTreeInternalPage.ValueAt p 0
    let p1 ← BPlusTreeInternalPage.Remove p 0
    let t1 := t.WritePage self p1
    let parent ← t1.FetchAs INTERNAL_PAGE p1.parent_page_id_
    let parent1 ← BPlusTreeInternalPage.SetKeyAt parent
      (BPlusTreeInternalPage.ValueIndex p1 p1.page_id_) (p1.slot 0).1
    let t2 := t1.WritePage p1.parent_page_id_ parent1
    let r ← t2.FetchAs INTERNAL_PAGE recipient
    let r1 ← BPlusTreeInternalPage.CopyLastFrom r pair
    let t3 := t2.WritePage recipient r1
    t3.reparent child_page_id r1.page_id_

/-- Internal `MoveLastToFrontOf` of page `self` to page `recipient` (two different
pages), with `CopyFirstFrom`; every page is read again after each store. -/
def InternalMoveLastToFrontOf (t : BPlusTree) (self recipient : Int)
    (parent_index : Nat) : Option BPlusTree :=
  if self = recipient then none
  else do
    let p ← t.FetchAs INTERNAL_PAGE self
    let p1 ← p.DecreaseSize 1
    let pair := p1.slot p1.size_
    let child_page_id := pair.2
    let t1 := t.WritePage self p1
    let r ← t.FetchAs INTERNAL_PAGE recipient
    let parent_id := r.parent_page_id_
    let _parent ← t1.FetchAs INTERNAL_PAGE parent_id
    let r1 ← r.memmove 1 0 r.size_
    let r2 ← r1.setSlot 0 pair
    let t2 := t1.WritePage recipient r2
    let parent ← t2.FetchAs INTERNAL_PAGE parent_id
    let parent1 ← BPlusTreeInternalPage.SetKeyAt parent parent_index pair.1
    let t3 := t2.WritePage parent_id parent1
    let r3 ← t3.FetchAs INTERNAL_PAGE recipient
    let t4 := t3.WritePage recipient (r3.IncreaseSize 1)
    t4.reparent child_page_id r3.page_id_

/-- `Redistribute<N>(neighbor_node, node, index)`. -/
def Redistribute (t : BPlusTree) (N : IndexPageType) (neighbor_id node_id : Int)
    (index : Int) : Option BPlusTree :=
  if index > 0 then
    match N with
    | LEAF_PAGE => t.LeafMoveLastToFrontOf neighbor_id node_id index.toNat
    | INTERNAL_PAGE => t.InternalMoveLastToFrontOf neighbor_id node_id index.toNat
  else if index = 0 then
    match N with
    | LEAF_PAGE => t.LeafMoveFirstToEndOf neighbor_id node_id
    | INTERNAL_PAGE => t.InternalMoveFirstToEndOf neighbor_id node_id
  else some t

def AdjustRoot (t : BPlusTree) (old_root_id : Int) : Option BPlusTree := do
  let tmp_node ← t.FetchAs INTERNAL_PAGE old_root_id
  let t1 := { t with root_page_id_ := BPlusTreeInternalPage.ValueAt tmp_node 0 }
  let t2 := t1.DeletePage tmp_node.page_id_
  t2.reparent t2.root_page_id_ INVALID_PAGE_ID

/-- `CoalesceOrRedistribute<N>(node)`; `fuel` bounds the recursion. -/
def CoalesceOrRedistribute : Nat → BPlusTree → IndexPageType → Int → Option BPlusTree
  | 0, _, _, _ => none
  | fuel + 1, t, N, node_id => do
    let node ← t.FetchAs N node_id
    if node.size_ ≥ (node.max_size_ + 1) / 2 then some t
    else if node.IsRootPage then
      if node.IsLeafPage ∧ node.size_ = 0 then
        some ({ t with root_page_id_ := INVALID_PAGE_ID }.DeletePage node.page_id_)
      else if !node.IsLeafPage ∧ node.size_ = 1 then t.AdjustRoot node_id
      else some t
    else
      let parent_page_id := node.parent_page_id_
      let parent_node ← t.FetchAs INTERNAL_PAGE parent_page_id
      let value_index : Int := BPlusTreeInternalPage.ValueIndex parent_node node.page_id_
      let use_right_neighbor : Bool := value_index - 1 < 0
      let neighbor_index_in_parent : Int :=
        if use_right_neighbor then value_index + 1 else value_index - 1
      let neighbor_page_id := BPlusTreeInternalPage.ValueAt parent_node
        neighbor_index_in_parent.toNat
      let neighbor_node ← t.FetchAs N neighbor_page_id
      if node.size_ + neighbor_node.size_ ≤ neighbor_node.max_size_ then
        let t1 ←
          if use_right_neighbor then t.Coalesce N node_id neighbor_page_id parent_page_id
          else t.Coalesce N neighbor_page_id node_id parent_page_id
        CoalesceOrRedistribute fuel t1 INTERNAL_PAGE parent_page_id
      else if use_right_neighbor then t.Redistribute N neighbor_page_id node_id 0
      else
        t.Redistribute N neighbor_page_id node_id
          (BPlusTreeInternalPage.ValueAt parent_node
            (BPlusTreeInternalPage.ValueIndex parent_node node.page_id_))

/-- `Remove`: the state afterwards. -/
def Remove (fuel : Nat) (t : BPlusTree) (key : Int) : Option BPlusTree :=
  if t.IsEmpty then some t
  else
    match FindLeafPage t key false fuel t.root_page_id_ with
    | none => none
    | some leaf_id =>
      match t.FetchAs LEAF_PAGE leaf_id with
      | none => none
      | some leaf_page =>
        if (BPlusTreeLeafPage.Lookup leaf_page key).isNone then some t
        else
          match BPlusTreeLeafPage.RemoveAndDeleteRecord leaf_page key with
          | none => none
          | some leaf1 => CoalesceOrRedistribute fuel (t.WritePage leaf_id leaf1) LEAF_PAGE leaf_id

/-- `Begin()`: the leaf and the index the iterator is constructed with. -/
def Begin (fuel : Nat) (t : BPlusTree) : Option (Int × Nat) :=
  match FindLeafPage t 0 true fuel t.root_page_id_ with
  | none => none
  | some leaf_id => some (leaf_id, 0)

/-- `Begin(key)`: the leaf and the index the iterator is constructed with. -/
def BeginAt (fuel : Nat) (t : BPlusTree) (key : Int) : Option (Int × Nat) :=
  match FindLeafPage t key true fuel t.root_page_id_ with
  | none => none
  | some leaf_id =>
    match t.FetchAs LEAF_PAGE leaf_id with
    | none => none
    | some leaf_page => some (leaf_id, BPlusTreeLeafPage.KeyIndex leaf_page key)

/-- The walk of the claims over the leaf chain: the pairs met from slot `index` of
leaf `leaf_id` on, following `next_page_id_` until it is `INVALID_PAGE_ID`; `fuel`
bounds the number of leaves visited. -/
def walkFrom (t : BPlusTree) : Nat → Int → Nat → Option (List MappingType)
  | 0, _, _ => none
  | fuel + 1, leaf_id, index =>
    match t.FetchAs LEAF_PAGE leaf_id with
    | none => none
    | some leaf =>
      if leaf.next_page_id_ = INVALID_PAGE_ID then some (leaf.live.drop index)
      else
        match walkFrom t fuel leaf.next_page_id_ 0 with
        | none => none
        | some rest => some (leaf.live.drop index ++ rest)

/-- The pairs read by iterating from `Begin()`.  `Begin()` has no test for the empty
tree: it fetches the page `root_page_id_`, so on the empty tree there is no result. -/
def iterate (fuel : Nat) (t : BPlusTree) : Option (List MappingType) :=
  match t.Begin fuel with
  | none => none
  | some (leaf_id, index) => walkFrom t fuel leaf_id index

/-- One public call on the index. -/
inductive Op where
  | insert (key : Int) (value : Int)
  | remove (key : Int)
deriving DecidableEq, Repr

def applyOp (fuel : Nat) (t : BPlusTree) : Op → Option BPlusTree
  | Op.insert key value => (t.Insert fuel key value).map Prod.snd
  | Op.remove key => t.Remove fuel key

/-- Runs the calls from left to right. -/
def run (fuel : Nat) : BPlusTree → List Op → Option BPlusTree
  | t, [] => some t
  | t, op :: ops =>
    match applyOp fuel t op with
    | none => none
    | some t1 => run fuel t1 ops

/-- Inserts the pairs from left to right; returns the flags of the calls and the
final state. -/
def insertAll (fuel : Nat) : BPlusTree → List MappingType → Option (List Bool × BPlusTree)
  | t, [] => some ([], t)
  | t, kv :: rest =>
    match t.Insert fuel kv.1 kv.2 with
    | none => none
    | some (b, t1) =>
      match insertAll fuel t1 rest with
      | none => none
      | some (bs, t2) => some (b :: bs, t2)

/-! ## Structural invariants -/

/-- The key `k` lies in the half-open range from `lo` to `hi` (`none`: unbounded). -/
def inRange (lo hi : Option Int) (k : Int) : Prop :=
  (∀ a, lo = some a → a ≤ k) ∧ (∀ b, hi = some b → k < b)

/-- The range from `lo` to `hi` is not empty. -/
def loLtHi (lo hi : Option Int) : Prop :=
  ∀ a b, lo = some a → hi = some b → a < b

/-- The live slots of an internal page route to children that satisfy `Q` on
consecutive ranges: slot 0 covers `lo` up to the key of slot 1, slot `i` covers its
own key up to the key of slot `i + 1`, the last slot ends at `hi`.  The key of the
first slot is not looked at. -/
def slotsOk (Q : Int → Option Int → Option Int → Prop) :
    List MappingType → Option Int → Option Int → Prop
  | [], _, _ => True
  | [s], lo, hi => Q s.2 lo hi
  | s :: s1 :: rest, lo, hi => Q s.2 lo (some s1.1) ∧ slotsOk Q (s1 :: rest) (some s1.1) hi

/-- Structural invariants of the subtree of height `h` rooted at page `page_id`
whose keys lie between `lo` and `hi`: page types by level, sizes within the slot
memory, leaf keys strictly increasing and inside the range, separator keys bounding
the subtrees of the children, and no empty key range. -/
def TreeAt (t : BPlusTree) : Nat → Int → Option Int → Option Int → Prop
  | 0, page_id, lo, hi =>
    match t.pages page_id with
    | none => False
    | some p =>
      p.page_type_ = LEAF_PAGE ∧ p.size_ ≤ p.array.length ∧ loLtHi lo hi ∧
        (p.live.map Prod.fst).Pairwise (· < ·) ∧ ∀ kv ∈ p.live, inRange lo hi kv.1
  | h + 1, page_id, lo, hi =>
    match t.pages page_id with
    | none => False
    | some p =>
      p.page_type_ = INTERNAL_PAGE ∧ 1 ≤ p.size_ ∧ p.size_ ≤ p.array.length ∧ loLtHi lo hi ∧
        slotsOk (TreeAt t h) p.live lo hi

/-- The pairs stored in the leaves of the subtree of height `h` below `page_id`. -/
def subtreePairs (t : BPlusTree) : Nat → Int → List MappingType
  | 0, page_id =>
    match t.pages page_id with
    | none => []
    | some p => p.live
  | h + 1, page_id =>
    match t.pages page_id with
    | none => []
    | some p => (p.live.map Prod.snd).flatMap (subtreePairs t h)

/-- Routing over the live slots of an internal page: the child in front of the first
slot, from the second slot on, whose key is greater than `key`; the last child when
there is none. -/
def route (key : Int) : List MappingType → Int
  | [] => 0
  | [s] => s.2
  | s :: s1 :: rest => if key < s1.1 then s.2 else route key (s1 :: rest)

/-- The page holds at most `max_size_` slots and `max_size_` is the capacity of its
type. -/
def PageBound (leaf_max_size internal_max_size : Nat) (p : BPlusTreePage) : Prop :=
  p.size_ ≤ p.max_size_ ∧
    p.max_size_ = (match p.page_type_ with
      | LEAF_PAGE => leaf_max_size
      | INTERNAL_PAGE => internal_max_size)

/-- Size invariant of the pool: both capacities are at least 2, page ids from the
allocation counter on are unused, and every page satisfies `PageBound`. -/
def SizeInv (t : BPlusTree) : Prop :=
  2 ≤ t.leaf_max_size ∧ 2 ≤ t.internal_max_size ∧
    (∀ page_id p, t.pages page_id = some p → page_id < t.next_page_id) ∧
    (∀ page_id p, t.pages page_id = some p →
      PageBound t.leaf_max_size t.internal_max_size p)

/-- Type, size and capacity of the page with id `page_id`, if it is in the pool. -/
def shapeAt (t : BPlusTree) (page_id : Int) : Option (IndexPageType × Nat × Nat) :=
  (t.pages page_id).map fun p => (p.page_type_, p.size_, p.max_size_)

/-- The state `t1` satisfies the size invariant and has the capacities of `t`; its
allocation counter is not below the one of `t`. -/
def SizeStep (t t1 : BPlusTree) : Prop :=
  SizeInv t1 ∧ t1.leaf_max_size = t.leaf_max_size ∧
    t1.internal_max_size = t.internal_max_size ∧ t.next_page_id ≤ t1.next_page_id

/-- The page `recipient` has room for one more slot. -/
def recipientRoom (t : BPlusTree) (recipient : Int) : Prop :=
  ∀ a b c, t.shapeAt recipient = some (a, b, c) → b + 1 ≤ c

/-- A non-empty tree of height `h` that satisfies the structural invariants. -/
def WellFormed (t : BPlusTree) (h : Nat) : Prop :=
  t.root_page_id_ ≠ INVALID_PAGE_ID ∧ TreeAt t h t.root_page_id_ none none

/-- The pairs stored in a tree of height `h`. -/
def pairs (t : BPlusTree) (h : Nat) : List MappingType := subtreePairs t h t.root_page_id_

/-- The tree of the first boundary scenario: `max_size = 4`, keys 1 to 5 inserted in
order (values ten times the key).  Page 3 is the internal root, pages 1 and 2 are the
leaves `[1, 2]` and `[3, 4, 5]`; slots after `size_` are stale. -/
def scenarioTree : BPlusTree :=
  { root_page_id_ := 3
    pages := fun page_id =>
      if page_id = 1 then
        some { page_type_ := LEAF_PAGE, size_ := 2, max_size_ := 4, parent_page_id_ := 3,
               page_id_ := 1, next_page_id_ := 2,
               array := [(1, 10), (2, 20), (3, 30), (4, 40)] }
      else if page_id = 2 then
        some { page_type_ := LEAF_PAGE, size_ := 3, max_size_ := 4, parent_page_id_ := 3,
               page_id_ := 2, next_page_id_ := INVALID_PAGE_ID,
               array := [(3, 30), (4, 40), (5, 50), (0, 0)] }
      else if page_id = 3 then
        some { page_type_ := INTERNAL_PAGE, size_ := 2, max_size_ := 4,
               parent_page_id_ := INVALID_PAGE_ID, page_id_ := 3,
               next_page_id_ := INVALID_PAGE_ID,
               array := [(0, 1), (3, 2), (0, 0), (0, 0)] }
      else none
    next_page_id := 4
    leaf_max_size := 4
    internal_max_size := 4 }

/-! ## Invariant of the trees built by `Insert`

The invariant is stated page by page with the help of ghost data: the level of every
page (leaves have level 0), the key range every page is responsible for, and the list
of the leaves in key order.  While `InsertIntoParent(old, key, new)` is pending, the
page `new` is not yet in a slot of the parent and `old` and `new` share the range that
the parent still attributes to `old`. -/

structure Ghost where
  lv : Int → Nat
  lo : Int → Option Int
  hi : Int → Option Int
  leaves : List Int

/-- Ghost data after the page `old` has handed the upper part of its range, from `key`
on, to the new page `new` of the same level. -/
def Ghost.withSplit (G : Ghost) (old key new : Int) : Ghost :=
  { lv := fun x => if x = new then G.lv old else G.lv x,
    lo := fun x => if x = new then some key else G.lo x,
    hi := fun x => if x = old then some key else if x = new then G.hi old else G.hi x,
    leaves := G.leaves }

/-- Ghost data with another list of leaves. -/
def Ghost.withLeaves (G : Ghost) (leaves : List Int) : Ghost :=
  { lv := G.lv, lo := G.lo, hi := G.hi, leaves := leaves }

/-- A pending call `InsertIntoParent(old, key, new)`, if any. -/
abbrev Pending := Option (Int × Int × Int)

/-- Upper end of the range that the parent attributes to the child `c`. -/
def effHi (G : Ghost) (pend : Pending) (c : Int) : Option Int :=
  match pend with
  | some (old, _, new) => if c = old then G.hi new else G.hi c
  | none => G.hi c

/-- The page `x` is the new page of the pending call. -/
def isPendNew (pend : Pending) (x : Int) : Prop :=
  match pend with
  | some (_, _, new) => x = new
  | none => False

/-- The child `c` of the internal page `parent_id` is in the pool, points back to its
parent, is one level below it and is responsible for the range from `lo` to `hi`. -/
def childOk (t : BPlusTree) (G : Ghost) (pend : Pending) (parent_id : Int) (c : Int)
    (lo hi : Option Int) : Prop :=
  ∃ cp, t.pages c = some cp ∧ cp.parent_page_id_ = parent_id ∧ G.lv c + 1 = G.lv parent_id ∧
    G.lo c = lo ∧ effHi G pend c = hi

/-- Invariant of the page `p` stored under the id `x`. -/
structure PageOk (t : BPlusTree) (G : Ghost) (pend : Pending) (x : Int) (p : BPlusTreePage) :
    Prop where
  id : p.page_id_ = x
  len : p.array.length = p.max_size_
  size_le : p.size_ ≤ p.max_size_
  range : loLtHi (G.lo x) (G.hi x)
  lv_le : G.lv x ≤ G.lv t.root_page_id_
  parent_root : ¬ isPendNew pend x → (p.parent_page_id_ = INVALID_PAGE_ID ↔ x = t.root_page_id_)
  parent_link : x ≠ t.root_page_id_ → ¬ isPendNew pend x →
    ∃ par, t.pages p.parent_page_id_ = some par ∧ par.page_type_ = INTERNAL_PAGE ∧
      x ∈ par.live.map Prod.snd
  fill : x ≠ t.root_page_id_ → p.max_size_ / 2 ≤ p.size_
  leaf : p.page_type_ = LEAF_PAGE →
    G.lv x = 0 ∧ p.max_size_ = t.leaf_max_size ∧ (p.live.map Prod.fst).Pairwise (· < ·) ∧
      (∀ kv ∈ p.live, inRange (G.lo x) (G.hi x) kv.1) ∧ x ∈ G.leaves
  internal : p.page_type_ = INTERNAL_PAGE →
    1 ≤ G.lv x ∧ p.max_size_ = t.internal_max_size ∧ 1 ≤ p.size_ ∧
      slotsOk (childOk t G pend x) p.live (G.lo x) (G.hi x) ∧ (p.live.map Prod.snd).Nodup

/-- The leaves in `leaves` are chained by `next_page_id_`, the chain ends with
`INVALID_PAGE_ID`, and their ranges follow each other from `lo` on. -/
def chainOk (t : BPlusTree) (G : Ghost) : List Int → Option Int → Prop
  | [], _ => False
  | [l], lo =>
    ∃ p, t.pages l = some p ∧ p.page_type_ = LEAF_PAGE ∧ p.next_page_id_ = INVALID_PAGE_ID ∧
      G.lo l = lo ∧ G.hi l = none
  | l :: l1 :: rest, lo =>
    ∃ p s, t.pages l = some p ∧ p.page_type_ = LEAF_PAGE ∧ p.next_page_id_ = l1 ∧
      G.lo l = lo ∧ G.hi l = some s ∧ chainOk t G (l1 :: rest) (some s)

/-- State of the two pages of a pending call `InsertIntoParent(old, key, new)`. -/
def PendOk (t : BPlusTree) (G : Ghost) (old key new : Int) : Prop :=
  ∃ op np, t.pages old = some op ∧ t.pages new = some np ∧
    np.parent_page_id_ = op.parent_page_id_ ∧ G.lv new = G.lv old ∧ G.hi old = some key ∧
    G.lo new = some key ∧ new ≠ old ∧ new ≠ t.root_page_id_ ∧ op.max_size_ / 2 ≤ op.size_ ∧
    ∀ x q, t.pages x = some q → q.page_type_ = INTERNAL_PAGE → new ∉ q.live.map Prod.snd

/-- Invariant of a non-empty tree, possibly with a pending `InsertIntoParent`. -/
structure Inv (t : BPlusTree) (G : Ghost) (pend : Pending) : Prop where
  cfg_leaf : 2 ≤ t.leaf_max_size
  cfg_internal : 2 ≤ t.internal_max_size
  alloc : ∀ x p, t.pages x = some p → 0 < x ∧ x < t.next_page_id
  root_page : ∃ r, t.pages t.root_page_id_ = some r
  root_lo : G.lo t.root_page_id_ = none
  root_hi : effHi G pend t.root_page_id_ = none
  page : ∀ x p, t.pages x = some p → PageOk t G pend x p
  chain : chainOk t G G.leaves none
  leaves_nodup : G.leaves.Nodup
  pending : ∀ old key new, pend = some (old, key, new) → PendOk t G old key new

/-- The pairs of the leaves `leaves`, in this order. -/
def contents (t : BPlusTree) (leaves : List Int) : List MappingType :=
  leaves.flatMap fun l =>
    match t.pages l with
    | some p => p.live
    | none => []

instance instDecidableInRange (lo hi : Option Int) (k : Int) :
    Decidable (inRange lo hi k) :=
  match lo, hi with
  | none, none => isTrue (by simp [inRange])
  | some a, none => decidable_of_iff (a ≤ k) (by simp [inRange])
  | none, some b => decidable_of_iff (k < b) (by simp [inRange])
  | some a, some b => decidable_of_iff (a ≤ k ∧ k < b) (by simp [inRange])

instance instDecidableLoLtHi (lo hi : Option Int) : Decidable (loLtHi lo hi) :=
  match lo, hi with
  | none, _ => isTrue (by simp [loLtHi])
  | some _, none => isTrue (by simp [loLtHi])
  | some a, some b => decidable_of_iff (a < b) (by simp [loLtHi])

def decSlotsOk (Q : Int → Option Int → Option Int → Prop)
    (dQ : ∀ c lo hi, Decidable (Q c lo hi)) :
    (l : List MappingType) → (lo hi : Option Int) → Decidable (slotsOk Q l lo hi)
  | [], _, _ => isTrue trivial
  | [s], lo, hi => dQ s.2 lo hi
  | s :: s1 :: rest, lo, hi =>
    @instDecidableAnd _ _ (dQ s.2 lo (some s1.1)) (decSlotsOk Q dQ (s1 :: rest) (some s1.1) hi)

def decTreeAt (t : BPlusTree) :
    (h : Nat) → (page_id : Int) → (lo hi : Option Int) →
      Decidable (TreeAt t h page_id lo hi)
  | 0, page_id, lo, hi =>
    match hp : t.pages page_id with
    | none => isFalse (by unfold TreeAt; simp [hp])
    | some p =>
      decidable_of_iff
        (p.page_type_ = LEAF_PAGE ∧ p.size_ ≤ p.array.length ∧ loLtHi lo hi ∧
          (p.live.map Prod.fst).Pairwise (· < ·) ∧ ∀ kv ∈ p.live, inRange lo hi kv.1)
        (by unfold TreeAt; simp [hp])
  | h + 1, page_id, lo, hi =>
    match hp : t.pages page_id with
    | none => isFalse (by unfold TreeAt; simp [hp])
    | some p =>
      have := decSlotsOk (TreeAt t h) (decTreeAt t h) p.live lo hi
      decidable_of_iff
        (p.page_type_ = INTERNAL_PAGE ∧ 1 ≤ p.size_ ∧ p.size_ ≤ p.array.length ∧ loLtHi lo hi ∧
          slotsOk (TreeAt t h) p.live lo hi)
        (by unfold TreeAt; simp [hp])

instance instDecidableTreeAt (t : BPlusTree) (h : Nat) (page_id : Int)
    (lo hi : Option Int) : Decidable (TreeAt t h page_id lo hi) :=
  decTreeAt t h page_id lo hi

instance instDecidableWellFormed (t : BPlusTree) (h : Nat) : Decidable (WellFormed t h) :=
  instDecidableAnd

end BPlusTree

end cmudb

set_option linter.unusedVariables false

namespace cmudb

open BPlusTreePage IndexPageType

/-! ## Pin accounting

The calls of the tree on the buffer manager that change a pin count, in program
order.  `FetchPage` and `NewPage` pin the page they return, `UnpinPage` releases one
pin.  The functions below follow `GetValue` and `Insert` statement by statement and
list these calls; the states in between are the ones of the functions above. -/

/-- A call on the buffer manager that changes the pin count of a page. -/
inductive PinCall where
  | pin (page_id : Int)
  | unpin (page_id : Int)
deriving DecidableEq, Repr

/-- Modelled from the spec: the buffer manager as a pin counter per page.  The pin
count of `page_id` after the calls `calls`, starting from zero: `FetchPage` and
`NewPage` add one, `UnpinPage` subtracts one. -/
def pinCount (calls : List PinCall) (page_id : Int) : Int :=
  (calls.map fun c =>
    match c with
    | PinCall.pin x => if x = page_id then (1 : Int) else 0
    | PinCall.unpin x => if x = page_id then -1 else 0).sum

namespace BPlusTree

/-- The calls of the loop of `FindLeafPage` once page `page_id` is fetched: every
internal page visited is unpinned and the next page is fetched; the leaf stays
pinned. -/
def FindLeafPagePins (t : BPlusTree) (key : Int) (leftMost : Bool) :
    Nat → Int → Option (List PinCall)
  | 0, _ => none
  | fuel + 1, page_id =>
    match t.pages page_id with
    | none => none
    | some page =>
      if !page.IsLeafPage then
        let next_page_id :=
          if leftMost then BPlusTreeInternalPage.ValueAt page 0
          else BPlusTreeInternalPage.Lookup page key
        (FindLeafPagePins t key leftMost fuel next_page_id).map fun calls =>
          PinCall.unpin page_id :: PinCall.pin next_page_id :: calls
      else some []

/-- The calls of `GetValue`. -/
def GetValuePins (fuel : Nat) (t : BPlusTree) (key : Int) : Option (List PinCall) :=
  if t.root_page_id_ = INVALID_PAGE_ID then some []
  else do
    let leaf_id ← FindLeafPage t key false fuel t.root_page_id_
    let calls ← FindLeafPagePins t key false fuel t.root_page_id_
    let leaf_page ← t.FetchAs LEAF_PAGE leaf_id
    some (PinCall.pin t.root_page_id_ :: calls ++ [PinCall.unpin leaf_page.page_id_])

/-- The calls of the re-parenting loop of the internal `MoveHalfTo`: every child is
fetched and unpinned. -/
def reparentLoopPins (self parent_id : Int) : Nat → Nat → BPlusTree → Option (List PinCall)
  | 0, _, _ => some []
  | n + 1, idx, t =>
    match t.pages self with
    | none => none
    | some p =>
      match t.reparent (p.slot idx).2 parent_id with
      | none => none
      | some t1 =>
        (reparentLoopPins self parent_id n (idx + 1) t1).map fun calls =>
          PinCall.pin (p.slot idx).2 :: PinCall.unpin (p.slot idx).2 :: calls

/-- The calls of the internal `MoveHalfTo`. -/
def InternalMoveHalfToPins (t : BPlusTree) (self recipient : Int) :
    Option (List PinCall) := do
  let p ← t.pages self
  let r ← t.pages recipient
  let half := p.size_ / 2
  let r1 ← BPlusTreeInternalPage.CopyHalfFrom r (p.array.drop (p.size_ - half)) half
  reparentLoopPins self r1.page_id_ half (p.size_ - half) (t.WritePage recipient r1)

/-- The calls of `Split<N>(node)`: `NewPage`, then the calls of `MoveHalfTo`. -/
def SplitPins (t : BPlusTree) (N : IndexPageType) (node_id : Int) :
    Option (List PinCall) := do
  let node ← t.pages node_id
  let (new_page_id, t1) := t.NewPage
  match N with
  | LEAF_PAGE => some [PinCall.pin new_page_id]
  | INTERNAL_PAGE =>
    let new_node := BPlusTreeInternalPage.Init t.internal_max_size new_page_id node.parent_page_id_
    let calls ← (t1.WritePage new_page_id new_node).InternalMoveHalfToPins node_id new_page_id
    some (PinCall.pin new_page_id :: calls)

/-- The calls of `InsertIntoParent(old_node, key, new_node)`. -/
def InsertIntoParentPins : Nat → BPlusTree → Int → Int → Int → Option (List PinCall)
  | 0, _, _, _, _ => none
  | fuel + 1, t, old_id, key, new_id => do
    let old_node ← t.pages old_id
    let new_node ← t.pages new_id
    if old_node.IsRootPage then
      let (root_page_id, _) := t.NewPage
      some [PinCall.pin root_page_id, PinCall.unpin root_page_id]
    else
      let parent_page_id := old_node.parent_page_id_
      let parent_node ← t.FetchAs INTERNAL_PAGE parent_page_id
      if parent_node.size_ < parent_node.max_size_ then
        some [PinCall.pin parent_page_id, PinCall.unpin parent_page_id]
      else
        let split ← t.SplitPins INTERNAL_PAGE parent_page_id
        let (new_parent_id, t1) ← t.Split INTERNAL_PAGE parent_page_id
        let parent1 ← t1.pages parent_page_id
        let new_parent1 ← t1.pages new_parent_id
        let t2 ←
          if comparator key (BPlusTreeInternalPage.KeyAt new_parent1 0) < 0 then
            (BPlusTreeInternalPage.InsertNodeAfter parent1 old_node.page_id_ key
              new_node.page_id_).map (t1.WritePage parent_page_id)
          else
            (BPlusTreeInternalPage.InsertNodeAfter new_parent1 old_node.page_id_ key
              new_node.page_id_).bind
              (fun np => (t1.WritePage new_parent_id np).reparent new_id np.page_id_)
        let new_parent2 ← t2.pages new_parent_id
        let calls ← InsertIntoParentPins fuel t2 parent_page_id
          (BPlusTreeInternalPage.KeyAt new_parent2 0) new_parent_id
        some (PinCall.pin parent_page_id :: split ++ calls ++
          [PinCall.unpin new_parent2.page_id_, PinCall.unpin parent_page_id])

/-- The state in which `InsertIntoLeaf` calls `InsertIntoParent` on a full leaf, with
the id of the new leaf and the key passed on: the leaf is split, the pair is inserted
on its side and the leaves are chained. -/
def splitLeafState (t : BPlusTree) (leaf_id : Int) (key : Int) (value : Int) :
    Option (BPlusTree × Int × Int) := do
  let (new_id, t1) ← t.Split LEAF_PAGE leaf_id
  let leaf1 ← t1.pages leaf_id
  let new1 ← t1.pages new_id
  let t2 ←
    if comparator key (BPlusTreeLeafPage.KeyAt new1 0) < 0 then
      (BPlusTreeLeafPage.Insert leaf1 key value).map (t1.WritePage leaf_id)
    else
      (BPlusTreeLeafPage.Insert new1 key value).map (t1.WritePage new_id)
  let leaf2 ← t2.pages leaf_id
  let new2 ← t2.pages new_id
  let t3 := t2.WritePage new_id (BPlusTreeLeafPage.SetNextPageId new2 leaf2.next_page_id_)
  let leaf3 ← t3.pages leaf_id
  let t4 := t3.WritePage leaf_id (BPlusTreeLeafPage.SetNextPageId leaf3 new2.page_id_)
  let new4 ← t4.pages new_id
  some (t4, new_id, BPlusTreeLeafPage.KeyAt new4 0)

/-- The calls of `InsertIntoLeaf` on a full leaf, after `FindLeafPage`: `Split`,
`InsertIntoParent`, and the two calls of `UnpinPage` at the end. -/
def InsertIntoLeafSplitPins (fuel : Nat) (t : BPlusTree) (leaf_id : Int) (key : Int)
    (value : Int) : Option (List PinCall) :=
  match t.SplitPins LEAF_PAGE leaf_id, splitLeafState t leaf_id key value with
  | some split, some (t4, new_id, key1) =>
    match InsertIntoParentPins fuel t4 leaf_id key1 new_id,
      InsertIntoParent fuel t4 leaf_id key1 new_id with
    | some calls, some t5 =>
      match t5.pages leaf_id, t5.pages new_id with
      | some leaf5, some new5 =>
        some (split ++ calls ++ [PinCall.unpin leaf5.page_id_, PinCall.unpin new5.page_id_])
      | _, _ => none
    | _, _ => none
  | _, _ => none

/-- The calls of `InsertIntoLeaf`.  The return on a duplicate key comes before any
`UnpinPage`. -/
def InsertIntoLeafPins (fuel : Nat) (t : BPlusTree) (key : Int) (value : Int) :
    Option (List PinCall) :=
  match FindLeafPage t key false fuel t.root_page_id_,
    FindLeafPagePins t key false fuel t.root_page_id_ with
  | some leaf_id, some find =>
    match t.FetchAs LEAF_PAGE leaf_id with
    | none => none
    | some leaf_page =>
      if (BPlusTreeLeafPage.Lookup leaf_page key).isSome then
        some (PinCall.pin t.root_page_id_ :: find)
      else if leaf_page.size_ < leaf_page.max_size_ then
        match BPlusTreeLeafPage.Insert leaf_page key value with
        | none => none
        | some leaf1 =>
          some (PinCall.pin t.root_page_id_ :: find ++ [PinCall.unpin leaf1.page_id_])
      else
        match InsertIntoLeafSplitPins fuel t leaf_id key value with
        | none => none
        | some calls => some (PinCall.pin t.root_page_id_ :: find ++ calls)
  | _, _ => none

/-- The calls of `Insert`; `StartNewTree` pins the new root page and unpins it. -/
def InsertPins (fuel : Nat) (t : BPlusTree) (key : Int) (value : Int) :
    Option (List PinCall) :=
  if t.IsEmpty then
    match t.StartNewTree key value with
    | none => none
    | some t1 => some [PinCall.pin t1.root_page_id_, PinCall.unpin t1.root_page_id_]
  else InsertIntoLeafPins fuel t key value

/-! ## Parent links and the leaf chain -/

/-- Parent links: the root page has no parent, and every other page of the pool names
as its parent an internal page that holds the page's id in exactly one live child
slot. -/
def ParentLinks (t : BPlusTree) : Prop :=
  ∀ page_id p, t.pages page_id = some p →
    if page_id = t.root_page_id_ then p.parent_page_id_ = INVALID_PAGE_ID
    else ∃ q, t.FetchAs INTERNAL_PAGE p.parent_page_id_ = some q ∧
      (q.live.map Prod.snd).count page_id = 1

/-- The leaves reachable from page `page_id` through child slots, from left to right;
`fuel` bounds the depth, and a page that is missing or too deep contributes
`INVALID_PAGE_ID`. -/
def leavesBelow (t : BPlusTree) : Nat → Int → List Int
  | 0, _ => [INVALID_PAGE_ID]
  | fuel + 1, page_id =>
    match t.pages page_id with
    | none => [INVALID_PAGE_ID]
    | some p =>
      if p.IsLeafPage then [page_id]
      else (p.live.map Prod.snd).flatMap (leavesBelow t fuel)

/-- The pages met by following `next_page_id_` from page `leaf_id` until it is
`INVALID_PAGE_ID`; `fuel` bounds the number of pages. -/
def chainFrom (t : BPlusTree) : Nat → Int → Option (List Int)
  | 0, _ => none
  | fuel + 1, leaf_id =>
    match t.pages leaf_id with
    | none => none
    | some p =>
      if p.next_page_id_ = INVALID_PAGE_ID then some [leaf_id]
      else (chainFrom t fuel p.next_page_id_).map (leaf_id :: ·)

/-! ## Concrete trees of the boundary scenarios -/

/-- The tree with `max_size = 4` after the keys 1 to 4 are inserted in order (values
ten times the key): page 1 is a full root leaf. -/
def fullRootLeaf : BPlusTree :=
  { root_page_id_ := 1
    pages := fun page_id =>
      if page_id = 1 then
        some { page_type_ := LEAF_PAGE, size_ := 4, max_size_ := 4,
               parent_page_id_ := INVALID_PAGE_ID, page_id_ := 1,
               next_page_id_ := INVALID_PAGE_ID,
               array := [(1, 10), (2, 20), (3, 30), (4, 40)] }
      else none
    next_page_id := 2
    leaf_max_size := 4
    internal_max_size := 4 }

/-- The left leaf `[1, 2]` of `scenarioTree`. -/
def scenarioLeft : BPlusTreePage :=
  { page_type_ := LEAF_PAGE, size_ := 2, max_size_ := 4, parent_page_id_ := 3, page_id_ := 1,
    next_page_id_ := 2, array := [(1, 10), (2, 20), (3, 30), (4, 40)] }

/-- The right leaf `[3, 4, 5]` of `scenarioTree`. -/
def scenarioRight : BPlusTreePage :=
  { page_type_ := LEAF_PAGE, size_ := 3, max_size_ := 4, parent_page_id_ := 3, page_id_ := 2,
    next_page_id_ := INVALID_PAGE_ID, array := [(3, 30), (4, 40), (5, 50), (0, 0)] }

/-- The root of `scenarioTree`. -/
def scenarioRoot : BPlusTreePage :=
  { page_type_ := INTERNAL_PAGE, size_ := 2, max_size_ := 4,
    parent_page_id_ := INVALID_PAGE_ID, page_id_ := 3, next_page_id_ := INVALID_PAGE_ID,
    array := [(0, 1), (3, 2), (0, 0), (0, 0)] }

/-- The left leaf `[1, 2]` of `sixKeysTree`. -/
def sixKeysLeft : BPlusTreePage :=
  { page_type_ := LEAF_PAGE, size_ := 2, max_size_ := 4, parent_page_id_ := 3, page_id_ := 1,
    next_page_id_ := 2, array := [(1, 10), (2, 20), (3, 30), (4, 40)] }

/-- The right leaf `[3, 4, 5, 6]` of `sixKeysTree`. -/
def sixKeysRight : BPlusTreePage :=
  { page_type_ := LEAF_PAGE, size_ := 4, max_size_ := 4, parent_page_id_ := 3, page_id_ := 2,
    next_page_id_ := INVALID_PAGE_ID, array := [(3, 30), (4, 40), (5, 50), (6, 60)] }

/-- The root of `sixKeysTree`, with the separator 3 in front of the right leaf. -/
def sixKeysRoot : BPlusTreePage :=
  { page_type_ := INTERNAL_PAGE, size_ := 2, max_size_ := 4,
    parent_page_id_ := INVALID_PAGE_ID, page_id_ := 3, next_page_id_ := INVALID_PAGE_ID,
    array := [(0, 1), (3, 2), (0, 0), (0, 0)] }

/-- The tree with `max_size = 4` after the keys 1 to 6 are inserted in order (values
ten times the key): an internal root over the leaves `[1, 2]` and `[3, 4, 5, 6]`. -/
def sixKeysTree : BPlusTree :=
  { root_page_id_ := 3
    pages := fun page_id =>
      if page_id = 1 then some sixKeysLeft
      else if page_id = 2 then some sixKeysRight
      else if page_id = 3 then some sixKeysRoot
      else none
    next_page_id := 4
    leaf_max_size := 4
    internal_max_size := 4 }

end BPlusTree

end cmudb

namespace cmudb

open BPlusTreePage IndexPageType

namespace BPlusTreeLeafPage

/-- Leaf `Lookup` with its reference parameter: the returned flag and the content of
`value` after the call, which is stored to only in the branch that returns true. -/
def LookupInto (p : BPlusTreePage) (key : Int) (value : Int) : Bool × Int :=
  match find p key with
  | none => (false, value)
  | some mid => (true, (p.slot mid).2)

end BPlusTreeLeafPage

namespace BPlusTree

end BPlusTree

end cmudb

namespace cmudb

open BPlusTreePage IndexPageType

namespace BPlusTree

/-- An internal page (page 6) with five children, the pages 1 to 5. -/
def wideNode : BPlusTreePage :=
  { page_type_ := INTERNAL_PAGE, size_ := 5, max_size_ := 5,
    parent_page_id_ := INVALID_PAGE_ID, page_id_ := 6, next_page_id_ := INVALID_PAGE_ID,
    array := [(0, 1), (10, 2), (20, 3), (30, 4), (40, 5)] }

/-- A leaf with the single pair `(key, key)` below page 6. -/
def wideChild (page_id : Int) (key : Int) : BPlusTreePage :=
  { page_type_ := LEAF_PAGE, size_ := 1, max_size_ := 5, parent_page_id_ := 6,
    page_id_ := page_id, next_page_id_ := INVALID_PAGE_ID,
    array := [(key, key), (0, 0), (0, 0), (0, 0), (0, 0)] }

/-- The state in which `Split` calls `MoveHalfTo` on page 6: the five leaves 1 to 5, the
internal page 6 over them, and page 7 on which `Init` has just run. -/
def wideTree : BPlusTree :=
  { root_page_id_ := 6
    pages := fun page_id =>
      if page_id = 6 then some wideNode
      else if page_id = 7 then some (BPlusTreeInternalPage.Init 5 7 INVALID_PAGE_ID)
      else if 1 ≤ page_id ∧ page_id ≤ 5 then some (wideChild page_id (10 * (page_id - 1)))
      else none
    next_page_id := 8
    leaf_max_size := 5
    internal_max_size := 5 }

end BPlusTree

end cmudb

namespace cmudb

open BPlusTreePage IndexPageType

/-! ## Comparator and slot memory -/

theorem comparator_lt_zero (a b : Int) : comparator a b < 0 ↔ a < b := by
  unfold comparator
  split_ifs <;> omega

theorem comparator_gt_zero (a b : Int) : comparator a b > 0 ↔ b < a := by
  unfold comparator
  split_ifs <;> omega

theorem comparator_le_zero (a b : Int) : comparator a b ≤ 0 ↔ a ≤ b := by
  unfold comparator
  split_ifs <;> omega

namespace BPlusTreePage

theorem slot_eq_getElem (p : BPlusTreePage) (i : Nat) (h : i < p.array.length) :
    p.slot i = p.array[i] := by
  simp [slot, List.getD_eq_getElem?_getD, h]

theorem live_length (p : BPlusTreePage) (h : p.size_ ≤ p.array.length) :
    p.live.length = p.size_ := by
  simp [live, h]

theorem live_getElem (p : BPlusTreePage) (i : Nat) (h : i < p.live.length) :
    p.live[i] = p.slot i := by
  have h1 : i < p.array.length := by
    simp [live] at h
    omega
  rw [slot_eq_getElem p i h1]
  simp [live]

theorem slot_mem_live (p : BPlusTreePage) (i : Nat) (h : p.size_ ≤ p.array.length)
    (hi : i < p.size_) : p.slot i ∈ p.live := by
  have h1 : i < p.live.length := by rw [live_length p h]; exact hi
  rw [← live_getElem p i h1]
  exact List.getElem_mem _

theorem mem_live_iff (p : BPlusTreePage) (h : p.size_ ≤ p.array.length) (x : MappingType) :
    x ∈ p.live ↔ ∃ i, i < p.size_ ∧ p.slot i = x := by
  constructor
  · intro hx
    obtain ⟨i, hi, rfl⟩ := List.getElem_of_mem hx
    exact ⟨i, by rw [live_length p h] at hi; exact hi, (live_getElem p i hi).symm⟩
  · rintro ⟨i, hi, rfl⟩
    exact slot_mem_live p i h hi

theorem live_drop (p : BPlusTreePage) (i : Nat) (h : p.size_ ≤ p.array.length)
    (hi : i < p.size_) : p.live.drop i = p.slot i :: p.live.drop (i + 1) := by
  have h1 : i < p.live.length := by rw [live_length p h]; exact hi
  rw [List.drop_eq_getElem_cons h1, live_getElem p i h1]

/-- Strictly increasing live keys, read through `slot`. -/
theorem sorted_slot (p : BPlusTreePage) (h : p.size_ ≤ p.array.length)
    (hs : (p.live.map Prod.fst).Pairwise (· < ·)) (i j : Nat) (hij : i < j) (hj : j < p.size_) :
    (p.slot i).1 < (p.slot j).1 := by
  have hl := live_length p h
  have hi' : i < (p.live.map Prod.fst).length := by simp [hl]; omega
  have hj' : j < (p.live.map Prod.fst).length := by simp [hl]; omega
  have := List.pairwise_iff_getElem.mp hs i j hi' hj' hij
  simpa [live_getElem] using this

end BPlusTreePage

/-! ## Binary search of the leaf -/

namespace BPlusTreeLeafPage

theorem search_sound (p : BPlusTreePage) (key : Int) :
    ∀ (fuel : Nat) (low high : Int) (m : Nat), 0 ≤ low →
      search p key fuel low high = some m →
      low ≤ (m : Int) ∧ (m : Int) ≤ high ∧ (p.slot m).1 = key := by
  intro fuel
  induction fuel with
  | zero => intro low high m _ h; simp [search] at h
  | succ fuel ih =>
    intro low high m hlow h
    unfold search at h
    dsimp only at h
    split_ifs at h with h1 h2 h3
    · have := ih _ _ _ (by omega) h
      omega
    · have := ih _ _ _ hlow h
      omega
    · simp only [Option.some.injEq] at h
      subst h
      have e1 : ¬ (p.slot (low + (high - low) / 2).toNat).1 < key := by
        rw [← comparator_gt_zero]; exact h2
      have e2 : ¬ key < (p.slot (low + (high - low) / 2).toNat).1 := by
        rw [← comparator_lt_zero]; exact h3
      refine ⟨by omega, by omega, by omega⟩

theorem find_sound (p : BPlusTreePage) (key : Int) (m : Nat) (h : find p key = some m) :
    m < p.size_ ∧ (p.slot m).1 = key := by
  unfold find at h
  split_ifs at h with h1
  have := search_sound p key _ _ _ m (le_refl 0) h
  omega

theorem search_complete (p : BPlusTreePage) (key : Int) (hlen : p.size_ ≤ p.array.length)
    (hs : (p.live.map Prod.fst).Pairwise (· < ·)) (i : Nat) (hi : i < p.size_)
    (hk : (p.slot i).1 = key) :
    ∀ (fuel : Nat) (low high : Int), 0 ≤ low → high < p.size_ → low ≤ (i : Int) →
      (i : Int) ≤ high → high - low + 1 < fuel → search p key fuel low high = some i := by
  intro fuel
  induction fuel with
  | zero => intro low high _ _ _ _ h; omega
  | succ fuel ih =>
    intro low high hlow hhigh hli hih hf
    unfold search
    have hmid0 : 0 ≤ low + (high - low) / 2 := by omega
    have hmidlt : (low + (high - low) / 2).toNat < p.size_ := by omega
    rw [if_pos (by omega)]
    simp only
    by_cases c1 : (p.slot (low + (high - low) / 2).toNat).1 < key
    · rw [if_pos ((comparator_gt_zero _ _).mpr c1)]
      have : (low + (high - low) / 2).toNat < i := by
        by_contra hc
        rcases Nat.lt_or_eq_of_le (Nat.le_of_not_lt hc) with hlt | heq
        · have := sorted_slot p hlen hs _ _ hlt hmidlt
          omega
        · rw [← heq] at c1; omega
      exact ih _ _ (by omega) hhigh (by omega) hih (by omega)
    · rw [if_neg (by rw [comparator_gt_zero]; exact c1)]
      by_cases c2 : key < (p.slot (low + (high - low) / 2).toNat).1
      · rw [if_pos ((comparator_lt_zero _ _).mpr c2)]
        have : i < (low + (high - low) / 2).toNat := by
          by_contra hc
          rcases Nat.lt_or_eq_of_le (Nat.le_of_not_lt hc) with hlt | heq
          · have := sorted_slot p hlen hs _ _ hlt hi
            omega
          · rw [heq] at c2; omega
        exact ih _ _ hlow (by omega) hli (by omega) (by omega)
      · rw [if_neg (by rw [comparator_lt_zero]; exact c2)]
        congr 1
        by_contra hne
        rcases Nat.lt_or_gt_of_ne hne with hlt | hgt
        · have := sorted_slot p hlen hs _ _ hlt hi
          omega
        · have := sorted_slot p hlen hs _ _ hgt hmidlt
          omega

theorem find_complete (p : BPlusTreePage) (key : Int) (hlen : p.size_ ≤ p.array.length)
    (hs : (p.live.map Prod.fst).Pairwise (· < ·)) (i : Nat) (hi : i < p.size_)
    (hk : (p.slot i).1 = key) : find p key = some i := by
  unfold find
  have h0 : ¬ key < (p.slot 0).1 := by
    rcases Nat.eq_zero_or_pos i with h | h
    · subst h; omega
    · have := sorted_slot p hlen hs 0 i h hi
      omega
  have h1 : ¬ (p.slot (p.size_ - 1)).1 < key := by
    rcases Nat.lt_or_eq_of_le (Nat.le_sub_one_of_lt hi) with h | h
    · have := sorted_slot p hlen hs i (p.size_ - 1) h (by omega)
      omega
    · rw [← h]; omega
  rw [if_neg]
  · exact search_complete p key hlen hs i hi hk _ _ _ (le_refl 0) (by omega) (by omega)
      (by omega) (by omega)
  · simp only [KeyAt, comparator_lt_zero, comparator_gt_zero]
    omega

/-- `Lookup` returns a value only for a key that is in a live slot, with its value. -/
theorem Lookup_sound (p : BPlusTreePage) (key : Int) (v : Int)
    (hlen : p.size_ ≤ p.array.length) (h : Lookup p key = some v) : (key, v) ∈ p.live := by
  unfold Lookup at h
  split at h
  · simp at h
  · rename_i m hm
    obtain ⟨h1, h2⟩ := find_sound p key m hm
    simp only [Option.some.injEq] at h
    have := slot_mem_live p m hlen h1
    rw [← h, ← h2]
    exact this

/-- On a leaf with strictly increasing keys `Lookup` finds every live pair. -/
theorem Lookup_complete (p : BPlusTreePage) (kv : MappingType)
    (hlen : p.size_ ≤ p.array.length) (hs : (p.live.map Prod.fst).Pairwise (· < ·))
    (h : kv ∈ p.live) : Lookup p kv.1 = some kv.2 := by
  obtain ⟨i, hi, hkv⟩ := (mem_live_iff p hlen kv).mp h
  have := find_complete p kv.1 hlen hs i hi (by rw [hkv])
  simp [Lookup, this, hkv]

end BPlusTreeLeafPage

end cmudb

namespace cmudb

open BPlusTreePage IndexPageType

/-! ## Routing in an internal page -/

namespace BPlusTreeInternalPage

theorem LookupLoop_eq_route (p : BPlusTreePage) (key : Int) (hlen : p.size_ ≤ p.array.length) :
    ∀ (n idx : Nat), 1 ≤ idx → n + idx = p.size_ →
      LookupLoop p key n idx = BPlusTree.route key (p.live.drop (idx - 1)) := by
  intro n
  induction n with
  | zero =>
    intro idx h1 h2
    have e : p.live.drop (p.size_ - 1 + 1) = [] := by
      apply List.drop_eq_nil_of_le
      rw [live_length p hlen]
      omega
    have : idx = p.size_ := by omega
    subst this
    rw [live_drop p (p.size_ - 1) hlen (by omega), e]
    simp [LookupLoop, BPlusTree.route]
  | succ n ih =>
    intro idx h1 h2
    have e1 : idx - 1 + 1 = idx := by omega
    rw [live_drop p (idx - 1) hlen (by omega), e1, live_drop p idx hlen (by omega)]
    simp only [LookupLoop, BPlusTree.route, comparator_lt_zero]
    split_ifs with h
    · rfl
    · rw [ih (idx + 1) (by omega) (by omega)]
      simp only [Nat.add_sub_cancel]
      rw [live_drop p idx hlen (by omega)]

theorem Lookup_eq_route (p : BPlusTreePage) (key : Int) (h1 : 1 ≤ p.size_)
    (hlen : p.size_ ≤ p.array.length) : Lookup p key = BPlusTree.route key p.live := by
  unfold Lookup
  rw [if_neg (by omega), LookupLoop_eq_route p key hlen (p.size_ - 1) 1 (le_refl 1) (by omega)]
  simp

end BPlusTreeInternalPage

namespace BPlusTree

theorem route_mem (key : Int) : ∀ (l : List MappingType), l ≠ [] →
    route key l ∈ l.map Prod.snd := by
  intro l
  induction l with
  | nil => intro h; exact absurd rfl h
  | cons s rest ih =>
    intro _
    cases rest with
    | nil => simp [route]
    | cons s1 rest =>
      simp only [route]
      split_ifs with h
      · simp
      · have := ih (by simp)
        simp only [List.map_cons, List.mem_cons] at this ⊢
        exact Or.inr this

theorem slotsOk_child (Q : Int → Option Int → Option Int → Prop) :
    ∀ (l : List MappingType) (lo hi : Option Int), slotsOk Q l lo hi →
      ∀ c ∈ l.map Prod.snd, ∃ lo1 hi1, Q c lo1 hi1 := by
  intro l
  induction l with
  | nil => intro lo hi _ c hc; simp at hc
  | cons s rest ih =>
    intro lo hi hs c hc
    cases rest with
    | nil =>
      simp only [List.map_cons, List.map_nil, List.mem_singleton] at hc
      subst hc
      exact ⟨lo, hi, hs⟩
    | cons s1 rest =>
      simp only [slotsOk] at hs
      rw [List.map_cons, List.mem_cons] at hc
      rcases hc with hc | hc
      · subst hc
        exact ⟨_, _, hs.1⟩
      · exact ih _ _ hs.2 c hc

/-- The child chosen by `route` has a range that contains the key. -/
theorem route_spec (Q : Int → Option Int → Option Int → Prop) (key : Int) :
    ∀ (l : List MappingType) (lo hi : Option Int), l ≠ [] → slotsOk Q l lo hi →
      inRange lo hi key → ∃ lo1 hi1, Q (route key l) lo1 hi1 ∧ inRange lo1 hi1 key := by
  intro l
  induction l with
  | nil => intro lo hi h; exact absurd rfl h
  | cons s rest ih =>
    intro lo hi _ hs hr
    cases rest with
    | nil => exact ⟨lo, hi, hs, hr⟩
    | cons s1 rest =>
      simp only [slotsOk] at hs
      simp only [route]
      split_ifs with h
      · refine ⟨lo, some s1.1, hs.1, hr.1, ?_⟩
        intro b hb
        simp only [Option.some.injEq] at hb
        omega
      · apply ih (some s1.1) hi (by simp) hs.2
        refine ⟨?_, hr.2⟩
        intro a ha
        simp only [Option.some.injEq] at ha
        omega

/-- Ranges of the slots are nested in the range of the page, for a child predicate
that bounds the keys `S c` below each child. -/
theorem slotsOk_range (Q : Int → Option Int → Option Int → Prop)
    (S : Int → List MappingType)
    (hQ : ∀ c lo hi, Q c lo hi → loLtHi lo hi ∧ ∀ kv ∈ S c, inRange lo hi kv.1) :
    ∀ (l : List MappingType) (lo hi : Option Int), l ≠ [] → slotsOk Q l lo hi →
      loLtHi lo hi ∧ ∀ c ∈ l.map Prod.snd, ∀ kv ∈ S c, inRange lo hi kv.1 := by
  intro l
  induction l with
  | nil => intro lo hi h; exact absurd rfl h
  | cons s rest ih =>
    intro lo hi _ hs
    cases rest with
    | nil =>
      obtain ⟨h1, h2⟩ := hQ _ _ _ hs
      refine ⟨h1, ?_⟩
      intro c hc
      simp only [List.map_cons, List.map_nil, List.mem_singleton] at hc
      subst hc
      exact h2
    | cons s1 rest =>
      simp only [slotsOk] at hs
      obtain ⟨h1, h2⟩ := hQ _ _ _ hs.1
      obtain ⟨h3, h4⟩ := ih (some s1.1) hi (by simp) hs.2
      have hlh : loLtHi lo hi := by
        intro a b ha hb
        have := h1 a s1.1 ha rfl
        have := h3 s1.1 b rfl hb
        omega
      refine ⟨hlh, ?_⟩
      intro c hc kv hkv
      rw [List.map_cons, List.mem_cons] at hc
      rcases hc with hc | hc
      · subst hc
        obtain ⟨r1, r2⟩ := h2 kv hkv
        refine ⟨r1, ?_⟩
        intro b hb
        have := r2 s1.1 rfl
        have := h3 s1.1 b rfl hb
        omega
      · obtain ⟨r1, r2⟩ := h4 c hc kv hkv
        refine ⟨?_, r2⟩
        intro a ha
        have := r1 s1.1 rfl
        have := h1 a s1.1 ha rfl
        omega

/-- A pair stored below some child is stored below the child that `route` picks for
its key. -/
theorem route_stored (Q : Int → Option Int → Option Int → Prop)
    (S : Int → List MappingType)
    (hQ : ∀ c lo hi, Q c lo hi → loLtHi lo hi ∧ ∀ kv ∈ S c, inRange lo hi kv.1) :
    ∀ (l : List MappingType) (lo hi : Option Int), slotsOk Q l lo hi →
      ∀ c ∈ l.map Prod.snd, ∀ kv ∈ S c, kv ∈ S (route kv.1 l) := by
  intro l
  induction l with
  | nil => intro lo hi _ c hc; simp at hc
  | cons s rest ih =>
    intro lo hi hs c hc kv hkv
    cases rest with
    | nil =>
      simp only [List.map_cons, List.map_nil, List.mem_singleton] at hc
      subst hc
      simpa [route] using hkv
    | cons s1 rest =>
      simp only [slotsOk] at hs
      obtain ⟨_, h2⟩ := hQ _ _ _ hs.1
      obtain ⟨_, h4⟩ := slotsOk_range Q S hQ (s1 :: rest) (some s1.1) hi (by simp) hs.2
      rw [List.map_cons, List.mem_cons] at hc
      simp only [route]
      rcases hc with hc | hc
      · subst hc
        have := (h2 kv hkv).2 s1.1 rfl
        rw [if_pos this]
        exact hkv
      · have := (h4 c hc kv hkv).1 s1.1 rfl
        rw [if_neg (by omega)]
        exact ih (some s1.1) hi hs.2 c hc kv hkv

/-! ## Search in a tree that satisfies the structural invariants -/

theorem TreeAt_range (t : BPlusTree) : ∀ (h : Nat) (page_id : Int) (lo hi : Option Int),
    TreeAt t h page_id lo hi →
      loLtHi lo hi ∧ ∀ kv ∈ subtreePairs t h page_id, inRange lo hi kv.1 := by
  intro h
  induction h with
  | zero =>
    intro page_id lo hi ht
    unfold TreeAt at ht
    unfold subtreePairs
    cases hp : t.pages page_id with
    | none => simp [hp] at ht
    | some p =>
      simp only [hp] at ht ⊢
      exact ⟨ht.2.2.1, ht.2.2.2.2⟩
  | succ h ih =>
    intro page_id lo hi ht
    unfold TreeAt at ht
    unfold subtreePairs
    cases hp : t.pages page_id with
    | none => simp [hp] at ht
    | some p =>
      simp only [hp] at ht ⊢
      refine ⟨ht.2.2.2.1, ?_⟩
      have hne : p.live ≠ [] := by
        intro e
        have := live_length p ht.2.2.1
        rw [e] at this
        simp at this
        omega
      obtain ⟨_, h2⟩ := slotsOk_range (TreeAt t h) (subtreePairs t h) ih p.live lo hi hne
        ht.2.2.2.2
      intro kv hkv
      rw [List.mem_flatMap] at hkv
      obtain ⟨c, hc, hkv⟩ := hkv
      exact h2 c hc kv hkv

/-- `FindLeafPage` ends at a leaf of the subtree; every stored pair with the searched
key is in that leaf. -/
theorem FindLeafPage_spec (t : BPlusTree) (key : Int) :
    ∀ (h : Nat) (page_id : Int) (lo hi : Option Int) (fuel : Nat),
      TreeAt t h page_id lo hi → h < fuel →
      ∃ leaf lo1 hi1, FindLeafPage t key false fuel page_id = some leaf ∧
        TreeAt t 0 leaf lo1 hi1 ∧
        (∀ kv ∈ subtreePairs t h page_id, kv.1 = key → kv ∈ subtreePairs t 0 leaf) ∧
        (∀ kv ∈ subtreePairs t 0 leaf, kv ∈ subtreePairs t h page_id) := by
  intro h
  induction h with
  | zero =>
    intro page_id lo hi fuel ht hf
    obtain ⟨fuel, rfl⟩ : ∃ f, fuel = f + 1 := ⟨fuel - 1, by omega⟩
    refine ⟨page_id, lo, hi, ?_, ht, fun kv h _ => h, fun kv h => h⟩
    unfold TreeAt at ht
    unfold FindLeafPage
    cases hp : t.pages page_id with
    | none => simp [hp] at ht
    | some p =>
      simp only [hp] at ht ⊢
      simp [IsLeafPage, ht.1]
  | succ h ih =>
    intro page_id lo hi fuel ht hf
    obtain ⟨fuel, rfl⟩ : ∃ f, fuel = f + 1 := ⟨fuel - 1, by omega⟩
    have ht' := ht
    unfold TreeAt at ht
    cases hp : t.pages page_id with
    | none => simp [hp] at ht
    | some p =>
      simp only [hp] at ht
      obtain ⟨hty, h1, hlen, _, hs⟩ := ht
      have hne : p.live ≠ [] := by
        intro e
        have := live_length p hlen
        rw [e] at this
        simp at this
        omega
      have hmem := route_mem key p.live hne
      obtain ⟨lo1, hi1, hQ, _⟩ : ∃ lo1 hi1, TreeAt t h (route key p.live) lo1 hi1 ∧ True := by
        have := slotsOk_child (TreeAt t h) p.live lo hi hs (route key p.live) hmem
        obtain ⟨a, b, hab⟩ := this
        exact ⟨a, b, hab, trivial⟩
      obtain ⟨leaf, lo2, hi2, e1, e2, e3, e4⟩ := ih (route key p.live) lo1 hi1 fuel hQ (by omega)
      refine ⟨leaf, lo2, hi2, ?_, e2, ?_, ?_⟩
      · unfold FindLeafPage
        simp only [hp, IsLeafPage, hty]
        simp only [BPlusTreeInternalPage.Lookup_eq_route p key h1 hlen]
        simpa using e1
      · intro kv hkv hk
        apply e3 kv _ hk
        unfold subtreePairs at hkv
        simp only [hp, List.mem_flatMap] at hkv
        obtain ⟨c, hc, hkv⟩ := hkv
        have := route_stored (TreeAt t h) (subtreePairs t h) (TreeAt_range t h) p.live lo hi hs c hc
          kv hkv
        rw [hk] at this
        exact this
      · intro kv hkv
        unfold subtreePairs
        simp only [hp, List.mem_flatMap]
        exact ⟨route key p.live, hmem, e4 kv hkv⟩

end BPlusTree

end cmudb

namespace cmudb

open BPlusTreePage IndexPageType

namespace BPlusTree

theorem TreeAt_leaf (t : BPlusTree) (leaf : Int) (lo hi : Option Int)
    (h : TreeAt t 0 leaf lo hi) :
    ∃ p, t.pages leaf = some p ∧ t.FetchAs LEAF_PAGE leaf = some p ∧
      subtreePairs t 0 leaf = p.live ∧ p.size_ ≤ p.array.length ∧
      (p.live.map Prod.fst).Pairwise (· < ·) := by
  unfold TreeAt at h
  cases hp : t.pages leaf with
  | none => simp [hp] at h
  | some p =>
    simp only [hp] at h
    refine ⟨p, rfl, ?_, ?_, h.2.1, h.2.2.2.1⟩
    · simp [FetchAs, hp, h.1]
    · simp [subtreePairs, hp]

/-- C1: on a non-empty tree that satisfies the structural invariants, `Insert` of a
key that is already stored returns false and hands back the very same state: the
root page id and every page are unchanged. -/
theorem C1_insert_duplicate_rejected (t : BPlusTree) (h fuel : Nat) (key value : Int)
    (hwf : WellFormed t h) (hkey : key ∈ (pairs t h).map Prod.fst) (hfuel : h < fuel) :
    t.Insert fuel key value = some (false, t) := by
  obtain ⟨hroot, htree⟩ := hwf
  obtain ⟨kv, hkv, hk⟩ := List.mem_map.mp hkey
  obtain ⟨leaf, lo1, hi1, e1, e2, e3, _⟩ :=
    FindLeafPage_spec t key h t.root_page_id_ none none fuel htree hfuel
  obtain ⟨p, _, hf, hsub, hlen, hsorted⟩ := TreeAt_leaf t leaf lo1 hi1 e2
  have hin : kv ∈ p.live := by
    rw [← hsub]
    exact e3 kv hkv hk
  have hl := BPlusTreeLeafPage.Lookup_complete p kv hlen hsorted hin
  rw [hk] at hl
  unfold Insert
  rw [if_neg (by simp [IsEmpty, hroot])]
  unfold InsertIntoLeaf
  simp [e1, hf, hl]

theorem C1_insert_duplicate_rejected_witness :
    WellFormed scenarioTree 1 ∧ (4 : Int) ∈ (pairs scenarioTree 1).map Prod.fst ∧
      scenarioTree.Insert 2 4 99 = some (false, scenarioTree) :=
  ⟨by decide, by decide,
    C1_insert_duplicate_rejected scenarioTree 1 2 4 99 (by decide) (by decide) (by decide)⟩

/-- The code produces the scenario tree: inserting 1 to 5 into the empty tree with
`max_size = 4` gives its root page id and its three pages. -/
theorem run_scenarioTree :
    (run 2 (empty 4 4)
        [Op.insert 1 10, Op.insert 2 20, Op.insert 3 30, Op.insert 4 40, Op.insert 5 50]).map
      (fun t => (t.root_page_id_, t.pages 1, t.pages 2, t.pages 3, t.next_page_id)) =
      some (scenarioTree.root_page_id_, scenarioTree.pages 1, scenarioTree.pages 2,
        scenarioTree.pages 3, scenarioTree.next_page_id) := by
  decide

/-! ## Concrete runs on which the code departs from the specification -/

/-- C4 (failing input): after `Insert(1, 10)` into the empty tree, `GetValue(2)`
returns true and appends nothing, although the only stored pair is `(1, 10)`. -/
theorem C4_GetValue_true_for_absent_key :
    (run 1 (empty 4 4) [Op.insert 1 10]).bind (fun t => GetValue 1 t 2) = some (true, []) ∧
      (run 1 (empty 4 4) [Op.insert 1 10]).map (fun t => pairs t 0) = some [(1, 10)] := by
  decide

/-- C5 (failing input): with `max_size = 4`, after inserting 1 to 6 and removing
1, 3, 2, 4, 5, 6 the root page id is 1, not `INVALID_PAGE_ID`, and the root leaf
still stores key 3, which `GetValue` finds. -/
theorem C5_remove_all_keeps_key :
    (run 2 (empty 4 4)
        [Op.insert 1 10, Op.insert 2 20, Op.insert 3 30, Op.insert 4 40, Op.insert 5 50,
          Op.insert 6 60, Op.remove 1, Op.remove 3, Op.remove 2, Op.remove 4, Op.remove 5,
          Op.remove 6]).bind
      (fun t => (GetValue 2 t 3).map fun r => (t.root_page_id_, pairs t 0, r)) =
      some (1, [(3, 30)], (true, [30])) := by
  decide

/-- C7 (failing input): with `max_size = 4`, after inserting 1 to 6 and removing 1,
`Insert(3, 33)` returns true although key 3 is stored, and the walk over the leaf
chain then reads key 3 twice. -/
theorem C7_duplicate_key_in_chain :
    ((run 2 (empty 4 4)
        [Op.insert 1 10, Op.insert 2 20, Op.insert 3 30, Op.insert 4 40, Op.insert 5 50,
          Op.insert 6 60, Op.remove 1]).bind fun t => t.Insert 2 3 33).bind
      (fun r => (iterate 2 r.2).map fun w => (r.1, w)) =
      some (true, [(2, 20), (3, 30), (3, 33), (4, 40), (5, 50), (6, 60)]) := by
  decide

/-- C8 (failing input): with `max_size = 4`, after inserting 1 to 6 and removing 1,
the root (page 3) has the separator `key_1 = 3` while its child 0 (page 1) stores the
keys 2 and 3: the separator is not greater than the largest key on its left, and the
tree no longer satisfies the structural invariants. -/
theorem C8_separator_not_above_left_subtree :
    (run 2 (empty 4 4)
        [Op.insert 1 10, Op.insert 2 20, Op.insert 3 30, Op.insert 4 40, Op.insert 5 50,
          Op.insert 6 60, Op.remove 1]).map
      (fun t => (t.root_page_id_, (t.pages 3).map BPlusTreePage.live)) =
      some (3, some [(0, 1), (3, 2)]) ∧
    (run 2 (empty 4 4)
        [Op.insert 1 10, Op.insert 2 20, Op.insert 3 30, Op.insert 4 40, Op.insert 5 50,
          Op.insert 6 60, Op.remove 1]).map
      (fun t => ((t.pages 1).map BPlusTreePage.live, decide (WellFormed t 1))) =
      some (some [(2, 20), (3, 30)], false) := by
  decide

end BPlusTree

end cmudb

namespace cmudb

open BPlusTreePage IndexPageType

/-! ## Effect of the page operations on the header and on the slot memory -/

namespace BPlusTreePage

theorem SameHeader.refl (p : BPlusTreePage) : SameHeader p p :=
  ⟨rfl, rfl, rfl, rfl, rfl, rfl⟩

theorem SameHeader.trans {p q r : BPlusTreePage} (h1 : SameHeader p q) (h2 : SameHeader q r) :
    SameHeader p r := by
  unfold SameHeader at h1 h2 ⊢
  refine ⟨?_, ?_, ?_, ?_, ?_, ?_⟩
  · rw [h2.1, h1.1]
  · rw [h2.2.1, h1.2.1]
  · rw [h2.2.2.1, h1.2.2.1]
  · rw [h2.2.2.2.1, h1.2.2.2.1]
  · rw [h2.2.2.2.2.1, h1.2.2.2.2.1]
  · rw [h2.2.2.2.2.2, h1.2.2.2.2.2]

theorem setSlot_some {p q : BPlusTreePage} {i : Nat} {x : MappingType}
    (h : p.setSlot i x = some q) :
    i < p.array.length ∧ q = { p with array := p.array.set i x } := by
  unfold setSlot at h
  split_ifs at h with h1
  simp only [Option.some.injEq] at h
  exact ⟨h1, h.symm⟩

theorem setSlot_header {p q : BPlusTreePage} {i : Nat} {x : MappingType}
    (h : p.setSlot i x = some q) : SameHeader p q ∧ q.size_ = p.size_ := by
  obtain ⟨_, rfl⟩ := setSlot_some h
  exact ⟨⟨rfl, rfl, rfl, rfl, rfl, by simp⟩, rfl⟩

theorem setSlot_eq_some (p : BPlusTreePage) (i : Nat) (x : MappingType)
    (h : i < p.array.length) : p.setSlot i x = some { p with array := p.array.set i x } := by
  simp [setSlot, h]

theorem DecreaseSize_some {p q : BPlusTreePage} {n : Nat} (h : p.DecreaseSize n = some q) :
    n ≤ p.size_ ∧ q = { p with size_ := p.size_ - n } := by
  unfold DecreaseSize at h
  split_ifs at h with h1
  simp only [Option.some.injEq] at h
  exact ⟨h1, h.symm⟩

theorem DecreaseSize_header {p q : BPlusTreePage} {n : Nat} (h : p.DecreaseSize n = some q) :
    SameHeader p q ∧ q.size_ = p.size_ - n ∧ n ≤ p.size_ ∧ q.array = p.array := by
  obtain ⟨h1, rfl⟩ := DecreaseSize_some h
  exact ⟨⟨rfl, rfl, rfl, rfl, rfl, rfl⟩, rfl, h1, rfl⟩

theorem IncreaseSize_header (p : BPlusTreePage) (n : Nat) :
    SameHeader p (p.IncreaseSize n) ∧ (p.IncreaseSize n).size_ = p.size_ + n ∧
      (p.IncreaseSize n).array = p.array :=
  ⟨⟨rfl, rfl, rfl, rfl, rfl, rfl⟩, rfl, rfl⟩

theorem SetParentPageId_shape (p : BPlusTreePage) (parent : Int) :
    (p.SetParentPageId parent).page_type_ = p.page_type_ ∧
      (p.SetParentPageId parent).max_size_ = p.max_size_ ∧
      (p.SetParentPageId parent).size_ = p.size_ ∧
      (p.SetParentPageId parent).page_id_ = p.page_id_ ∧
      (p.SetParentPageId parent).next_page_id_ = p.next_page_id_ ∧
      (p.SetParentPageId parent).array = p.array ∧
      (p.SetParentPageId parent).parent_page_id_ = parent :=
  ⟨rfl, rfl, rfl, rfl, rfl, rfl, rfl⟩

theorem memmove_some {p q : BPlusTreePage} {dst src n : Nat} (h : p.memmove dst src n = some q) :
    dst + n ≤ p.array.length ∧ src + n ≤ p.array.length ∧
      q = { p with array := p.array.take dst ++ (p.array.drop src).take n ++
        p.array.drop (dst + n) } := by
  unfold memmove at h
  split_ifs at h with h1
  simp only [Option.some.injEq] at h
  exact ⟨h1.1, h1.2, h.symm⟩

theorem memmove_header {p q : BPlusTreePage} {dst src n : Nat}
    (h : p.memmove dst src n = some q) : SameHeader p q ∧ q.size_ = p.size_ := by
  obtain ⟨h1, h2, rfl⟩ := memmove_some h
  refine ⟨⟨rfl, rfl, rfl, rfl, rfl, ?_⟩, rfl⟩
  simp only [List.length_append, List.length_take, List.length_drop]
  omega

theorem copyFrom_header (p : BPlusTreePage) (start : Nat) (items : List MappingType) :
    ∀ (n : Nat) (q : BPlusTreePage), p.copyFrom start items n = some q →
      SameHeader p q ∧ q.size_ = p.size_ := by
  intro n
  induction n with
  | zero =>
    intro q h
    simp only [copyFrom, Option.some.injEq] at h
    subst h
    exact ⟨SameHeader.refl p, rfl⟩
  | succ n ih =>
    intro q h
    simp only [copyFrom] at h
    split at h
    · simp at h
    · rename_i q1 hq1
      obtain ⟨a1, a2⟩ := ih q1 hq1
      obtain ⟨b1, b2⟩ := setSlot_header h
      exact ⟨a1.trans b1, b2.trans a2⟩

theorem list_set_mid {α : Type} (L R : List α) (x y : α) (n : Nat) (h : L.length = n) :
    (L ++ x :: R).set n y = L ++ y :: R := by
  subst h
  rw [List.set_append_right _ _ (le_refl _)]
  simp

theorem list_take_succ {α : Type} (l : List α) (n : Nat) (h : n < l.length) :
    l.take (n + 1) = l.take n ++ [l[n]] := by
  rw [List.take_succ]
  simp [List.getElem?_eq_getElem h]

/-- `copyFrom` writes `items[0 .. n)` over `array[start .. start + n)`. -/
theorem copyFrom_eq (p : BPlusTreePage) (start : Nat) (items : List MappingType) :
    ∀ (n : Nat), n ≤ items.length → start + n ≤ p.array.length →
      p.copyFrom start items n = some { p with
        array := p.array.take start ++ items.take n ++ p.array.drop (start + n) } := by
  intro n
  induction n with
  | zero =>
    intro _ _
    simp [copyFrom]
  | succ n ih =>
    intro h1 h2
    simp only [copyFrom]
    rw [ih (by omega) (by omega)]
    simp only
    rw [setSlot_eq_some _ _ _ (by simp; omega)]
    have e : items.getD n (0, 0) = items[n] := by
      simp [List.getD_eq_getElem?_getD, (by omega : n < items.length)]
    simp only [e]
    have hd : p.array.drop (start + n) = p.array[start + n] :: p.array.drop (start + n + 1) :=
      List.drop_eq_getElem_cons (by omega)
    rw [hd, list_set_mid _ _ _ _ (start + n) (by simp; omega), list_take_succ items n (by omega)]
    simp only [List.append_assoc, List.singleton_append, List.cons_append, List.nil_append,
      Nat.add_assoc]

end BPlusTreePage

end cmudb

namespace cmudb

open BPlusTreePage IndexPageType

namespace BPlusTreePage

theorem slot_def (p : BPlusTreePage) (i : Nat) : p.slot i = (p.array[i]?).getD (0, 0) := by
  simp [slot, List.getD_eq_getElem?_getD]

theorem live_getElem? (p : BPlusTreePage) (i : Nat) :
    p.live[i]? = if i < p.size_ then p.array[i]? else none := by
  simp [live, List.getElem?_take]

end BPlusTreePage

/-! ## Leaf `Insert` -/

namespace BPlusTreeLeafPage

theorem InsertLoop_spec (key : Int) :
    ∀ (n : Nat) (p : BPlusTreePage), n < p.array.length →
      ∃ j q, InsertLoop key n p = some (j, q) ∧ j ≤ n ∧ SameHeader p q ∧ q.size_ = p.size_ ∧
        (∀ i, q.array[i]? = if j < i ∧ i ≤ n then p.array[i - 1]? else p.array[i]?) ∧
        (∀ i, j ≤ i → i < n → key < (p.slot i).1) ∧
        (j = 0 ∨ ¬ key < (p.slot (j - 1)).1) := by
  intro n
  induction n with
  | zero =>
    intro p _
    refine ⟨0, p, rfl, le_refl 0, SameHeader.refl p, rfl, ?_, ?_, Or.inl rfl⟩
    · intro i
      rw [if_neg (by omega)]
    · intro i _ h
      omega
  | succ n ih =>
    intro p hn
    unfold InsertLoop
    by_cases hc : key < (p.slot n).1
    · rw [if_pos ((comparator_lt_zero _ _).mpr hc), setSlot_eq_some _ _ _ hn]
      simp only
      obtain ⟨j, q, e1, e2, e3, e4, e5, e6, e7⟩ :=
        ih { p with array := p.array.set (n + 1) (p.slot n) } (by simp; omega)
      have hslot : ∀ i, i ≤ n →
          ({ p with array := p.array.set (n + 1) (p.slot n) } : BPlusTreePage).slot i =
            p.slot i := by
        intro i hi
        simp only [slot_def, List.getElem?_set]
        rw [if_neg (by omega)]
      refine ⟨j, q, e1, by omega, ?_, e4, ?_, ?_, ?_⟩
      · obtain ⟨a1, a2, a3, a4, a5, a6⟩ := e3
        exact ⟨a1, a2, a3, a4, a5, by simpa using a6⟩
      · intro i
        rw [e5 i]
        simp only [List.getElem?_set]
        by_cases c2 : i = n + 1
        · subst c2
          have h1 : ¬ (j < n + 1 ∧ n + 1 ≤ n) := by omega
          have h2 : j < n + 1 ∧ n + 1 ≤ n + 1 := by omega
          rw [if_neg h1, if_pos h2, if_pos rfl, if_pos hn]
          simp [slot_def, List.getElem?_eq_getElem (show n < p.array.length by omega)]
        · have h3 : ¬ (n + 1 = i) := by omega
          by_cases c1 : j < i ∧ i ≤ n
          · have h4 : ¬ (n + 1 = i - 1) := by omega
            have h5 : j < i ∧ i ≤ n + 1 := by omega
            rw [if_pos c1, if_pos h5, if_neg h4]
          · have h5 : ¬ (j < i ∧ i ≤ n + 1) := by omega
            rw [if_neg c1, if_neg h5, if_neg h3]
      · intro i h1 h2
        rcases Nat.lt_or_eq_of_le (Nat.le_of_lt_succ h2) with h3 | h3
        · rw [← hslot i (by omega)]
          exact e6 i h1 h3
        · subst h3
          exact hc
      · rcases e7 with e7 | e7
        · exact Or.inl e7
        · right
          rw [← hslot (j - 1) (by omega)]
          exact e7
    · rw [if_neg (by rw [comparator_lt_zero]; exact hc)]
      refine ⟨n + 1, p, rfl, le_refl _, SameHeader.refl p, rfl, ?_, ?_, Or.inr (by simpa using hc)⟩
      · intro i
        rw [if_neg (by omega)]
      · intro i h1 h2
        omega

/-- Leaf `Insert` on a page with room: the new pair goes in front of the trailing
live pairs whose keys are greater, the other pairs keep their order. -/
theorem Insert_spec (p : BPlusTreePage) (key value : Int) (hroom : p.size_ < p.array.length) :
    ∃ j q, Insert p key value = some q ∧ j ≤ p.size_ ∧ SameHeader p q ∧
      q.size_ = p.size_ + 1 ∧
      q.live = p.live.take j ++ (key, value) :: p.live.drop j ∧
      (∀ x ∈ p.live.drop j, key < x.1) ∧
      (j = 0 ∨ ¬ key < (p.slot (j - 1)).1) := by
  obtain ⟨j, q, e1, e2, e3, e4, e5, e6, e7⟩ := InsertLoop_spec key p.size_ p hroom
  have hjlen : j < q.array.length := by
    rw [e3.2.2.2.2.2]
    omega
  refine ⟨j, ({ q with array := q.array.set j (key, value) } : BPlusTreePage).IncreaseSize 1,
    ?_, e2, ?_, ?_, ?_, ?_, e7⟩
  · unfold Insert
    rw [e1]
    simp only
    rw [setSlot_eq_some _ _ _ hjlen]
  · obtain ⟨a1, a2, a3, a4, a5, a6⟩ := e3
    exact ⟨a1, a2, a3, a4, a5, by simpa [IncreaseSize] using a6⟩
  · simp [IncreaseSize, e4]
  · apply List.ext_getElem?
    intro i
    simp only [live_getElem?, IncreaseSize, List.getElem?_append, List.getElem?_set,
      List.getElem?_cons, List.getElem?_drop, List.getElem?_take, List.length_take, e4, e5]
    have hl : p.live.length = p.size_ := live_length p (by omega)
    rw [hl, Nat.min_eq_left e2]
    by_cases c1 : i < j
    · have h1 : i < p.size_ + 1 := by omega
      have h2 : ¬ (j = i) := by omega
      have h3 : ¬ (j < i ∧ i ≤ p.size_) := by omega
      have h4 : i < p.size_ := by omega
      simp only [c1, h1, h2, h3, h4, if_true, if_false]
    · by_cases c2 : i = j
      · subst c2
        have h1 : i < p.size_ + 1 := by omega
        simp only [c1, h1, hjlen, if_true, if_false, Nat.sub_self]
      · have h2 : ¬ (j = i) := by omega
        have h3 : ¬ (i - j = 0) := by omega
        by_cases c3 : i < p.size_ + 1
        · have h4 : j < i ∧ i ≤ p.size_ := by omega
          have h5 : j + (i - j - 1) < p.size_ := by omega
          have h6 : j + (i - j - 1) = i - 1 := by omega
          have h7 : i - 1 < p.size_ := by omega
          simp only [c1, c3, h2, h3, h4, h5, h6, if_true, if_false]
          simp [h7]
        · have h5 : ¬ (j + (i - j - 1) < p.size_) := by omega
          simp only [c1, c3, h3, h5, if_false]
  · intro x hx
    obtain ⟨i, hi, rfl⟩ := List.getElem_of_mem hx
    have hl : p.live.length = p.size_ := live_length p (by omega)
    simp only [List.length_drop, hl] at hi
    rw [List.getElem_drop, live_getElem]
    exact e6 (j + i) (by omega) (by omega)

end BPlusTreeLeafPage

end cmudb

namespace cmudb

open BPlusTreePage IndexPageType

/-! ## Headers and sizes after the leaf operations -/

namespace BPlusTreeLeafPage

theorem InsertLoop_header (key : Int) :
    ∀ (n : Nat) (p q : BPlusTreePage) (j : Nat), InsertLoop key n p = some (j, q) →
      SameHeader p q ∧ q.size_ = p.size_ := by
  intro n
  induction n with
  | zero =>
    intro p q j h
    simp only [InsertLoop, Option.some.injEq, Prod.mk.injEq] at h
    rw [← h.2]
    exact ⟨SameHeader.refl p, rfl⟩
  | succ n ih =>
    intro p q j h
    unfold InsertLoop at h
    split_ifs at h
    · split at h
      · simp at h
      · rename_i q1 hq1
        obtain ⟨a1, a2⟩ := setSlot_header hq1
        obtain ⟨b1, b2⟩ := ih _ _ _ h
        exact ⟨a1.trans b1, b2.trans a2⟩
    · simp only [Option.some.injEq, Prod.mk.injEq] at h
      rw [← h.2]
      exact ⟨SameHeader.refl p, rfl⟩

theorem Insert_header {p q : BPlusTreePage} {key value : Int} (h : Insert p key value = some q) :
    SameHeader p q ∧ q.size_ = p.size_ + 1 := by
  unfold Insert at h
  split at h
  · simp at h
  · rename_i j q1 hq1
    split at h
    · simp at h
    · rename_i r hr
      simp only [Option.some.injEq] at h
      obtain ⟨a1, a2⟩ := InsertLoop_header key _ _ _ _ hq1
      obtain ⟨b1, b2⟩ := setSlot_header hr
      obtain ⟨c1, c2, _⟩ := IncreaseSize_header r 1
      rw [← h]
      exact ⟨(a1.trans b1).trans c1, by rw [c2, b2, a2]⟩

theorem CopyHalfFrom_header {p q : BPlusTreePage} {items : List MappingType} {n : Nat}
    (h : CopyHalfFrom p items n = some q) : SameHeader p q ∧ q.size_ = p.size_ + n := by
  unfold CopyHalfFrom at h
  split at h
  · simp at h
  · rename_i q1 hq1
    simp only [Option.some.injEq] at h
    obtain ⟨a1, a2⟩ := copyFrom_header _ _ _ _ _ hq1
    obtain ⟨c1, c2, _⟩ := IncreaseSize_header q1 n
    rw [← h]
    exact ⟨a1.trans c1, by rw [c2, a2]⟩

theorem MoveHalfTo_header {p r q r1 : BPlusTreePage} (h : MoveHalfTo p r = some (q, r1)) :
    SameHeader p q ∧ q.size_ = p.size_ - p.size_ / 2 ∧ q.array = p.array ∧
      SameHeader r r1 ∧ r1.size_ = r.size_ + p.size_ / 2 := by
  unfold MoveHalfTo at h
  simp only at h
  split at h
  · simp at h
  · rename_i r2 hr2
    split at h
    · simp at h
    · rename_i q2 hq2
      simp only [Option.some.injEq, Prod.mk.injEq] at h
      obtain ⟨a1, a2⟩ := CopyHalfFrom_header hr2
      obtain ⟨b1, b2, _, b4⟩ := DecreaseSize_header hq2
      rw [← h.1, ← h.2]
      exact ⟨b1, b2, b4, a1, a2⟩

/-- Leaf `MoveHalfTo` into an empty recipient with enough memory: the page keeps its
lower pairs, the recipient receives the upper `size_ / 2` pairs. -/
theorem MoveHalfTo_spec (p r : BPlusTreePage) (hlen : p.size_ ≤ p.array.length)
    (hr : r.size_ = 0) (hrlen : p.size_ / 2 ≤ r.array.length) :
    ∃ q r1, MoveHalfTo p r = some (q, r1) ∧ SameHeader p q ∧ SameHeader r r1 ∧
      q.size_ = p.size_ - p.size_ / 2 ∧ r1.size_ = p.size_ / 2 ∧
      q.live = p.live.take (p.size_ - p.size_ / 2) ∧
      r1.live = p.live.drop (p.size_ - p.size_ / 2) := by
  have hc := copyFrom_eq r 0 (p.array.drop (p.size_ - p.size_ / 2)) (p.size_ / 2)
    (by simp; omega) (by omega)
  have hd : p.DecreaseSize (p.size_ / 2) = some { p with size_ := p.size_ - p.size_ / 2 } := by
    simp [DecreaseSize, Nat.div_le_self]
  refine ⟨{ p with size_ := p.size_ - p.size_ / 2 },
    ({ r with array := r.array.take 0 ++ (p.array.drop (p.size_ - p.size_ / 2)).take (p.size_ / 2)
        ++ r.array.drop (0 + p.size_ / 2) } : BPlusTreePage).IncreaseSize (p.size_ / 2),
    ?_, ?_, ?_, ?_, ?_, ?_, ?_⟩
  · unfold MoveHalfTo CopyHalfFrom
    simp only [hc, hd]
  · exact ⟨rfl, rfl, rfl, rfl, rfl, rfl⟩
  · refine ⟨rfl, rfl, rfl, rfl, rfl, ?_⟩
    simp [IncreaseSize]
    omega
  · rfl
  · simp [IncreaseSize, hr]
  · simp only [live, List.take_take]
    congr 1
    omega
  · simp only [live, IncreaseSize, hr, List.take_zero, List.nil_append, Nat.zero_add]
    rw [List.take_append_of_le_length (by simp; omega), List.take_take, Nat.min_self,
      List.drop_take]
    congr 1
    omega

theorem find_lt_size {p : BPlusTreePage} {key : Int} {m : Nat} (h : find p key = some m) :
    m < p.size_ :=
  (find_sound p key m h).1

theorem RemoveAndDeleteRecord_header {p q : BPlusTreePage} {key : Int}
    (h : RemoveAndDeleteRecord p key = some q) :
    SameHeader p q ∧ q.size_ ≤ p.size_ ∧
      (q.size_ = p.size_ ∨ (q.size_ + 1 = p.size_ ∧ (find p key).isSome)) := by
  unfold RemoveAndDeleteRecord at h
  split at h
  · simp only [Option.some.injEq] at h
    subst h
    exact ⟨SameHeader.refl p, le_refl _, Or.inl rfl⟩
  · rename_i m hm
    split at h
    · simp at h
    · rename_i q1 hq1
      obtain ⟨a1, a2⟩ := memmove_header hq1
      obtain ⟨b1, b2, b3, _⟩ := DecreaseSize_header h
      refine ⟨a1.trans b1, by omega, Or.inr ⟨by omega, by rw [hm]; rfl⟩⟩

theorem CopyAllFrom_header {p q : BPlusTreePage} {items : List MappingType} {n : Nat}
    (h : CopyAllFrom p items n = some q) : SameHeader p q ∧ q.size_ = p.size_ + n := by
  unfold CopyAllFrom at h
  split at h
  · simp at h
  · rename_i q1 hq1
    simp only [Option.some.injEq] at h
    obtain ⟨a1, a2⟩ := copyFrom_header _ _ _ _ _ hq1
    obtain ⟨c1, c2, _⟩ := IncreaseSize_header q1 n
    rw [← h]
    exact ⟨a1.trans c1, by rw [c2, a2]⟩

theorem MoveAllTo_header {p r q r1 : BPlusTreePage} (h : MoveAllTo p r = some (q, r1)) :
    SameHeader p q ∧ q.size_ = 0 ∧ r1.page_type_ = r.page_type_ ∧ r1.max_size_ = r.max_size_ ∧
      r1.size_ = r.size_ + p.size_ := by
  unfold MoveAllTo at h
  split at h
  · simp at h
  · rename_i r2 hr2
    split at h
    · simp at h
    · rename_i q2 hq2
      simp only [Option.some.injEq, Prod.mk.injEq] at h
      obtain ⟨a1, a2⟩ := CopyAllFrom_header hr2
      obtain ⟨b1, b2, _, _⟩ := DecreaseSize_header hq2
      rw [← h.1, ← h.2]
      exact ⟨b1, by omega, a1.1, a1.2.1, a2⟩

theorem CopyLastFrom_header {p q : BPlusTreePage} {item : MappingType}
    (h : CopyLastFrom p item = some q) : SameHeader p q ∧ q.size_ = p.size_ + 1 := by
  unfold CopyLastFrom at h
  split at h
  · simp at h
  · rename_i q1 hq1
    simp only [Option.some.injEq] at h
    obtain ⟨a1, a2⟩ := setSlot_header hq1
    obtain ⟨c1, c2, _⟩ := IncreaseSize_header q1 1
    rw [← h]
    exact ⟨a1.trans c1, by rw [c2, a2]⟩

end BPlusTreeLeafPage

/-! ## Headers and sizes after the internal operations -/

namespace BPlusTreeInternalPage

theorem SetKeyAt_header {p q : BPlusTreePage} {i : Nat} {key : Int}
    (h : SetKeyAt p i key = some q) : SameHeader p q ∧ q.size_ = p.size_ :=
  setSlot_header h

theorem SetValueAt_header {p q : BPlusTreePage} {i : Nat} {v : Int}
    (h : SetValueAt p i v = some q) : SameHeader p q ∧ q.size_ = p.size_ :=
  setSlot_header h

theorem InsertNodeAfterLoop_header (old_value new_key new_value : Int) :
    ∀ (n : Nat) (p q : BPlusTreePage),
      InsertNodeAfterLoop old_value new_key new_value n p = some q →
      SameHeader p q ∧ p.size_ ≤ q.size_ ∧ q.size_ ≤ p.size_ + 1 := by
  intro n
  induction n with
  | zero =>
    intro p q h
    simp only [InsertNodeAfterLoop, Option.some.injEq] at h
    subst h
    exact ⟨SameHeader.refl p, le_refl _, by omega⟩
  | succ n ih =>
    intro p q h
    unfold InsertNodeAfterLoop at h
    split_ifs at h
    · split at h
      · simp at h
      · rename_i q1 hq1
        simp only [Option.some.injEq] at h
        obtain ⟨a1, a2⟩ := setSlot_header hq1
        obtain ⟨c1, c2, _⟩ := IncreaseSize_header q1 1
        rw [← h]
        exact ⟨a1.trans c1, by omega, by omega⟩
    · split at h
      · simp at h
      · rename_i q1 hq1
        obtain ⟨a1, a2⟩ := setSlot_header hq1
        obtain ⟨b1, b2, b3⟩ := ih _ _ h
        exact ⟨a1.trans b1, by omega, by omega⟩

theorem InsertNodeAfter_header {p q : BPlusTreePage} {old_value new_key new_value : Int}
    (h : InsertNodeAfter p old_value new_key new_value = some q) :
    SameHeader p q ∧ p.size_ ≤ q.size_ ∧ q.size_ ≤ p.size_ + 1 :=
  InsertNodeAfterLoop_header _ _ _ _ _ _ h

theorem InternalCopyHalfFrom_header {p q : BPlusTreePage} {items : List MappingType} {n : Nat}
    (h : CopyHalfFrom p items n = some q) : SameHeader p q ∧ q.size_ + 1 = p.size_ + n := by
  unfold CopyHalfFrom at h
  split at h
  · simp at h
  · rename_i q1 hq1
    obtain ⟨a1, a2⟩ := copyFrom_header _ _ _ _ _ hq1
    split_ifs at h with hn
    · obtain ⟨b1, b2, b3, _⟩ := DecreaseSize_header h
      exact ⟨a1.trans b1, by omega⟩
    · simp only [Option.some.injEq] at h
      obtain ⟨c1, c2, _⟩ := IncreaseSize_header q1 (n - 1)
      rw [← h]
      exact ⟨a1.trans c1, by omega⟩

theorem RemoveLoop_header :
    ∀ (n idx : Nat) (p q : BPlusTreePage), RemoveLoop n idx p = some q →
      SameHeader p q ∧ q.size_ = p.size_ := by
  intro n
  induction n with
  | zero =>
    intro idx p q h
    simp only [RemoveLoop, Option.some.injEq] at h
    subst h
    exact ⟨SameHeader.refl p, rfl⟩
  | succ n ih =>
    intro idx p q h
    unfold RemoveLoop at h
    split at h
    · simp at h
    · rename_i q1 hq1
      obtain ⟨a1, a2⟩ := setSlot_header hq1
      obtain ⟨b1, b2⟩ := ih _ _ _ h
      exact ⟨a1.trans b1, b2.trans a2⟩

theorem Remove_header {p q : BPlusTreePage} {index : Nat} (h : Remove p index = some q) :
    SameHeader p q ∧ q.size_ + 1 = p.size_ := by
  unfold Remove at h
  split at h
  · simp at h
  · rename_i q1 hq1
    obtain ⟨a1, a2⟩ := RemoveLoop_header _ _ _ _ hq1
    obtain ⟨b1, b2, b3, _⟩ := DecreaseSize_header h
    exact ⟨a1.trans b1, by omega⟩

theorem InternalCopyAllFrom_header {p q : BPlusTreePage} {items : List MappingType} {n : Nat}
    (h : CopyAllFrom p items n = some q) : SameHeader p q ∧ q.size_ = p.size_ + n := by
  unfold CopyAllFrom at h
  split at h
  · simp at h
  · rename_i q1 hq1
    simp only [Option.some.injEq] at h
    obtain ⟨a1, a2⟩ := copyFrom_header _ _ _ _ _ hq1
    obtain ⟨c1, c2, _⟩ := IncreaseSize_header q1 n
    rw [← h]
    exact ⟨a1.trans c1, by rw [c2, a2]⟩

theorem InternalCopyLastFrom_header {p q : BPlusTreePage} {item : MappingType}
    (h : CopyLastFrom p item = some q) : SameHeader p q ∧ q.size_ = p.size_ + 1 := by
  unfold CopyLastFrom at h
  split at h
  · simp at h
  · rename_i q1 hq1
    simp only [Option.some.injEq] at h
    obtain ⟨a1, a2⟩ := setSlot_header hq1
    obtain ⟨c1, c2, _⟩ := IncreaseSize_header q1 1
    rw [← h]
    exact ⟨a1.trans c1, by rw [c2, a2]⟩

end BPlusTreeInternalPage

end cmudb

namespace cmudb

open BPlusTreePage IndexPageType

namespace BPlusTree

/-! ## The size invariant of the pool -/

@[simp] theorem WritePage_pages (t : BPlusTree) (pid : Int) (p : BPlusTreePage) (x : Int) :
    (t.WritePage pid p).pages x = if x = pid then some p else t.pages x := by
  simp [WritePage, Function.update]

@[simp] theorem WritePage_next (t : BPlusTree) (pid : Int) (p : BPlusTreePage) :
    (t.WritePage pid p).next_page_id = t.next_page_id := rfl

@[simp] theorem WritePage_root (t : BPlusTree) (pid : Int) (p : BPlusTreePage) :
    (t.WritePage pid p).root_page_id_ = t.root_page_id_ := rfl

@[simp] theorem WritePage_leaf_max (t : BPlusTree) (pid : Int) (p : BPlusTreePage) :
    (t.WritePage pid p).leaf_max_size = t.leaf_max_size := rfl

@[simp] theorem WritePage_internal_max (t : BPlusTree) (pid : Int) (p : BPlusTreePage) :
    (t.WritePage pid p).internal_max_size = t.internal_max_size := rfl

@[simp] theorem DeletePage_pages (t : BPlusTree) (pid : Int) (x : Int) :
    (t.DeletePage pid).pages x = if x = pid then none else t.pages x := by
  simp [DeletePage, Function.update]

@[simp] theorem DeletePage_next (t : BPlusTree) (pid : Int) :
    (t.DeletePage pid).next_page_id = t.next_page_id := rfl

@[simp] theorem DeletePage_leaf_max (t : BPlusTree) (pid : Int) :
    (t.DeletePage pid).leaf_max_size = t.leaf_max_size := rfl

@[simp] theorem DeletePage_internal_max (t : BPlusTree) (pid : Int) :
    (t.DeletePage pid).internal_max_size = t.internal_max_size := rfl

theorem FetchAs_some {t : BPlusTree} {N : IndexPageType} {pid : Int} {p : BPlusTreePage}
    (h : t.FetchAs N pid = some p) : t.pages pid = some p ∧ p.page_type_ = N := by
  unfold FetchAs at h
  split at h
  · simp at h
  · rename_i q hq
    split_ifs at h with h1
    simp only [Option.some.injEq] at h
    subst h
    exact ⟨hq, h1⟩

theorem PageBound.of_sameHeader {lm im : Nat} {p q : BPlusTreePage} (h : PageBound lm im p)
    (hh : SameHeader p q) (hs : q.size_ ≤ p.max_size_) : PageBound lm im q := by
  obtain ⟨a1, a2, _⟩ := hh
  unfold PageBound at h ⊢
  rw [a1, a2]
  exact ⟨hs, h.2⟩

theorem SizeInv.write {t : BPlusTree} (h : SizeInv t) {pid : Int} {q : BPlusTreePage}
    (hpid : pid < t.next_page_id) (hq : PageBound t.leaf_max_size t.internal_max_size q) :
    SizeInv (t.WritePage pid q) := by
  obtain ⟨h1, h2, h3, h4⟩ := h
  refine ⟨h1, h2, ?_, ?_⟩
  · intro x p hx
    simp only [WritePage_pages] at hx
    split_ifs at hx with c
    · subst c; exact hpid
    · exact h3 x p hx
  · intro x p hx
    simp only [WritePage_pages] at hx
    split_ifs at hx with c
    · simp only [Option.some.injEq] at hx
      subst hx
      exact hq
    · exact h4 x p hx

theorem SizeInv.delete {t : BPlusTree} (h : SizeInv t) (pid : Int) :
    SizeInv (t.DeletePage pid) := by
  obtain ⟨h1, h2, h3, h4⟩ := h
  refine ⟨h1, h2, ?_, ?_⟩
  · intro x p hx
    simp only [DeletePage_pages] at hx
    split_ifs at hx
    exact h3 x p hx
  · intro x p hx
    simp only [DeletePage_pages] at hx
    split_ifs at hx
    exact h4 x p hx

theorem SizeInv.setRoot {t : BPlusTree} (h : SizeInv t) (r : Int) :
    SizeInv { t with root_page_id_ := r } := h

theorem SizeInv.newPage {t : BPlusTree} (h : SizeInv t) :
    SizeInv t.NewPage.2 ∧ t.NewPage.1 = t.next_page_id ∧
      t.NewPage.2.next_page_id = t.next_page_id + 1 ∧ t.NewPage.2.pages = t.pages ∧
      t.NewPage.2.leaf_max_size = t.leaf_max_size ∧
      t.NewPage.2.internal_max_size = t.internal_max_size := by
  obtain ⟨h1, h2, h3, h4⟩ := h
  refine ⟨⟨h1, h2, ?_, h4⟩, rfl, rfl, rfl, rfl, rfl⟩
  intro x p hx
  have := h3 x p hx
  simp only [NewPage]
  omega

theorem SizeInv.lt_next {t : BPlusTree} (h : SizeInv t) {pid : Int} {p : BPlusTreePage}
    (hp : t.pages pid = some p) : pid < t.next_page_id := h.2.2.1 pid p hp

theorem SizeInv.bound {t : BPlusTree} (h : SizeInv t) {pid : Int} {p : BPlusTreePage}
    (hp : t.pages pid = some p) : PageBound t.leaf_max_size t.internal_max_size p :=
  h.2.2.2 pid p hp

/-- A store that keeps type and capacity of the page and respects the capacity. -/
theorem SizeInv.update {t : BPlusTree} (h : SizeInv t) {pid : Int} {p q : BPlusTreePage}
    (hpid : pid < t.next_page_id) (hp : PageBound t.leaf_max_size t.internal_max_size p)
    (h1 : q.page_type_ = p.page_type_) (h2 : q.max_size_ = p.max_size_)
    (hs : q.size_ ≤ p.max_size_) : SizeInv (t.WritePage pid q) := by
  apply h.write hpid
  unfold PageBound at hp ⊢
  rw [h1, h2]
  exact ⟨hs, hp.2⟩

theorem SizeStep.step_refl {t : BPlusTree} (h : SizeInv t) : SizeStep t t :=
  ⟨h, rfl, rfl, le_refl _⟩

theorem SizeStep.step_trans {t t1 t2 : BPlusTree} (h1 : SizeStep t t1) (h2 : SizeStep t1 t2) :
    SizeStep t t2 := by
  obtain ⟨_, a2, a3, a4⟩ := h1
  obtain ⟨b1, b2, b3, b4⟩ := h2
  exact ⟨b1, b2.trans a2, b3.trans a3, le_trans a4 b4⟩

theorem SizeStep.step_write {t : BPlusTree} (h : SizeInv t) {pid : Int} {p q : BPlusTreePage}
    (hp : t.pages pid = some p) (h1 : q.page_type_ = p.page_type_)
    (h2 : q.max_size_ = p.max_size_) (hs : q.size_ ≤ p.max_size_) :
    SizeStep t (t.WritePage pid q) :=
  ⟨h.update (h.lt_next hp) (h.bound hp) h1 h2 hs, rfl, rfl, le_refl _⟩

theorem shapeAt_write (t : BPlusTree) (pid x : Int) (q : BPlusTreePage) :
    (t.WritePage pid q).shapeAt x =
      if x = pid then some (q.page_type_, q.size_, q.max_size_) else t.shapeAt x := by
  unfold shapeAt
  rw [WritePage_pages]
  split_ifs <;> rfl

theorem shapeAt_some {t : BPlusTree} {x : Int} {p : BPlusTreePage} (h : t.pages x = some p) :
    t.shapeAt x = some (p.page_type_, p.size_, p.max_size_) := by
  simp [shapeAt, h]

theorem shapeAt_eq_some {t : BPlusTree} {x : Int} {a : IndexPageType} {b c : Nat}
    (h : t.shapeAt x = some (a, b, c)) :
    ∃ p, t.pages x = some p ∧ p.page_type_ = a ∧ p.size_ = b ∧ p.max_size_ = c := by
  unfold shapeAt at h
  cases hp : t.pages x with
  | none => simp [hp] at h
  | some p =>
    simp only [hp, Option.map_some', Option.some.injEq, Prod.mk.injEq] at h
    exact ⟨p, rfl, h.1, h.2.1, h.2.2⟩

theorem reparent_SizeStep {t t1 : BPlusTree} {c par : Int} (h : SizeInv t)
    (e : t.reparent c par = some t1) : SizeStep t t1 ∧ ∀ x, t1.shapeAt x = t.shapeAt x := by
  unfold reparent at e
  split at e
  · simp at e
  · rename_i child hc
    simp only [Option.some.injEq] at e
    subst e
    refine ⟨SizeStep.step_write h hc rfl rfl (h.bound hc).1, ?_⟩
    intro x
    rw [shapeAt_write]
    split_ifs with c1
    · subst c1
      rw [shapeAt_some hc]
      rfl
    · rfl

theorem reparentLoop_SizeStep (self par : Int) :
    ∀ (n idx : Nat) (t t1 : BPlusTree), SizeInv t → reparentLoop self par n idx t = some t1 →
      SizeStep t t1 ∧ ∀ x, t1.shapeAt x = t.shapeAt x := by
  intro n
  induction n with
  | zero =>
    intro idx t t1 h e
    simp only [reparentLoop, Option.some.injEq] at e
    subst e
    exact ⟨SizeStep.step_refl h, fun _ => rfl⟩
  | succ n ih =>
    intro idx t t1 h e
    unfold reparentLoop at e
    split at e
    · simp at e
    · rename_i p hp
      split at e
      · simp at e
      · rename_i t2 ht2
        obtain ⟨a1, a2⟩ := reparent_SizeStep h ht2
        obtain ⟨b1, b2⟩ := ih _ _ _ a1.1 e
        exact ⟨a1.step_trans b1, fun x => (b2 x).trans (a2 x)⟩

theorem shapeAt_write_same {t : BPlusTree} {pid : Int} {p q : BPlusTreePage}
    (hp : t.pages pid = some p) (h1 : q.page_type_ = p.page_type_) (h2 : q.size_ = p.size_)
    (h3 : q.max_size_ = p.max_size_) (x : Int) : (t.WritePage pid q).shapeAt x = t.shapeAt x := by
  rw [shapeAt_write]
  split_ifs with c
  · subst c
    rw [shapeAt_some hp, h1, h2, h3]
  · rfl

theorem SizeStep.step_delete {t : BPlusTree} (h : SizeInv t) (pid : Int) :
    SizeStep t (t.DeletePage pid) :=
  ⟨h.delete pid, rfl, rfl, le_refl _⟩

theorem LeafMoveAllTo_SizeStep {t t1 : BPlusTree} {self recipient : Int} (h : SizeInv t)
    (hsum : ∀ p r, t.pages self = some p → t.pages recipient = some r →
      p.size_ + r.size_ ≤ r.max_size_)
    (e : t.LeafMoveAllTo self recipient = some t1) : SizeStep t t1 := by
  unfold LeafMoveAllTo at e
  split_ifs at e with hne
  simp only [Option.bind_eq_bind, Option.bind_eq_some, Option.some.injEq] at e
  obtain ⟨p, hp, r, hr, ⟨p1, r1⟩, hm, rfl⟩ := e
  obtain ⟨hp, _⟩ := FetchAs_some hp
  obtain ⟨hr, _⟩ := FetchAs_some hr
  obtain ⟨a1, a2, a3, a4, a5⟩ := BPlusTreeLeafPage.MoveAllTo_header hm
  have s1 := SizeStep.step_write h hr a3 a4 (by have := hsum p r hp hr; omega)
  have hp' : (t.WritePage recipient r1).pages self = some p := by
    rw [WritePage_pages, if_neg hne]
    exact hp
  exact s1.step_trans (SizeStep.step_write s1.1 hp' a1.1 a1.2.1 (by simp only; omega))

theorem InternalMoveAllTo_SizeStep {t t1 : BPlusTree} {self recipient : Int} (h : SizeInv t)
    (hsum : ∀ p r, t.pages self = some p → t.pages recipient = some r →
      p.size_ + r.size_ ≤ r.max_size_)
    (e : t.InternalMoveAllTo self recipient = some t1) : SizeStep t t1 := by
  unfold InternalMoveAllTo at e
  split_ifs at e with hne
  simp only [Option.bind_eq_bind, Option.bind_eq_some] at e
  obtain ⟨p, hp, _, _, r, hr, r1, hc, e⟩ := e
  obtain ⟨hp, _⟩ := FetchAs_some hp
  obtain ⟨hr, _⟩ := FetchAs_some hr
  obtain ⟨a1, a2⟩ := BPlusTreeInternalPage.InternalCopyAllFrom_header hc
  have s1 := SizeStep.step_write h hr a1.1 a1.2.1 (by have := hsum p r hp hr; omega)
  exact s1.step_trans (reparentLoop_SizeStep _ _ _ _ _ _ s1.1 e).1

theorem Coalesce_SizeStep {t t1 : BPlusTree} {N : IndexPageType}
    {neighbor_id node_id parent_id : Int} (h : SizeInv t)
    (hsum : ∀ p r, t.pages node_id = some p → t.pages neighbor_id = some r →
      p.size_ + r.size_ ≤ r.max_size_)
    (e : t.Coalesce N neighbor_id node_id parent_id = some t1) : SizeStep t t1 := by
  unfold Coalesce at e
  cases N
  · simp only [Option.bind_eq_bind, Option.bind_eq_some, Option.some.injEq] at e
    obtain ⟨t2, ht2, node, _, parent, hpar, parent1, hrem, node2, _, neighbor2, hn2, node3, _,
      rfl⟩ := e
    have s1 := LeafMoveAllTo_SizeStep h hsum ht2
    obtain ⟨hpar, _⟩ := FetchAs_some hpar
    obtain ⟨b1, b2⟩ := BPlusTreeInternalPage.Remove_header hrem
    have s2 := SizeStep.step_write s1.1 hpar b1.1 b1.2.1 (by have := (s1.1.bound hpar).1; omega)
    refine (s1.step_trans s2).step_trans ?_
    split_ifs
    · have s3 := SizeStep.step_write (q := BPlusTreeLeafPage.SetNextPageId neighbor2
        node2.next_page_id_) s2.1 hn2 rfl rfl (s2.1.bound hn2).1
      exact s3.step_trans (SizeStep.step_delete s3.1 _)
    · exact SizeStep.step_delete s2.1 _
  · simp only [Option.bind_eq_bind, Option.bind_eq_some, Option.some.injEq] at e
    obtain ⟨t2, ht2, node, _, parent, hpar, parent1, hrem, node2, _, neighbor2, hn2, node3, _,
      rfl⟩ := e
    have s1 := InternalMoveAllTo_SizeStep h hsum ht2
    obtain ⟨hpar, _⟩ := FetchAs_some hpar
    obtain ⟨b1, b2⟩ := BPlusTreeInternalPage.Remove_header hrem
    have s2 := SizeStep.step_write s1.1 hpar b1.1 b1.2.1 (by have := (s1.1.bound hpar).1; omega)
    exact (s1.step_trans s2).step_trans (SizeStep.step_delete s2.1 _)

theorem recipientRoom_page {t : BPlusTree} {x : Int} {r : BPlusTreePage}
    (h : recipientRoom t x) (hr : t.pages x = some r) : r.size_ + 1 ≤ r.max_size_ :=
  h _ _ _ (shapeAt_some hr)

theorem recipientRoom_congr {t t1 : BPlusTree} {x : Int} (h : recipientRoom t x)
    (e : t1.shapeAt x = t.shapeAt x) : recipientRoom t1 x := by
  intro a b c habc
  rw [e] at habc
  exact h a b c habc

theorem LeafMoveFirstToEndOf_SizeStep {t t1 : BPlusTree} {self recipient : Int}
    (h : SizeInv t) (hroom : recipientRoom t recipient)
    (e : t.LeafMoveFirstToEndOf self recipient = some t1) : SizeStep t t1 := by
  unfold LeafMoveFirstToEndOf at e
  split_ifs at e with hne
  simp only [Option.bind_eq_bind, Option.bind_eq_some, Option.some.injEq] at e
  obtain ⟨p, hp, p1, hp1, p2, hp2, r, hr, r1, hr1, parent, hpar, parent1, hset, rfl⟩ := e
  obtain ⟨hp, _⟩ := FetchAs_some hp
  obtain ⟨hr, _⟩ := FetchAs_some hr
  obtain ⟨hpar, _⟩ := FetchAs_some hpar
  obtain ⟨a1, a2, _, _⟩ := DecreaseSize_header hp1
  obtain ⟨b1, b2⟩ := memmove_header hp2
  obtain ⟨c1, c2⟩ := BPlusTreeLeafPage.CopyLastFrom_header hr1
  obtain ⟨d1, d2⟩ := BPlusTreeInternalPage.SetKeyAt_header hset
  have s1 := SizeStep.step_write h hp (a1.trans b1).1 (a1.trans b1).2.1
    (by have := (h.bound hp).1; omega)
  have hr' : (t.WritePage self p2).pages recipient = some r := by
    rw [WritePage_pages, if_neg (Ne.symm hne)]
    exact hr
  have s2 := SizeStep.step_write s1.1 hr' c1.1 c1.2.1 (by have := recipientRoom_page hroom hr; omega)
  have s3 := SizeStep.step_write s2.1 hpar d1.1 d1.2.1 (by have := (s2.1.bound hpar).1; omega)
  exact (s1.step_trans s2).step_trans s3

theorem LeafMoveLastToFrontOf_SizeStep {t t1 : BPlusTree} {self recipient : Int} {idx : Nat}
    (h : SizeInv t) (hroom : recipientRoom t recipient)
    (e : t.LeafMoveLastToFrontOf self recipient idx = some t1) : SizeStep t t1 := by
  unfold LeafMoveLastToFrontOf at e
  split_ifs at e with hne
  simp only [Option.bind_eq_bind, Option.bind_eq_some, Option.some.injEq] at e
  obtain ⟨p, hp, p1, hp1, r, hr, r1, hr1, r2, hr2, parent, hpar, parent1, hset, rfl⟩ := e
  obtain ⟨hp, _⟩ := FetchAs_some hp
  obtain ⟨hr, _⟩ := FetchAs_some hr
  obtain ⟨hpar, _⟩ := FetchAs_some hpar
  obtain ⟨a1, a2, _, _⟩ := DecreaseSize_header hp1
  obtain ⟨b1, b2⟩ := memmove_header hr1
  obtain ⟨c0, c1, _⟩ := IncreaseSize_header r1 1
  obtain ⟨c2, c3⟩ := setSlot_header hr2
  obtain ⟨d1, d2⟩ := BPlusTreeInternalPage.SetKeyAt_header hset
  have s1 := SizeStep.step_write h hp a1.1 a1.2.1 (by have := (h.bound hp).1; omega)
  have hr' : (t.WritePage self p1).pages recipient = some r := by
    rw [WritePage_pages, if_neg (Ne.symm hne)]
    exact hr
  have s2 := SizeStep.step_write s1.1 hr' ((b1.trans c0).trans c2).1 ((b1.trans c0).trans c2).2.1
    (by have := recipientRoom_page hroom hr; omega)
  have s3 := SizeStep.step_write s2.1 hpar d1.1 d1.2.1 (by have := (s2.1.bound hpar).1; omega)
  exact (s1.step_trans s2).step_trans s3

theorem InternalMoveFirstToEndOf_SizeStep {t t1 : BPlusTree} {self recipient : Int}
    (h : SizeInv t) (hroom : recipientRoom t recipient)
    (e : t.InternalMoveFirstToEndOf self recipient = some t1) : SizeStep t t1 := by
  unfold InternalMoveFirstToEndOf at e
  split_ifs at e with hne
  simp only [Option.bind_eq_bind, Option.bind_eq_some] at e
  obtain ⟨p, hp, p1, hp1, parent, hpar, parent1, hset, r, hr, r1, hr1, e⟩ := e
  obtain ⟨hp, _⟩ := FetchAs_some hp
  obtain ⟨hr, _⟩ := FetchAs_some hr
  obtain ⟨hpar, _⟩ := FetchAs_some hpar
  obtain ⟨a1, a2⟩ := BPlusTreeInternalPage.Remove_header hp1
  obtain ⟨c1, c2⟩ := BPlusTreeInternalPage.InternalCopyLastFrom_header hr1
  obtain ⟨d1, d2⟩ := BPlusTreeInternalPage.SetKeyAt_header hset
  have s1 := SizeStep.step_write h hp a1.1 a1.2.1 (by have := (h.bound hp).1; omega)
  have s2 := SizeStep.step_write s1.1 hpar d1.1 d1.2.1 (by have := (s1.1.bound hpar).1; omega)
  have hshape : ((t.WritePage self p1).WritePage p1.parent_page_id_ parent1).shapeAt recipient =
      t.shapeAt recipient := by
    rw [shapeAt_write_same hpar d1.1 d2 d1.2.1, shapeAt_write, if_neg (Ne.symm hne)]
  have s3 := SizeStep.step_write s2.1 hr c1.1 c1.2.1
    (by have := recipientRoom_page (recipientRoom_congr hroom hshape) hr; omega)
  exact ((s1.step_trans s2).step_trans s3).step_trans (reparent_SizeStep s3.1 e).1

theorem InternalMoveLastToFrontOf_SizeStep {t t1 : BPlusTree} {self recipient : Int}
    {idx : Nat} (h : SizeInv t) (hroom : recipientRoom t recipient)
    (e : t.InternalMoveLastToFrontOf self recipient idx = some t1) : SizeStep t t1 := by
  unfold InternalMoveLastToFrontOf at e
  split_ifs at e with hne
  simp only [Option.bind_eq_bind, Option.bind_eq_some] at e
  obtain ⟨p, hp, p1, hp1, r, hr, _, _, r1, hr1, r2, hr2, parent, hpar, parent1, hset, r3, hr3,
    e⟩ := e
  obtain ⟨hp, _⟩ := FetchAs_some hp
  obtain ⟨hr, _⟩ := FetchAs_some hr
  obtain ⟨hpar, _⟩ := FetchAs_some hpar
  obtain ⟨hr3, _⟩ := FetchAs_some hr3
  obtain ⟨a1, a2, _, _⟩ := DecreaseSize_header hp1
  obtain ⟨b1, b2⟩ := memmove_header hr1
  obtain ⟨c2, c3⟩ := setSlot_header hr2
  obtain ⟨d1, d2⟩ := BPlusTreeInternalPage.SetKeyAt_header hset
  have s1 := SizeStep.step_write h hp a1.1 a1.2.1 (by have := (h.bound hp).1; omega)
  have hr' : (t.WritePage self p1).pages recipient = some r := by
    rw [WritePage_pages, if_neg (Ne.symm hne)]
    exact hr
  have s2 := SizeStep.step_write s1.1 hr' (b1.trans c2).1 (b1.trans c2).2.1
    (by have := (h.bound hr).1; omega)
  have s3 := SizeStep.step_write s2.1 hpar d1.1 d1.2.1 (by have := (s2.1.bound hpar).1; omega)
  have hshape : (((t.WritePage self p1).WritePage recipient r2).WritePage r.parent_page_id_
      parent1).shapeAt recipient = t.shapeAt recipient := by
    rw [shapeAt_write_same hpar d1.1 d2 d1.2.1,
      shapeAt_write_same hr' (b1.trans c2).1 (by omega) (b1.trans c2).2.1, shapeAt_write,
      if_neg (Ne.symm hne)]
  have s4 := SizeStep.step_write (q := r3.IncreaseSize 1) s3.1 hr3 rfl rfl
    (by have := recipientRoom_page (recipientRoom_congr hroom hshape) hr3
        simp only [IncreaseSize]; omega)
  exact (((s1.step_trans s2).step_trans s3).step_trans s4).step_trans (reparent_SizeStep s4.1 e).1

theorem Redistribute_SizeStep {t t1 : BPlusTree} {N : IndexPageType} {neighbor_id node_id : Int}
    {index : Int} (h : SizeInv t) (hroom : recipientRoom t node_id)
    (e : t.Redistribute N neighbor_id node_id index = some t1) : SizeStep t t1 := by
  unfold Redistribute at e
  split_ifs at e
  · cases N
    · exact LeafMoveLastToFrontOf_SizeStep h hroom e
    · exact InternalMoveLastToFrontOf_SizeStep h hroom e
  · cases N
    · exact LeafMoveFirstToEndOf_SizeStep h hroom e
    · exact InternalMoveFirstToEndOf_SizeStep h hroom e
  · simp only [Option.some.injEq] at e
    subst e
    exact SizeStep.step_refl h

theorem AdjustRoot_SizeStep {t t1 : BPlusTree} {old_root_id : Int} (h : SizeInv t)
    (e : t.AdjustRoot old_root_id = some t1) : SizeStep t t1 := by
  unfold AdjustRoot at e
  simp only [Option.bind_eq_bind, Option.bind_eq_some] at e
  obtain ⟨tmp, _, e⟩ := e
  have s1 : SizeStep t
      (({ t with root_page_id_ := BPlusTreeInternalPage.ValueAt tmp 0 } : BPlusTree).DeletePage
        tmp.page_id_) :=
    SizeStep.step_delete (t := { t with root_page_id_ := BPlusTreeInternalPage.ValueAt tmp 0 }) h _
  exact s1.step_trans (reparent_SizeStep s1.1 e).1

theorem CoalesceOrRedistribute_SizeStep :
    ∀ (fuel : Nat) (t t1 : BPlusTree) (N : IndexPageType) (node_id : Int), SizeInv t →
      CoalesceOrRedistribute fuel t N node_id = some t1 → SizeStep t t1 := by
  intro fuel
  induction fuel with
  | zero => intro t t1 N node_id _ e; simp [CoalesceOrRedistribute] at e
  | succ fuel ih =>
    intro t t1 N node_id h e
    unfold CoalesceOrRedistribute at e
    simp only [Option.bind_eq_bind, Option.bind_eq_some] at e
    obtain ⟨node, hnode, e⟩ := e
    obtain ⟨hnode, hty⟩ := FetchAs_some hnode
    split_ifs at e with c1 c2 c3 c4
    · simp only [Option.some.injEq] at e
      subst e
      exact SizeStep.step_refl h
    · simp only [Option.some.injEq] at e
      subst e
      exact SizeStep.step_delete (t := { t with root_page_id_ := INVALID_PAGE_ID }) h _
    · exact AdjustRoot_SizeStep h e
    · simp only [Option.some.injEq] at e
      subst e
      exact SizeStep.step_refl h
    · simp only [Option.bind_eq_some] at e
      obtain ⟨parent, _, neighbor, hnb, e⟩ := e
      obtain ⟨hnb, hnty⟩ := FetchAs_some hnb
      have hmax : neighbor.max_size_ = node.max_size_ := by
        have b1 := (h.bound hnb).2
        have b2 := (h.bound hnode).2
        rw [hnty] at b1
        rw [hty] at b2
        rw [b1, b2]
      split_ifs at e with c5 c6 c7
      · simp only [Option.bind_eq_some] at e
        obtain ⟨t2, ht2, e⟩ := e
        have s1 : SizeStep t t2 := by
          apply Coalesce_SizeStep h _ ht2
          intro p r hp hr
          rw [if_pos c6] at hnb
          rw [hnb] at hp
          rw [hnode] at hr
          simp only [Option.some.injEq] at hp hr
          subst hp hr
          omega
        exact s1.step_trans (ih _ _ _ _ s1.1 e)
      · simp only [Option.bind_eq_some] at e
        obtain ⟨t2, ht2, e⟩ := e
        have s1 : SizeStep t t2 := by
          apply Coalesce_SizeStep h _ ht2
          intro p r hp hr
          rw [if_neg c6] at hnb
          rw [hnode] at hp
          rw [hnb] at hr
          simp only [Option.some.injEq] at hp hr
          subst hp hr
          omega
        exact s1.step_trans (ih _ _ _ _ s1.1 e)
      · apply Redistribute_SizeStep h _ e
        intro a b c habc
        rw [shapeAt_some hnode] at habc
        simp only [Option.some.injEq, Prod.mk.injEq] at habc
        omega
      · apply Redistribute_SizeStep h _ e
        intro a b c habc
        rw [shapeAt_some hnode] at habc
        simp only [Option.some.injEq, Prod.mk.injEq] at habc
        omega

theorem Remove_SizeStep {fuel : Nat} {t t1 : BPlusTree} {key : Int} (h : SizeInv t)
    (e : t.Remove fuel key = some t1) : SizeStep t t1 := by
  unfold Remove at e
  split_ifs at e
  · simp only [Option.some.injEq] at e
    subst e
    exact SizeStep.step_refl h
  · split at e
    · simp at e
    · rename_i leaf_id _
      split at e
      · simp at e
      · rename_i leaf hleaf
        obtain ⟨hleaf, _⟩ := FetchAs_some hleaf
        split_ifs at e
        · simp only [Option.some.injEq] at e
          subst e
          exact SizeStep.step_refl h
        · split at e
          · simp at e
          · rename_i leaf1 hleaf1
            obtain ⟨a1, a2, _⟩ := BPlusTreeLeafPage.RemoveAndDeleteRecord_header hleaf1
            have s1 := SizeStep.step_write h hleaf a1.1 a1.2.1 (by have := (h.bound hleaf).1; omega)
            exact s1.step_trans (CoalesceOrRedistribute_SizeStep _ _ _ _ _ s1.1 e)

end BPlusTree

end cmudb

namespace cmudb

open BPlusTreePage IndexPageType

namespace BPlusTree

theorem PageBound.max_internal {lm im : Nat} {p : BPlusTreePage} (h : PageBound lm im p)
    (hty : p.page_type_ = INTERNAL_PAGE) : p.max_size_ = im := by
  have := h.2
  rw [hty] at this
  exact this

theorem PageBound.max_leaf {lm im : Nat} {p : BPlusTreePage} (h : PageBound lm im p)
    (hty : p.page_type_ = LEAF_PAGE) : p.max_size_ = lm := by
  have := h.2
  rw [hty] at this
  exact this

theorem PageBound_leaf_init (lm im : Nat) (pid par : Int) :
    PageBound lm im (BPlusTreeLeafPage.Init lm pid par) :=
  ⟨Nat.zero_le _, rfl⟩

theorem PageBound_internal_init (lm im : Nat) (pid par : Int) (h : 1 ≤ im) :
    PageBound lm im (BPlusTreeInternalPage.Init im pid par) :=
  ⟨h, rfl⟩

theorem SizeStep.newPage_write {t : BPlusTree} (h : SizeInv t) {q : BPlusTreePage}
    (hq : PageBound t.leaf_max_size t.internal_max_size q) :
    SizeStep t (t.NewPage.2.WritePage t.NewPage.1 q) := by
  obtain ⟨a1, a2, a3, a4, a5, a6⟩ := h.newPage
  refine ⟨a1.write (by rw [a2, a3]; omega) (by rw [a5, a6]; exact hq), a5, a6, ?_⟩
  rw [WritePage_next, a3]
  omega

theorem SizeInv.pages_next {t : BPlusTree} (h : SizeInv t) : t.pages t.next_page_id = none := by
  cases hp : t.pages t.next_page_id with
  | none => rfl
  | some p =>
    have := h.lt_next hp
    omega

/-- `Split` of a leaf: both halves are leaves, the page keeps `size_ - size_ / 2`
slots and the new page holds `size_ / 2`. -/
theorem Split_leaf_SizeStep {t t1 : BPlusTree} {node_id new_id : Int} {node : BPlusTreePage}
    (h : SizeInv t) (hnode : t.pages node_id = some node) (hty : node.page_type_ = LEAF_PAGE)
    (e : t.Split LEAF_PAGE node_id = some (new_id, t1)) :
    SizeStep t t1 ∧ new_id ≠ node_id ∧
      t1.shapeAt node_id = some (LEAF_PAGE, node.size_ - node.size_ / 2, t.leaf_max_size) ∧
      t1.shapeAt new_id = some (LEAF_PAGE, node.size_ / 2, t.leaf_max_size) := by
  unfold Split at e
  simp only [Option.bind_eq_bind, Option.bind_eq_some, Option.some.injEq, Prod.mk.injEq] at e
  obtain ⟨node', hnode', ⟨node1, new1⟩, hm, rfl, rfl⟩ := e
  rw [hnode] at hnode'
  simp only [Option.some.injEq] at hnode'
  subst hnode'
  obtain ⟨a1, a2, _, a4, a5⟩ := BPlusTreeLeafPage.MoveHalfTo_header hm
  have hb := h.bound hnode
  have hmax : node.max_size_ = t.leaf_max_size := by
    have := hb.2
    rw [hty] at this
    exact this
  have hne : t.NewPage.1 ≠ node_id := by
    have := h.lt_next hnode
    simp only [NewPage]
    omega
  have s1 : SizeStep t (t.NewPage.2.WritePage t.NewPage.1 new1) := by
    apply SizeStep.newPage_write h
    refine ⟨?_, ?_⟩
    · rw [a5, a4.2.1]
      simp only [BPlusTreeLeafPage.Init]
      have := hb.1
      omega
    · rw [a4.1, a4.2.1]
      rfl
  have hnode1 : (t.NewPage.2.WritePage t.NewPage.1 new1).pages node_id = some node := by
    rw [WritePage_pages, if_neg (Ne.symm hne)]
    exact hnode
  have s2 := SizeStep.step_write s1.1 hnode1 a1.1 a1.2.1 (by rw [a2]; have := hb.1; omega)
  refine ⟨s1.step_trans s2, hne, ?_, ?_⟩
  · rw [shapeAt_write, if_pos rfl, a1.1, a2, a1.2.1, hty, hmax]
  · rw [shapeAt_write, if_neg hne, shapeAt_write, if_pos rfl, a4.1, a5, a4.2.1]
    simp [BPlusTreeLeafPage.Init]

theorem InternalMoveHalfTo_SizeStep {t t1 : BPlusTree} {self recipient : Int}
    {p r : BPlusTreePage} (h : SizeInv t) (hne : recipient ≠ self)
    (hp : t.pages self = some p) (hr : t.pages recipient = some r) (hrs : r.size_ = 1)
    (hpt : p.page_type_ = INTERNAL_PAGE) (hrt : r.page_type_ = INTERNAL_PAGE)
    (e : t.InternalMoveHalfTo self recipient = some t1) :
    SizeStep t t1 ∧
      t1.shapeAt self = some (INTERNAL_PAGE, p.size_ - p.size_ / 2, t.internal_max_size) ∧
      t1.shapeAt recipient = some (INTERNAL_PAGE, p.size_ / 2, t.internal_max_size) := by
  unfold InternalMoveHalfTo at e
  simp only [Option.bind_eq_bind, Option.bind_eq_some, Option.some.injEq] at e
  obtain ⟨p', hp', r', hr', r1, hr1, t2, ht2, p2, hp2, p3, hp3, rfl⟩ := e
  rw [hp] at hp'
  rw [hr] at hr'
  simp only [Option.some.injEq] at hp' hr'
  subst hp' hr'
  obtain ⟨a1, a2⟩ := BPlusTreeInternalPage.InternalCopyHalfFrom_header hr1
  obtain ⟨b1, b2, b3, _⟩ := DecreaseSize_header hp3
  have hbp := h.bound hp
  have hbr := h.bound hr
  have hpm : p.max_size_ = t.internal_max_size := by
    have := hbp.2
    rw [hpt] at this
    exact this
  have hrm : r.max_size_ = t.internal_max_size := by
    have := hbr.2
    rw [hrt] at this
    exact this
  have s1 := SizeStep.step_write h hr a1.1 a1.2.1 (by have := hbp.1; omega)
  obtain ⟨s2, hshape⟩ := reparentLoop_SizeStep _ _ _ _ _ _ s1.1 ht2
  have e1 : t2.shapeAt self = some (INTERNAL_PAGE, p.size_, t.internal_max_size) := by
    rw [hshape, shapeAt_write, if_neg (Ne.symm hne), shapeAt_some hp, hpt, hpm]
  have hr1s : r1.size_ = p.size_ / 2 := by omega
  have e2 : t2.shapeAt recipient = some (INTERNAL_PAGE, p.size_ / 2, t.internal_max_size) := by
    rw [hshape, shapeAt_write, if_pos rfl, a1.1, a1.2.1, hrt, hrm, hr1s]
  rw [shapeAt_some hp2] at e1
  simp only [Option.some.injEq, Prod.mk.injEq] at e1
  have s3 := SizeStep.step_write s2.1 hp2 b1.1 b1.2.1 (by have := (s2.1.bound hp2).1; omega)
  refine ⟨(s1.step_trans s2).step_trans s3, ?_, ?_⟩
  · rw [shapeAt_write, if_pos rfl, b1.1, b2, b1.2.1, e1.1, e1.2.1, e1.2.2]
  · rw [shapeAt_write, if_neg hne, e2]

theorem Split_internal_SizeStep {t t1 : BPlusTree} {node_id new_id : Int}
    {node : BPlusTreePage} (h : SizeInv t) (hnode : t.pages node_id = some node)
    (hty : node.page_type_ = INTERNAL_PAGE)
    (e : t.Split INTERNAL_PAGE node_id = some (new_id, t1)) :
    SizeStep t t1 ∧ new_id ≠ node_id ∧
      t1.shapeAt node_id =
        some (INTERNAL_PAGE, node.size_ - node.size_ / 2, t.internal_max_size) ∧
      t1.shapeAt new_id = some (INTERNAL_PAGE, node.size_ / 2, t.internal_max_size) := by
  unfold Split at e
  simp only [Option.bind_eq_bind, Option.bind_eq_some, Option.some.injEq, Prod.mk.injEq] at e
  obtain ⟨node', hnode', t2, ht2, rfl, rfl⟩ := e
  rw [hnode] at hnode'
  simp only [Option.some.injEq] at hnode'
  subst hnode'
  have hne : t.NewPage.1 ≠ node_id := by
    have := h.lt_next hnode
    simp only [NewPage]
    omega
  have s1 : SizeStep t (t.NewPage.2.WritePage t.NewPage.1
      (BPlusTreeInternalPage.Init t.internal_max_size t.NewPage.1 node.parent_page_id_)) :=
    SizeStep.newPage_write h (PageBound_internal_init _ _ _ _ (by have := h.2.1; omega))
  have hnode1 : (t.NewPage.2.WritePage t.NewPage.1
      (BPlusTreeInternalPage.Init t.internal_max_size t.NewPage.1
        node.parent_page_id_)).pages node_id = some node := by
    rw [WritePage_pages, if_neg (Ne.symm hne)]
    exact hnode
  have hnew1 : (t.NewPage.2.WritePage t.NewPage.1
      (BPlusTreeInternalPage.Init t.internal_max_size t.NewPage.1
        node.parent_page_id_)).pages t.NewPage.1 = some
        (BPlusTreeInternalPage.Init t.internal_max_size t.NewPage.1 node.parent_page_id_) := by
    rw [WritePage_pages, if_pos rfl]
  obtain ⟨s2, e1, e2⟩ := InternalMoveHalfTo_SizeStep s1.1 hne hnode1 hnew1 rfl hty rfl ht2
  exact ⟨s1.step_trans s2, hne, e1, e2⟩

theorem InsertIntoParent_SizeStep :
    ∀ (fuel : Nat) (t t1 : BPlusTree) (old_id new_id : Int) (key : Int), SizeInv t →
      InsertIntoParent fuel t old_id key new_id = some t1 → SizeStep t t1 := by
  intro fuel
  induction fuel with
  | zero => intro t t1 old_id new_id key _ e; simp [InsertIntoParent] at e
  | succ fuel ih =>
    intro t t1 old_id new_id key h e
    unfold InsertIntoParent at e
    simp only [Option.bind_eq_bind, Option.bind_eq_some] at e
    obtain ⟨old_node, hold, new_node, hnew, e⟩ := e
    split_ifs at e with c1
    · simp only [Option.bind_eq_some] at e
      obtain ⟨node1, hn1, node2, hn2, t3, ht3, e⟩ := e
      obtain ⟨a1, a2⟩ := BPlusTreeInternalPage.SetValueAt_header hn1
      obtain ⟨b1, b2, b3⟩ := BPlusTreeInternalPage.InsertNodeAfter_header hn2
      have s1 : SizeStep t (t.NewPage.2.WritePage t.NewPage.1 node2) := by
        apply SizeStep.newPage_write h
        refine ⟨?_, ?_⟩
        · rw [(a1.trans b1).2.1]
          simp only [BPlusTreeInternalPage.Init] at a2 ⊢
          have := h.2.1
          omega
        · rw [(a1.trans b1).1, (a1.trans b1).2.1]
          rfl
      have s2 := (reparent_SizeStep (t := ({ t.NewPage.2 with root_page_id_ := t.NewPage.1 } :
        BPlusTree).WritePage t.NewPage.1 node2) s1.1 ht3).1
      have s3 := (reparent_SizeStep s2.1 e).1
      exact (s1.step_trans s2).step_trans s3
    · simp only [Option.bind_eq_some] at e
      obtain ⟨parent, hpar, e⟩ := e
      obtain ⟨hpar, hpty⟩ := FetchAs_some hpar
      split_ifs at e with c2
      · simp only [Option.bind_eq_some, Option.some.injEq] at e
        obtain ⟨parent1, hins, rfl⟩ := e
        obtain ⟨b1, b2, b3⟩ := BPlusTreeInternalPage.InsertNodeAfter_header hins
        exact SizeStep.step_write h hpar b1.1 b1.2.1 (by omega)
      · simp only [Option.bind_eq_some] at e
        obtain ⟨⟨new_parent_id, t2⟩, hsplit, parent1, hp1, new_parent1, hnp1, e⟩ := e
        simp only at hp1 hnp1 e
        obtain ⟨s1, hne, e1, e2⟩ := Split_internal_SizeStep h hpar hpty hsplit
        have hfull : parent.size_ = t.internal_max_size := by
          have hb := h.bound hpar
          have := hb.max_internal hpty
          have := hb.1
          omega
        have him := h.2.1
        rw [shapeAt_some hp1] at e1
        rw [shapeAt_some hnp1] at e2
        simp only [Option.some.injEq, Prod.mk.injEq] at e1 e2
        split_ifs at e
        · simp only [Option.bind_eq_some, Option.map_eq_some'] at e
          obtain ⟨t3, ⟨q, hq, rfl⟩, new_parent2, _, e⟩ := e
          obtain ⟨b1, b2, b3⟩ := BPlusTreeInternalPage.InsertNodeAfter_header hq
          have s2 := SizeStep.step_write s1.1 hp1 b1.1 b1.2.1 (by omega)
          exact (s1.step_trans s2).step_trans (ih _ _ _ _ _ s2.1 e)
        · simp only [Option.bind_eq_some] at e
          obtain ⟨t3, ⟨np, hq, ht3⟩, new_parent2, _, e⟩ := e
          obtain ⟨b1, b2, b3⟩ := BPlusTreeInternalPage.InsertNodeAfter_header hq
          have s := SizeStep.step_write s1.1 hnp1 b1.1 b1.2.1 (by omega)
          have s2 := s.step_trans (reparent_SizeStep s.1 ht3).1
          exact (s1.step_trans s2).step_trans (ih _ _ _ _ _ s2.1 e)

theorem InsertIntoLeaf_SizeStep {fuel : Nat} {t t1 : BPlusTree} {key value : Int} {b : Bool}
    (h : SizeInv t) (e : t.InsertIntoLeaf fuel key value = some (b, t1)) : SizeStep t t1 := by
  unfold InsertIntoLeaf at e
  simp only [Option.bind_eq_bind, Option.bind_eq_some] at e
  obtain ⟨leaf_id, _, leaf, hleaf, e⟩ := e
  obtain ⟨hleaf, hty⟩ := FetchAs_some hleaf
  have hb := h.bound hleaf
  by_cases c1 : (BPlusTreeLeafPage.Lookup leaf key).isSome = true
  · rw [if_pos c1] at e
    simp only [Option.some.injEq, Prod.mk.injEq] at e
    rw [← e.2]
    exact SizeStep.step_refl h
  rw [if_neg c1] at e
  by_cases c2 : leaf.size_ < leaf.max_size_
  · rw [if_pos c2] at e
    simp only [Option.bind_eq_some, Option.some.injEq, Prod.mk.injEq] at e
    obtain ⟨leaf1, hins, _, rfl⟩ := e
    obtain ⟨a1, a2⟩ := BPlusTreeLeafPage.Insert_header hins
    exact SizeStep.step_write h hleaf a1.1 a1.2.1 (by omega)
  · rw [if_neg c2] at e
    simp only [Option.bind_eq_some] at e
    obtain ⟨⟨new_id, t2⟩, hsplit, leaf1, hl1, new1, hn1, e⟩ := e
    simp only at hl1 hn1 e
    obtain ⟨s1, hne, e1, e2⟩ := Split_leaf_SizeStep h hleaf hty hsplit
    have hfull : leaf.size_ = t.leaf_max_size := by
      have := hb.max_leaf hty
      have := hb.1
      omega
    have hlm := h.1
    rw [shapeAt_some hl1] at e1
    rw [shapeAt_some hn1] at e2
    simp only [Option.some.injEq, Prod.mk.injEq] at e1 e2
    have key_step : ∀ t3 : BPlusTree, SizeStep t2 t3 →
        (do
          let leaf2 ← t3.pages leaf_id
          let new2 ← t3.pages new_id
          let t4 := t3.WritePage new_id (BPlusTreeLeafPage.SetNextPageId new2 leaf2.next_page_id_)
          let leaf3 ← t4.pages leaf_id
          let t5 := t4.WritePage leaf_id (BPlusTreeLeafPage.SetNextPageId leaf3 new2.page_id_)
          let new4 ← t5.pages new_id
          let t6 ← InsertIntoParent fuel t5 leaf_id (BPlusTreeLeafPage.KeyAt new4 0) new_id
          some (true, t6)) = some (b, t1) → SizeStep t2 t1 := by
      intro t3 s2 e
      simp only [Option.bind_eq_bind, Option.bind_eq_some, Option.some.injEq,
        Prod.mk.injEq] at e
      obtain ⟨leaf2, _, new2, hn2, leaf3, hl3, new4, _, t6, ht6, _, rfl⟩ := e
      have s3 := SizeStep.step_write (q := BPlusTreeLeafPage.SetNextPageId new2 leaf2.next_page_id_)
        s2.1 hn2 rfl rfl (s2.1.bound hn2).1
      have s4 := SizeStep.step_write (q := BPlusTreeLeafPage.SetNextPageId leaf3 new2.page_id_)
        s3.1 hl3 rfl rfl (s3.1.bound hl3).1
      exact ((s2.step_trans s3).step_trans s4).step_trans (InsertIntoParent_SizeStep _ _ _ _ _ _ s4.1 ht6)
    by_cases c3 : comparator key (BPlusTreeLeafPage.KeyAt new1 0) < 0
    · rw [if_pos c3] at e
      simp only [Option.bind_eq_bind, Option.bind_eq_some, Option.map_eq_some'] at e
      obtain ⟨t3, ⟨q, hq, rfl⟩, e⟩ := e
      obtain ⟨a1, a2⟩ := BPlusTreeLeafPage.Insert_header hq
      have s2 := SizeStep.step_write s1.1 hl1 a1.1 a1.2.1 (by omega)
      apply s1.step_trans (key_step _ s2 _)
      simp only [Option.bind_eq_bind, Option.bind_eq_some]
      exact e
    · rw [if_neg c3] at e
      simp only [Option.bind_eq_bind, Option.bind_eq_some, Option.map_eq_some'] at e
      obtain ⟨t3, ⟨q, hq, rfl⟩, e⟩ := e
      obtain ⟨a1, a2⟩ := BPlusTreeLeafPage.Insert_header hq
      have s2 := SizeStep.step_write s1.1 hn1 a1.1 a1.2.1 (by omega)
      apply s1.step_trans (key_step _ s2 _)
      simp only [Option.bind_eq_bind, Option.bind_eq_some]
      exact e

theorem StartNewTree_SizeStep {t t1 : BPlusTree} {key value : Int} (h : SizeInv t)
    (e : t.StartNewTree key value = some t1) : SizeStep t t1 := by
  unfold StartNewTree at e
  simp only at e
  split at e
  · simp at e
  · rename_i node1 hnode1
    simp only [Option.some.injEq] at e
    subst e
    obtain ⟨a1, a2⟩ := BPlusTreeLeafPage.Insert_header hnode1
    have hlm := h.1
    apply SizeStep.newPage_write (t := t) h
    refine ⟨?_, ?_⟩
    · rw [a2, a1.2.1]
      simp only [BPlusTreeLeafPage.Init]
      omega
    · rw [a1.1, a1.2.1]
      rfl

theorem Insert_SizeStep {fuel : Nat} {t t1 : BPlusTree} {key value : Int} {b : Bool}
    (h : SizeInv t) (e : t.Insert fuel key value = some (b, t1)) : SizeStep t t1 := by
  unfold Insert at e
  split_ifs at e
  · split at e
    · simp at e
    · rename_i t2 ht2
      simp only [Option.some.injEq, Prod.mk.injEq] at e
      rw [← e.2]
      exact StartNewTree_SizeStep h ht2
  · exact InsertIntoLeaf_SizeStep h e

theorem applyOp_SizeStep {fuel : Nat} {t t1 : BPlusTree} {op : Op} (h : SizeInv t)
    (e : applyOp fuel t op = some t1) : SizeStep t t1 := by
  cases op with
  | insert key value =>
    simp only [applyOp, Option.map_eq_some'] at e
    obtain ⟨⟨b, t2⟩, h2, rfl⟩ := e
    exact Insert_SizeStep h h2
  | remove key => exact Remove_SizeStep h e

theorem run_SizeInv (fuel : Nat) : ∀ (ops : List Op) (t t1 : BPlusTree), SizeInv t →
    run fuel t ops = some t1 → SizeInv t1 := by
  intro ops
  induction ops with
  | nil =>
    intro t t1 h e
    simp only [run, Option.some.injEq] at e
    subst e
    exact h
  | cons op ops ih =>
    intro t t1 h e
    unfold run at e
    split at e
    · simp at e
    · rename_i t2 ht2
      exact ih t2 t1 (applyOp_SizeStep h ht2).1 e

theorem empty_SizeInv (leaf_max_size internal_max_size : Nat) (h1 : 2 ≤ leaf_max_size)
    (h2 : 2 ≤ internal_max_size) : SizeInv (empty leaf_max_size internal_max_size) :=
  ⟨h1, h2, fun _ _ h => by simp [empty] at h, fun _ _ h => by simp [empty] at h⟩

/-- Every state that a sequence of `Insert` and `Remove` calls on the empty tree
(capacities at least 2) ends in has all its pages, leaf or internal, within `max_size_`
slots, and `max_size_` is the capacity of the page type.  The statement is about the
runs that have a result; a run in which a call stores outside a slot array or fetches a
page that is not in the pool has none. -/
theorem run_size_le_max_size (leaf_max_size internal_max_size fuel : Nat) (ops : List Op)
    (t : BPlusTree) (h1 : 2 ≤ leaf_max_size) (h2 : 2 ≤ internal_max_size)
    (hrun : run fuel (empty leaf_max_size internal_max_size) ops = some t) :
    ∀ page_id p, t.pages page_id = some p →
      p.size_ ≤ p.max_size_ ∧
        p.max_size_ = (match p.page_type_ with
          | LEAF_PAGE => leaf_max_size
          | INTERNAL_PAGE => internal_max_size) := by
  intro page_id p hp
  have hinv := run_SizeInv fuel ops _ t (empty_SizeInv _ _ h1 h2) hrun
  have hcfg : ∀ (ops : List Op) (t0 t1 : BPlusTree), SizeInv t0 → run fuel t0 ops = some t1 →
      t1.leaf_max_size = t0.leaf_max_size ∧ t1.internal_max_size = t0.internal_max_size := by
    intro ops
    induction ops with
    | nil =>
      intro t0 t1 _ e
      simp only [run, Option.some.injEq] at e
      subst e
      exact ⟨rfl, rfl⟩
    | cons op ops ih =>
      intro t0 t1 h0 e
      unfold run at e
      split at e
      · simp at e
      · rename_i t2 ht2
        have s := applyOp_SizeStep h0 ht2
        have := ih t2 t1 s.1 e
        exact ⟨this.1.trans s.2.1, this.2.trans s.2.2.1⟩
  have hc := hcfg ops _ t (empty_SizeInv _ _ h1 h2) hrun
  have hb := hinv.bound hp
  rw [hc.1, hc.2] at hb
  exact hb

/-- The run of five inserts and one removal with capacities 4 has a result, and every
page of its final state is within its capacity. -/
theorem run_size_le_max_size_six_calls :
    2 ≤ 4 ∧
    (run 2 (empty 4 4)
      [Op.insert 1 10, Op.insert 2 20, Op.insert 3 30, Op.insert 4 40, Op.insert 5 50,
        Op.remove 5]).isSome = true ∧
    ∀ t, run 2 (empty 4 4)
      [Op.insert 1 10, Op.insert 2 20, Op.insert 3 30, Op.insert 4 40, Op.insert 5 50,
        Op.remove 5] = some t →
      ∀ page_id p, t.pages page_id = some p →
        p.size_ ≤ p.max_size_ ∧
        p.max_size_ = (match p.page_type_ with
          | LEAF_PAGE => 4
          | INTERNAL_PAGE => 4) :=
  ⟨by decide, by decide,
    fun t ht => run_size_le_max_size 4 4 2 _ t (by decide) (by decide) ht⟩

end BPlusTree

end cmudb

namespace cmudb

open BPlusTreePage IndexPageType

namespace BPlusTree

/-! ## Lists of slots -/

theorem slotsOk_mono (Q Q1 : Int → Option Int → Option Int → Prop) :
    ∀ (l : List MappingType) (lo hi : Option Int),
      (∀ c ∈ l.map Prod.snd, ∀ lo1 hi1, Q c lo1 hi1 → Q1 c lo1 hi1) →
      slotsOk Q l lo hi → slotsOk Q1 l lo hi := by
  intro l
  induction l with
  | nil => intro lo hi _ _; trivial
  | cons s rest ih =>
    intro lo hi hm hs
    cases rest with
    | nil =>
      simp only [slotsOk] at hs ⊢
      exact hm s.2 (by simp) _ _ hs
    | cons s1 rest1 =>
      simp only [slotsOk] at hs ⊢
      refine ⟨hm s.2 (by simp) _ _ hs.1, ih _ _ ?_ hs.2⟩
      intro c hc
      exact hm c (by simp only [List.map_cons, List.mem_cons] at hc ⊢; right; exact hc)

theorem slotsOk_first (Q : Int → Option Int → Option Int → Prop) (s : MappingType)
    (rest : List MappingType) (lo hi : Option Int) (h : slotsOk Q (s :: rest) lo hi) :
    ∃ hi1, Q s.2 lo hi1 := by
  cases rest with
  | nil => exact ⟨hi, h⟩
  | cons s1 rest1 => exact ⟨_, h.1⟩

/-- Inserting the pair `(key, new)` right after the slot of `old` splits the range of
`old` at `key`. -/
theorem slotsOk_insert_after (Q Q1 : Int → Option Int → Option Int → Prop)
    (old key new : Int) (s : MappingType) (hs : s.2 = old) (L2 : List MappingType)
    (hold : ∀ lo hi, Q old lo hi → Q1 old lo (some key) ∧ Q1 new (some key) hi)
    (h2 : ∀ c ∈ L2.map Prod.snd, ∀ lo hi, Q c lo hi → Q1 c lo hi) :
    ∀ (L1 : List MappingType) (lo hi : Option Int),
      (∀ c ∈ L1.map Prod.snd, ∀ lo hi, Q c lo hi → Q1 c lo hi) →
      slotsOk Q (L1 ++ s :: L2) lo hi → slotsOk Q1 (L1 ++ s :: (key, new) :: L2) lo hi := by
  have hL2 : ∀ lo hi, slotsOk Q L2 lo hi → slotsOk Q1 L2 lo hi := by
    intro lo hi
    exact slotsOk_mono Q Q1 L2 lo hi h2
  intro L1
  induction L1 with
  | nil =>
    intro lo hi _ h
    simp only [List.nil_append] at h ⊢
    cases L2 with
    | nil =>
      simp only [slotsOk, hs] at h ⊢
      exact hold _ _ h
    | cons s2 L3 =>
      simp only [slotsOk, hs] at h ⊢
      obtain ⟨a, b⟩ := hold _ _ h.1
      exact ⟨a, b, hL2 _ _ h.2⟩
  | cons a L1 ih =>
    intro lo hi h1 h
    have ha : ∀ lo hi, Q a.2 lo hi → Q1 a.2 lo hi := h1 a.2 (by simp)
    have h1' : ∀ c ∈ L1.map Prod.snd, ∀ lo hi, Q c lo hi → Q1 c lo hi := by
      intro c hc
      apply h1
      simp only [List.map_cons, List.mem_cons]
      right
      exact hc
    cases L1 with
    | nil =>
      have h' : Q a.2 lo (some s.1) ∧ slotsOk Q ([] ++ s :: L2) (some s.1) hi := h
      exact ⟨ha _ _ h'.1, ih _ _ (by simp) h'.2⟩
    | cons b L1 =>
      have h' : Q a.2 lo (some b.1) ∧ slotsOk Q ((b :: L1) ++ s :: L2) (some b.1) hi := h
      exact ⟨ha _ _ h'.1, ih _ _ h1' h'.2⟩

/-- The slots before and from a position on are well-formed on the two parts of the range
cut at the key of that position. -/
theorem slotsOk_split (Q : Int → Option Int → Option Int → Prop) (u : MappingType)
    (U : List MappingType) :
    ∀ (A : List MappingType) (lo hi : Option Int), A ≠ [] →
      slotsOk Q (A ++ u :: U) lo hi →
        slotsOk Q A lo (some u.1) ∧ slotsOk Q (u :: U) (some u.1) hi := by
  intro A
  induction A with
  | nil => intro lo hi h; exact absurd rfl h
  | cons a A ih =>
    intro lo hi _ h
    cases A with
    | nil =>
      simp only [List.cons_append, List.nil_append, slotsOk] at h ⊢
      exact h
    | cons b A =>
      have h' : Q a.2 lo (some b.1) ∧ slotsOk Q ((b :: A) ++ u :: U) (some b.1) hi := h
      have := ih _ _ (by simp) h'.2
      exact ⟨⟨h'.1, this.1⟩, this.2⟩

end BPlusTree

end cmudb

namespace cmudb

open BPlusTreePage IndexPageType

namespace BPlusTree

/-! ## Descent through the pages of a tree that satisfies the invariant -/

theorem PageOk.size_le_len {t : BPlusTree} {G : Ghost} {pend : Pending} {x : Int}
    {p : BPlusTreePage} (h : PageOk t G pend x p) : p.size_ ≤ p.array.length := by
  rw [h.len]
  exact h.size_le

theorem effHi_none (G : Ghost) (c : Int) : effHi G none c = G.hi c := rfl

theorem live_ne_nil {p : BPlusTreePage} (h1 : 1 ≤ p.size_) (hlen : p.size_ ≤ p.array.length) :
    p.live ≠ [] := by
  intro e
  have := live_length p hlen
  rw [e] at this
  simp at this
  omega

theorem live_head {p : BPlusTreePage} (h1 : 1 ≤ p.size_) (hlen : p.size_ ≤ p.array.length) :
    ∃ rest, p.live = p.slot 0 :: rest := by
  have hl := live_length p hlen
  cases e : p.live with
  | nil => rw [e] at hl; simp at hl; omega
  | cons a rest =>
    refine ⟨rest, ?_⟩
    have := live_getElem p 0 (by omega)
    simp only [e, List.getElem_cons_zero] at this
    rw [this]

theorem FindLeafPage_ghost {t : BPlusTree} {G : Ghost} (inv : Inv t G none) (key : Int)
    (leftMost : Bool) :
    ∀ (n : Nat) (page_id : Int) (p : BPlusTreePage) (fuel : Nat), G.lv page_id = n →
      t.pages page_id = some p →
      (leftMost = false → inRange (G.lo page_id) (G.hi page_id) key) → n < fuel →
      ∃ leaf lp, FindLeafPage t key leftMost fuel page_id = some leaf ∧
        t.pages leaf = some lp ∧ lp.page_type_ = LEAF_PAGE ∧
        (leftMost = false → inRange (G.lo leaf) (G.hi leaf) key) ∧
        (leftMost = true → G.lo leaf = G.lo page_id) := by
  intro n
  induction n with
  | zero =>
    intro page_id p fuel hn hp hr hf
    obtain ⟨fuel, rfl⟩ : ∃ f, fuel = f + 1 := ⟨fuel - 1, by omega⟩
    have ok := inv.page _ _ hp
    have hty : p.page_type_ = LEAF_PAGE := by
      cases e : p.page_type_ with
      | LEAF_PAGE => rfl
      | INTERNAL_PAGE => have := (ok.internal e).1; omega
    refine ⟨page_id, p, ?_, hp, hty, hr, fun _ => rfl⟩
    unfold FindLeafPage
    simp [hp, IsLeafPage, hty]
  | succ n ih =>
    intro page_id p fuel hn hp hr hf
    obtain ⟨fuel, rfl⟩ : ∃ f, fuel = f + 1 := ⟨fuel - 1, by omega⟩
    have ok := inv.page _ _ hp
    have hty : p.page_type_ = INTERNAL_PAGE := by
      cases e : p.page_type_ with
      | LEAF_PAGE => have := (ok.leaf e).1; omega
      | INTERNAL_PAGE => rfl
    obtain ⟨_, _, h1, hs, _⟩ := ok.internal hty
    have hlen := ok.size_le_len
    have hne := live_ne_nil h1 hlen
    by_cases hl : leftMost = true
    · obtain ⟨rest, hrest⟩ := live_head h1 hlen
      rw [hrest] at hs
      obtain ⟨hi1, cp, hc1, _, hc3, hc4, _⟩ := slotsOk_first _ _ _ _ _ hs
      obtain ⟨leaf, lp, e1, e2, e3, e4, e5⟩ :=
        ih (p.slot 0).2 cp fuel (by omega) hc1 (by intro h; rw [hl] at h; cases h) (by omega)
      refine ⟨leaf, lp, ?_, e2, e3, e4, ?_⟩
      · unfold FindLeafPage
        simp only [hp, IsLeafPage, hty]
        rw [hl] at e1 ⊢
        simpa [BPlusTreeInternalPage.ValueAt] using e1
      · intro _
        rw [e5 hl, hc4]
    · have hl : leftMost = false := by simpa using hl
      obtain ⟨lo1, hi1, ⟨cp, hc1, _, hc3, hc4, hc5⟩, hin⟩ :=
        route_spec _ key p.live _ _ hne hs (hr hl)
      rw [effHi_none] at hc5
      obtain ⟨leaf, lp, e1, e2, e3, e4, e5⟩ :=
        ih (route key p.live) cp fuel (by omega) hc1
          (by intro _; rw [hc4, hc5]; exact hin) (by omega)
      refine ⟨leaf, lp, ?_, e2, e3, e4, by intro h; rw [hl] at h; cases h⟩
      unfold FindLeafPage
      simp only [hp, IsLeafPage, hty]
      simp only [BPlusTreeInternalPage.Lookup_eq_route p key h1 hlen]
      rw [hl] at e1 ⊢
      simpa using e1

/-! ## The chain of the leaves -/

theorem chainOk_ne_nil {t : BPlusTree} {G : Ghost} {ls : List Int} {lo : Option Int}
    (h : chainOk t G ls lo) : ls ≠ [] := by
  intro e
  subst e
  exact h

theorem chainOk_head {t : BPlusTree} {G : Ghost} {l : Int} {rest : List Int} {lo : Option Int}
    (h : chainOk t G (l :: rest) lo) :
    ∃ p, t.pages l = some p ∧ p.page_type_ = LEAF_PAGE ∧ G.lo l = lo := by
  cases rest with
  | nil =>
    obtain ⟨p, a, b, _, c, _⟩ := h
    exact ⟨p, a, b, c⟩
  | cons l1 rest =>
    obtain ⟨p, s, a, b, _, c, _⟩ := h
    exact ⟨p, a, b, c⟩

theorem chainOk_leaf {t : BPlusTree} {G : Ghost} :
    ∀ (ls : List Int) (lo : Option Int), chainOk t G ls lo →
      ∀ l ∈ ls, ∃ p, t.pages l = some p ∧ p.page_type_ = LEAF_PAGE := by
  intro ls
  induction ls with
  | nil => intro lo h; exact absurd h id
  | cons a rest ih =>
    intro lo h l hl
    rcases List.mem_cons.1 hl with e | hl
    · subst e
      obtain ⟨p, a, b, _⟩ := chainOk_head h
      exact ⟨p, a, b⟩
    · cases rest with
      | nil => simp at hl
      | cons l1 rest =>
        obtain ⟨p, s, _, _, _, _, _, hc⟩ := h
        exact ih _ hc l hl

/-- The chain only depends on the types and `next_page_id_` of the leaves and on their
ranges. -/
theorem chainOk_congr {t t1 : BPlusTree} {G G1 : Ghost} :
    ∀ (ls : List Int) (lo : Option Int),
      (∀ l ∈ ls, ∀ p, t.pages l = some p → ∃ p1, t1.pages l = some p1 ∧
        p1.page_type_ = p.page_type_ ∧ p1.next_page_id_ = p.next_page_id_) →
      (∀ l ∈ ls, G1.lo l = G.lo l ∧ G1.hi l = G.hi l) →
      chainOk t G ls lo → chainOk t1 G1 ls lo := by
  intro ls
  induction ls with
  | nil => intro lo _ _ h; exact absurd h id
  | cons a rest ih =>
    intro lo hp hg h
    cases rest with
    | nil =>
      obtain ⟨p, a1, a2, a3, a4, a5⟩ := h
      obtain ⟨p1, b1, b2, b3⟩ := hp a (by simp) p a1
      obtain ⟨g1, g2⟩ := hg a (by simp)
      exact ⟨p1, b1, b2.trans a2, b3.trans a3, g1.trans a4, g2.trans a5⟩
    | cons l1 rest =>
      obtain ⟨p, s, a1, a2, a3, a4, a5, hc⟩ := h
      obtain ⟨p1, b1, b2, b3⟩ := hp a (by simp) p a1
      obtain ⟨g1, g2⟩ := hg a (by simp)
      refine ⟨p1, s, b1, b2.trans a2, b3.trans a3, g1.trans a4, g2.trans a5, ?_⟩
      apply ih _ _ _ hc
      · intro l hl
        exact hp l (List.mem_cons_of_mem _ hl)
      · intro l hl
        exact hg l (List.mem_cons_of_mem _ hl)

end BPlusTree

end cmudb

namespace cmudb

open BPlusTreePage IndexPageType

namespace BPlusTree

/-! ## Contents of the chain of the leaves -/

theorem contents_cons {t : BPlusTree} {l : Int} {p : BPlusTreePage} (rest : List Int)
    (h : t.pages l = some p) : contents t (l :: rest) = p.live ++ contents t rest := by
  unfold contents
  rw [List.flatMap_cons]
  simp only [h]

theorem contents_append (t : BPlusTree) (A B : List Int) :
    contents t (A ++ B) = contents t A ++ contents t B := by
  unfold contents
  rw [List.flatMap_append]

theorem contents_congr {t t1 : BPlusTree} :
    ∀ (ls : List Int), (∀ l ∈ ls, (t1.pages l).map live = (t.pages l).map live) →
      contents t1 ls = contents t ls := by
  intro ls
  induction ls with
  | nil => intro _; rfl
  | cons a rest ih =>
    intro h
    have ha := h a (by simp)
    have hr := ih (fun l hl => h l (List.mem_cons_of_mem _ hl))
    unfold contents at hr ⊢
    rw [List.flatMap_cons, List.flatMap_cons, hr]
    congr 1
    cases e1 : t1.pages a with
    | none =>
      cases e : t.pages a with
      | none => rfl
      | some p => rw [e1, e] at ha; simp at ha
    | some p1 =>
      cases e : t.pages a with
      | none => rw [e1, e] at ha; simp at ha
      | some p =>
        rw [e1, e] at ha
        simpa using ha

theorem mem_contents {t : BPlusTree} {ls : List Int} {l : Int} {p : BPlusTreePage}
    (hl : l ∈ ls) (hp : t.pages l = some p) : ∀ kv ∈ p.live, kv ∈ contents t ls := by
  intro kv hkv
  unfold contents
  rw [List.mem_flatMap]
  refine ⟨l, hl, ?_⟩
  simp only [hp]
  exact hkv

theorem walkFrom_chain {t : BPlusTree} {G : Ghost}
    (halloc : ∀ x p, t.pages x = some p → 0 < x) :
    ∀ (ls : List Int) (lo : Option Int) (fuel : Nat), chainOk t G ls lo → ls.length ≤ fuel →
      ∃ l rest, ls = l :: rest ∧ walkFrom t fuel l 0 = some (contents t ls) := by
  intro ls
  induction ls with
  | nil => intro lo fuel h; exact absurd h id
  | cons a rest ih =>
    intro lo fuel h hf
    refine ⟨a, rest, rfl, ?_⟩
    obtain ⟨fuel, rfl⟩ : ∃ f, fuel = f + 1 := ⟨fuel - 1, by simp at hf; omega⟩
    cases rest with
    | nil =>
      obtain ⟨p, a1, a2, a3, _, _⟩ := h
      unfold walkFrom
      simp [FetchAs, a1, a2, a3, contents_cons [] a1, contents]
    | cons l1 rest =>
      obtain ⟨p, s, a1, a2, a3, _, _, hc⟩ := h
      obtain ⟨l, rest1, e, hw⟩ := ih _ fuel hc (by simp at hf ⊢; omega)
      simp only [List.cons.injEq] at e
      obtain ⟨q, hq, _⟩ := chainOk_head hc
      have hne : l1 ≠ INVALID_PAGE_ID := by
        have := halloc _ _ hq
        unfold INVALID_PAGE_ID
        omega
      rw [← e.1] at hw
      unfold walkFrom
      simp only [FetchAs, a1, a2, a3, if_true, hne, if_false, hw, List.drop_zero]
      rw [contents_cons _ a1]

/-- The ranges of the leaves of a chain start at or after the start of the chain. -/
theorem chainOk_lo_ge {t : BPlusTree} {G : Ghost}
    (hr : ∀ l p, t.pages l = some p → loLtHi (G.lo l) (G.hi l)) :
    ∀ (ls : List Int) (lo : Option Int), chainOk t G ls lo →
      ∀ x ∈ ls, ∀ a, lo = some a → ∃ b, G.lo x = some b ∧ a ≤ b := by
  intro ls
  induction ls with
  | nil => intro lo h; exact absurd h id
  | cons l rest ih =>
    intro lo h x hx a ha
    rcases List.mem_cons.1 hx with e | hx
    · subst e
      obtain ⟨p, _, _, c⟩ := chainOk_head h
      exact ⟨a, by rw [c, ha], le_refl _⟩
    · cases rest with
      | nil => simp at hx
      | cons l1 rest =>
        obtain ⟨p, s, a1, _, _, a4, a5, hc⟩ := h
        obtain ⟨b, hb, hsb⟩ := ih _ hc x hx s rfl
        have := hr _ _ a1 a s (by rw [a4, ha]) a5
        exact ⟨b, hb, by omega⟩

theorem chainOk_unique {t : BPlusTree} {G : Ghost}
    (hr : ∀ l p, t.pages l = some p → loLtHi (G.lo l) (G.hi l)) (key : Int) :
    ∀ (ls : List Int) (lo : Option Int), chainOk t G ls lo →
      ∀ x ∈ ls, ∀ y ∈ ls, inRange (G.lo x) (G.hi x) key → inRange (G.lo y) (G.hi y) key →
        x = y := by
  intro ls
  induction ls with
  | nil => intro lo h; exact absurd h id
  | cons l rest ih =>
    intro lo h x hx y hy rx ry
    cases rest with
    | nil =>
      simp only [List.mem_singleton] at hx hy
      rw [hx, hy]
    | cons l1 rest =>
      obtain ⟨p, s, a1, _, _, a4, a5, hc⟩ := h
      have key_lt : ∀ z ∈ l1 :: rest, inRange (G.lo z) (G.hi z) key → s ≤ key := by
        intro z hz rz
        obtain ⟨b, hb, hsb⟩ := chainOk_lo_ge hr _ _ hc z hz s rfl
        have := rz.1 b hb
        omega
      rcases List.mem_cons.1 hx with ex | hx1
      · rcases List.mem_cons.1 hy with ey | hy1
        · rw [ex, ey]
        · subst ex
          have := key_lt y hy1 ry
          have := rx.2 s a5
          omega
      · rcases List.mem_cons.1 hy with ey | hy1
        · subst ey
          have := key_lt x hx1 rx
          have := ry.2 s a5
          omega
        · exact ih _ hc x hx1 y hy1 rx ry

/-- The leaf whose range has no lower end is the first leaf of the chain. -/
theorem chainOk_first {t : BPlusTree} {G : Ghost}
    (hr : ∀ l p, t.pages l = some p → loLtHi (G.lo l) (G.hi l))
    {l : Int} {rest : List Int} {lo : Option Int} (h : chainOk t G (l :: rest) lo)
    {x : Int} (hx : x ∈ l :: rest) (hlo : G.lo x = none) : x = l := by
  rcases List.mem_cons.1 hx with e | hx
  · exact e
  · cases rest with
    | nil => simp at hx
    | cons l1 rest =>
      obtain ⟨p, s, _, _, _, _, _, hc⟩ := h
      obtain ⟨b, hb, _⟩ := chainOk_lo_ge hr _ _ hc x hx s rfl
      rw [hlo] at hb
      cases hb

theorem chainOk_sorted {t : BPlusTree} {G : Ghost}
    (hr : ∀ l p, t.pages l = some p → loLtHi (G.lo l) (G.hi l))
    (hpage : ∀ l p, t.pages l = some p → p.page_type_ = LEAF_PAGE →
      (p.live.map Prod.fst).Pairwise (· < ·) ∧ ∀ kv ∈ p.live, inRange (G.lo l) (G.hi l) kv.1) :
    ∀ (ls : List Int) (lo : Option Int), chainOk t G ls lo →
      ((contents t ls).map Prod.fst).Pairwise (· < ·) ∧
        ∀ kv ∈ contents t ls, ∀ a, lo = some a → a ≤ kv.1 := by
  intro ls
  induction ls with
  | nil => intro lo h; exact absurd h id
  | cons l rest ih =>
    intro lo h
    cases rest with
    | nil =>
      obtain ⟨p, a1, a2, _, a4, _⟩ := h
      obtain ⟨s1, s2⟩ := hpage _ _ a1 a2
      rw [contents_cons _ a1]
      simp only [contents, List.flatMap_nil, List.append_nil]
      refine ⟨s1, ?_⟩
      intro kv hkv a ha
      exact (s2 kv hkv).1 a (by rw [a4, ha])
    | cons l1 rest =>
      obtain ⟨p, s, a1, a2, _, a4, a5, hc⟩ := h
      obtain ⟨s1, s2⟩ := hpage _ _ a1 a2
      obtain ⟨i1, i2⟩ := ih _ hc
      rw [contents_cons _ a1]
      refine ⟨?_, ?_⟩
      · rw [List.map_append, List.pairwise_append]
        refine ⟨s1, i1, ?_⟩
        intro x hx y hy
        rw [List.mem_map] at hx hy
        obtain ⟨kx, hkx, rfl⟩ := hx
        obtain ⟨ky, hky, rfl⟩ := hy
        have := (s2 kx hkx).2 s a5
        have := i2 ky hky s rfl
        omega
      · intro kv hkv a ha
        rcases List.mem_append.1 hkv with hkv | hkv
        · exact (s2 kv hkv).1 a (by rw [a4, ha])
        · have := i2 kv hkv s rfl
          have := hr _ _ a1 a s (by rw [a4, ha]) a5
          omega

end BPlusTree

end cmudb

namespace cmudb

open BPlusTreePage IndexPageType

namespace BPlusTreeInternalPage

/-! ## Internal `InsertNodeAfter` -/

theorem InsertNodeAfterLoop_spec (old_value new_key new_value : Int) :
    ∀ (n : Nat) (p : BPlusTreePage), n < p.array.length →
      (∃ i, i < n ∧ (p.slot i).2 = old_value) →
      ∃ m q, m < n ∧ InsertNodeAfterLoop old_value new_key new_value n p = some q ∧
        SameHeader p q ∧ q.size_ = p.size_ + 1 ∧ (p.slot m).2 = old_value ∧
        (∀ i, m < i → i < n → (p.slot i).2 ≠ old_value) ∧
        (∀ i, q.array[i]? =
          if m + 1 < i ∧ i ≤ n then p.array[i - 1]?
          else if i = m + 1 then some (new_key, new_value) else p.array[i]?) := by
  intro n
  induction n with
  | zero =>
    intro p _ h
    obtain ⟨i, hi, _⟩ := h
    omega
  | succ n ih =>
    intro p hn hex
    unfold InsertNodeAfterLoop
    by_cases hc : (p.slot n).2 = old_value
    · rw [if_pos hc, setSlot_eq_some _ _ _ hn]
      refine ⟨n, _, by omega, rfl, ?_, ?_, hc, ?_, ?_⟩
      · exact ⟨rfl, rfl, rfl, rfl, rfl, by simp [IncreaseSize]⟩
      · simp [IncreaseSize]
      · intro i h1 h2
        omega
      · intro i
        simp only [IncreaseSize, List.getElem?_set]
        by_cases c : i = n + 1
        · subst c
          have h1 : ¬ (n + 1 < n + 1 ∧ n + 1 ≤ n + 1) := by omega
          rw [if_neg h1, if_pos rfl, if_pos rfl, if_pos hn]
        · have h1 : ¬ (n + 1 < i ∧ i ≤ n + 1) := by omega
          have h2 : ¬ (n + 1 = i) := by omega
          rw [if_neg h1, if_neg c, if_neg h2]
    · rw [if_neg hc, setSlot_eq_some _ _ _ hn]
      simp only
      have hslot : ∀ i, i ≤ n →
          ({ p with array := p.array.set (n + 1) (p.slot n) } : BPlusTreePage).slot i =
            p.slot i := by
        intro i hi
        simp only [slot_def, List.getElem?_set]
        rw [if_neg (by omega)]
      obtain ⟨m, q, e1, e2, e3, e4, e5, e6, e7⟩ :=
        ih { p with array := p.array.set (n + 1) (p.slot n) } (by simp; omega) (by
          obtain ⟨i, hi, hv⟩ := hex
          have : i ≠ n := by
            intro e
            subst e
            exact hc hv
          exact ⟨i, by omega, by rw [hslot i (by omega)]; exact hv⟩)
      refine ⟨m, q, by omega, e2, ?_, e4, ?_, ?_, ?_⟩
      · obtain ⟨a1, a2, a3, a4, a5, a6⟩ := e3
        exact ⟨a1, a2, a3, a4, a5, by simpa using a6⟩
      · rw [← hslot m (by omega)]
        exact e5
      · intro i h1 h2
        rcases Nat.lt_or_eq_of_le (Nat.le_of_lt_succ h2) with h3 | h3
        · rw [← hslot i (by omega)]
          exact e6 i h1 h3
        · subst h3
          exact hc
      · intro i
        rw [e7 i]
        simp only [List.getElem?_set]
        by_cases c2 : i = n + 1
        · subst c2
          have h1 : ¬ (m + 1 < n + 1 ∧ n + 1 ≤ n) := by omega
          have h2 : m + 1 < n + 1 ∧ n + 1 ≤ n + 1 := by omega
          have h3 : ¬ (n + 1 = m + 1) := by omega
          rw [if_neg h1, if_pos h2, if_neg h3, if_pos rfl, if_pos hn]
          simp [slot_def, List.getElem?_eq_getElem (show n < p.array.length by omega)]
        · have h3 : ¬ (n + 1 = i) := by omega
          by_cases c1 : m + 1 < i ∧ i ≤ n
          · have h4 : ¬ (n + 1 = i - 1) := by omega
            have h5 : m + 1 < i ∧ i ≤ n + 1 := by omega
            rw [if_pos c1, if_pos h5, if_neg h4]
          · have h5 : ¬ (m + 1 < i ∧ i ≤ n + 1) := by omega
            rw [if_neg c1, if_neg h5, if_neg h3]

/-- `InsertNodeAfter` on a page with room that holds `old_value`: the new pair goes
right after the last slot whose value is `old_value`. -/
theorem InsertNodeAfter_spec (p : BPlusTreePage) (old_value new_key new_value : Int)
    (hroom : p.size_ < p.array.length) (hold : old_value ∈ p.live.map Prod.snd) :
    ∃ q L1 s L2, InsertNodeAfter p old_value new_key new_value = some q ∧ SameHeader p q ∧
      q.size_ = p.size_ + 1 ∧ p.live = L1 ++ s :: L2 ∧ s.2 = old_value ∧
      old_value ∉ L2.map Prod.snd ∧ q.live = L1 ++ s :: (new_key, new_value) :: L2 := by
  have hl : p.live.length = p.size_ := live_length p (by omega)
  have hex : ∃ i, i < p.size_ ∧ (p.slot i).2 = old_value := by
    rw [List.mem_map] at hold
    obtain ⟨x, hx, hv⟩ := hold
    obtain ⟨i, hi, rfl⟩ := List.getElem_of_mem hx
    rw [hl] at hi
    refine ⟨i, hi, ?_⟩
    rw [← live_getElem p i (by omega)]
    exact hv
  obtain ⟨m, q, e1, e2, e3, e4, e5, e6, e7⟩ :=
    InsertNodeAfterLoop_spec old_value new_key new_value p.size_ p hroom hex
  have hm : m < p.live.length := by omega
  refine ⟨q, p.live.take m, p.slot m, p.live.drop (m + 1), e2, e3, e4, ?_, e5, ?_, ?_⟩
  · rw [← live_getElem p m hm]
    exact (List.take_append_drop m p.live).symm.trans (by rw [List.drop_eq_getElem_cons hm])
  · intro hmem
    rw [List.mem_map] at hmem
    obtain ⟨x, hx, hv⟩ := hmem
    obtain ⟨i, hi, rfl⟩ := List.getElem_of_mem hx
    simp only [List.length_drop, hl] at hi
    rw [List.getElem_drop, live_getElem] at hv
    exact e6 (m + 1 + i) (by omega) (by omega) hv
  · apply List.ext_getElem?
    intro i
    simp only [live_getElem?, List.getElem?_append, List.getElem?_cons, List.getElem?_drop,
      List.getElem?_take, List.length_take, e4, e7]
    rw [hl, Nat.min_eq_left (by omega)]
    by_cases c1 : i < m
    · have h1 : i < p.size_ + 1 := by omega
      have h2 : ¬ (i = m + 1) := by omega
      have h3 : ¬ (m + 1 < i ∧ i ≤ p.size_) := by omega
      have h4 : i < p.size_ := by omega
      simp only [c1, h1, h2, h3, h4, if_true, if_false]
    · by_cases c2 : i = m
      · subst c2
        have h1 : i < p.size_ + 1 := by omega
        have h2 : ¬ (i = i + 1) := by omega
        have h3 : ¬ (i + 1 < i ∧ i ≤ p.size_) := by omega
        simp only [c1, h1, h2, h3, if_true, if_false, Nat.sub_self]
        rw [slot_def, List.getElem?_eq_getElem (show i < p.array.length by omega)]
        rfl
      · by_cases c3 : i = m + 1
        · subst c3
          have h1 : m + 1 < p.size_ + 1 := by omega
          have h3 : ¬ (m + 1 < m + 1 ∧ m + 1 ≤ p.size_) := by omega
          have h4 : ¬ (m + 1 - m = 0) := by omega
          have h5 : m + 1 - m - 1 = 0 := by omega
          simp only [c1, h1, h3, h4, h5, if_true, if_false]
        · have h4 : ¬ (i - m = 0) := by omega
          have h5 : ¬ (i - m - 1 = 0) := by omega
          by_cases c4 : i < p.size_ + 1
          · have h6 : m + 1 < i ∧ i ≤ p.size_ := by omega
            have h7 : m + 1 + (i - m - 1 - 1) = i - 1 := by omega
            have h8 : i - 1 < p.size_ := by omega
            simp only [c1, c3, c4, h4, h5, h6, h7, h8, if_true, if_false]
            simp
          · have h7 : ¬ (m + 1 + (i - m - 1 - 1) < p.size_) := by omega
            simp only [c1, c4, h4, h5, h7, if_false]

end BPlusTreeInternalPage

end cmudb

namespace cmudb

open BPlusTreePage IndexPageType

namespace BPlusTree

/-! ## Re-parenting loop and `Split` -/

theorem SetParentPageId_idem (p : BPlusTreePage) (x : Int) :
    (p.SetParentPageId x).SetParentPageId x = p.SetParentPageId x := rfl

theorem SetParentPageId_live (p : BPlusTreePage) (x : Int) :
    (p.SetParentPageId x).live = p.live := rfl

/-- The re-parenting loop over the slots `idx .. idx + n` of page `self`: the children
in these slots get the new parent id and nothing else changes. -/
theorem reparentLoop_spec (self parent_id : Int) (p : BPlusTreePage) :
    ∀ (n idx : Nat) (t : BPlusTree), t.pages self = some p →
      (∀ i, idx ≤ i → i < idx + n → (p.slot i).2 ≠ self ∧ ∃ cp, t.pages (p.slot i).2 = some cp) →
      ∃ t1, reparentLoop self parent_id n idx t = some t1 ∧
        t1.root_page_id_ = t.root_page_id_ ∧ t1.next_page_id = t.next_page_id ∧
        t1.leaf_max_size = t.leaf_max_size ∧ t1.internal_max_size = t.internal_max_size ∧
        (∀ y, (∃ i, idx ≤ i ∧ i < idx + n ∧ (p.slot i).2 = y) →
          t1.pages y = (t.pages y).map fun cp => cp.SetParentPageId parent_id) ∧
        (∀ y, (¬ ∃ i, idx ≤ i ∧ i < idx + n ∧ (p.slot i).2 = y) → t1.pages y = t.pages y) := by
  intro n
  induction n with
  | zero =>
    intro idx t _ _
    refine ⟨t, rfl, rfl, rfl, rfl, rfl, ?_, fun _ _ => rfl⟩
    rintro y ⟨i, h1, h2, _⟩
    omega
  | succ n ih =>
    intro idx t hp hc
    obtain ⟨hne, cp, hcp⟩ := hc idx (le_refl _) (by omega)
    have hp1 : (t.WritePage (p.slot idx).2 (cp.SetParentPageId parent_id)).pages self =
        some p := by
      rw [WritePage_pages, if_neg (Ne.symm hne), hp]
    obtain ⟨t1, e1, e2, e3, e4, e5, e6, e7⟩ :=
      ih (idx + 1) (t.WritePage (p.slot idx).2 (cp.SetParentPageId parent_id)) hp1 (by
        intro i h1 h2
        obtain ⟨a, cq, hcq⟩ := hc i (by omega) (by omega)
        refine ⟨a, ?_⟩
        rw [WritePage_pages]
        by_cases c : (p.slot i).2 = (p.slot idx).2
        · rw [if_pos c]; exact ⟨_, rfl⟩
        · rw [if_neg c]; exact ⟨cq, hcq⟩)
    refine ⟨t1, ?_, e2, e3, e4, e5, ?_, ?_⟩
    · unfold reparentLoop
      simp only [hp, reparent, hcp]
      exact e1
    · rintro y ⟨i, h1, h2, h3⟩
      by_cases c : ∃ i, idx + 1 ≤ i ∧ i < idx + 1 + n ∧ (p.slot i).2 = y
      · rw [e6 y c, WritePage_pages]
        by_cases cy : y = (p.slot idx).2
        · rw [if_pos cy, cy, hcp]
          rfl
        · rw [if_neg cy]
      · rw [e7 y c, WritePage_pages]
        have cy : y = (p.slot idx).2 := by
          by_contra cy
          apply c
          have : i ≠ idx := by
            intro e
            subst e
            exact cy h3.symm
          exact ⟨i, by omega, by omega, h3⟩
        rw [if_pos cy, cy, hcp]
        rfl
    · intro y hy
      have c : ¬ ∃ i, idx + 1 ≤ i ∧ i < idx + 1 + n ∧ (p.slot i).2 = y := by
        rintro ⟨i, h1, h2, h3⟩
        exact hy ⟨i, by omega, by omega, h3⟩
      rw [e7 y c, WritePage_pages, if_neg]
      intro cy
      exact hy ⟨idx, le_refl _, by omega, cy.symm⟩

theorem mem_drop_live_iff (p : BPlusTreePage) (hlen : p.size_ ≤ p.array.length) (k : Nat)
    (y : Int) :
    y ∈ (p.live.drop k).map Prod.snd ↔ ∃ i, k ≤ i ∧ i < p.size_ ∧ (p.slot i).2 = y := by
  have hl := live_length p hlen
  constructor
  · intro h
    rw [List.mem_map] at h
    obtain ⟨x, hx, hv⟩ := h
    obtain ⟨i, hi, rfl⟩ := List.getElem_of_mem hx
    simp only [List.length_drop, hl] at hi
    rw [List.getElem_drop, live_getElem] at hv
    exact ⟨k + i, by omega, by omega, hv⟩
  · rintro ⟨i, h1, h2, h3⟩
    rw [List.mem_map]
    refine ⟨p.slot i, ?_, h3⟩
    rw [List.mem_iff_getElem?]
    refine ⟨i - k, ?_⟩
    rw [List.getElem?_drop, live_getElem?, if_pos (by omega), slot_def,
      List.getElem?_eq_getElem (show k + (i - k) < p.array.length by omega)]
    have : k + (i - k) = i := by omega
    simp [this, List.getElem?_eq_getElem (show i < p.array.length by omega)]

/-- `Split` of an internal page: the page keeps its lower slots, the new page receives
the upper `size_ / 2` slots and becomes the parent of the children in them. -/
theorem Split_internal_spec {t : BPlusTree} {P : Int} {p : BPlusTreePage}
    (hp : t.pages P = some p) (hlen : p.size_ ≤ p.array.length) (h2 : 2 ≤ p.size_)
    (him : p.size_ / 2 ≤ t.internal_max_size) (hPN : P ≠ t.next_page_id)
    (hch : ∀ c ∈ (p.live.drop (p.size_ - p.size_ / 2)).map Prod.snd,
      c ≠ P ∧ c ≠ t.next_page_id ∧ ∃ cp, t.pages c = some cp) :
    ∃ t2 r1, t.Split INTERNAL_PAGE P = some (t.next_page_id, t2) ∧
      t2.root_page_id_ = t.root_page_id_ ∧ t2.next_page_id = t.next_page_id + 1 ∧
      t2.leaf_max_size = t.leaf_max_size ∧ t2.internal_max_size = t.internal_max_size ∧
      t2.pages P = some { p with size_ := p.size_ - p.size_ / 2 } ∧
      t2.pages t.next_page_id = some r1 ∧ r1.page_type_ = INTERNAL_PAGE ∧
      r1.size_ = p.size_ / 2 ∧ r1.max_size_ = t.internal_max_size ∧
      r1.parent_page_id_ = p.parent_page_id_ ∧ r1.page_id_ = t.next_page_id ∧
      r1.array.length = t.internal_max_size ∧
      r1.live = p.live.drop (p.size_ - p.size_ / 2) ∧
      (∀ y ∈ (p.live.drop (p.size_ - p.size_ / 2)).map Prod.snd,
        t2.pages y = (t.pages y).map fun cp => cp.SetParentPageId t.next_page_id) ∧
      (∀ y, y ∉ (p.live.drop (p.size_ - p.size_ / 2)).map Prod.snd → y ≠ P →
        y ≠ t.next_page_id → t2.pages y = t.pages y) := by
  have hhalf : 1 ≤ p.size_ / 2 := by omega
  have hle : p.size_ / 2 ≤ p.size_ := Nat.div_le_self _ _
  let r := BPlusTreeInternalPage.Init t.internal_max_size t.next_page_id p.parent_page_id_
  have hrlen : r.array.length = t.internal_max_size := by simp [r, BPlusTreeInternalPage.Init]
  have hc := copyFrom_eq r 0 (p.array.drop (p.size_ - p.size_ / 2)) (p.size_ / 2)
    (by simp; omega) (by omega)
  let r1 : BPlusTreePage :=
    ({ r with
        array := r.array.take 0 ++ (p.array.drop (p.size_ - p.size_ / 2)).take (p.size_ / 2) ++
          r.array.drop (0 + p.size_ / 2) } : BPlusTreePage).IncreaseSize (p.size_ / 2 - 1)
  have hcopy : BPlusTreeInternalPage.CopyHalfFrom r (p.array.drop (p.size_ - p.size_ / 2))
      (p.size_ / 2) = some r1 := by
    unfold BPlusTreeInternalPage.CopyHalfFrom
    rw [hc]
    simp only
    rw [if_neg (by omega)]
  let t0 : BPlusTree :=
    ({ t with next_page_id := t.next_page_id + 1 } : BPlusTree).WritePage t.next_page_id r
  let t1 : BPlusTree := t0.WritePage t.next_page_id r1
  have ht1P : t1.pages P = some p := by
    simp only [t1, t0, WritePage_pages, if_neg hPN]
    exact hp
  have hslots : ∀ i, p.size_ - p.size_ / 2 ≤ i → i < p.size_ - p.size_ / 2 + p.size_ / 2 →
      (p.slot i).2 ≠ P ∧ ∃ cp, t1.pages (p.slot i).2 = some cp := by
    intro i h1 h3
    obtain ⟨a, b, cp, hcp⟩ := hch (p.slot i).2
      ((mem_drop_live_iff p hlen _ _).2 ⟨i, h1, by omega, rfl⟩)
    refine ⟨a, cp, ?_⟩
    simp only [t1, t0, WritePage_pages, if_neg b]
    exact hcp
  obtain ⟨t2, e1, e2, e3, e4, e5, e6, e7⟩ :=
    reparentLoop_spec P t.next_page_id p (p.size_ / 2) (p.size_ - p.size_ / 2) t1 ht1P hslots
  have hiff : ∀ y, (∃ i, p.size_ - p.size_ / 2 ≤ i ∧ i < p.size_ - p.size_ / 2 + p.size_ / 2 ∧
      (p.slot i).2 = y) ↔ y ∈ (p.live.drop (p.size_ - p.size_ / 2)).map Prod.snd := by
    intro y
    rw [mem_drop_live_iff p hlen]
    constructor
    · rintro ⟨i, a, b, c⟩
      exact ⟨i, a, by omega, c⟩
    · rintro ⟨i, a, b, c⟩
      exact ⟨i, a, by omega, c⟩
  have hPnot : ¬ ∃ i, p.size_ - p.size_ / 2 ≤ i ∧ i < p.size_ - p.size_ / 2 + p.size_ / 2 ∧
      (p.slot i).2 = P := by
    rw [hiff]
    intro h
    exact (hch P h).1 rfl
  have hNnot : ¬ ∃ i, p.size_ - p.size_ / 2 ≤ i ∧ i < p.size_ - p.size_ / 2 + p.size_ / 2 ∧
      (p.slot i).2 = t.next_page_id := by
    rw [hiff]
    intro h
    exact (hch _ h).2.1 rfl
  have ht2P : t2.pages P = some p := by rw [e7 P hPnot, ht1P]
  refine ⟨t2.WritePage P { p with size_ := p.size_ - p.size_ / 2 }, r1, ?_, ?_, ?_, ?_, ?_, ?_,
    ?_, rfl, ?_, rfl, rfl, rfl, ?_, ?_, ?_, ?_⟩
  · unfold Split
    simp only [hp, NewPage, Option.bind_eq_bind, Option.some_bind]
    unfold InternalMoveHalfTo
    have h0P : ((({ t with next_page_id := t.next_page_id + 1 } : BPlusTree).WritePage
        t.next_page_id r).pages P) = some p := by
      simp only [WritePage_pages, if_neg hPN]
      exact hp
    have h0N : ((({ t with next_page_id := t.next_page_id + 1 } : BPlusTree).WritePage
        t.next_page_id r).pages t.next_page_id) = some r := by
      simp only [WritePage_pages, if_true]
    simp only [h0P, h0N, Option.bind_eq_bind, Option.some_bind, r, hcopy]
    have hid : r1.page_id_ = t.next_page_id := rfl
    simp only [hcopy, Option.some_bind, hid]
    have e1' := e1
    simp only [t1, t0] at e1'
    simp only [e1', Option.some_bind, ht2P, DecreaseSize, if_pos hle]
  · simp only [WritePage_root, e2]
    rfl
  · simp only [WritePage_next, e3]
    rfl
  · simp only [WritePage_leaf_max, e4]
    rfl
  · simp only [WritePage_internal_max, e5]
    rfl
  · simp only [WritePage_pages, if_true]
  · simp only [WritePage_pages, if_neg (Ne.symm hPN)]
    rw [e7 _ hNnot]
    simp only [t1, WritePage_pages, if_true]
  · simp [r1, IncreaseSize, r, BPlusTreeInternalPage.Init]
    omega
  · simp [r1, IncreaseSize, r, BPlusTreeInternalPage.Init]
    omega
  · have hs : r1.size_ = p.size_ / 2 := by
      simp [r1, IncreaseSize, r, BPlusTreeInternalPage.Init]
      omega
    simp only [live, hs]
    simp only [r1, IncreaseSize, List.take_zero, List.nil_append, Nat.zero_add]
    rw [List.take_append_of_le_length (by simp; omega), List.take_take, Nat.min_self,
      List.drop_take]
    congr 1
    omega
  · intro y hy
    have hyP : y ≠ P := (hch y hy).1
    have hyN : y ≠ t.next_page_id := (hch y hy).2.1
    simp only [WritePage_pages, if_neg hyP]
    rw [e6 y ((hiff y).2 hy)]
    simp only [t1, t0, WritePage_pages, if_neg hyN]
  · intro y hy hyP hyN
    simp only [WritePage_pages, if_neg hyP]
    rw [e7 y (fun h => hy ((hiff y).1 h))]
    simp only [t1, t0, WritePage_pages, if_neg hyN]

/-- `Split` of a leaf: the leaf keeps its lower pairs, the new leaf receives the upper
`size_ / 2` pairs. -/
theorem Split_leaf_spec {t : BPlusTree} {l : Int} {p : BPlusTreePage}
    (hp : t.pages l = some p) (hlen : p.size_ ≤ p.array.length)
    (hlm : p.size_ / 2 ≤ t.leaf_max_size) (hlN : l ≠ t.next_page_id) :
    ∃ t2 q r1, t.Split LEAF_PAGE l = some (t.next_page_id, t2) ∧
      t2.root_page_id_ = t.root_page_id_ ∧ t2.next_page_id = t.next_page_id + 1 ∧
      t2.leaf_max_size = t.leaf_max_size ∧ t2.internal_max_size = t.internal_max_size ∧
      t2.pages l = some q ∧ t2.pages t.next_page_id = some r1 ∧
      (∀ y, y ≠ l → y ≠ t.next_page_id → t2.pages y = t.pages y) ∧
      SameHeader p q ∧ q.size_ = p.size_ - p.size_ / 2 ∧
      q.live = p.live.take (p.size_ - p.size_ / 2) ∧
      r1.page_type_ = LEAF_PAGE ∧ r1.size_ = p.size_ / 2 ∧ r1.max_size_ = t.leaf_max_size ∧
      r1.parent_page_id_ = p.parent_page_id_ ∧ r1.page_id_ = t.next_page_id ∧
      r1.next_page_id_ = INVALID_PAGE_ID ∧ r1.array.length = t.leaf_max_size ∧
      r1.live = p.live.drop (p.size_ - p.size_ / 2) := by
  obtain ⟨q, r1, e1, e2, e3, e4, e5, e6, e7⟩ :=
    BPlusTreeLeafPage.MoveHalfTo_spec p
      (BPlusTreeLeafPage.Init t.leaf_max_size t.next_page_id p.parent_page_id_) hlen rfl
      (by simpa [BPlusTreeLeafPage.Init] using hlm)
  obtain ⟨a1, a2, a3, a4, a5, a6⟩ := e3
  refine ⟨((({ t with next_page_id := t.next_page_id + 1 } : BPlusTree).WritePage
    t.next_page_id r1).WritePage l q), q, r1, ?_, ?_, ?_, ?_, ?_, ?_, ?_, ?_, e2, e4, e6, a1, e5,
    a2, a3, a4, a5, ?_, e7⟩
  · unfold Split
    simp only [hp, NewPage, Option.bind_eq_bind, Option.some_bind, e1]
  · rfl
  · rfl
  · rfl
  · rfl
  · simp only [WritePage_pages, if_true]
  · simp only [WritePage_pages, if_neg (Ne.symm hlN), if_true]
  · intro y h1 h2
    simp only [WritePage_pages, if_neg h1, if_neg h2]
  · rw [a6]
    simp [BPlusTreeLeafPage.Init]

end BPlusTree

end cmudb

namespace cmudb

open BPlusTreePage IndexPageType

namespace BPlusTreeLeafPage

/-- Leaf `Insert` of a new key into a sorted page with room: the page stays sorted and
gains exactly the new pair; a first pair with a smaller key stays first. -/
theorem Insert_sorted (p : BPlusTreePage) (key value : Int) (hroom : p.size_ < p.array.length)
    (hs : (p.live.map Prod.fst).Pairwise (· < ·)) (hk : key ∉ p.live.map Prod.fst) :
    ∃ q, Insert p key value = some q ∧ SameHeader p q ∧ q.size_ = p.size_ + 1 ∧
      q.live.Perm ((key, value) :: p.live) ∧ (q.live.map Prod.fst).Pairwise (· < ·) ∧
      (∀ u rest, p.live = u :: rest → u.1 < key → ∃ rest1, q.live = u :: rest1) := by
  obtain ⟨j, q, e1, e2, e3, e4, e5, e6, e7⟩ := Insert_spec p key value hroom
  have hlen : p.size_ ≤ p.array.length := by omega
  have hl := live_length p hlen
  refine ⟨q, e1, e3, e4, ?_, ?_, ?_⟩
  · rw [e5]
    refine List.perm_middle.trans ?_
    rw [List.take_append_drop]
  · rw [e5, List.map_append, List.pairwise_append]
    have hsplit : (p.live.take j ++ p.live.drop j).map Prod.fst = p.live.map Prod.fst := by
      rw [List.take_append_drop]
    rw [← hsplit, List.map_append, List.pairwise_append] at hs
    obtain ⟨s1, s2, s3⟩ := hs
    refine ⟨s1, ?_, ?_⟩
    · rw [List.map_cons, List.pairwise_cons]
      refine ⟨?_, s2⟩
      intro b hb
      rw [List.mem_map] at hb
      obtain ⟨x, hx, rfl⟩ := hb
      exact e6 x hx
    · intro a ha b hb
      rw [List.map_cons, List.mem_cons] at hb
      rcases hb with hb | hb
      · have hb' : b = key := hb
        rw [hb']
        rw [List.mem_map] at ha
        obtain ⟨x, hx, rfl⟩ := ha
        obtain ⟨i, hi, rfl⟩ := List.getElem_of_mem hx
        simp only [List.length_take, hl] at hi
        have hij : i < j := by omega
        rcases e7 with e7 | e7
        · omega
        · rw [List.getElem_take, live_getElem]
          have hne : (p.slot i).1 ≠ key := by
            intro e
            apply hk
            rw [List.mem_map]
            exact ⟨p.slot i, slot_mem_live p i hlen (by omega), e⟩
          have hle : (p.slot i).1 ≤ (p.slot (j - 1)).1 := by
            rcases Nat.lt_or_ge i (j - 1) with c | c
            · exact le_of_lt (sorted_slot p hlen
                (by rw [← hsplit, List.map_append, List.pairwise_append]; exact ⟨s1, s2, s3⟩)
                i (j - 1) c (by omega))
            · have : i = j - 1 := by omega
              rw [this]
          omega
      · exact s3 a ha b hb
  · intro u rest hu hlt
    have hj : j ≠ 0 := by
      intro e
      subst e
      have := e6 u (by rw [List.drop_zero, hu]; simp)
      omega
    obtain ⟨j', rfl⟩ : ∃ j', j = j' + 1 := ⟨j - 1, by omega⟩
    rw [e5, hu]
    exact ⟨rest.take j' ++ (key, value) :: rest.drop j', by simp⟩

end BPlusTreeLeafPage

namespace BPlusTree

/-! ## Transport of the page invariant -/

theorem childOk.carry {t t1 : BPlusTree} {G G1 : Ghost} {pend pend1 : Pending}
    {x x1 c : Int} {lo hi : Option Int} (h : childOk t G pend x c lo hi)
    (hpage : ∀ cp, t.pages c = some cp → ∃ cp1, t1.pages c = some cp1 ∧
      cp1.parent_page_id_ = x1)
    (hlv : G.lv c + 1 = G.lv x → G1.lv c + 1 = G1.lv x1)
    (hlo : G1.lo c = G.lo c) (hhi : effHi G1 pend1 c = effHi G pend c) :
    childOk t1 G1 pend1 x1 c lo hi := by
  obtain ⟨cp, a1, a2, a3, a4, a5⟩ := h
  obtain ⟨cp1, b1, b2⟩ := hpage cp a1
  exact ⟨cp1, b1, b2, hlv a3, hlo.trans a4, hhi.trans a5⟩

theorem live_congr {p p1 : BPlusTreePage} (hsz : p1.size_ = p.size_) (harr : p1.array = p.array) :
    p1.live = p.live := by
  unfold live
  rw [hsz, harr]

/-- The invariant of a page carries over to a state in which the page has the same
slots, given the facts about its parent and its children in the new state. -/
theorem PageOk.transfer {t t1 : BPlusTree} {G G1 : Ghost} {pend pend1 : Pending} {x : Int}
    {p p1 : BPlusTreePage} (h : PageOk t G pend x p)
    (hty : p1.page_type_ = p.page_type_) (hsz : p1.size_ = p.size_)
    (hmax : p1.max_size_ = p.max_size_) (hid : p1.page_id_ = p.page_id_)
    (harr : p1.array = p.array)
    (hlm : t1.leaf_max_size = t.leaf_max_size)
    (him : t1.internal_max_size = t.internal_max_size)
    (hlo : G1.lo x = G.lo x) (hhi : G1.hi x = G.hi x) (hlv : G1.lv x = G.lv x)
    (hlvr : G1.lv x ≤ G1.lv t1.root_page_id_)
    (hfill : x ≠ t1.root_page_id_ → x ≠ t.root_page_id_ ∨ p.max_size_ / 2 ≤ p.size_)
    (hleaves : x ∈ G.leaves → x ∈ G1.leaves)
    (hpr : ¬ isPendNew pend1 x → (p1.parent_page_id_ = INVALID_PAGE_ID ↔ x = t1.root_page_id_))
    (hpl : x ≠ t1.root_page_id_ → ¬ isPendNew pend1 x →
      ∃ par, t1.pages p1.parent_page_id_ = some par ∧ par.page_type_ = INTERNAL_PAGE ∧
        x ∈ par.live.map Prod.snd)
    (hchild : p.page_type_ = INTERNAL_PAGE → ∀ c ∈ p.live.map Prod.snd, ∀ lo hi,
      childOk t G pend x c lo hi → childOk t1 G1 pend1 x c lo hi) :
    PageOk t1 G1 pend1 x p1 := by
  have hlive := live_congr hsz harr
  refine ⟨hid.trans h.id, ?_, ?_, ?_, hlvr, hpr, hpl, ?_, ?_, ?_⟩
  · rw [harr, hmax]; exact h.len
  · rw [hsz, hmax]; exact h.size_le
  · rw [hlo, hhi]; exact h.range
  · intro hx
    rw [hsz, hmax]
    rcases hfill hx with c | c
    · exact h.fill c
    · exact c
  · intro hl
    rw [hty] at hl
    obtain ⟨a1, a2, a3, a4, a5⟩ := h.leaf hl
    rw [hlv, hmax, hlm, hlive, hlo, hhi]
    exact ⟨a1, a2, a3, a4, hleaves a5⟩
  · intro hi
    rw [hty] at hi
    obtain ⟨a1, a2, a3, a4, a5⟩ := h.internal hi
    rw [hlv, hmax, him, hsz, hlive, hlo, hhi]
    exact ⟨a1, a2, a3, slotsOk_mono _ _ _ _ _ (hchild hi) a4, a5⟩

/-- Version of the transport for a page whose parent pointer and root status are the
same in both states. -/
theorem PageOk.frame {t t1 : BPlusTree} {G G1 : Ghost} {pend pend1 : Pending} {x : Int}
    {p : BPlusTreePage} (h : PageOk t G pend x p)
    (hroot : t1.root_page_id_ = t.root_page_id_)
    (hlm : t1.leaf_max_size = t.leaf_max_size)
    (him : t1.internal_max_size = t.internal_max_size)
    (hlo : G1.lo x = G.lo x) (hhi : G1.hi x = G.hi x) (hlv : G1.lv x = G.lv x)
    (hlvr : G1.lv t.root_page_id_ = G.lv t.root_page_id_)
    (hleaves : x ∈ G.leaves → x ∈ G1.leaves)
    (hnew : ¬ isPendNew pend1 x → ¬ isPendNew pend x)
    (hpar : ∀ par, t.pages p.parent_page_id_ = some par → par.page_type_ = INTERNAL_PAGE →
      x ∈ par.live.map Prod.snd →
      ∃ par1, t1.pages p.parent_page_id_ = some par1 ∧ par1.page_type_ = INTERNAL_PAGE ∧
        x ∈ par1.live.map Prod.snd)
    (hchild : p.page_type_ = INTERNAL_PAGE → ∀ c ∈ p.live.map Prod.snd, ∀ lo hi,
      childOk t G pend x c lo hi → childOk t1 G1 pend1 x c lo hi) :
    PageOk t1 G1 pend1 x p := by
  refine h.transfer rfl rfl rfl rfl rfl hlm him hlo hhi hlv ?_ ?_ hleaves ?_ ?_ hchild
  · rw [hroot, hlv, hlvr]; exact h.lv_le
  · intro hx
    left
    rw [hroot] at hx
    exact hx
  · intro hn
    rw [hroot]
    exact h.parent_root (hnew hn)
  · intro hx hn
    rw [hroot] at hx
    obtain ⟨par, a1, a2, a3⟩ := h.parent_link hx (hnew hn)
    exact hpar par a1 a2 a3

/-! ## Consequences of the invariant -/

theorem Inv.child {t : BPlusTree} {G : Ghost} {pend : Pending} (inv : Inv t G pend) {x : Int}
    {p : BPlusTreePage} (hp : t.pages x = some p) (hty : p.page_type_ = INTERNAL_PAGE) {c : Int}
    (hc : c ∈ p.live.map Prod.snd) : ∃ lo hi, childOk t G pend x c lo hi :=
  slotsOk_child _ _ _ _ ((inv.page x p hp).internal hty).2.2.2.1 c hc

theorem Inv.pos {t : BPlusTree} {G : Ghost} {pend : Pending} (inv : Inv t G pend) {x : Int}
    {p : BPlusTreePage} (hp : t.pages x = some p) : x ≠ INVALID_PAGE_ID := by
  have := (inv.alloc x p hp).1
  unfold INVALID_PAGE_ID
  omega

theorem Inv.next_fresh {t : BPlusTree} {G : Ghost} {pend : Pending} (inv : Inv t G pend) :
    t.pages t.next_page_id = none := by
  cases e : t.pages t.next_page_id with
  | none => rfl
  | some p => have := (inv.alloc _ p e).2; omega

theorem Inv.next_pos {t : BPlusTree} {G : Ghost} {pend : Pending} (inv : Inv t G pend) :
    0 < t.next_page_id := by
  obtain ⟨r, hr⟩ := inv.root_page
  have := inv.alloc _ r hr
  omega

/-- The range that a parent attributes to a child is not empty. -/
theorem Inv.child_range {t : BPlusTree} {G : Ghost} {pend : Pending} (inv : Inv t G pend)
    {x c : Int} {lo hi : Option Int} (h : childOk t G pend x c lo hi) : loLtHi lo hi := by
  obtain ⟨cp, a1, _, _, a4, a5⟩ := h
  have hr := (inv.page c cp a1).range
  rw [← a4, ← a5]
  cases pend with
  | none => exact hr
  | some pd =>
    obtain ⟨old, key, new⟩ := pd
    unfold effHi
    simp only
    by_cases e : c = old
    · rw [if_pos e]
      subst e
      obtain ⟨op, np, b1, b2, _, _, b5, b6, _⟩ := inv.pending c key new rfl
      have hrn := (inv.page new np b2).range
      intro a b ha hb
      have h1 := hr a key ha b5
      have h2 := hrn key b b6 hb
      omega
    · rw [if_neg e]
      exact hr

end BPlusTree

end cmudb

namespace cmudb

open BPlusTreePage IndexPageType

namespace BPlusTree

/-! ## Insertion of a leaf into the chain -/

theorem chainOk_insert {t t1 : BPlusTree} {G G1 : Ghost} {l new : Int} (sep : Int)
    {p q n : BPlusTreePage}
    (hp : t.pages l = some p) (hq : t1.pages l = some q) (hn : t1.pages new = some n)
    (hqty : q.page_type_ = LEAF_PAGE) (hqnext : q.next_page_id_ = new)
    (hnty : n.page_type_ = LEAF_PAGE) (hnnext : n.next_page_id_ = p.next_page_id_)
    (hlo_l : G1.lo l = G.lo l) (hhi_l : G1.hi l = some sep)
    (hlo_n : G1.lo new = some sep) (hhi_n : G1.hi new = G.hi l)
    (hother : ∀ y, y ≠ l → y ≠ new →
      t1.pages y = t.pages y ∧ G1.lo y = G.lo y ∧ G1.hi y = G.hi y)
    (B : List Int) (hlB : l ∉ B) (hnB : new ∉ B) :
    ∀ (A : List Int) (lo : Option Int), l ∉ A → new ∉ A →
      chainOk t G (A ++ l :: B) lo → chainOk t1 G1 (A ++ l :: new :: B) lo := by
  have hBc : ∀ lo, chainOk t G B lo → chainOk t1 G1 B lo := by
    intro lo
    apply chainOk_congr
    · intro y hy py hpy
      have h1 : y ≠ l := fun e => hlB (e ▸ hy)
      have h2 : y ≠ new := fun e => hnB (e ▸ hy)
      exact ⟨py, by rw [(hother y h1 h2).1]; exact hpy, rfl, rfl⟩
    · intro y hy
      have h1 : y ≠ l := fun e => hlB (e ▸ hy)
      have h2 : y ≠ new := fun e => hnB (e ▸ hy)
      exact (hother y h1 h2).2
  intro A
  induction A with
  | nil =>
    intro lo _ _ h
    simp only [List.nil_append] at h ⊢
    cases B with
    | nil =>
      obtain ⟨p', a1, a2, a3, a4, a5⟩ := h
      rw [hp] at a1
      simp only [Option.some.injEq] at a1
      subst a1
      exact ⟨q, sep, hq, hqty, hqnext, hlo_l.trans a4, hhi_l,
        n, hn, hnty, hnnext.trans a3, hlo_n, hhi_n.trans a5⟩
    | cons b B =>
      obtain ⟨p', s, a1, a2, a3, a4, a5, hc⟩ := h
      rw [hp] at a1
      simp only [Option.some.injEq] at a1
      subst a1
      exact ⟨q, sep, hq, hqty, hqnext, hlo_l.trans a4, hhi_l,
        n, s, hn, hnty, hnnext.trans a3, hlo_n, hhi_n.trans a5, hBc _ hc⟩
  | cons a A ih =>
    intro lo hl hn' h
    have ha1 : a ≠ l := fun e => hl (by simp [e])
    have ha2 : a ≠ new := fun e => hn' (by simp [e])
    have hl' : l ∉ A := fun e => hl (List.mem_cons_of_mem _ e)
    have hn'' : new ∉ A := fun e => hn' (List.mem_cons_of_mem _ e)
    obtain ⟨o1, o2, o3⟩ := hother a ha1 ha2
    cases A with
    | nil =>
      have h' : chainOk t G (a :: l :: B) lo := h
      obtain ⟨pa, s, a1, a2, a3, a4, a5, hc⟩ := h'
      have := ih (some s) hl' hn'' hc
      exact ⟨pa, s, by rw [o1]; exact a1, a2, a3, o2.trans a4, o3.trans a5, this⟩
    | cons b A =>
      have h' : chainOk t G (a :: b :: (A ++ l :: B)) lo := h
      obtain ⟨pa, s, a1, a2, a3, a4, a5, hc⟩ := h'
      have := ih (some s) hl' hn'' hc
      exact ⟨pa, s, by rw [o1]; exact a1, a2, a3, o2.trans a4, o3.trans a5, this⟩

/-- The contents of the chain after a write to one of its leaves. -/
theorem contents_write {t t1 : BPlusTree} {l : Int} {p q : BPlusTreePage} {ls : List Int}
    {kv : MappingType} (hnd : ls.Nodup) (hl : l ∈ ls) (hp : t.pages l = some p)
    (hq : t1.pages l = some q)
    (hother : ∀ y ∈ ls, y ≠ l → (t1.pages y).map live = (t.pages y).map live)
    (hperm : q.live.Perm (kv :: p.live)) :
    (contents t1 ls).Perm (kv :: contents t ls) := by
  obtain ⟨A, B, rfl⟩ := List.append_of_mem hl
  have hnd' := hnd
  rw [List.nodup_append] at hnd'
  obtain ⟨_, hB, hdis⟩ := hnd'
  rw [List.nodup_cons] at hB
  have hA : contents t1 A = contents t A := by
    apply contents_congr
    intro y hy
    apply hother y (List.mem_append_left _ hy)
    intro e
    subst e
    exact hdis hy (by simp)
  have hB' : contents t1 B = contents t B := by
    apply contents_congr
    intro y hy
    apply hother y (List.mem_append_right _ (List.mem_cons_of_mem _ hy))
    intro e
    subst e
    exact hB.1 hy
  rw [contents_append, contents_append, contents_cons _ hp, contents_cons _ hq, hA, hB']
  refine (List.Perm.append_left _ (List.Perm.append_right _ hperm)).trans ?_
  simp only [List.cons_append]
  exact List.perm_middle

/-- The contents of the chain after a leaf has been split into two neighbours. -/
theorem contents_split {t t1 : BPlusTree} {l new : Int} {p q n : BPlusTreePage}
    {A B : List Int} {kv : MappingType} (hp : t.pages l = some p)
    (hq : t1.pages l = some q) (hn : t1.pages new = some n)
    (hA : ∀ y ∈ A, (t1.pages y).map live = (t.pages y).map live)
    (hB : ∀ y ∈ B, (t1.pages y).map live = (t.pages y).map live)
    (hperm : (q.live ++ n.live).Perm (kv :: p.live)) :
    (contents t1 (A ++ l :: new :: B)).Perm (kv :: contents t (A ++ l :: B)) := by
  rw [contents_append, contents_append, contents_cons _ hp, contents_cons _ hq,
    contents_cons _ hn, contents_congr A hA, contents_congr B hB, ← List.append_assoc q.live]
  refine (List.Perm.append_left _ (List.Perm.append_right _ hperm)).trans ?_
  simp only [List.cons_append]
  exact List.perm_middle

end BPlusTree

end cmudb

namespace cmudb

open BPlusTreePage IndexPageType

namespace BPlusTree

/-! ## `Insert` into a leaf with room -/

theorem Inv.leaf_insert {t : BPlusTree} {G : Ghost} (inv : Inv t G none) {l : Int}
    {p : BPlusTreePage} (hp : t.pages l = some p) (hty : p.page_type_ = LEAF_PAGE)
    (hroom : p.size_ < p.max_size_) {key : Int} (value : Int)
    (hr : inRange (G.lo l) (G.hi l) key) (hk : key ∉ p.live.map Prod.fst) :
    ∃ q, BPlusTreeLeafPage.Insert p key value = some q ∧ Inv (t.WritePage l q) G none ∧
      (contents (t.WritePage l q) G.leaves).Perm ((key, value) :: contents t G.leaves) := by
  have ok := inv.page l p hp
  obtain ⟨k1, k2, k3, k4, k5⟩ := ok.leaf hty
  obtain ⟨q, e1, e2, e3, e4, e5, _⟩ :=
    BPlusTreeLeafPage.Insert_sorted p key value (by rw [ok.len]; exact hroom) k3 hk
  obtain ⟨a1, a2, a3, a4, a5, a6⟩ := e2
  refine ⟨q, e1, ?_, ?_⟩
  · refine ⟨inv.cfg_leaf, inv.cfg_internal, ?_, ?_, inv.root_lo, inv.root_hi, ?_, ?_,
      inv.leaves_nodup, ?_⟩
    · intro x px hx
      rw [WritePage_pages] at hx
      by_cases c : x = l
      · rw [c]; exact inv.alloc l p hp
      · rw [if_neg c] at hx; exact inv.alloc x px hx
    · obtain ⟨r, hr⟩ := inv.root_page
      rw [WritePage_pages, WritePage_root]
      by_cases c : t.root_page_id_ = l
      · rw [if_pos c]; exact ⟨q, rfl⟩
      · rw [if_neg c]; exact ⟨r, hr⟩
    · intro x px hx
      rw [WritePage_pages] at hx
      have hchild : ∀ (y : Int) (c : Int) (lo hi : Option Int), childOk t G none y c lo hi →
          childOk (t.WritePage l q) G none y c lo hi := by
        intro y c lo hi h
        refine h.carry ?_ (fun e => e) rfl rfl
        intro cp hcp
        rw [WritePage_pages]
        by_cases cc : c = l
        · rw [if_pos cc]
          subst cc
          obtain ⟨cp', b1, b2, _⟩ := h
          rw [hp] at b1
          simp only [Option.some.injEq] at b1
          subst b1
          exact ⟨q, rfl, a3.trans b2⟩
        · rw [if_neg cc]
          obtain ⟨cp', b1, b2, _⟩ := h
          exact ⟨cp', b1, b2⟩
      have hpar : ∀ (x : Int) (px : BPlusTreePage) (par : BPlusTreePage),
          t.pages px.parent_page_id_ = some par → par.page_type_ = INTERNAL_PAGE →
          x ∈ par.live.map Prod.snd →
          ∃ par1, (t.WritePage l q).pages px.parent_page_id_ = some par1 ∧
            par1.page_type_ = INTERNAL_PAGE ∧ x ∈ par1.live.map Prod.snd := by
        intro x px par h1 h2 h3
        have hne : px.parent_page_id_ ≠ l := by
          intro e
          rw [e, hp] at h1
          simp only [Option.some.injEq] at h1
          subst h1
          rw [hty] at h2
          cases h2
        exact ⟨par, by rw [WritePage_pages, if_neg hne]; exact h1, h2, h3⟩
      by_cases c : x = l
      · rw [if_pos c] at hx
        simp only [Option.some.injEq] at hx
        subst hx
        subst c
        refine ⟨a4.trans ok.id, ?_, ?_, ok.range, ok.lv_le, ?_, ?_, ?_, ?_, ?_⟩
        · rw [a6, a2]; exact ok.len
        · rw [e3, a2]; omega
        · intro hn
          rw [a3]
          exact ok.parent_root hn
        · intro hx hn
          obtain ⟨par, b1, b2, b3⟩ := ok.parent_link hx hn
          rw [a3]
          exact hpar x p par b1 b2 b3
        · intro hx
          have := ok.fill hx
          rw [e3, a2]
          omega
        · intro _
          refine ⟨k1, by rw [a2]; exact k2, e5, ?_, k5⟩
          intro kv hkv
          rcases List.mem_cons.1 (e4.mem_iff.1 hkv) with h | h
          · rw [h]; exact hr
          · exact k4 kv h
        · intro hi
          rw [a1, hty] at hi
          cases hi
      · rw [if_neg c] at hx
        exact (inv.page x px hx).frame rfl rfl rfl rfl rfl rfl rfl (fun h => h) (fun h => h)
          (hpar x px) (fun _ cc _ lo hi h => hchild x cc lo hi h)
    · apply chainOk_congr _ _ _ _ inv.chain
      · intro y _ py hpy
        rw [WritePage_pages]
        by_cases c : y = l
        · rw [if_pos c]
          rw [c, hp] at hpy
          simp only [Option.some.injEq] at hpy
          subst hpy
          exact ⟨q, rfl, a1, a5⟩
        · rw [if_neg c]
          exact ⟨py, hpy, rfl, rfl⟩
      · intro y _
        exact ⟨rfl, rfl⟩
    · intro old key new h
      cases h
  · apply contents_write inv.leaves_nodup k5 hp (q := q)
    · rw [WritePage_pages, if_pos rfl]
    · intro y _ hy
      rw [WritePage_pages, if_neg hy]
    · exact e4

/-! ## The first `Insert` -/

theorem Insert_empty_Inv (leaf_max_size internal_max_size fuel : Nat) (key value : Int)
    (h1 : 2 ≤ leaf_max_size) (h2 : 2 ≤ internal_max_size) :
    ∃ t1 G1, (empty leaf_max_size internal_max_size).Insert fuel key value = some (true, t1) ∧
      Inv t1 G1 none ∧ contents t1 G1.leaves = [(key, value)] ∧
      G1.lv t1.root_page_id_ = 0 ∧ G1.leaves.length = 1 := by
  have hlive0 : (BPlusTreeLeafPage.Init leaf_max_size 1 INVALID_PAGE_ID).live = [] := by
    simp [live, BPlusTreeLeafPage.Init]
  obtain ⟨q, e1, e2, e3, e4, e5, _⟩ :=
    BPlusTreeLeafPage.Insert_sorted (BPlusTreeLeafPage.Init leaf_max_size 1 INVALID_PAGE_ID)
      key value (by simp [BPlusTreeLeafPage.Init]; omega) (by rw [hlive0]; simp)
      (by rw [hlive0]; simp)
  obtain ⟨a1, a2, a3, a4, a5, a6⟩ := e2
  rw [hlive0] at e4
  have hq : q.live = [(key, value)] := List.perm_singleton.1 e4
  have hsz : q.size_ = 1 := by rw [e3]; rfl
  let t1 : BPlusTree :=
    ({ (empty leaf_max_size internal_max_size) with next_page_id := 2, root_page_id_ := 1 } :
      BPlusTree).WritePage 1 q
  have hpages : ∀ x px, t1.pages x = some px → x = 1 ∧ px = q := by
    intro x px hx
    simp only [t1, WritePage_pages, empty] at hx
    by_cases c : x = 1
    · rw [if_pos c] at hx
      simp only [Option.some.injEq] at hx
      exact ⟨c, hx.symm⟩
    · rw [if_neg c] at hx
      cases hx
  have hp1 : t1.pages 1 = some q := by simp [t1]
  refine ⟨t1, { lv := fun _ => 0, lo := fun _ => none, hi := fun _ => none, leaves := [1] },
    ?_, ?_, ?_, rfl, rfl⟩
  · unfold Insert
    simp only [IsEmpty, empty, decide_True, if_true, StartNewTree, NewPage]
    rw [e1]
    rfl
  · refine ⟨h1, h2, ?_, ⟨q, hp1⟩, rfl, rfl, ?_, ?_, by simp, ?_⟩
    · intro x px hx
      obtain ⟨rfl, _⟩ := hpages x px hx
      exact ⟨by omega, by simp [t1, empty]⟩
    · intro x px hx
      obtain ⟨rfl, rfl⟩ := hpages x px hx
      refine ⟨a4, ?_, ?_, ?_, le_refl _, ?_, ?_, ?_, ?_, ?_⟩
      · rw [a6, a2]; simp [BPlusTreeLeafPage.Init]
      · rw [hsz, a2]; simp only [BPlusTreeLeafPage.Init]; omega
      · intro a b h; cases h
      · intro _
        rw [a3]
        exact ⟨fun _ => rfl, fun _ => rfl⟩
      · intro h
        exact absurd rfl h
      · intro h
        exact absurd rfl h
      · intro _
        refine ⟨rfl, a2, e5, ?_, by simp⟩
        intro kv _
        exact ⟨fun a h => (by cases h), fun a h => (by cases h)⟩
      · intro hi
        rw [a1] at hi
        cases hi
    · exact ⟨q, hp1, a1, a5, rfl, rfl⟩
    · intro old key new h
      cases h
  · rw [contents_cons [] hp1, hq]
    rfl

end BPlusTree

end cmudb

namespace cmudb

open BPlusTreePage IndexPageType

namespace BPlusTree

/-! ## `InsertIntoParent`: a new root -/

theorem effHi_ne (G : Ghost) {old key new c : Int} (h : c ≠ old) :
    effHi G (some (old, key, new)) c = G.hi c := by
  simp [effHi, h]

theorem effHi_old (G : Ghost) (old key new : Int) :
    effHi G (some (old, key, new)) old = G.hi new := by
  simp [effHi]

theorem isPendNew_some (old key new x : Int) :
    isPendNew (some (old, key, new)) x ↔ x = new := Iff.rfl

theorem isPendNew_none (x : Int) : ¬ isPendNew none x := fun h => h

/-- A child of an internal page is in the pool, is not the root and lies one level
below the page. -/
theorem Inv.child_facts {t : BPlusTree} {G : Ghost} {pend : Pending} (inv : Inv t G pend)
    {x : Int} {p : BPlusTreePage} (hp : t.pages x = some p)
    (hty : p.page_type_ = INTERNAL_PAGE) {c : Int} (hc : c ∈ p.live.map Prod.snd) :
    ∃ cp, t.pages c = some cp ∧ cp.parent_page_id_ = x ∧ G.lv c + 1 = G.lv x ∧
      c ≠ t.next_page_id ∧ c ≠ x := by
  obtain ⟨lo, hi, cp, a1, a2, a3, _⟩ := inv.child hp hty hc
  refine ⟨cp, a1, a2, a3, ?_, ?_⟩
  · have := (inv.alloc c cp a1).2
    omega
  · intro e
    rw [e] at a3
    omega

/-- The new page of a pending call is in no slot. -/
theorem Inv.child_ne_new {t : BPlusTree} {G : Ghost} {old key new : Int}
    (inv : Inv t G (some (old, key, new)))
    {x : Int} {p : BPlusTreePage} (hp : t.pages x = some p)
    (hty : p.page_type_ = INTERNAL_PAGE) {c : Int} (hc : c ∈ p.live.map Prod.snd) :
    c ≠ new := by
  obtain ⟨op, np, _, _, _, _, _, _, _, _, _, hfresh⟩ := inv.pending old key new rfl
  intro e
  subst e
  exact hfresh x p hp hty hc

theorem Inv.new_root {t : BPlusTree} {G : Ghost} {old key new : Int} {op np : BPlusTreePage}
    (inv : Inv t G (some (old, key, new))) (hop : t.pages old = some op)
    (hnp : t.pages new = some np) (hroot : old = t.root_page_id_)
    (t1 : BPlusTree) (node : BPlusTreePage)
    (hr1 : t1.root_page_id_ = t.next_page_id)
    (hn1 : t1.next_page_id = t.next_page_id + 1)
    (hlm : t1.leaf_max_size = t.leaf_max_size)
    (him : t1.internal_max_size = t.internal_max_size)
    (hR : t1.pages t.next_page_id = some node) (hnty : node.page_type_ = INTERNAL_PAGE)
    (hnsz : node.size_ = 2) (hnmax : node.max_size_ = t.internal_max_size)
    (hnpar : node.parent_page_id_ = INVALID_PAGE_ID) (hnid : node.page_id_ = t.next_page_id)
    (hnlen : node.array.length = t.internal_max_size)
    (hnlive : node.live = [(0, old), (key, new)])
    (hold : t1.pages old = some (op.SetParentPageId t.next_page_id))
    (hnew : t1.pages new = some (np.SetParentPageId t.next_page_id))
    (hother : ∀ y, y ≠ old → y ≠ new → y ≠ t.next_page_id → t1.pages y = t.pages y) :
    Inv t1
      { lv := fun x => if x = t.next_page_id then G.lv old + 1 else G.lv x,
        lo := fun x => if x = t.next_page_id then none else G.lo x,
        hi := fun x => if x = t.next_page_id then none else G.hi x,
        leaves := G.leaves } none := by
  obtain ⟨op', np', b1, b2, b3, b4, b5, b6, b7, b8, b9, b10⟩ := inv.pending old key new rfl
  rw [hop] at b1
  rw [hnp] at b2
  simp only [Option.some.injEq] at b1 b2
  subst b1 b2
  have hfresh := inv.next_fresh
  have hRpos := inv.next_pos
  have okold := inv.page old op hop
  have oknew := inv.page new np hnp
  have holdR : old ≠ t.next_page_id := by
    intro e; rw [e, hfresh] at hop; cases hop
  have hnewR : new ≠ t.next_page_id := by
    intro e; rw [e, hfresh] at hnp; cases hnp
  have hRinv : t.next_page_id ≠ INVALID_PAGE_ID := by
    unfold INVALID_PAGE_ID; omega
  have hopar : op.parent_page_id_ = INVALID_PAGE_ID :=
    (okold.parent_root (fun h => b7 ((isPendNew_some _ _ _ _).1 h).symm)).2 hroot
  have hlo_old : G.lo old = none := by rw [hroot]; exact inv.root_lo
  have hhi_new : G.hi new = none := by
    have := inv.root_hi
    rw [← hroot, effHi_old] at this
    exact this
  -- children of the pages of `t`
  have hch : ∀ (x : Int) (p : BPlusTreePage), t.pages x = some p →
      p.page_type_ = INTERNAL_PAGE → ∀ c ∈ p.live.map Prod.snd,
        c ≠ old ∧ c ≠ new ∧ c ≠ t.next_page_id := by
    intro x p hp hty c hc
    obtain ⟨cp, c1, c2, c3, c4, c5⟩ := inv.child_facts hp hty hc
    refine ⟨?_, inv.child_ne_new hp hty hc, c4⟩
    intro e
    subst e
    rw [hop] at c1
    simp only [Option.some.injEq] at c1
    subst c1
    rw [hopar] at c2
    exact inv.pos hp c2.symm
  have hsim : ∀ y py, t.pages y = some py → ∃ py1, t1.pages y = some py1 ∧
      py1.page_type_ = py.page_type_ ∧ py1.live = py.live ∧
      py1.next_page_id_ = py.next_page_id_ := by
    intro y py hy
    by_cases c1 : y = old
    · subst c1
      rw [hop] at hy
      simp only [Option.some.injEq] at hy
      subst hy
      exact ⟨_, hold, rfl, rfl, rfl⟩
    · by_cases c2 : y = new
      · subst c2
        rw [hnp] at hy
        simp only [Option.some.injEq] at hy
        subst hy
        exact ⟨_, hnew, rfl, rfl, rfl⟩
      · have c3 : y ≠ t.next_page_id := by
          intro e; rw [e, hfresh] at hy; cases hy
        exact ⟨py, by rw [hother y c1 c2 c3]; exact hy, rfl, rfl, rfl⟩
  have hchild : ∀ (x : Int) (p : BPlusTreePage), t.pages x = some p →
      p.page_type_ = INTERNAL_PAGE → ∀ c ∈ p.live.map Prod.snd, ∀ lo hi,
        childOk t G (some (old, key, new)) x c lo hi →
        childOk t1
          { lv := fun x => if x = t.next_page_id then G.lv old + 1 else G.lv x,
            lo := fun x => if x = t.next_page_id then none else G.lo x,
            hi := fun x => if x = t.next_page_id then none else G.hi x,
            leaves := G.leaves } none x c lo hi := by
    intro x p hp hty c hc lo hi h
    obtain ⟨c1, c2, c3⟩ := hch x p hp hty c hc
    have hxR : x ≠ t.next_page_id := by
      intro e; rw [e, hfresh] at hp; cases hp
    have h' := h
    obtain ⟨cp, d1, d2, _⟩ := h'
    refine h.carry ?_ ?_ ?_ ?_
    · intro cp' hcp'
      rw [d1] at hcp'
      simp only [Option.some.injEq] at hcp'
      subst hcp'
      exact ⟨cp, by rw [hother c c1 c2 c3]; exact d1, d2⟩
    · intro e
      simp only [if_neg c3, if_neg hxR]
      exact e
    · simp only [if_neg c3]
    · rw [effHi_none, effHi_ne G c1]
      simp only [if_neg c3]
  refine ⟨by rw [hlm]; exact inv.cfg_leaf, by rw [him]; exact inv.cfg_internal, ?_, ?_, ?_, ?_,
    ?_, ?_, inv.leaves_nodup, ?_⟩
  · intro x px hx
    rw [hn1]
    by_cases c : x = t.next_page_id
    · rw [c]; omega
    · have : ∃ py, t.pages x = some py := by
        by_cases c1 : x = old
        · exact ⟨op, by rw [c1]; exact hop⟩
        · by_cases c2 : x = new
          · exact ⟨np, by rw [c2]; exact hnp⟩
          · exact ⟨px, by rw [← hother x c1 c2 c]; exact hx⟩
      obtain ⟨py, hpy⟩ := this
      have := inv.alloc x py hpy
      omega
  · rw [hr1]; exact ⟨node, hR⟩
  · rw [hr1]; simp
  · rw [hr1, effHi_none]; simp
  · intro x px hx
    by_cases cR : x = t.next_page_id
    · subst cR
      rw [hR] at hx
      simp only [Option.some.injEq] at hx
      subst hx
      refine ⟨hnid, by rw [hnlen, hnmax], ?_, ?_, ?_, ?_, ?_, ?_, ?_, ?_⟩
      · rw [hnsz, hnmax]; exact inv.cfg_internal
      · intro a b h; simp at h
      · rw [hr1]
      · intro _
        rw [hr1]
        exact ⟨fun _ => rfl, fun _ => hnpar⟩
      · intro h; exact absurd hr1.symm h
      · intro h; exact absurd hr1.symm h
      · intro h; rw [hnty] at h; cases h
      · intro _
        refine ⟨by simp, by rw [hnmax, him], by rw [hnsz]; omega, ?_, ?_⟩
        · rw [hnlive]
          simp only [if_true, slotsOk]
          refine ⟨⟨_, hold, rfl, ?_, ?_, ?_⟩, ⟨_, hnew, rfl, ?_, ?_, ?_⟩⟩
          · simp [if_neg holdR]
          · simp only [if_neg holdR]; exact hlo_old
          · rw [effHi_none]; simp only [if_neg holdR]; exact b5
          · simp [if_neg hnewR, b4]
          · simp only [if_neg hnewR]; exact b6
          · rw [effHi_none]; simp only [if_neg hnewR]; exact hhi_new
        · rw [hnlive]
          simp only [List.map_cons, List.map_nil, List.nodup_cons, List.mem_singleton,
            List.not_mem_nil, not_false_eq_true, List.nodup_nil, and_true]
          exact fun e => b7 e.symm
    · by_cases c1 : x = old
      · subst c1
        rw [hold] at hx
        simp only [Option.some.injEq] at hx
        subst hx
        refine okold.transfer rfl rfl rfl rfl rfl hlm him ?_ ?_ ?_ ?_ ?_ (fun h => h) ?_ ?_
          (hchild x op hop)
        · simp only [if_neg cR]
        · simp only [if_neg cR]
        · simp only [if_neg cR]
        · rw [hr1]; simp only [if_neg cR, if_true]; omega
        · intro _; right; exact b9
        · intro _
          rw [hr1]
          exact ⟨fun h => absurd h hRinv, fun h => absurd h cR⟩
        · intro _ _
          exact ⟨node, hR, hnty, by rw [hnlive]; simp⟩
      · by_cases c2 : x = new
        · subst c2
          rw [hnew] at hx
          simp only [Option.some.injEq] at hx
          subst hx
          refine oknew.transfer rfl rfl rfl rfl rfl hlm him ?_ ?_ ?_ ?_ ?_ (fun h => h) ?_ ?_
            (hchild x np hnp)
          · simp only [if_neg cR]
          · simp only [if_neg cR]
          · simp only [if_neg cR]
          · rw [hr1]; simp only [if_neg cR, if_true]; omega
          · intro _; left; exact b8
          · intro _
            rw [hr1]
            exact ⟨fun h => absurd h hRinv, fun h => absurd h cR⟩
          · intro _ _
            exact ⟨node, hR, hnty, by rw [hnlive]; simp⟩
        · rw [hother x c1 c2 cR] at hx
          have ok := inv.page x px hx
          have hxroot : x ≠ t.root_page_id_ := by rw [← hroot]; exact c1
          have hxnew : ¬ isPendNew (some (old, key, new)) x := fun h => c2 h
          refine ok.transfer rfl rfl rfl rfl rfl hlm him ?_ ?_ ?_ ?_ ?_ (fun h => h) ?_ ?_
            (hchild x px hx)
          · simp only [if_neg cR]
          · simp only [if_neg cR]
          · simp only [if_neg cR]
          · rw [hr1]
            simp only [if_neg cR, if_true]
            have := ok.lv_le
            rw [← hroot] at this
            omega
          · intro _; left; exact hxroot
          · intro _
            rw [hr1]
            constructor
            · intro h
              exact absurd ((ok.parent_root hxnew).1 h) hxroot
            · intro h
              exact absurd h cR
          · intro _ _
            obtain ⟨par, p1, p2, p3⟩ := ok.parent_link hxroot hxnew
            obtain ⟨par1, q1, q2, q3, _⟩ := hsim _ par p1
            exact ⟨par1, q1, q2.trans p2, by rw [q3]; exact p3⟩
  · apply chainOk_congr _ _ _ _ inv.chain
    · intro y _ py hpy
      obtain ⟨py1, q1, q2, _, q4⟩ := hsim y py hpy
      exact ⟨py1, q1, q2, q4⟩
    · intro y hy
      obtain ⟨py, hpy, _⟩ := chainOk_leaf _ _ inv.chain y hy
      have c3 : y ≠ t.next_page_id := by
        intro e; rw [e, hfresh] at hpy; cases hpy
      simp [c3]
  · intro a b c h
    cases h

end BPlusTree

end cmudb

namespace cmudb

open BPlusTreePage IndexPageType

namespace BPlusTree

/-! ## `InsertIntoParent`: the parent has room -/

theorem mem_children_insert {L1 L2 : List MappingType} {s : MappingType} {key new x : Int}
    (h : x ∈ (L1 ++ s :: L2).map Prod.snd) :
    x ∈ (L1 ++ s :: (key, new) :: L2).map Prod.snd := by
  simp only [List.map_append, List.map_cons, List.mem_append, List.mem_cons] at h ⊢
  tauto

theorem Inv.parent_room {t : BPlusTree} {G : Ghost} {old key new : Int}
    {op np par q : BPlusTreePage} {L1 L2 : List MappingType} {s : MappingType}
    (inv : Inv t G (some (old, key, new))) (hop : t.pages old = some op)
    (hnp : t.pages new = some np) (hnr : old ≠ t.root_page_id_)
    (hpar : t.pages op.parent_page_id_ = some par) (hpty : par.page_type_ = INTERNAL_PAGE)
    (hq : SameHeader par q) (hqsz : q.size_ = par.size_ + 1)
    (hroom : par.size_ < par.max_size_) (hsplit : par.live = L1 ++ s :: L2) (hs : s.2 = old)
    (hqlive : q.live = L1 ++ s :: (key, new) :: L2) :
    Inv (t.WritePage op.parent_page_id_ q) G none := by
  obtain ⟨op', np', b1, b2, b3, b4, b5, b6, b7, b8, b9, b10⟩ := inv.pending old key new rfl
  rw [hop] at b1
  rw [hnp] at b2
  simp only [Option.some.injEq] at b1 b2
  subst b1 b2
  obtain ⟨a1, a2, a3, a4, a5, a6⟩ := hq
  have okP := inv.page _ par hpar
  have okold := inv.page old op hop
  have oknew := inv.page new np hnp
  obtain ⟨i1, i2, i3, i4, i5⟩ := okP.internal hpty
  have hold_mem : old ∈ par.live.map Prod.snd := by
    rw [hsplit]; simp [hs]
  obtain ⟨_, o1, _, o3, _, o5⟩ := inv.child_facts hpar hpty hold_mem
  have hPold : op.parent_page_id_ ≠ old := fun e => o5 e.symm
  have hPnew : op.parent_page_id_ ≠ new := by
    intro e
    rw [e] at o3
    omega
  have hPinv : op.parent_page_id_ ≠ INVALID_PAGE_ID := inv.pos hpar
  have hnd := i5
  rw [hsplit, List.map_append, List.map_cons, List.nodup_append] at hnd
  obtain ⟨nd1, nd2, nd3⟩ := hnd
  rw [List.nodup_cons] at nd2
  have hnew_not : new ∉ par.live.map Prod.snd := b10 _ par hpar hpty
  -- children of the pages other than the parent
  have hchild : ∀ (x : Int) (p : BPlusTreePage), t.pages x = some p →
      p.page_type_ = INTERNAL_PAGE → x ≠ op.parent_page_id_ → ∀ c ∈ p.live.map Prod.snd,
      ∀ lo hi, childOk t G (some (old, key, new)) x c lo hi →
        childOk (t.WritePage op.parent_page_id_ q) G none x c lo hi := by
    intro x p hp hty hx c hc lo hi h
    have h' := h
    obtain ⟨cp, d1, d2, _⟩ := h'
    have hcold : c ≠ old := by
      intro e
      subst e
      rw [hop] at d1
      simp only [Option.some.injEq] at d1
      subst d1
      exact hx d2.symm
    refine h.carry ?_ (fun e => e) rfl ?_
    · intro cp' hcp'
      rw [d1] at hcp'
      simp only [Option.some.injEq] at hcp'
      subst hcp'
      rw [WritePage_pages]
      by_cases cc : c = op.parent_page_id_
      · rw [if_pos cc]
        rw [cc, hpar] at d1
        simp only [Option.some.injEq] at d1
        subst d1
        exact ⟨q, rfl, a3.trans d2⟩
      · rw [if_neg cc]
        exact ⟨cp, d1, d2⟩
    · rw [effHi_none, effHi_ne G hcold]
  have hparent : ∀ (x : Int) (px : BPlusTreePage) (par0 : BPlusTreePage),
      t.pages px.parent_page_id_ = some par0 → par0.page_type_ = INTERNAL_PAGE →
      x ∈ par0.live.map Prod.snd →
      ∃ par1, (t.WritePage op.parent_page_id_ q).pages px.parent_page_id_ = some par1 ∧
        par1.page_type_ = INTERNAL_PAGE ∧ x ∈ par1.live.map Prod.snd := by
    intro x px par0 h1 h2 h3
    rw [WritePage_pages]
    by_cases c : px.parent_page_id_ = op.parent_page_id_
    · rw [if_pos c]
      rw [c, hpar] at h1
      simp only [Option.some.injEq] at h1
      subst h1
      refine ⟨q, rfl, a1.trans hpty, ?_⟩
      rw [hqlive]
      rw [hsplit] at h3
      exact mem_children_insert h3
    · rw [if_neg c]
      exact ⟨par0, h1, h2, h3⟩
  refine ⟨inv.cfg_leaf, inv.cfg_internal, ?_, ?_, inv.root_lo, ?_, ?_, ?_, inv.leaves_nodup, ?_⟩
  · intro x px hx
    rw [WritePage_pages] at hx
    by_cases c : x = op.parent_page_id_
    · rw [c]; exact inv.alloc _ par hpar
    · rw [if_neg c] at hx; exact inv.alloc x px hx
  · obtain ⟨r, hr⟩ := inv.root_page
    rw [WritePage_pages, WritePage_root]
    by_cases c : t.root_page_id_ = op.parent_page_id_
    · rw [if_pos c]; exact ⟨q, rfl⟩
    · rw [if_neg c]; exact ⟨r, hr⟩
  · have := inv.root_hi
    rw [effHi_ne G (Ne.symm hnr)] at this
    exact this
  · intro x px hx
    rw [WritePage_pages] at hx
    by_cases cP : x = op.parent_page_id_
    · rw [if_pos cP] at hx
      simp only [Option.some.injEq] at hx
      subst hx
      subst cP
      have hPnotnew : ¬ isPendNew (some (old, key, new)) op.parent_page_id_ := fun h => hPnew h
      refine ⟨a4.trans okP.id, ?_, ?_, okP.range, okP.lv_le, ?_, ?_, ?_, ?_, ?_⟩
      · rw [a6, a2]; exact okP.len
      · rw [hqsz, a2]; omega
      · intro _
        rw [a3]
        exact okP.parent_root hPnotnew
      · intro hx _
        obtain ⟨par0, p1, p2, p3⟩ := okP.parent_link hx hPnotnew
        rw [a3]
        exact hparent _ par par0 p1 p2 p3
      · intro hx
        have := okP.fill hx
        rw [hqsz, a2]
        omega
      · intro h
        rw [a1, hpty] at h
        cases h
      · intro _
        refine ⟨i1, by rw [a2]; exact i2, by rw [hqsz]; omega, ?_, ?_⟩
        · rw [hqlive]
          rw [hsplit] at i4
          have hmono : ∀ c ∈ par.live.map Prod.snd, c ≠ old → ∀ lo hi,
              childOk t G (some (old, key, new)) op.parent_page_id_ c lo hi →
              childOk (t.WritePage op.parent_page_id_ q) G none op.parent_page_id_ c lo hi := by
            intro c hc hcold lo hi h
            obtain ⟨cp, c1, c2, c3, c4, c5⟩ := inv.child_facts hpar hpty hc
            refine h.carry ?_ (fun e => e) rfl ?_
            · intro cp' hcp'
              rw [c1] at hcp'
              simp only [Option.some.injEq] at hcp'
              subst hcp'
              exact ⟨cp, by rw [WritePage_pages, if_neg c5]; exact c1, c2⟩
            · rw [effHi_none, effHi_ne G hcold]
          refine slotsOk_insert_after _ _ old key new s hs L2 ?_ ?_ L1 _ _ ?_ i4
          · intro lo hi h
            obtain ⟨cp, c1, c2, c3, c4, c5⟩ := h
            rw [effHi_old] at c5
            constructor
            · exact ⟨cp, by rw [WritePage_pages, if_neg (Ne.symm hPold)]; exact c1, c2, c3, c4,
                by rw [effHi_none]; exact b5⟩
            · exact ⟨np, by rw [WritePage_pages, if_neg (Ne.symm hPnew)]; exact hnp, b3,
                by rw [b4]; exact c3, b6, by rw [effHi_none]; exact c5⟩
          · intro c hc
            apply hmono c
            · rw [hsplit]
              simp only [List.map_append, List.map_cons, List.mem_append, List.mem_cons]
              right; right; exact hc
            · intro e
              subst e
              rw [← hs] at hc
              exact nd2.1 hc
          · intro c hc
            apply hmono c
            · rw [hsplit]
              simp only [List.map_append, List.map_cons, List.mem_append, List.mem_cons]
              left; exact hc
            · intro e
              subst e
              exact nd3 hc (by rw [← hs]; simp)
        · rw [hqlive, List.map_append, List.map_cons, List.map_cons, List.nodup_append]
          refine ⟨nd1, ?_, ?_⟩
          · rw [List.nodup_cons, List.nodup_cons]
            refine ⟨?_, ?_, nd2.2⟩
            · simp only [List.mem_cons, not_or]
              refine ⟨?_, nd2.1⟩
              rw [hs]
              exact fun e => b7 e.symm
            · intro h
              apply hnew_not
              rw [hsplit]
              simp only [List.map_append, List.map_cons, List.mem_append, List.mem_cons]
              right; right; exact h
          · intro a ha1 ha2
            simp only [List.mem_cons] at ha2
            rcases ha2 with e | e | e
            · exact nd3 ha1 (by rw [e]; simp)
            · apply hnew_not
              rw [hsplit]
              simp only [List.map_append, List.map_cons, List.mem_append, List.mem_cons]
              left
              rw [← e]
              exact ha1
            · exact nd3 ha1 (List.mem_cons_of_mem _ e)
    · rw [if_neg cP] at hx
      by_cases c2 : x = new
      · subst c2
        rw [hnp] at hx
        simp only [Option.some.injEq] at hx
        subst hx
        refine oknew.transfer rfl rfl rfl rfl rfl rfl rfl rfl rfl rfl oknew.lv_le
          (fun h => Or.inl h) (fun h => h) ?_ ?_ ?_
        · intro _
          rw [b3]
          exact ⟨fun h => absurd h hPinv, fun h => absurd h b8⟩
        · intro _ _
          rw [b3]
          refine ⟨q, by rw [WritePage_pages, if_pos rfl], a1.trans hpty, ?_⟩
          rw [hqlive]
          simp
        · intro hty
          exact hchild x np hnp hty cP
      · have ok := inv.page x px hx
        exact ok.frame rfl rfl rfl rfl rfl rfl rfl (fun h => h) (fun _ h => c2 h)
          (hparent x px) (fun hty => hchild x px hx hty cP)
  · apply chainOk_congr _ _ _ _ inv.chain
    · intro y _ py hpy
      rw [WritePage_pages]
      by_cases c : y = op.parent_page_id_
      · rw [if_pos c]
        rw [c, hpar] at hpy
        simp only [Option.some.injEq] at hpy
        subst hpy
        exact ⟨q, rfl, a1, a5⟩
      · rw [if_neg c]
        exact ⟨py, hpy, rfl, rfl⟩
    · intro y _
      exact ⟨rfl, rfl⟩
  · intro a b c h
    cases h

end BPlusTree

end cmudb

namespace cmudb

open BPlusTreePage IndexPageType

namespace BPlusTree

/-! ## `InsertIntoParent`: the parent is split -/

theorem withSplit_lv (G : Ghost) (old key new : Int) {x : Int} (h : x ≠ new) :
    (G.withSplit old key new).lv x = G.lv x := by
  simp [Ghost.withSplit, h]

theorem withSplit_lo (G : Ghost) (old key new : Int) {x : Int} (h : x ≠ new) :
    (G.withSplit old key new).lo x = G.lo x := by
  simp [Ghost.withSplit, h]

theorem withSplit_hi (G : Ghost) (old key new : Int) {x : Int} (h1 : x ≠ old) (h2 : x ≠ new) :
    (G.withSplit old key new).hi x = G.hi x := by
  simp [Ghost.withSplit, h1, h2]

theorem withSplit_lv_new (G : Ghost) (old key new : Int) :
    (G.withSplit old key new).lv new = G.lv old := by
  simp [Ghost.withSplit]

theorem withSplit_lo_new (G : Ghost) (old key new : Int) :
    (G.withSplit old key new).lo new = some key := by
  simp [Ghost.withSplit]

theorem withSplit_hi_old (G : Ghost) (old key new : Int) :
    (G.withSplit old key new).hi old = some key := by
  simp [Ghost.withSplit]

theorem withSplit_hi_new (G : Ghost) (old key new : Int) (h : new ≠ old) :
    (G.withSplit old key new).hi new = G.hi old := by
  simp [Ghost.withSplit, h]

/-- The range that the parent attributes to a child is the same after the split of a
page `P` into `P` and `N`, for every child other than the pending `old`. -/
theorem effHi_withSplit (G : Ghost) {old key new P ukey N c : Int} (hc : c ≠ old)
    (hcN : c ≠ N) (hNP : N ≠ P) :
    effHi (G.withSplit P ukey N) (some (P, ukey, N)) c = effHi G (some (old, key, new)) c := by
  rw [effHi_ne G hc]
  by_cases e : c = P
  · subst e
    rw [effHi_old, withSplit_hi_new _ _ _ _ hNP]
  · rw [effHi_ne _ e, withSplit_hi _ _ _ _ e hcN]

theorem Inv.parent_split_core {t : BPlusTree} {G : Ghost} {old key new : Int}
    {op np par : BPlusTreePage} (inv : Inv t G (some (old, key, new)))
    (hop : t.pages old = some op) (hnp : t.pages new = some np)
    (hpar : t.pages op.parent_page_id_ = some par) (hpty : par.page_type_ = INTERNAL_PAGE)
    (hold_mem : old ∈ par.live.map Prod.snd)
    {t2 : BPlusTree} {PA RB : BPlusTreePage} {ukey : Int}
    (hroot2 : t2.root_page_id_ = t.root_page_id_)
    (hnext2 : t2.next_page_id = t.next_page_id + 1)
    (hlm : t2.leaf_max_size = t.leaf_max_size)
    (him : t2.internal_max_size = t.internal_max_size)
    (hP2 : t2.pages op.parent_page_id_ = some PA) (hPA : SameHeader par PA)
    (hPAsz : par.max_size_ / 2 ≤ PA.size_ ∧ 1 ≤ PA.size_ ∧ PA.size_ ≤ par.max_size_)
    (hN2 : t2.pages t.next_page_id = some RB) (hRBty : RB.page_type_ = INTERNAL_PAGE)
    (hRBmax : RB.max_size_ = t.internal_max_size)
    (hRBpar : RB.parent_page_id_ = par.parent_page_id_)
    (hRBid : RB.page_id_ = t.next_page_id) (hRBlen : RB.array.length = t.internal_max_size)
    (hRBsz : t.internal_max_size / 2 ≤ RB.size_ ∧ 1 ≤ RB.size_ ∧
      RB.size_ ≤ t.internal_max_size)
    (hPAsub : ∀ c ∈ PA.live.map Prod.snd, c ∈ par.live.map Prod.snd ∨ c = new)
    (hRBsub : ∀ c ∈ RB.live.map Prod.snd, c ∈ par.live.map Prod.snd ∨ c = new)
    (hcover : ∀ c ∈ par.live.map Prod.snd,
      c ∈ PA.live.map Prod.snd ∨ c ∈ RB.live.map Prod.snd)
    (hnewin : new ∈ PA.live.map Prod.snd ∨ new ∈ RB.live.map Prod.snd)
    (hpages : ∀ y, y ≠ op.parent_page_id_ → y ≠ t.next_page_id →
      t2.pages y = t.pages y ∨ (y ∈ RB.live.map Prod.snd ∧
        t2.pages y = (t.pages y).map fun cp => cp.SetParentPageId t.next_page_id))
    (hPAslots : slotsOk
      (childOk t2 (G.withSplit op.parent_page_id_ ukey t.next_page_id)
        (some (op.parent_page_id_, ukey, t.next_page_id)) op.parent_page_id_)
      PA.live (G.lo op.parent_page_id_) (some ukey))
    (hRBslots : slotsOk
      (childOk t2 (G.withSplit op.parent_page_id_ ukey t.next_page_id)
        (some (op.parent_page_id_, ukey, t.next_page_id)) t.next_page_id)
      RB.live (some ukey) (G.hi op.parent_page_id_))
    (hPAnd : (PA.live.map Prod.snd).Nodup) (hRBnd : (RB.live.map Prod.snd).Nodup)
    (hlo : loLtHi (G.lo op.parent_page_id_) (some ukey))
    (hhi : loLtHi (some ukey) (G.hi op.parent_page_id_)) :
    Inv t2 (G.withSplit op.parent_page_id_ ukey t.next_page_id)
      (some (op.parent_page_id_, ukey, t.next_page_id)) := by
  obtain ⟨op', np', b1, b2, b3, b4, b5, b6, b7, b8, b9, b10⟩ := inv.pending old key new rfl
  rw [hop] at b1
  rw [hnp] at b2
  simp only [Option.some.injEq] at b1 b2
  subst b1 b2
  obtain ⟨a1, a2, a3, a4, a5, a6⟩ := hPA
  have hfresh := inv.next_fresh
  have hNpos := inv.next_pos
  have okP := inv.page _ par hpar
  have oknew := inv.page new np hnp
  have okold := inv.page old op hop
  obtain ⟨i1, i2, i3, i4, i5⟩ := okP.internal hpty
  obtain ⟨_, _, _, o3, _, o5⟩ := inv.child_facts hpar hpty hold_mem
  have hPN : op.parent_page_id_ ≠ t.next_page_id := by
    intro e; rw [e, hfresh] at hpar; cases hpar
  have hNinv : t.next_page_id ≠ INVALID_PAGE_ID := by
    unfold INVALID_PAGE_ID; omega
  have hPinv : op.parent_page_id_ ≠ INVALID_PAGE_ID := inv.pos hpar
  have hPnew : op.parent_page_id_ ≠ new := by
    intro e; rw [e] at o3; omega
  have hPnotnew : ¬ isPendNew (some (old, key, new)) op.parent_page_id_ := fun h => hPnew h
  have hPold : op.parent_page_id_ ≠ old := fun e => o5 e.symm
  have hnewN : new ≠ t.next_page_id := by
    intro e; rw [e, hfresh] at hnp; cases hnp
  have holdnotnew : ¬ isPendNew (some (old, key, new)) old := fun h => b7 h.symm
  have holdroot : old ≠ t.root_page_id_ := by
    intro e
    exact hPinv ((okold.parent_root holdnotnew).2 e)
  -- pages in the slots of the two halves
  have hkid : ∀ c, c ∈ par.live.map Prod.snd ∨ c = new →
      ∃ cp, t.pages c = some cp ∧ cp.parent_page_id_ = op.parent_page_id_ ∧
        G.lv c + 1 = G.lv op.parent_page_id_ ∧ c ≠ t.next_page_id ∧ c ≠ op.parent_page_id_ ∧
        c ≠ t.root_page_id_ := by
    intro c hc
    rcases hc with hc | hc
    · obtain ⟨cp, c1, c2, c3, c4, c5⟩ := inv.child_facts hpar hpty hc
      refine ⟨cp, c1, c2, c3, c4, c5, ?_⟩
      intro e
      have hcn : ¬ isPendNew (some (old, key, new)) c := by
        intro h
        exact inv.child_ne_new hpar hpty hc h
      have := ((inv.page c cp c1).parent_root hcn).2 e
      rw [c2] at this
      exact hPinv this
    · subst hc
      exact ⟨np, hnp, b3, by rw [b4]; exact o3, hnewN, Ne.symm hPnew, b8⟩
  have hsim : ∀ y py, t.pages y = some py → y ≠ op.parent_page_id_ →
      ∃ py1, t2.pages y = some py1 ∧ py1.page_type_ = py.page_type_ ∧ py1.live = py.live ∧
        py1.next_page_id_ = py.next_page_id_ := by
    intro y py hy hyP
    have hyN : y ≠ t.next_page_id := by
      intro e; rw [e, hfresh] at hy; cases hy
    rcases hpages y hyP hyN with h | ⟨_, h⟩
    · exact ⟨py, by rw [h]; exact hy, rfl, rfl, rfl⟩
    · exact ⟨py.SetParentPageId t.next_page_id, by rw [h, hy]; rfl, rfl, rfl, rfl⟩
  have hRBparent : ∀ c ∈ RB.live.map Prod.snd, ∀ cp, t2.pages c = some cp →
      cp.parent_page_id_ = t.next_page_id := by
    intro c hc cp hcp
    obtain ⟨lo, hi, cp', c1, c2, _⟩ := slotsOk_child _ _ _ _ hRBslots c hc
    rw [hcp] at c1
    simp only [Option.some.injEq] at c1
    subst c1
    exact c2
  have hrootN : t.root_page_id_ ≠ t.next_page_id := by
    obtain ⟨r, hr⟩ := inv.root_page
    intro e; rw [e, hfresh] at hr; cases hr
  refine ⟨by rw [hlm]; exact inv.cfg_leaf, by rw [him]; exact inv.cfg_internal, ?_, ?_, ?_, ?_,
    ?_, ?_, inv.leaves_nodup, ?_⟩
  · -- alloc
    intro x px hx
    rw [hnext2]
    by_cases cN : x = t.next_page_id
    · rw [cN]; omega
    · have : ∃ py, t.pages x = some py := by
        by_cases cP : x = op.parent_page_id_
        · exact ⟨par, by rw [cP]; exact hpar⟩
        · rcases hpages x cP cN with h | ⟨_, h⟩
          · exact ⟨px, by rw [← h]; exact hx⟩
          · rw [h] at hx
            cases e : t.pages x with
            | none => rw [e] at hx; cases hx
            | some py => exact ⟨py, rfl⟩
      obtain ⟨py, hpy⟩ := this
      have := inv.alloc x py hpy
      omega
  · -- root page
    rw [hroot2]
    obtain ⟨r, hr⟩ := inv.root_page
    by_cases cP : t.root_page_id_ = op.parent_page_id_
    · rw [cP]; exact ⟨PA, hP2⟩
    · obtain ⟨r1, h1, _⟩ := hsim _ r hr cP
      exact ⟨r1, h1⟩
  · rw [hroot2, withSplit_lo _ _ _ _ hrootN]
    exact inv.root_lo
  · rw [hroot2, effHi_withSplit G (Ne.symm holdroot) hrootN (Ne.symm hPN)]
    exact inv.root_hi
  · -- pages
    intro x px hx
    by_cases cP : x = op.parent_page_id_
    · subst cP
      rw [hP2] at hx
      simp only [Option.some.injEq] at hx
      subst hx
      refine ⟨a4.trans okP.id, by rw [a6, a2]; exact okP.len, by rw [a2]; exact hPAsz.2.2, ?_, ?_,
        ?_, ?_, ?_, ?_, ?_⟩
      · rw [withSplit_lo _ _ _ _ hPN, withSplit_hi_old]
        exact hlo
      · rw [hroot2, withSplit_lv _ _ _ _ hPN, withSplit_lv _ _ _ _ hrootN]
        exact okP.lv_le
      · intro _
        rw [a3, hroot2]
        exact okP.parent_root hPnotnew
      · intro hx _
        rw [hroot2] at hx
        obtain ⟨par0, p1, p2, p3⟩ := okP.parent_link hx hPnotnew
        have hne : par.parent_page_id_ ≠ op.parent_page_id_ := by
          intro e
          rw [e, hpar] at p1
          simp only [Option.some.injEq] at p1
          subst p1
          obtain ⟨_, _, _, _, _, c5⟩ := inv.child_facts hpar hpty p3
          exact c5 rfl
        obtain ⟨par1, q1, q2, q3, _⟩ := hsim _ par0 p1 hne
        rw [a3]
        exact ⟨par1, q1, q2.trans p2, by rw [q3]; exact p3⟩
      · intro _
        rw [a2]
        exact hPAsz.1
      · intro h
        rw [a1, hpty] at h
        cases h
      · intro _
        rw [withSplit_lv _ _ _ _ hPN, withSplit_lo _ _ _ _ hPN, withSplit_hi_old, a2, him]
        exact ⟨i1, i2, hPAsz.2.1, hPAslots, hPAnd⟩
    · by_cases cN : x = t.next_page_id
      · subst cN
        rw [hN2] at hx
        simp only [Option.some.injEq] at hx
        subst hx
        refine ⟨hRBid, by rw [hRBlen, hRBmax], by rw [hRBmax]; exact hRBsz.2.2, ?_, ?_, ?_, ?_,
          ?_, ?_, ?_⟩
        · rw [withSplit_lo_new, withSplit_hi_new _ _ _ _ (Ne.symm hPN)]
          exact hhi
        · rw [hroot2, withSplit_lv_new, withSplit_lv _ _ _ _ hrootN]
          exact okP.lv_le
        · intro h
          exact absurd rfl h
        · intro _ h
          exact absurd rfl h
        · intro _
          rw [hRBmax]
          exact hRBsz.1
        · intro h
          rw [hRBty] at h
          cases h
        · intro _
          rw [withSplit_lv_new, withSplit_lo_new, withSplit_hi_new _ _ _ _ (Ne.symm hPN), hRBmax,
            him]
          exact ⟨i1, rfl, hRBsz.2.1, hRBslots, hRBnd⟩
      · have hxnotN : ¬ isPendNew (some (op.parent_page_id_, ukey, t.next_page_id)) x :=
          fun h => cN h
        rcases hpages x cP cN with hun | ⟨hmem, hmv⟩
        · -- the page is the same as before
          rw [hun] at hx
          have ok := inv.page x px hx
          have hxmem : px.parent_page_id_ = op.parent_page_id_ →
              x ∈ par.live.map Prod.snd ∨ x = new → x ∈ PA.live.map Prod.snd := by
            intro hpp hx1
            have : x ∈ PA.live.map Prod.snd ∨ x ∈ RB.live.map Prod.snd := by
              rcases hx1 with h | h
              · exact hcover x h
              · rw [h]; exact hnewin
            rcases this with h | h
            · exact h
            · have := hRBparent x h px (by rw [hun]; exact hx)
              rw [hpp] at this
              exact absurd this hPN
          refine ok.transfer rfl rfl rfl rfl rfl hlm him (withSplit_lo _ _ _ _ cN)
            (withSplit_hi _ _ _ _ cP cN) (withSplit_lv _ _ _ _ cN) ?_ ?_ (fun h => h) ?_ ?_ ?_
          · rw [hroot2, withSplit_lv _ _ _ _ cN, withSplit_lv _ _ _ _ hrootN]
            exact ok.lv_le
          · intro h
            rw [hroot2] at h
            exact Or.inl h
          · intro _
            rw [hroot2]
            by_cases cn : x = new
            · subst cn
              rw [hnp] at hx
              simp only [Option.some.injEq] at hx
              subst hx
              rw [b3]
              exact ⟨fun h => absurd h hPinv, fun h => absurd h b8⟩
            · exact ok.parent_root (fun h => cn h)
          · intro hxr _
            rw [hroot2] at hxr
            by_cases hpp : px.parent_page_id_ = op.parent_page_id_
            · rw [hpp]
              refine ⟨PA, hP2, a1.trans hpty, hxmem hpp ?_⟩
              by_cases cn : x = new
              · exact Or.inr cn
              · obtain ⟨par0, p1, p2, p3⟩ := ok.parent_link hxr (fun h => cn h)
                rw [hpp, hpar] at p1
                simp only [Option.some.injEq] at p1
                subst p1
                exact Or.inl p3
            · have cn : x ≠ new := by
                intro e
                subst e
                rw [hnp] at hx
                simp only [Option.some.injEq] at hx
                subst hx
                exact hpp b3
              obtain ⟨par0, p1, p2, p3⟩ := ok.parent_link hxr (fun h => cn h)
              obtain ⟨par1, q1, q2, q3, _⟩ := hsim _ par0 p1 hpp
              exact ⟨par1, q1, q2.trans p2, by rw [q3]; exact p3⟩
          · intro hty c hc lo hi h
            obtain ⟨cp, c1, c2, c3, c4, c5⟩ := inv.child_facts hx hty hc
            have hcnew : c ≠ new := inv.child_ne_new hx hty hc
            have hcpar : c ∉ par.live.map Prod.snd := by
              intro hm
              obtain ⟨cp', d1, d2, _⟩ := inv.child_facts hpar hpty hm
              rw [c1] at d1
              simp only [Option.some.injEq] at d1
              subst d1
              rw [c2] at d2
              exact cP d2
            have hcold : c ≠ old := fun e => hcpar (e ▸ hold_mem)
            refine h.carry ?_ ?_ (withSplit_lo _ _ _ _ c4)
              (effHi_withSplit G hcold c4 (Ne.symm hPN))
            · intro cp' hcp'
              rw [c1] at hcp'
              simp only [Option.some.injEq] at hcp'
              subst hcp'
              by_cases e : c = op.parent_page_id_
              · subst e
                rw [hpar] at c1
                simp only [Option.some.injEq] at c1
                subst c1
                exact ⟨PA, hP2, a3.trans c2⟩
              · rcases hpages c e c4 with h1 | ⟨h1, _⟩
                · exact ⟨cp, by rw [h1]; exact c1, c2⟩
                · rcases hRBsub c h1 with h2 | h2
                  · exact absurd h2 hcpar
                  · exact absurd h2 hcnew
            · intro e
              rw [withSplit_lv _ _ _ _ c4, withSplit_lv _ _ _ _ cN]
              exact e
        · -- the page has been moved under the new page
          obtain ⟨px0, k1, k2, k3, k4, k5, k6⟩ := hkid x (hRBsub x hmem)
          rw [hmv, k1] at hx
          simp only [Option.map_some', Option.some.injEq] at hx
          subst hx
          have ok := inv.page x px0 k1
          refine ok.transfer rfl rfl rfl rfl rfl hlm him (withSplit_lo _ _ _ _ cN)
            (withSplit_hi _ _ _ _ cP cN) (withSplit_lv _ _ _ _ cN) ?_ ?_ (fun h => h) ?_ ?_ ?_
          · rw [hroot2, withSplit_lv _ _ _ _ cN, withSplit_lv _ _ _ _ hrootN]
            exact ok.lv_le
          · intro _
            exact Or.inl k6
          · intro _
            rw [hroot2]
            exact ⟨fun h => absurd h hNinv, fun h => absurd h k6⟩
          · intro _ _
            exact ⟨RB, hN2, hRBty, hmem⟩
          · intro hty c hc lo hi h
            obtain ⟨cp, c1, c2, c3, c4, c5⟩ := inv.child_facts k1 hty hc
            have hcnew : c ≠ new := inv.child_ne_new k1 hty hc
            have hcP : c ≠ op.parent_page_id_ := by
              intro e
              rw [e] at c3
              omega
            have hcpar : c ∉ par.live.map Prod.snd := by
              intro hm
              obtain ⟨cp', d1, d2, d3, _⟩ := inv.child_facts hpar hpty hm
              omega
            have hcold : c ≠ old := fun e => hcpar (e ▸ hold_mem)
            refine h.carry ?_ ?_ (withSplit_lo _ _ _ _ c4)
              (effHi_withSplit G hcold c4 (Ne.symm hPN))
            · intro cp' hcp'
              rw [c1] at hcp'
              simp only [Option.some.injEq] at hcp'
              subst hcp'
              rcases hpages c hcP c4 with h1 | ⟨h1, _⟩
              · exact ⟨cp, by rw [h1]; exact c1, c2⟩
              · rcases hRBsub c h1 with h2 | h2
                · exact absurd h2 hcpar
                · exact absurd h2 hcnew
            · intro e
              rw [withSplit_lv _ _ _ _ c4, withSplit_lv _ _ _ _ cN]
              exact e
  · -- chain
    apply chainOk_congr _ _ _ _ inv.chain
    · intro y _ py hpy
      by_cases e : y = op.parent_page_id_
      · subst e
        rw [hpar] at hpy
        simp only [Option.some.injEq] at hpy
        subst hpy
        exact ⟨PA, hP2, a1, a5⟩
      · obtain ⟨py1, q1, q2, _, q4⟩ := hsim y py hpy e
        exact ⟨py1, q1, q2, q4⟩
    · intro y hy
      obtain ⟨py, hpy, hyty⟩ := chainOk_leaf _ _ inv.chain y hy
      have hyN : y ≠ t.next_page_id := by
        intro e; rw [e, hfresh] at hpy; cases hpy
      have hyP : y ≠ op.parent_page_id_ := by
        intro e
        rw [e, hpar] at hpy
        simp only [Option.some.injEq] at hpy
        subst hpy
        rw [hpty] at hyty
        cases hyty
      exact ⟨withSplit_lo _ _ _ _ hyN, withSplit_hi _ _ _ _ hyP hyN⟩
  · -- the pending call
    intro o k n h
    simp only [Option.some.injEq, Prod.mk.injEq] at h
    obtain ⟨rfl, rfl, rfl⟩ := h
    refine ⟨PA, RB, hP2, hN2, hRBpar.trans a3.symm,
      (withSplit_lv_new _ _ _ _).trans (withSplit_lv _ _ _ _ hPN).symm,
      withSplit_hi_old _ _ _ _, withSplit_lo_new _ _ _ _, Ne.symm hPN, ?_, ?_, ?_⟩
    · rw [hroot2]; exact Ne.symm hrootN
    · rw [a2]; exact hPAsz.1
    · intro x q hx hqty hmem
      have hno : ∀ c, c ∈ par.live.map Prod.snd ∨ c = new → c ≠ t.next_page_id := by
        intro c hc
        obtain ⟨_, _, _, _, k4, _⟩ := hkid c hc
        exact k4
      by_cases cP : x = op.parent_page_id_
      · subst cP
        rw [hP2] at hx
        simp only [Option.some.injEq] at hx
        subst hx
        exact hno _ (hPAsub _ hmem) rfl
      · by_cases cN : x = t.next_page_id
        · subst cN
          rw [hN2] at hx
          simp only [Option.some.injEq] at hx
          subst hx
          exact hno _ (hRBsub _ hmem) rfl
        · have : ∃ q0, t.pages x = some q0 ∧ q0.page_type_ = INTERNAL_PAGE ∧
              q0.live = q.live := by
            rcases hpages x cP cN with h | ⟨_, h⟩
            · exact ⟨q, by rw [← h]; exact hx, hqty, rfl⟩
            · rw [h] at hx
              cases e : t.pages x with
              | none => rw [e] at hx; cases hx
              | some q0 =>
                rw [e] at hx
                simp only [Option.map_some', Option.some.injEq] at hx
                subst hx
                exact ⟨q0, rfl, hqty, rfl⟩
          obtain ⟨q0, h1, h2, h3⟩ := this
          rw [← h3] at hmem
          obtain ⟨_, _, _, _, c4, _⟩ := inv.child_facts h1 h2 hmem
          exact c4 rfl

end BPlusTree

end cmudb

namespace cmudb

open BPlusTreePage IndexPageType

namespace BPlusTree

/-! ## Slots of the two halves of a split parent -/

theorem mem_children_insert_iff {L1 L2 : List MappingType} {s : MappingType} {key new x : Int} :
    x ∈ (L1 ++ s :: (key, new) :: L2).map Prod.snd ↔
      x ∈ (L1 ++ s :: L2).map Prod.snd ∨ x = new := by
  simp only [List.map_append, List.map_cons, List.mem_append, List.mem_cons]
  tauto

theorem nodup_children_insert {L1 L2 : List MappingType} {s : MappingType} {key new : Int}
    (hnd : ((L1 ++ s :: L2).map Prod.snd).Nodup)
    (hnew : new ∉ (L1 ++ s :: L2).map Prod.snd) :
    ((L1 ++ s :: (key, new) :: L2).map Prod.snd).Nodup := by
  rw [List.map_append, List.map_cons, List.nodup_append] at hnd
  obtain ⟨nd1, nd2, nd3⟩ := hnd
  rw [List.nodup_cons] at nd2
  simp only [List.map_append, List.map_cons, List.mem_append, List.mem_cons, not_or] at hnew
  rw [List.map_append, List.map_cons, List.map_cons, List.nodup_append]
  refine ⟨nd1, ?_, ?_⟩
  · rw [List.nodup_cons, List.nodup_cons]
    refine ⟨?_, hnew.2.2, nd2.2⟩
    simp only [List.mem_cons, not_or]
    exact ⟨fun e => hnew.2.1 e.symm, nd2.1⟩
  · intro a ha1 ha2
    simp only [List.mem_cons] at ha2
    rcases ha2 with e | e | e
    · exact nd3 ha1 (by rw [e]; simp)
    · exact hnew.1 (e ▸ ha1)
    · exact nd3 ha1 (List.mem_cons_of_mem _ e)

theorem head_insert {L1 L2 U : List MappingType} {s u : MappingType} (kv : MappingType)
    (h : L1 ++ s :: L2 = u :: U) : ∃ rest, L1 ++ s :: kv :: L2 = u :: rest := by
  cases L1 with
  | nil =>
    simp only [List.nil_append, List.cons.injEq] at h
    exact ⟨kv :: L2, by simp [h.1]⟩
  | cons a L1 =>
    simp only [List.cons_append, List.cons.injEq] at h
    exact ⟨L1 ++ s :: kv :: L2, by simp [h.1]⟩

/-- A child other than the pending `old` under its parent `X`, one of the two halves
of the split page `P`. -/
theorem childOk_split {t t2 : BPlusTree} {G : Ghost} {old key new P ukey N X c : Int}
    {lo hi : Option Int} (h : childOk t G (some (old, key, new)) P c lo hi)
    (hX : X = P ∨ X = N) (hNP : N ≠ P) (hcold : c ≠ old) (hcN : c ≠ N)
    (hpage : ∃ cp1, t2.pages c = some cp1 ∧ cp1.parent_page_id_ = X) :
    childOk t2 (G.withSplit P ukey N) (some (P, ukey, N)) X c lo hi := by
  refine h.carry (fun _ _ => hpage) ?_ (withSplit_lo _ _ _ _ hcN)
    (effHi_withSplit G hcold hcN hNP)
  intro e
  rw [withSplit_lv _ _ _ _ hcN]
  rcases hX with hX | hX
  · rw [hX, withSplit_lv _ _ _ _ (Ne.symm hNP)]
    exact e
  · rw [hX, withSplit_lv_new]
    exact e

/-- The pending `old` and `new` under their parent `X`, one of the two halves of the
split page `P`. -/
theorem childOk_split_old {t t2 : BPlusTree} {G : Ghost} {old key new P ukey N X : Int}
    {lo hi : Option Int} (h : childOk t G (some (old, key, new)) P old lo hi)
    (hX : X = P ∨ X = N) (hNP : N ≠ P) (holdN : old ≠ N) (holdP : old ≠ P)
    (hnewN : new ≠ N) (hnewP : new ≠ P)
    (hlv : G.lv new = G.lv old) (hhi : G.hi old = some key) (hlo : G.lo new = some key)
    (hpo : ∃ cp1, t2.pages old = some cp1 ∧ cp1.parent_page_id_ = X)
    (hpn : ∃ cp1, t2.pages new = some cp1 ∧ cp1.parent_page_id_ = X) :
    childOk t2 (G.withSplit P ukey N) (some (P, ukey, N)) X old lo (some key) ∧
      childOk t2 (G.withSplit P ukey N) (some (P, ukey, N)) X new (some key) hi := by
  obtain ⟨cp, c1, c2, c3, c4, c5⟩ := h
  rw [effHi_old] at c5
  have hlvX : (G.withSplit P ukey N).lv X = G.lv P := by
    rcases hX with hX | hX
    · rw [hX, withSplit_lv _ _ _ _ (Ne.symm hNP)]
    · rw [hX, withSplit_lv_new]
  obtain ⟨po, p1, p2⟩ := hpo
  obtain ⟨pn, n1, n2⟩ := hpn
  constructor
  · refine ⟨po, p1, p2, ?_, ?_, ?_⟩
    · rw [withSplit_lv _ _ _ _ holdN, hlvX]; exact c3
    · rw [withSplit_lo _ _ _ _ holdN]; exact c4
    · rw [effHi_ne _ holdP, withSplit_hi _ _ _ _ holdP holdN]; exact hhi
  · refine ⟨pn, n1, n2, ?_, ?_, ?_⟩
    · rw [withSplit_lv _ _ _ _ hnewN, hlvX, hlv]; exact c3
    · rw [withSplit_lo _ _ _ _ hnewN]; exact hlo
    · rw [effHi_ne _ hnewP, withSplit_hi _ _ _ _ hnewP hnewN]; exact c5

/-- The key of the pending call lies in the range that the parent attributes to
`old`, hence on the side of the separator on which `old` is. -/
theorem Inv.pending_side {t : BPlusTree} {G : Ghost} {old key new : Int}
    {op np par : BPlusTreePage} (inv : Inv t G (some (old, key, new)))
    (hop : t.pages old = some op) (hnp : t.pages new = some np)
    (hpar : t.pages op.parent_page_id_ = some par) (hpty : par.page_type_ = INTERNAL_PAGE)
    {Lw U : List MappingType} {u : MappingType} (hsplit : par.live = Lw ++ u :: U)
    (hLw : Lw ≠ []) :
    slotsOk (childOk t G (some (old, key, new)) op.parent_page_id_) Lw
        (G.lo op.parent_page_id_) (some u.1) ∧
      slotsOk (childOk t G (some (old, key, new)) op.parent_page_id_) (u :: U) (some u.1)
        (G.hi op.parent_page_id_) ∧
      loLtHi (G.lo op.parent_page_id_) (some u.1) ∧
      loLtHi (some u.1) (G.hi op.parent_page_id_) ∧
      (old ∈ Lw.map Prod.snd → key < u.1) ∧ (old ∈ (u :: U).map Prod.snd → u.1 ≤ key) := by
  obtain ⟨op', np', b1, b2, b3, b4, b5, b6, b7, b8, b9, b10⟩ := inv.pending old key new rfl
  rw [hop] at b1
  rw [hnp] at b2
  simp only [Option.some.injEq] at b1 b2
  subst b1 b2
  have okP := inv.page _ par hpar
  obtain ⟨i1, i2, i3, i4, i5⟩ := okP.internal hpty
  rw [hsplit] at i4
  obtain ⟨s1, s2⟩ := slotsOk_split _ u U Lw _ _ hLw i4
  have hQ : ∀ c lo hi, childOk t G (some (old, key, new)) op.parent_page_id_ c lo hi →
      loLtHi lo hi ∧ ∀ kv ∈ (if c = old then [((key, 0) : MappingType)] else []),
        inRange lo hi kv.1 := by
    intro c lo hi h
    refine ⟨inv.child_range h, ?_⟩
    intro kv hkv
    by_cases e : c = old
    · rw [if_pos e] at hkv
      simp only [List.mem_singleton] at hkv
      subst hkv
      subst e
      obtain ⟨cp, c1, c2, c3, c4, c5⟩ := h
      rw [effHi_old] at c5
      have r1 := (inv.page c op hop).range
      have r2 := (inv.page new np hnp).range
      constructor
      · intro a ha
        have := r1 a key (by rw [c4]; exact ha) b5
        exact le_of_lt this
      · intro b hb
        exact r2 key b b6 (by rw [c5]; exact hb)
    · rw [if_neg e] at hkv
      cases hkv
  have r1 := slotsOk_range _ _ hQ Lw _ _ hLw s1
  have r2 := slotsOk_range _ _ hQ (u :: U) _ _ (by simp) s2
  refine ⟨s1, s2, r1.1, r2.1, ?_, ?_⟩
  · intro h
    have := r1.2 old h (key, 0) (by simp)
    exact this.2 u.1 rfl
  · intro h
    have := r2.2 old h (key, 0) (by simp)
    exact this.1 u.1 rfl

end BPlusTree

end cmudb

namespace cmudb

open BPlusTreePage IndexPageType

namespace BPlusTree

/-! ## `InsertIntoParent`: the pair goes into the lower half of the split parent -/

theorem half_bounds (s : Nat) (h : 2 ≤ s) :
    s / 2 ≤ s - s / 2 + 1 ∧ 1 ≤ s - s / 2 + 1 ∧ s - s / 2 + 1 ≤ s ∧ 1 ≤ s / 2 ∧ s / 2 ≤ s ∧
      s / 2 ≤ s - s / 2 ∧ 1 ≤ s - s / 2 ∧ s - s / 2 < s ∧ s / 2 < s ∧ s / 2 + 1 ≤ s := by
  omega

theorem live_resize (p : BPlusTreePage) (n : Nat) (h : n ≤ p.size_) :
    ({ p with size_ := n } : BPlusTreePage).live = p.live.take n := by
  simp only [live, List.take_take]
  rw [Nat.min_eq_left h]

theorem Inv.parent_split_left {t : BPlusTree} {G : Ghost} {old key new : Int}
    {op np par : BPlusTreePage} (inv : Inv t G (some (old, key, new)))
    (hop : t.pages old = some op) (hnp : t.pages new = some np)
    (hpar : t.pages op.parent_page_id_ = some par) (hpty : par.page_type_ = INTERNAL_PAGE)
    (hfull : par.size_ = par.max_size_)
    {ts : BPlusTree} {r1 PA : BPlusTreePage} {L1 L2 : List MappingType} {s0 : MappingType}
    (e_root : ts.root_page_id_ = t.root_page_id_)
    (e_next : ts.next_page_id = t.next_page_id + 1)
    (e_lm : ts.leaf_max_size = t.leaf_max_size)
    (e_im : ts.internal_max_size = t.internal_max_size)
    (e_N : ts.pages t.next_page_id = some r1) (r_ty : r1.page_type_ = INTERNAL_PAGE)
    (r_sz : r1.size_ = par.size_ / 2) (r_max : r1.max_size_ = t.internal_max_size)
    (r_par : r1.parent_page_id_ = par.parent_page_id_) (r_id : r1.page_id_ = t.next_page_id)
    (r_len : r1.array.length = t.internal_max_size)
    (r_live : r1.live = par.live.drop (par.size_ - par.size_ / 2))
    (e_moved : ∀ y ∈ (par.live.drop (par.size_ - par.size_ / 2)).map Prod.snd,
      ts.pages y = (t.pages y).map fun cp => cp.SetParentPageId t.next_page_id)
    (e_rest : ∀ y, y ∉ (par.live.drop (par.size_ - par.size_ / 2)).map Prod.snd →
      y ≠ op.parent_page_id_ → y ≠ t.next_page_id → ts.pages y = t.pages y)
    (hPAh : SameHeader par PA) (hPAsz : PA.size_ = par.size_ - par.size_ / 2 + 1)
    (hdec : par.live.take (par.size_ - par.size_ / 2) = L1 ++ s0 :: L2) (hs0 : s0.2 = old)
    (hPAlive : PA.live = L1 ++ s0 :: (key, new) :: L2) :
    Inv (ts.WritePage op.parent_page_id_ PA)
      (G.withSplit op.parent_page_id_ (r1.slot 0).1 t.next_page_id)
      (some (op.parent_page_id_, (r1.slot 0).1, t.next_page_id)) := by
  obtain ⟨op', np', b1, b2, b3, b4, b5, b6, b7, b8, b9, b10⟩ := inv.pending old key new rfl
  rw [hop] at b1
  rw [hnp] at b2
  simp only [Option.some.injEq] at b1 b2
  subst b1 b2
  have hfresh := inv.next_fresh
  have okP := inv.page _ par hpar
  obtain ⟨i1, i2, i3, i4, i5⟩ := okP.internal hpty
  have hcfg := inv.cfg_internal
  have hlen := okP.size_le_len
  have hs2 : 2 ≤ par.size_ := by rw [hfull, i2]; exact hcfg
  have hPN : op.parent_page_id_ ≠ t.next_page_id := by
    intro e; rw [e, hfresh] at hpar; cases hpar
  have hnewN : new ≠ t.next_page_id := by
    intro e; rw [e, hfresh] at hnp; cases hnp
  have hr1 : 1 ≤ r1.size_ := by rw [r_sz]; omega
  have hr1len : r1.size_ ≤ r1.array.length := by
    rw [r_sz, r_len, ← i2, ← hfull]; omega
  obtain ⟨rest, hrest⟩ := live_head hr1 hr1len
  have hsplit : par.live = par.live.take (par.size_ - par.size_ / 2) ++ r1.slot 0 :: rest := by
    rw [← hrest, r_live, List.take_append_drop]
  have hLw : par.live.take (par.size_ - par.size_ / 2) ≠ [] := by rw [hdec]; simp
  obtain ⟨s1, s2, rlo, rhi, _, side2⟩ := inv.pending_side hop hnp hpar hpty hsplit hLw
  have hdrop : par.live.drop (par.size_ - par.size_ / 2) = r1.slot 0 :: rest := by
    rw [← hrest, r_live]
  have hnd := i5
  rw [hsplit, List.map_append, List.nodup_append] at hnd
  obtain ⟨ndL, ndU, disj⟩ := hnd
  have hold_Lw : old ∈ (par.live.take (par.size_ - par.size_ / 2)).map Prod.snd := by
    rw [hdec]; simp [hs0]
  have hLw_par : ∀ c, c ∈ (par.live.take (par.size_ - par.size_ / 2)).map Prod.snd →
      c ∈ par.live.map Prod.snd := by
    intro c hc
    rw [hsplit, List.map_append, List.mem_append]
    exact Or.inl hc
  have hU_par : ∀ c, c ∈ (r1.slot 0 :: rest).map Prod.snd → c ∈ par.live.map Prod.snd := by
    intro c hc
    rw [hsplit, List.map_append, List.mem_append]
    exact Or.inr hc
  have hold_mem : old ∈ par.live.map Prod.snd := hLw_par old hold_Lw
  have hnew_not : new ∉ par.live.map Prod.snd := b10 _ par hpar hpty
  obtain ⟨_, _, _, o3, oN, oP⟩ := inv.child_facts hpar hpty hold_mem
  have hnewP : new ≠ op.parent_page_id_ := by
    intro e; rw [← e] at o3; omega
  -- pages of the children that stay
  have hstay : ∀ c, c ∈ (par.live.take (par.size_ - par.size_ / 2)).map Prod.snd ∨ c = new →
      (ts.WritePage op.parent_page_id_ PA).pages c = t.pages c := by
    intro c hc
    have h1 : c ∉ (par.live.drop (par.size_ - par.size_ / 2)).map Prod.snd := by
      rw [hdrop]
      rcases hc with hc | hc
      · exact fun h => disj hc h
      · rw [hc]; exact fun h => hnew_not (hU_par _ h)
    have h2 : c ≠ op.parent_page_id_ ∧ c ≠ t.next_page_id := by
      rcases hc with hc | hc
      · obtain ⟨_, _, _, _, c4, c5⟩ := inv.child_facts hpar hpty (hLw_par c hc)
        exact ⟨c5, c4⟩
      · rw [hc]; exact ⟨hnewP, hnewN⟩
    rw [WritePage_pages, if_neg h2.1]
    exact e_rest c h1 h2.1 h2.2
  have hmove : ∀ c, c ∈ (r1.slot 0 :: rest).map Prod.snd →
      (ts.WritePage op.parent_page_id_ PA).pages c =
        (t.pages c).map fun cp => cp.SetParentPageId t.next_page_id := by
    intro c hc
    obtain ⟨_, _, _, _, c4, c5⟩ := inv.child_facts hpar hpty (hU_par c hc)
    rw [WritePage_pages, if_neg c5]
    exact e_moved c (by rw [hdrop]; exact hc)
  have g1 : par.max_size_ / 2 ≤ PA.size_ ∧ 1 ≤ PA.size_ ∧ PA.size_ ≤ par.max_size_ := by
    have hb := half_bounds par.size_ hs2
    rw [hPAsz, ← hfull]
    exact ⟨hb.1, hb.2.1, hb.2.2.1⟩
  have g2 : t.internal_max_size / 2 ≤ r1.size_ ∧ 1 ≤ r1.size_ ∧ r1.size_ ≤ t.internal_max_size := by
    have hb := half_bounds par.size_ hs2
    rw [r_sz, ← i2, ← hfull]
    exact ⟨le_refl _, hb.2.2.2.1, hb.2.2.2.2.1⟩
  have g3 : ∀ c ∈ PA.live.map Prod.snd, c ∈ par.live.map Prod.snd ∨ c = new := by
    intro c hc
    rw [hPAlive, mem_children_insert_iff, ← hdec] at hc
    rcases hc with hc | hc
    · exact Or.inl (hLw_par c hc)
    · exact Or.inr hc
  have g4 : ∀ c ∈ r1.live.map Prod.snd, c ∈ par.live.map Prod.snd ∨ c = new := by
    intro c hc
    rw [hrest] at hc
    exact Or.inl (hU_par c hc)
  have g5 : ∀ c ∈ par.live.map Prod.snd, c ∈ PA.live.map Prod.snd ∨ c ∈ r1.live.map Prod.snd := by
    intro c hc
    rw [hsplit, List.map_append, List.mem_append] at hc
    rcases hc with hc | hc
    · left
      rw [hPAlive, mem_children_insert_iff, ← hdec]
      exact Or.inl hc
    · right
      rw [hrest]
      exact hc
  have g6 : new ∈ PA.live.map Prod.snd ∨ new ∈ r1.live.map Prod.snd := by
    left
    rw [hPAlive, mem_children_insert_iff]
    exact Or.inr rfl
  have g7 : ∀ y, y ≠ op.parent_page_id_ → y ≠ t.next_page_id →
      (ts.WritePage op.parent_page_id_ PA).pages y = t.pages y ∨ (y ∈ r1.live.map Prod.snd ∧
        (ts.WritePage op.parent_page_id_ PA).pages y = (t.pages y).map fun cp => cp.SetParentPageId t.next_page_id) := by
    intro y hyP hyN
    by_cases hy : y ∈ r1.live.map Prod.snd
    · right
      rw [hrest] at hy
      exact ⟨by rw [hrest]; exact hy, hmove y hy⟩
    · left
      rw [WritePage_pages, if_neg hyP]
      exact e_rest y (by rw [← r_live]; exact hy) hyP hyN
  have g8 : slotsOk (childOk (ts.WritePage op.parent_page_id_ PA) (G.withSplit op.parent_page_id_ (r1.slot 0).1 t.next_page_id)
      (some (op.parent_page_id_, (r1.slot 0).1, t.next_page_id)) op.parent_page_id_) PA.live (G.lo op.parent_page_id_) (some (r1.slot 0).1) := by
    rw [hPAlive]
    rw [hdec] at s1
    rw [hdec] at ndL hold_Lw
    have ndL' := ndL
    rw [List.map_append, List.map_cons, List.nodup_append] at ndL'
    obtain ⟨n1, n2, n3⟩ := ndL'
    rw [List.nodup_cons] at n2
    have hmono : ∀ c, c ∈ (L1 ++ s0 :: L2).map Prod.snd → c ≠ old → ∀ lo hi,
        childOk t G (some (old, key, new)) op.parent_page_id_ c lo hi →
        childOk (ts.WritePage op.parent_page_id_ PA)
          (G.withSplit op.parent_page_id_ (r1.slot 0).1 t.next_page_id)
          (some (op.parent_page_id_, (r1.slot 0).1, t.next_page_id)) op.parent_page_id_ c
          lo hi := by
      intro c hc hcold lo hi h
      have hc' : c ∈ (par.live.take (par.size_ - par.size_ / 2)).map Prod.snd := by
        rw [hdec]; exact hc
      obtain ⟨cp, c1, c2, _, c4, _⟩ := inv.child_facts hpar hpty (hLw_par c hc')
      exact childOk_split h (Or.inl rfl) (Ne.symm hPN) hcold c4
        ⟨cp, by rw [hstay c (Or.inl hc')]; exact c1, c2⟩
    refine slotsOk_insert_after _ _ old key new s0 hs0 L2 ?_ ?_ L1 _ _ ?_ s1
    · intro lo hi h
      refine childOk_split_old h (Or.inl rfl) (Ne.symm hPN) oN oP hnewN hnewP b4 b5 b6 ?_ ?_
      · refine ⟨op, ?_, rfl⟩
        rw [hstay old (Or.inl (by rw [hdec]; exact hold_Lw))]
        exact hop
      · exact ⟨np, by rw [hstay new (Or.inr rfl)]; exact hnp, b3⟩
    · intro c hc
      apply hmono c
      · simp only [List.map_append, List.map_cons, List.mem_append, List.mem_cons]
        right; right; exact hc
      · intro e
        subst e
        rw [← hs0] at hc
        exact n2.1 hc
    · intro c hc
      apply hmono c
      · simp only [List.map_append, List.map_cons, List.mem_append, List.mem_cons]
        left; exact hc
      · intro e
        subst e
        exact n3 hc (by rw [← hs0]; simp)
  have g9 : slotsOk (childOk (ts.WritePage op.parent_page_id_ PA) (G.withSplit op.parent_page_id_ (r1.slot 0).1 t.next_page_id)
      (some (op.parent_page_id_, (r1.slot 0).1, t.next_page_id)) t.next_page_id) r1.live (some (r1.slot 0).1) (G.hi op.parent_page_id_) := by
    rw [hrest]
    apply slotsOk_mono _ _ _ _ _ _ s2
    intro c hc lo hi h
    obtain ⟨cp, c1, c2, _, c4, _⟩ := inv.child_facts hpar hpty (hU_par c hc)
    have hcold : c ≠ old := by
      intro e
      subst e
      exact disj hold_Lw hc
    refine childOk_split h (Or.inr rfl) (Ne.symm hPN) hcold c4
      ⟨cp.SetParentPageId t.next_page_id, ?_, rfl⟩
    rw [hmove c hc, c1]
    rfl
  have g10 : (PA.live.map Prod.snd).Nodup := by
    rw [hPAlive]
    apply nodup_children_insert
    · rw [← hdec]; exact ndL
    · rw [← hdec]
      exact fun h => hnew_not (hLw_par _ h)
  have g11 : (r1.live.map Prod.snd).Nodup := by
    rw [hrest]
    exact ndU

  exact inv.parent_split_core hop hnp hpar hpty hold_mem e_root e_next e_lm e_im
    (by rw [WritePage_pages, if_pos rfl]) hPAh g1
    (by rw [WritePage_pages, if_neg (Ne.symm hPN)]; exact e_N) r_ty r_max r_par r_id r_len
    g2 g3 g4 g5 g6 g7 g8 g9 g10 g11 rlo rhi

end BPlusTree

end cmudb

namespace cmudb

open BPlusTreePage IndexPageType

namespace BPlusTree

/-! ## `InsertIntoParent`: the pair goes into the upper half of the split parent -/

theorem Inv.parent_split_right {t : BPlusTree} {G : Ghost} {old key new : Int}
    {op np par : BPlusTreePage} (inv : Inv t G (some (old, key, new)))
    (hop : t.pages old = some op) (hnp : t.pages new = some np)
    (hpar : t.pages op.parent_page_id_ = some par) (hpty : par.page_type_ = INTERNAL_PAGE)
    (hfull : par.size_ = par.max_size_)
    {ts : BPlusTree} {r1 RB : BPlusTreePage} {L1 L2 : List MappingType} {s0 : MappingType}
    (e_root : ts.root_page_id_ = t.root_page_id_)
    (e_next : ts.next_page_id = t.next_page_id + 1)
    (e_lm : ts.leaf_max_size = t.leaf_max_size)
    (e_im : ts.internal_max_size = t.internal_max_size)
    (e_P : ts.pages op.parent_page_id_ =
      some { par with size_ := par.size_ - par.size_ / 2 })
    (r_ty : r1.page_type_ = INTERNAL_PAGE)
    (r_sz : r1.size_ = par.size_ / 2) (r_max : r1.max_size_ = t.internal_max_size)
    (r_par : r1.parent_page_id_ = par.parent_page_id_) (r_id : r1.page_id_ = t.next_page_id)
    (r_len : r1.array.length = t.internal_max_size)
    (r_live : r1.live = par.live.drop (par.size_ - par.size_ / 2))
    (e_moved : ∀ y ∈ (par.live.drop (par.size_ - par.size_ / 2)).map Prod.snd,
      ts.pages y = (t.pages y).map fun cp => cp.SetParentPageId t.next_page_id)
    (e_rest : ∀ y, y ∉ (par.live.drop (par.size_ - par.size_ / 2)).map Prod.snd →
      y ≠ op.parent_page_id_ → y ≠ t.next_page_id → ts.pages y = t.pages y)
    (hRBh : SameHeader r1 RB) (hRBsz : RB.size_ = r1.size_ + 1)
    (hdec : r1.live = L1 ++ s0 :: L2) (hs0 : s0.2 = old)
    (hRBlive : RB.live = L1 ++ s0 :: (key, new) :: L2) :
    RB.slot 0 = r1.slot 0 ∧
    Inv ((ts.WritePage t.next_page_id RB).WritePage new (np.SetParentPageId t.next_page_id))
      (G.withSplit op.parent_page_id_ (r1.slot 0).1 t.next_page_id)
      (some (op.parent_page_id_, (r1.slot 0).1, t.next_page_id)) := by
  obtain ⟨op', np', b1, b2, b3, b4, b5, b6, b7, b8, b9, b10⟩ := inv.pending old key new rfl
  rw [hop] at b1
  rw [hnp] at b2
  simp only [Option.some.injEq] at b1 b2
  subst b1 b2
  obtain ⟨a1, a2, a3, a4, a5, a6⟩ := hRBh
  have hfresh := inv.next_fresh
  have okP := inv.page _ par hpar
  obtain ⟨i1, i2, i3, i4, i5⟩ := okP.internal hpty
  have hcfg := inv.cfg_internal
  have hlen := okP.size_le_len
  have hs2 : 2 ≤ par.size_ := by rw [hfull, i2]; exact hcfg
  have hb := half_bounds par.size_ hs2
  have hPN : op.parent_page_id_ ≠ t.next_page_id := by
    intro e; rw [e, hfresh] at hpar; cases hpar
  have hnewN : new ≠ t.next_page_id := by
    intro e; rw [e, hfresh] at hnp; cases hnp
  have hr1 : 1 ≤ r1.size_ := by rw [r_sz]; exact hb.2.2.2.1
  have hr1len : r1.size_ ≤ r1.array.length := by
    rw [r_sz, r_len, ← i2, ← hfull]; exact hb.2.2.2.2.1
  obtain ⟨rest, hrest⟩ := live_head hr1 hr1len
  have hsplit : par.live = par.live.take (par.size_ - par.size_ / 2) ++ r1.slot 0 :: rest := by
    rw [← hrest, r_live, List.take_append_drop]
  have hLw : par.live.take (par.size_ - par.size_ / 2) ≠ [] := by
    intro e
    have h1 := congrArg List.length e
    rw [List.length_take, live_length par hlen, List.length_nil] at h1
    have h2 := hb.2.2.2.2.2.2.1
    have h3 : par.size_ - par.size_ / 2 ≤ par.size_ := Nat.sub_le _ _
    rw [Nat.min_eq_left h3] at h1
    rw [h1] at h2
    exact absurd h2 (by decide)
  obtain ⟨s1, s2, rlo, rhi, _, _⟩ := inv.pending_side hop hnp hpar hpty hsplit hLw
  have hdrop : par.live.drop (par.size_ - par.size_ / 2) = r1.slot 0 :: rest := by
    rw [← hrest, r_live]
  have hnd := i5
  rw [hsplit, List.map_append, List.nodup_append] at hnd
  obtain ⟨ndL, ndU, disj⟩ := hnd
  have hold_U : old ∈ (r1.slot 0 :: rest).map Prod.snd := by
    rw [← hrest, hdec]; simp [hs0]
  have hLw_par : ∀ c, c ∈ (par.live.take (par.size_ - par.size_ / 2)).map Prod.snd →
      c ∈ par.live.map Prod.snd := by
    intro c hc
    rw [hsplit, List.map_append, List.mem_append]
    exact Or.inl hc
  have hU_par : ∀ c, c ∈ (r1.slot 0 :: rest).map Prod.snd → c ∈ par.live.map Prod.snd := by
    intro c hc
    rw [hsplit, List.map_append, List.mem_append]
    exact Or.inr hc
  have hold_mem : old ∈ par.live.map Prod.snd := hU_par old hold_U
  have hnew_not : new ∉ par.live.map Prod.snd := b10 _ par hpar hpty
  obtain ⟨_, _, _, o3, oN, oP⟩ := inv.child_facts hpar hpty hold_mem
  have hnewP : new ≠ op.parent_page_id_ := by
    intro e; rw [← e] at o3; omega
  have hhead : RB.slot 0 = r1.slot 0 := by
    have hRB1 : 1 ≤ RB.size_ := by rw [hRBsz]; exact Nat.le_add_left _ _
    have hRBlen : RB.size_ ≤ RB.array.length := by
      rw [hRBsz, a6, r_sz, r_len, ← i2, ← hfull]; exact hb.2.2.2.2.2.2.2.2.2
    obtain ⟨rest2, h2⟩ := live_head hRB1 hRBlen
    obtain ⟨rest3, h3⟩ := head_insert (key, new) (hdec.symm.trans hrest)
    rw [hRBlive, h3] at h2
    simp only [List.cons.injEq] at h2
    exact h2.1.symm
  -- pages of the children
  have hstay : ∀ c, c ∈ (par.live.take (par.size_ - par.size_ / 2)).map Prod.snd →
      ((ts.WritePage t.next_page_id RB).WritePage new
        (np.SetParentPageId t.next_page_id)).pages c = t.pages c := by
    intro c hc
    have h1 : c ∉ (par.live.drop (par.size_ - par.size_ / 2)).map Prod.snd := by
      rw [hdrop]
      exact fun h => disj hc h
    obtain ⟨_, _, _, _, c4, c5⟩ := inv.child_facts hpar hpty (hLw_par c hc)
    have h3 : c ≠ new := fun e => hnew_not (e ▸ hLw_par c hc)
    rw [WritePage_pages, if_neg h3, WritePage_pages, if_neg c4]
    exact e_rest c h1 c5 c4
  have hmove : ∀ c, c ∈ (r1.slot 0 :: rest).map Prod.snd →
      ((ts.WritePage t.next_page_id RB).WritePage new
        (np.SetParentPageId t.next_page_id)).pages c =
        (t.pages c).map fun cp => cp.SetParentPageId t.next_page_id := by
    intro c hc
    obtain ⟨_, _, _, _, c4, c5⟩ := inv.child_facts hpar hpty (hU_par c hc)
    have h3 : c ≠ new := fun e => hnew_not (e ▸ hU_par c hc)
    rw [WritePage_pages, if_neg h3, WritePage_pages, if_neg c4]
    exact e_moved c (by rw [hdrop]; exact hc)
  have hnewpage : ((ts.WritePage t.next_page_id RB).WritePage new
      (np.SetParentPageId t.next_page_id)).pages new =
      some (np.SetParentPageId t.next_page_id) := by
    rw [WritePage_pages, if_pos rfl]
  have g0 : ((ts.WritePage t.next_page_id RB).WritePage new
      (np.SetParentPageId t.next_page_id)).pages op.parent_page_id_ =
      some { par with size_ := par.size_ - par.size_ / 2 } := by
    rw [WritePage_pages, if_neg (Ne.symm hnewP), WritePage_pages, if_neg hPN]
    exact e_P
  have g0' : ((ts.WritePage t.next_page_id RB).WritePage new
      (np.SetParentPageId t.next_page_id)).pages t.next_page_id = some RB := by
    rw [WritePage_pages, if_neg (Ne.symm hnewN), WritePage_pages, if_pos rfl]
  have hPAlive : ({ par with size_ := par.size_ - par.size_ / 2 } : BPlusTreePage).live =
      par.live.take (par.size_ - par.size_ / 2) := live_resize par _ (Nat.sub_le _ _)
  have g1 : par.max_size_ / 2 ≤
      ({ par with size_ := par.size_ - par.size_ / 2 } : BPlusTreePage).size_ ∧
      1 ≤ ({ par with size_ := par.size_ - par.size_ / 2 } : BPlusTreePage).size_ ∧
      ({ par with size_ := par.size_ - par.size_ / 2 } : BPlusTreePage).size_ ≤
        par.max_size_ := by
    rw [← hfull]
    exact ⟨hb.2.2.2.2.2.1, hb.2.2.2.2.2.2.1, Nat.sub_le _ _⟩
  have g2 : t.internal_max_size / 2 ≤ RB.size_ ∧ 1 ≤ RB.size_ ∧
      RB.size_ ≤ t.internal_max_size := by
    rw [hRBsz, r_sz, ← i2, ← hfull]
    exact ⟨Nat.le_add_right _ _, Nat.le_add_left _ _, hb.2.2.2.2.2.2.2.2.2⟩
  have g3 : ∀ c ∈ ({ par with size_ := par.size_ - par.size_ / 2 } : BPlusTreePage).live.map
      Prod.snd, c ∈ par.live.map Prod.snd ∨ c = new := by
    intro c hc
    rw [hPAlive] at hc
    exact Or.inl (hLw_par c hc)
  have g4 : ∀ c ∈ RB.live.map Prod.snd, c ∈ par.live.map Prod.snd ∨ c = new := by
    intro c hc
    rw [hRBlive, mem_children_insert_iff, ← hdec, hrest] at hc
    rcases hc with hc | hc
    · exact Or.inl (hU_par c hc)
    · exact Or.inr hc
  have g5 : ∀ c ∈ par.live.map Prod.snd,
      c ∈ ({ par with size_ := par.size_ - par.size_ / 2 } : BPlusTreePage).live.map Prod.snd ∨
        c ∈ RB.live.map Prod.snd := by
    intro c hc
    rw [hsplit, List.map_append, List.mem_append] at hc
    rcases hc with hc | hc
    · left
      rw [hPAlive]
      exact hc
    · right
      rw [hRBlive, mem_children_insert_iff, ← hdec, hrest]
      exact Or.inl hc
  have g6 : new ∈ ({ par with size_ := par.size_ - par.size_ / 2 } : BPlusTreePage).live.map
      Prod.snd ∨ new ∈ RB.live.map Prod.snd := by
    right
    rw [hRBlive, mem_children_insert_iff]
    exact Or.inr rfl
  have g7 : ∀ y, y ≠ op.parent_page_id_ → y ≠ t.next_page_id →
      ((ts.WritePage t.next_page_id RB).WritePage new
        (np.SetParentPageId t.next_page_id)).pages y = t.pages y ∨
      (y ∈ RB.live.map Prod.snd ∧
        ((ts.WritePage t.next_page_id RB).WritePage new
          (np.SetParentPageId t.next_page_id)).pages y =
          (t.pages y).map fun cp => cp.SetParentPageId t.next_page_id) := by
    intro y hyP hyN
    by_cases hy : y ∈ RB.live.map Prod.snd
    · right
      refine ⟨hy, ?_⟩
      rw [hRBlive, mem_children_insert_iff, ← hdec, hrest] at hy
      rcases hy with hy | hy
      · exact hmove y hy
      · rw [hy, hnewpage, hnp]
        rfl
    · left
      have h1 : y ≠ new := by
        intro e
        apply hy
        rw [e, hRBlive, mem_children_insert_iff]
        exact Or.inr rfl
      have h2 : y ∉ (par.live.drop (par.size_ - par.size_ / 2)).map Prod.snd := by
        intro h
        apply hy
        rw [hRBlive, mem_children_insert_iff, ← hdec, r_live]
        exact Or.inl h
      rw [WritePage_pages, if_neg h1, WritePage_pages, if_neg hyN]
      exact e_rest y h2 hyP hyN
  have g8 : slotsOk
      (childOk ((ts.WritePage t.next_page_id RB).WritePage new
          (np.SetParentPageId t.next_page_id))
        (G.withSplit op.parent_page_id_ (r1.slot 0).1 t.next_page_id)
        (some (op.parent_page_id_, (r1.slot 0).1, t.next_page_id)) op.parent_page_id_)
      ({ par with size_ := par.size_ - par.size_ / 2 } : BPlusTreePage).live
      (G.lo op.parent_page_id_) (some (r1.slot 0).1) := by
    rw [hPAlive]
    apply slotsOk_mono _ _ _ _ _ _ s1
    intro c hc lo hi h
    obtain ⟨cp, c1, c2, _, c4, _⟩ := inv.child_facts hpar hpty (hLw_par c hc)
    have hcold : c ≠ old := by
      intro e
      subst e
      exact disj hc hold_U
    exact childOk_split h (Or.inl rfl) (Ne.symm hPN) hcold c4
      ⟨cp, by rw [hstay c hc]; exact c1, c2⟩
  have g9 : slotsOk
      (childOk ((ts.WritePage t.next_page_id RB).WritePage new
          (np.SetParentPageId t.next_page_id))
        (G.withSplit op.parent_page_id_ (r1.slot 0).1 t.next_page_id)
        (some (op.parent_page_id_, (r1.slot 0).1, t.next_page_id)) t.next_page_id)
      RB.live (some (r1.slot 0).1) (G.hi op.parent_page_id_) := by
    rw [hRBlive]
    rw [← hrest, hdec] at s2 ndU hold_U
    have ndU' := ndU
    rw [List.map_append, List.map_cons, List.nodup_append] at ndU'
    obtain ⟨n1, n2, n3⟩ := ndU'
    rw [List.nodup_cons] at n2
    have hmono : ∀ c, c ∈ (L1 ++ s0 :: L2).map Prod.snd → c ≠ old → ∀ lo hi,
        childOk t G (some (old, key, new)) op.parent_page_id_ c lo hi →
        childOk ((ts.WritePage t.next_page_id RB).WritePage new
            (np.SetParentPageId t.next_page_id))
          (G.withSplit op.parent_page_id_ (r1.slot 0).1 t.next_page_id)
          (some (op.parent_page_id_, (r1.slot 0).1, t.next_page_id)) t.next_page_id c
          lo hi := by
      intro c hc hcold lo hi h
      have hc' : c ∈ (r1.slot 0 :: rest).map Prod.snd := by
        rw [← hrest, hdec]; exact hc
      obtain ⟨cp, c1, c2, _, c4, _⟩ := inv.child_facts hpar hpty (hU_par c hc')
      refine childOk_split h (Or.inr rfl) (Ne.symm hPN) hcold c4
        ⟨cp.SetParentPageId t.next_page_id, ?_, rfl⟩
      rw [hmove c hc', c1]
      rfl
    refine slotsOk_insert_after _ _ old key new s0 hs0 L2 ?_ ?_ L1 _ _ ?_ s2
    · intro lo hi h
      refine childOk_split_old h (Or.inr rfl) (Ne.symm hPN) oN oP hnewN hnewP b4 b5 b6 ?_ ?_
      · refine ⟨op.SetParentPageId t.next_page_id, ?_, rfl⟩
        rw [hmove old (by rw [← hrest, hdec]; exact hold_U), hop]
        rfl
      · exact ⟨_, hnewpage, rfl⟩
    · intro c hc
      apply hmono c
      · simp only [List.map_append, List.map_cons, List.mem_append, List.mem_cons]
        right; right; exact hc
      · intro e
        subst e
        rw [← hs0] at hc
        exact n2.1 hc
    · intro c hc
      apply hmono c
      · simp only [List.map_append, List.map_cons, List.mem_append, List.mem_cons]
        left; exact hc
      · intro e
        subst e
        exact n3 hc (by rw [← hs0]; simp)
  have g10 : (({ par with size_ := par.size_ - par.size_ / 2 } : BPlusTreePage).live.map
      Prod.snd).Nodup := by
    rw [hPAlive]
    exact ndL
  have g11 : (RB.live.map Prod.snd).Nodup := by
    rw [hRBlive]
    apply nodup_children_insert
    · rw [← hdec, hrest]; exact ndU
    · rw [← hdec, hrest]
      exact fun h => hnew_not (hU_par _ h)
  exact ⟨hhead, inv.parent_split_core hop hnp hpar hpty hold_mem e_root e_next e_lm e_im
    g0 ⟨rfl, rfl, rfl, rfl, rfl, rfl⟩ g1 g0' (a1.trans r_ty) (a2.trans r_max) (a3.trans r_par)
    (a4.trans r_id) (a6.trans r_len) g2 g3 g4 g5 g6 g7 g8 g9 g10 g11 rlo rhi⟩

end BPlusTree

end cmudb

namespace cmudb

open BPlusTreePage IndexPageType

namespace BPlusTreeInternalPage

/-- The page that `InsertIntoParent` builds for a new root: two slots, the children
`old` and `new` separated by `key`. -/
theorem newRoot_spec (max_size : Nat) (page_id old key new : Int) (h : 2 ≤ max_size) :
    ∃ node1 q, SetValueAt (Init max_size page_id INVALID_PAGE_ID) 0 old = some node1 ∧
      InsertNodeAfter node1 old key new = some q ∧ q.page_type_ = INTERNAL_PAGE ∧
      q.size_ = 2 ∧ q.max_size_ = max_size ∧ q.parent_page_id_ = INVALID_PAGE_ID ∧
      q.page_id_ = page_id ∧ q.array.length = max_size ∧ q.live = [(0, old), (key, new)] := by
  obtain ⟨n, rfl⟩ : ∃ n, max_size = n + 2 := ⟨max_size - 2, by omega⟩
  have h1 : SetValueAt (Init (n + 2) page_id INVALID_PAGE_ID) 0 old =
      some { (Init (n + 2) page_id INVALID_PAGE_ID) with
        array := (0, old) :: (0, 0) :: List.replicate n (0, 0) } := by
    simp [SetValueAt, setSlot, Init, slot, List.replicate_succ]
  have hlive : ({ (Init (n + 2) page_id INVALID_PAGE_ID) with
      array := (0, old) :: (0, 0) :: List.replicate n (0, 0) } : BPlusTreePage).live =
      [(0, old)] := by
    simp [live, Init]
  obtain ⟨q, L1, s, L2, e1, e2, e3, e4, e5, e6, e7⟩ :=
    InsertNodeAfter_spec ({ (Init (n + 2) page_id INVALID_PAGE_ID) with
      array := (0, old) :: (0, 0) :: List.replicate n (0, 0) } : BPlusTreePage) old key new
      (by simp [Init]) (by rw [hlive]; simp)
  obtain ⟨a1, a2, a3, a4, a5, a6⟩ := e2
  refine ⟨_, q, h1, e1, a1, e3, a2, a3, a4, ?_, ?_⟩
  · rw [a6]; simp
  · rw [hlive] at e4
    cases L1 with
    | nil =>
      simp only [List.nil_append, List.cons.injEq] at e4
      rw [e7, ← e4.1, ← e4.2]
      rfl
    | cons a L1 =>
      simp only [List.cons_append, List.cons.injEq] at e4
      have := congrArg List.length e4.2
      simp at this
      omega

end BPlusTreeInternalPage

namespace BPlusTree

/-! ## `InsertIntoParent` -/

theorem Inv.pending_pages {t : BPlusTree} {G : Ghost} {old key new : Int}
    (inv : Inv t G (some (old, key, new))) :
    ∃ op np, t.pages old = some op ∧ t.pages new = some np ∧ op.page_id_ = old ∧
      np.page_id_ = new ∧ new ≠ old ∧ old ≠ t.next_page_id ∧ new ≠ t.next_page_id ∧
      (op.parent_page_id_ = INVALID_PAGE_ID ↔ old = t.root_page_id_) ∧
      G.lv old ≤ G.lv t.root_page_id_ := by
  obtain ⟨op, np, b1, b2, b3, b4, b5, b6, b7, b8, b9, b10⟩ := inv.pending old key new rfl
  have hfresh := inv.next_fresh
  refine ⟨op, np, b1, b2, (inv.page old op b1).id, (inv.page new np b2).id, b7, ?_, ?_,
    (inv.page old op b1).parent_root (fun h => b7 h.symm), (inv.page old op b1).lv_le⟩
  · intro e; rw [e, hfresh] at b1; cases b1
  · intro e; rw [e, hfresh] at b2; cases b2

theorem InsertIntoParent_root {t : BPlusTree} {G : Ghost} {old key new : Int}
    {op np : BPlusTreePage} (inv : Inv t G (some (old, key, new)))
    (hop : t.pages old = some op) (hnp : t.pages new = some np)
    (hroot : op.parent_page_id_ = INVALID_PAGE_ID) (fuel : Nat) :
    ∃ t1 G1, InsertIntoParent (fuel + 1) t old key new = some t1 ∧ Inv t1 G1 none ∧
      G1.leaves = G.leaves ∧ (∀ l ∈ G.leaves, (t1.pages l).map live = (t.pages l).map live) ∧
      G1.lv t1.root_page_id_ ≤ G.lv t.root_page_id_ + 1 := by
  obtain ⟨op', np', b1, b2, hid1, hid2, hne, holdR, hnewR, hpr, _⟩ := inv.pending_pages
  rw [hop] at b1
  rw [hnp] at b2
  simp only [Option.some.injEq] at b1 b2
  subst b1 b2
  have holdroot : old = t.root_page_id_ := hpr.1 hroot
  obtain ⟨node1, q, e1, e2, q1, q2, q3, q4, q5, q6, q7⟩ :=
    BPlusTreeInternalPage.newRoot_spec t.internal_max_size t.next_page_id old key new
      inv.cfg_internal
  let t2 : BPlusTree :=
    ({ root_page_id_ := t.next_page_id, pages := t.pages, next_page_id := t.next_page_id + 1,
       leaf_max_size := t.leaf_max_size, internal_max_size := t.internal_max_size } :
      BPlusTree).WritePage t.next_page_id q
  let t3 : BPlusTree := t2.WritePage old (op.SetParentPageId t.next_page_id)
  let t4 : BPlusTree := t3.WritePage new (np.SetParentPageId t.next_page_id)
  have h2old : t2.pages old = some op := by
    simp only [t2, WritePage_pages, if_neg holdR]
    exact hop
  have h3new : t3.pages new = some np := by
    simp only [t3, t2, WritePage_pages, if_neg hne, if_neg hnewR]
    exact hnp
  have hcode : InsertIntoParent (fuel + 1) t old key new = some t4 := by
    unfold InsertIntoParent
    simp only [hop, hnp, Option.bind_eq_bind, Option.some_bind]
    have hr : op.IsRootPage = true := by simp [IsRootPage, hroot]
    rw [if_pos hr]
    simp only [NewPage, hid1, hid2, e1, e2, Option.some_bind]
    have r1 : t2.reparent old t.next_page_id = some t3 := by
      simp only [reparent, h2old]
    have r2 : t3.reparent new t.next_page_id = some t4 := by
      simp only [reparent, h3new]
    have r1' := r1
    simp only [t2] at r1'
    rw [r1']
    exact r2
  have hinv := inv.new_root hop hnp holdroot t4 q rfl rfl rfl rfl
    (by simp only [t4, t3, t2, WritePage_pages, if_neg (Ne.symm hnewR), if_neg (Ne.symm holdR),
          if_true])
    q1 q2 q3 q4 q5 q6 q7
    (by simp only [t4, t3, WritePage_pages, if_neg (Ne.symm hne), if_true])
    (by simp only [t4, WritePage_pages, if_true])
    (by
      intro y h1 h2 h3
      simp only [t4, t3, t2, WritePage_pages, if_neg h1, if_neg h2, if_neg h3])
  refine ⟨t4, _, hcode, hinv, rfl, ?_, ?_⟩
  · intro l hl
    obtain ⟨pl, hpl, _⟩ := chainOk_leaf _ _ inv.chain l hl
    have hlR : l ≠ t.next_page_id := by
      intro e; rw [e, inv.next_fresh] at hpl; cases hpl
    by_cases c1 : l = new
    · subst c1
      simp only [t4, WritePage_pages, if_true, hnp]
      rfl
    · by_cases c2 : l = old
      · subst c2
        simp only [t4, t3, WritePage_pages, if_neg c1, if_true, hop]
        rfl
      · simp only [t4, t3, t2, WritePage_pages, if_neg c1, if_neg c2, if_neg hlR]
  · show (if t.next_page_id = t.next_page_id then G.lv old + 1 else G.lv t.next_page_id) ≤ _
    rw [if_pos rfl, holdroot]

theorem InsertIntoParent_room {t : BPlusTree} {G : Ghost} {old key new : Int}
    {op np par : BPlusTreePage} (inv : Inv t G (some (old, key, new)))
    (hop : t.pages old = some op) (hnp : t.pages new = some np)
    (hroot : ¬ op.parent_page_id_ = INVALID_PAGE_ID)
    (hpar : t.pages op.parent_page_id_ = some par) (hpty : par.page_type_ = INTERNAL_PAGE)
    (hold_mem : old ∈ par.live.map Prod.snd)
    (hroom : par.size_ < par.max_size_) (fuel : Nat) :
    ∃ t1 G1, InsertIntoParent (fuel + 1) t old key new = some t1 ∧ Inv t1 G1 none ∧
      G1.leaves = G.leaves ∧ (∀ l ∈ G.leaves, (t1.pages l).map live = (t.pages l).map live) ∧
      G1.lv t1.root_page_id_ ≤ G.lv t.root_page_id_ + 1 := by
  obtain ⟨op', np', b1, b2, hid1, hid2, hne, holdR, hnewR, hpr, _⟩ := inv.pending_pages
  rw [hop] at b1
  rw [hnp] at b2
  simp only [Option.some.injEq] at b1 b2
  subst b1 b2
  have okP := inv.page _ par hpar
  obtain ⟨q, L1, s, L2, e1, e2, e3, e4, e5, e6, e7⟩ :=
    BPlusTreeInternalPage.InsertNodeAfter_spec par old key new
      (by rw [okP.len]; exact hroom) hold_mem
  have hnr : old ≠ t.root_page_id_ := fun e => hroot (hpr.2 e)
  refine ⟨t.WritePage op.parent_page_id_ q, G, ?_,
    inv.parent_room hop hnp hnr hpar hpty e2 e3 hroom e4 e5 e7, rfl, ?_, Nat.le_succ _⟩
  · unfold InsertIntoParent
    simp only [hop, hnp, Option.bind_eq_bind, Option.some_bind]
    have hr : ¬ op.IsRootPage = true := by simp [IsRootPage, hroot]
    rw [if_neg hr]
    have hf : t.FetchAs INTERNAL_PAGE op.parent_page_id_ = some par := by
      simp [FetchAs, hpar, hpty]
    simp only [hf, Option.some_bind, if_pos hroom, hid1, hid2, e1]
  · intro l hl
    obtain ⟨pl, hpl, hlty⟩ := chainOk_leaf _ _ inv.chain l hl
    have : l ≠ op.parent_page_id_ := by
      intro e
      rw [e, hpar] at hpl
      simp only [Option.some.injEq] at hpl
      subst hpl
      rw [hpty] at hlty
      cases hlty
    rw [WritePage_pages, if_neg this]

end BPlusTree

end cmudb

namespace cmudb

open BPlusTreePage IndexPageType

namespace BPlusTree

theorem InsertIntoParent_split {t : BPlusTree} {G : Ghost} {old key new : Int}
    {op np par : BPlusTreePage} (inv : Inv t G (some (old, key, new)))
    (hop : t.pages old = some op) (hnp : t.pages new = some np)
    (hroot : ¬ op.parent_page_id_ = INVALID_PAGE_ID)
    (hpar : t.pages op.parent_page_id_ = some par) (hpty : par.page_type_ = INTERNAL_PAGE)
    (hold_mem : old ∈ par.live.map Prod.snd)
    (hroom : ¬ par.size_ < par.max_size_) (fuel : Nat)
    (hf : G.lv t.root_page_id_ < G.lv old + (fuel + 1))
    (ih : ∀ (t : BPlusTree) (G : Ghost) (old key new : Int),
      Inv t G (some (old, key, new)) → G.lv t.root_page_id_ < G.lv old + fuel →
      ∃ t1 G1, InsertIntoParent fuel t old key new = some t1 ∧ Inv t1 G1 none ∧
        G1.leaves = G.leaves ∧
        (∀ l ∈ G.leaves, (t1.pages l).map live = (t.pages l).map live) ∧
        G1.lv t1.root_page_id_ ≤ G.lv t.root_page_id_ + 1) :
    ∃ t1 G1, InsertIntoParent (fuel + 1) t old key new = some t1 ∧ Inv t1 G1 none ∧
      G1.leaves = G.leaves ∧ (∀ l ∈ G.leaves, (t1.pages l).map live = (t.pages l).map live) ∧
      G1.lv t1.root_page_id_ ≤ G.lv t.root_page_id_ + 1 := by
  obtain ⟨op', np', b1, b2, hid1, hid2, hne, holdR, hnewR, hpr, _⟩ := inv.pending_pages
  rw [hop] at b1
  rw [hnp] at b2
  simp only [Option.some.injEq] at b1 b2
  subst b1 b2
  have hfresh := inv.next_fresh
  have okP := inv.page _ par hpar
  obtain ⟨i1, i2, i3, i4, i5⟩ := okP.internal hpty
  have hlen := okP.size_le_len
  have hfull : par.size_ = par.max_size_ := le_antisymm okP.size_le (Nat.le_of_not_lt hroom)
  have hs2 : 2 ≤ par.size_ := by rw [hfull, i2]; exact inv.cfg_internal
  have hb := half_bounds par.size_ hs2
  have hPN : op.parent_page_id_ ≠ t.next_page_id := by
    intro e; rw [e, hfresh] at hpar; cases hpar
  obtain ⟨_, _, _, o3, _, oP⟩ := inv.child_facts hpar hpty hold_mem
  have hnewP : new ≠ op.parent_page_id_ := by
    obtain ⟨_, _, _, _, _, b4, _⟩ := inv.pending old key new rfl
    intro e; rw [← e] at o3; omega
  have hrootN : t.root_page_id_ ≠ t.next_page_id := by
    obtain ⟨r, hr⟩ := inv.root_page
    intro e; rw [e, hfresh] at hr; cases hr
  have hdrop_par : ∀ c ∈ (par.live.drop (par.size_ - par.size_ / 2)).map Prod.snd,
      c ∈ par.live.map Prod.snd := by
    intro c hc
    rw [List.mem_map] at hc ⊢
    obtain ⟨x, hx, hv⟩ := hc
    exact ⟨x, List.mem_of_mem_drop hx, hv⟩
  obtain ⟨ts, r1, e1, e_root, e_next, e_lm, e_im, e_P, e_N, r_ty, r_sz, r_max, r_par, r_id,
      r_len, r_live, e_moved, e_rest⟩ :=
    Split_internal_spec hpar hlen hs2 (by rw [hfull, i2]; exact Nat.div_le_self _ _) hPN (by
      intro c hc
      obtain ⟨cp, c1, _, _, c4, c5⟩ := inv.child_facts hpar hpty (hdrop_par c hc)
      exact ⟨c5, c4, cp, c1⟩)
  have hr1 : 1 ≤ r1.size_ := by rw [r_sz]; exact hb.2.2.2.1
  have hr1len : r1.size_ ≤ r1.array.length := by
    rw [r_sz, r_len, ← i2, ← hfull]; exact hb.2.2.2.2.1
  obtain ⟨rest, hrest⟩ := live_head hr1 hr1len
  have hsplit : par.live = par.live.take (par.size_ - par.size_ / 2) ++ r1.slot 0 :: rest := by
    rw [← hrest, r_live, List.take_append_drop]
  have hLw : par.live.take (par.size_ - par.size_ / 2) ≠ [] := by
    intro e
    have h1 := congrArg List.length e
    rw [List.length_take, live_length par hlen, List.length_nil] at h1
    have h2 := hb.2.2.2.2.2.2.1
    have h3 : par.size_ - par.size_ / 2 ≤ par.size_ := Nat.sub_le _ _
    rw [Nat.min_eq_left h3] at h1
    rw [h1] at h2
    exact absurd h2 (by decide)
  obtain ⟨_, _, _, _, side1, side2⟩ := inv.pending_side hop hnp hpar hpty hsplit hLw
  -- the leaves keep their pairs in the state after `Split`
  have hleaf : ∀ l ∈ G.leaves, l ≠ op.parent_page_id_ ∧ l ≠ t.next_page_id ∧
      (ts.pages l).map live = (t.pages l).map live := by
    intro l hl
    obtain ⟨pl, hpl, hlty⟩ := chainOk_leaf _ _ inv.chain l hl
    have h1 : l ≠ op.parent_page_id_ := by
      intro e
      rw [e, hpar] at hpl
      simp only [Option.some.injEq] at hpl
      subst hpl
      rw [hpty] at hlty
      cases hlty
    have h2 : l ≠ t.next_page_id := by
      intro e; rw [e, hfresh] at hpl; cases hpl
    refine ⟨h1, h2, ?_⟩
    by_cases c : l ∈ (par.live.drop (par.size_ - par.size_ / 2)).map Prod.snd
    · rw [e_moved l c, hpl]
      rfl
    · rw [e_rest l c h1 h2]
  have hlvP : G.lv old + 1 = G.lv op.parent_page_id_ := o3
  have hcode0 :
      InsertIntoParent (fuel + 1) t old key new =
        (if comparator key (BPlusTreeInternalPage.KeyAt r1 0) < 0 then
          (Option.map (ts.WritePage op.parent_page_id_)
            (BPlusTreeInternalPage.InsertNodeAfter
              { par with size_ := par.size_ - par.size_ / 2 } old key new)).bind
            fun y => (y.pages t.next_page_id).bind fun new_parent2 =>
              InsertIntoParent fuel y op.parent_page_id_
                (BPlusTreeInternalPage.KeyAt new_parent2 0) t.next_page_id
        else
          ((BPlusTreeInternalPage.InsertNodeAfter r1 old key new).bind fun np =>
            (ts.WritePage t.next_page_id np).reparent new np.page_id_).bind
            fun y => (y.pages t.next_page_id).bind fun new_parent2 =>
              InsertIntoParent fuel y op.parent_page_id_
                (BPlusTreeInternalPage.KeyAt new_parent2 0) t.next_page_id) := by
    conv_lhs => unfold InsertIntoParent
    simp only [hop, hnp, Option.bind_eq_bind, Option.some_bind]
    have hr : ¬ op.IsRootPage = true := by simp [IsRootPage, hroot]
    rw [if_neg hr]
    have hfetch : t.FetchAs INTERNAL_PAGE op.parent_page_id_ = some par := by
      simp [FetchAs, hpar, hpty]
    simp only [hfetch, Option.some_bind, if_neg hroom, e1, e_P, e_N, hid1, hid2]
  rw [hcode0]
  by_cases hk : key < (r1.slot 0).1
  · -- the pair goes into the lower half
    have hkc : comparator key (BPlusTreeInternalPage.KeyAt r1 0) < 0 :=
      (comparator_lt_zero _ _).2 hk
    rw [if_pos hkc]
    have hold_Lw : old ∈ (par.live.take (par.size_ - par.size_ / 2)).map Prod.snd := by
      have := hold_mem
      rw [hsplit, List.map_append, List.mem_append] at this
      rcases this with h | h
      · exact h
      · have := side2 h
        omega
    have hlive0 := live_resize par (par.size_ - par.size_ / 2) (Nat.sub_le _ _)
    obtain ⟨PA, L1, s0, L2, f1, f2, f3, f4, f5, f6, f7⟩ :=
      BPlusTreeInternalPage.InsertNodeAfter_spec
        ({ par with size_ := par.size_ - par.size_ / 2 } : BPlusTreePage) old key new
        (lt_of_lt_of_le hb.2.2.2.2.2.2.2.1 hlen) (by rw [hlive0]; exact hold_Lw)
    rw [hlive0] at f4
    have inv2 := inv.parent_split_left hop hnp hpar hpty hfull e_root e_next e_lm e_im e_N r_ty
      r_sz r_max r_par r_id r_len r_live e_moved e_rest f2 f3 f4 f5 f7
    have hN2 : (ts.WritePage op.parent_page_id_ PA).pages t.next_page_id = some r1 := by
      rw [WritePage_pages, if_neg (Ne.symm hPN)]
      exact e_N
    obtain ⟨t1, G1, g1, g2, g3, g4, g5⟩ := ih _ _ _ _ _ inv2 (by
      rw [WritePage_root, e_root, withSplit_lv _ _ _ _ hrootN, withSplit_lv _ _ _ _ hPN]
      omega)
    refine ⟨t1, G1, ?_, g2, g3, ?_, ?_⟩
    · simp only [f1, Option.map_some', Option.some_bind, hN2]
      exact g1
    · intro l hl
      obtain ⟨h1, h2, h3⟩ := hleaf l hl
      rw [g4 l hl, WritePage_pages, if_neg h1, h3]
    · rw [WritePage_root, e_root, withSplit_lv _ _ _ _ hrootN] at g5
      exact g5
  · -- the pair goes into the upper half
    have hkc : ¬ comparator key (BPlusTreeInternalPage.KeyAt r1 0) < 0 := by
      rw [comparator_lt_zero]
      exact hk
    rw [if_neg hkc]
    have hold_U : old ∈ r1.live.map Prod.snd := by
      have := hold_mem
      rw [hsplit, List.map_append, List.mem_append] at this
      rcases this with h | h
      · exact absurd (side1 h) hk
      · rw [hrest]; exact h
    obtain ⟨RB, L1, s0, L2, f1, f2, f3, f4, f5, f6, f7⟩ :=
      BPlusTreeInternalPage.InsertNodeAfter_spec r1 old key new
        (by rw [r_sz, r_len, ← i2, ← hfull]; exact hb.2.2.2.2.2.2.2.2.1) hold_U
    obtain ⟨hhead, inv2⟩ := inv.parent_split_right hop hnp hpar hpty hfull e_root e_next e_lm
      e_im e_P r_ty r_sz r_max r_par r_id r_len r_live e_moved e_rest f2 f3 f4 f5 f7
    have hRBid : RB.page_id_ = t.next_page_id := f2.2.2.2.1.trans r_id
    have hnewpage : (ts.WritePage t.next_page_id RB).pages new = some np := by
      rw [WritePage_pages, if_neg hnewR]
      have : new ∉ (par.live.drop (par.size_ - par.size_ / 2)).map Prod.snd := by
        intro h
        obtain ⟨_, _, _, _, _, _, _, _, _, _, _, b10⟩ := inv.pending old key new rfl
        exact b10 _ par hpar hpty (hdrop_par new h)
      rw [e_rest new this hnewP hnewR]
      exact hnp
    have hN2 : ((ts.WritePage t.next_page_id RB).WritePage new
        (np.SetParentPageId t.next_page_id)).pages t.next_page_id = some RB := by
      rw [WritePage_pages, if_neg (Ne.symm hnewR), WritePage_pages, if_pos rfl]
    obtain ⟨t1, G1, g1, g2, g3, g4, g5⟩ := ih _ _ _ _ _ inv2 (by
      rw [WritePage_root, WritePage_root, e_root, withSplit_lv _ _ _ _ hrootN,
        withSplit_lv _ _ _ _ hPN]
      omega)
    refine ⟨t1, G1, ?_, g2, g3, ?_, ?_⟩
    · simp only [f1, Option.some_bind, reparent, hnewpage, hRBid, hN2,
        BPlusTreeInternalPage.KeyAt, hhead]
      exact g1
    · intro l hl
      obtain ⟨h1, h2, h3⟩ := hleaf l hl
      rw [g4 l hl, WritePage_pages]
      by_cases c : l = new
      · rw [if_pos c, c, hnp]
        rfl
      · rw [if_neg c, WritePage_pages, if_neg h2, h3]
    · rw [WritePage_root, WritePage_root, e_root, withSplit_lv _ _ _ _ hrootN] at g5
      exact g5

/-- `InsertIntoParent` on a state that satisfies the invariant with this call pending:
the call returns, the invariant holds afterwards, the leaves keep their pairs and the
tree grows by at most one level. -/
theorem InsertIntoParent_Inv : ∀ (fuel : Nat) (t : BPlusTree) (G : Ghost) (old key new : Int),
    Inv t G (some (old, key, new)) → G.lv t.root_page_id_ < G.lv old + fuel →
    ∃ t1 G1, InsertIntoParent fuel t old key new = some t1 ∧ Inv t1 G1 none ∧
      G1.leaves = G.leaves ∧ (∀ l ∈ G.leaves, (t1.pages l).map live = (t.pages l).map live) ∧
      G1.lv t1.root_page_id_ ≤ G.lv t.root_page_id_ + 1 := by
  intro fuel
  induction fuel with
  | zero =>
    intro t G old key new inv hf
    obtain ⟨_, _, _, _, _, _, _, _, _, _, h⟩ := inv.pending_pages
    omega
  | succ fuel ih =>
    intro t G old key new inv hf
    obtain ⟨op, np, hop, hnp, _, _, hne, _, _, hpr, _⟩ := inv.pending_pages
    by_cases hroot : op.parent_page_id_ = INVALID_PAGE_ID
    · exact InsertIntoParent_root inv hop hnp hroot fuel
    · have hnr : old ≠ t.root_page_id_ := fun e => hroot (hpr.2 e)
      obtain ⟨par, hpar, hpty, hold_mem⟩ :=
        (inv.page old op hop).parent_link hnr (fun h => hne h.symm)
      by_cases hroom : par.size_ < par.max_size_
      · exact InsertIntoParent_room inv hop hnp hroot hpar hpty hold_mem hroom fuel
      · exact InsertIntoParent_split inv hop hnp hroot hpar hpty hold_mem hroom fuel hf ih

end BPlusTree

end cmudb

namespace cmudb

open BPlusTreePage IndexPageType

namespace BPlusTree

/-! ## `InsertIntoLeaf`: the leaf is split -/

theorem withLeaves_lv (G : Ghost) (ls : List Int) : (G.withLeaves ls).lv = G.lv := rfl

theorem withLeaves_lo (G : Ghost) (ls : List Int) : (G.withLeaves ls).lo = G.lo := rfl

theorem withLeaves_hi (G : Ghost) (ls : List Int) : (G.withLeaves ls).hi = G.hi := rfl

theorem withLeaves_leaves (G : Ghost) (ls : List Int) : (G.withLeaves ls).leaves = ls := rfl

theorem effHi_withLeaves (G : Ghost) (ls : List Int) (pend : Pending) (c : Int) :
    effHi (G.withLeaves ls) pend c = effHi G pend c := rfl

/-- The range that the parent attributes to a child is the same after the split of the
leaf `l` into `l` and `N`. -/
theorem effHi_withSplit_none (G : Ghost) {l sep N c : Int} (hcN : c ≠ N) (hNl : N ≠ l) :
    effHi (G.withSplit l sep N) (some (l, sep, N)) c = effHi G none c := by
  rw [effHi_none]
  by_cases e : c = l
  · subst e
    rw [effHi_old, withSplit_hi_new _ _ _ _ hNl]
  · rw [effHi_ne _ e, withSplit_hi _ _ _ _ e hcN]

theorem Inv.leaf_split {t : BPlusTree} {G : Ghost} (inv : Inv t G none) {l : Int}
    {p : BPlusTreePage} (hp : t.pages l = some p) (hty : p.page_type_ = LEAF_PAGE)
    {t4 : BPlusTree} {qF rF : BPlusTreePage} {sep : Int} {A B : List Int}
    (hroot4 : t4.root_page_id_ = t.root_page_id_)
    (hnext4 : t4.next_page_id = t.next_page_id + 1)
    (hlm : t4.leaf_max_size = t.leaf_max_size)
    (him : t4.internal_max_size = t.internal_max_size)
    (hl4 : t4.pages l = some qF) (hN4 : t4.pages t.next_page_id = some rF)
    (hother : ∀ y, y ≠ l → y ≠ t.next_page_id → t4.pages y = t.pages y)
    (q_ty : qF.page_type_ = LEAF_PAGE) (q_max : qF.max_size_ = p.max_size_)
    (q_par : qF.parent_page_id_ = p.parent_page_id_) (q_id : qF.page_id_ = p.page_id_)
    (q_next : qF.next_page_id_ = t.next_page_id) (q_len : qF.array.length = p.array.length)
    (q_sz : p.max_size_ / 2 ≤ qF.size_ ∧ qF.size_ ≤ p.max_size_)
    (r_ty : rF.page_type_ = LEAF_PAGE) (r_max : rF.max_size_ = t.leaf_max_size)
    (r_par : rF.parent_page_id_ = p.parent_page_id_) (r_id : rF.page_id_ = t.next_page_id)
    (r_next : rF.next_page_id_ = p.next_page_id_) (r_len : rF.array.length = t.leaf_max_size)
    (r_sz : t.leaf_max_size / 2 ≤ rF.size_ ∧ rF.size_ ≤ t.leaf_max_size)
    (q_sorted : (qF.live.map Prod.fst).Pairwise (· < ·))
    (r_sorted : (rF.live.map Prod.fst).Pairwise (· < ·))
    (q_range : ∀ kv ∈ qF.live, inRange (G.lo l) (some sep) kv.1)
    (r_range : ∀ kv ∈ rF.live, inRange (some sep) (G.hi l) kv.1)
    (hlo : loLtHi (G.lo l) (some sep)) (hhi : loLtHi (some sep) (G.hi l))
    (hleaves : G.leaves = A ++ l :: B) :
    Inv t4 ((G.withSplit l sep t.next_page_id).withLeaves (A ++ l :: t.next_page_id :: B))
      (some (l, sep, t.next_page_id)) := by
  have hfresh := inv.next_fresh
  have hNpos := inv.next_pos
  have ok := inv.page l p hp
  obtain ⟨k1, k2, k3, k4, k5⟩ := ok.leaf hty
  have hlN : l ≠ t.next_page_id := by
    intro e; rw [e, hfresh] at hp; cases hp
  have hrootN : t.root_page_id_ ≠ t.next_page_id := by
    obtain ⟨r, hr⟩ := inv.root_page
    intro e; rw [e, hfresh] at hr; cases hr
  have hnd := inv.leaves_nodup
  rw [hleaves] at hnd
  have hNleaves : t.next_page_id ∉ A ++ l :: B := by
    intro h
    rw [← hleaves] at h
    obtain ⟨pl, hpl, _⟩ := chainOk_leaf _ _ inv.chain _ h
    rw [hfresh] at hpl
    cases hpl
  have hnd' := hnd
  rw [List.nodup_append] at hnd'
  obtain ⟨ndA, ndB, disj⟩ := hnd'
  rw [List.nodup_cons] at ndB
  have hparent : ∀ (x : Int) (px : BPlusTreePage) (par : BPlusTreePage),
      t.pages px.parent_page_id_ = some par → par.page_type_ = INTERNAL_PAGE →
      x ∈ par.live.map Prod.snd →
      ∃ par1, t4.pages px.parent_page_id_ = some par1 ∧ par1.page_type_ = INTERNAL_PAGE ∧
        x ∈ par1.live.map Prod.snd := by
    intro x px par h1 h2 h3
    have hne : px.parent_page_id_ ≠ l := by
      intro e
      rw [e, hp] at h1
      simp only [Option.some.injEq] at h1
      subst h1
      rw [hty] at h2
      cases h2
    have hne2 : px.parent_page_id_ ≠ t.next_page_id := by
      intro e; rw [e, hfresh] at h1; cases h1
    exact ⟨par, by rw [hother _ hne hne2]; exact h1, h2, h3⟩
  refine ⟨by rw [hlm]; exact inv.cfg_leaf, by rw [him]; exact inv.cfg_internal, ?_, ?_, ?_, ?_,
    ?_, ?_, ?_, ?_⟩
  · intro x px hx
    rw [hnext4]
    by_cases cN : x = t.next_page_id
    · rw [cN]; omega
    · have : ∃ py, t.pages x = some py := by
        by_cases cl : x = l
        · exact ⟨p, by rw [cl]; exact hp⟩
        · exact ⟨px, by rw [← hother x cl cN]; exact hx⟩
      obtain ⟨py, hpy⟩ := this
      have := inv.alloc x py hpy
      omega
  · rw [hroot4]
    obtain ⟨r, hr⟩ := inv.root_page
    by_cases cl : t.root_page_id_ = l
    · rw [cl]; exact ⟨qF, hl4⟩
    · exact ⟨r, by rw [hother _ cl hrootN]; exact hr⟩
  · rw [hroot4, withLeaves_lo, withSplit_lo _ _ _ _ hrootN]
    exact inv.root_lo
  · rw [hroot4, effHi_withLeaves, effHi_withSplit_none G hrootN (Ne.symm hlN)]
    exact inv.root_hi
  · intro x px hx
    by_cases cl : x = l
    · subst cl
      rw [hl4] at hx
      simp only [Option.some.injEq] at hx
      subst hx
      refine ⟨q_id.trans ok.id, by rw [q_len, q_max]; exact ok.len, by rw [q_max]; exact q_sz.2,
        ?_, ?_, ?_, ?_, ?_, ?_, ?_⟩
      · rw [withLeaves_lo, withLeaves_hi, withSplit_lo _ _ _ _ hlN, withSplit_hi_old]
        exact hlo
      · rw [hroot4, withLeaves_lv, withSplit_lv _ _ _ _ hlN, withSplit_lv _ _ _ _ hrootN]
        exact ok.lv_le
      · intro _
        rw [q_par, hroot4]
        exact ok.parent_root (isPendNew_none _)
      · intro hx _
        rw [hroot4] at hx
        obtain ⟨par, p1, p2, p3⟩ := ok.parent_link hx (isPendNew_none _)
        rw [q_par]
        exact hparent _ p par p1 p2 p3
      · intro _
        rw [q_max]
        exact q_sz.1
      · intro _
        rw [withLeaves_lv, withLeaves_lo, withLeaves_hi, withSplit_lv _ _ _ _ hlN,
          withSplit_lo _ _ _ _ hlN, withSplit_hi_old, q_max, hlm, withLeaves_leaves]
        exact ⟨k1, k2, q_sorted, q_range, by simp⟩
      · intro h
        rw [q_ty] at h
        cases h
    · by_cases cN : x = t.next_page_id
      · subst cN
        rw [hN4] at hx
        simp only [Option.some.injEq] at hx
        subst hx
        refine ⟨r_id, by rw [r_len, r_max], by rw [r_max]; exact r_sz.2, ?_, ?_, ?_, ?_, ?_,
          ?_, ?_⟩
        · rw [withLeaves_lo, withLeaves_hi, withSplit_lo_new,
            withSplit_hi_new _ _ _ _ (Ne.symm hlN)]
          exact hhi
        · rw [withLeaves_lv, withSplit_lv_new, k1]
          exact Nat.zero_le _
        · intro h
          exact absurd rfl h
        · intro _ h
          exact absurd rfl h
        · intro _
          rw [r_max]
          exact r_sz.1
        · intro _
          rw [withLeaves_lv, withLeaves_lo, withLeaves_hi, withSplit_lv_new, withSplit_lo_new,
            withSplit_hi_new _ _ _ _ (Ne.symm hlN), r_max, hlm, withLeaves_leaves]
          exact ⟨k1, rfl, r_sorted, r_range, by simp⟩
        · intro h
          rw [r_ty] at h
          cases h
      · rw [hother x cl cN] at hx
        have okx := inv.page x px hx
        refine okx.frame hroot4 hlm him ?_ ?_ ?_ ?_ ?_ (fun _ => isPendNew_none _)
          (hparent x px) ?_
        · rw [withLeaves_lo, withSplit_lo _ _ _ _ cN]
        · rw [withLeaves_hi, withSplit_hi _ _ _ _ cl cN]
        · rw [withLeaves_lv, withSplit_lv _ _ _ _ cN]
        · rw [withLeaves_lv, withSplit_lv _ _ _ _ hrootN]
        · intro h
          rw [hleaves] at h
          rw [withLeaves_leaves]
          simp only [List.mem_append, List.mem_cons] at h ⊢
          tauto
        · intro hxty c hc lo hi h
          obtain ⟨cp, c1, c2, c3, c4, c5⟩ := inv.child_facts hx hxty hc
          refine h.carry ?_ ?_ ?_ ?_
          · intro cp' hcp'
            rw [c1] at hcp'
            simp only [Option.some.injEq] at hcp'
            subst hcp'
            by_cases e : c = l
            · subst e
              rw [hp] at c1
              simp only [Option.some.injEq] at c1
              subst c1
              exact ⟨qF, hl4, q_par.trans c2⟩
            · exact ⟨cp, by rw [hother c e c4]; exact c1, c2⟩
          · intro e
            rw [withLeaves_lv, withSplit_lv _ _ _ _ c4, withSplit_lv _ _ _ _ cN]
            exact e
          · rw [withLeaves_lo, withSplit_lo _ _ _ _ c4]
          · rw [effHi_withLeaves, effHi_withSplit_none G c4 (Ne.symm hlN)]
  · rw [withLeaves_leaves]
    have hch := inv.chain
    rw [hleaves] at hch
    refine chainOk_insert sep hp hl4 hN4 q_ty q_next r_ty r_next ?_ ?_ ?_ ?_ ?_ B ndB.1 ?_ A none
      ?_ ?_ hch
    · rw [withLeaves_lo, withSplit_lo _ _ _ _ hlN]
    · rw [withLeaves_hi, withSplit_hi_old]
    · rw [withLeaves_lo, withSplit_lo_new]
    · rw [withLeaves_hi, withSplit_hi_new _ _ _ _ (Ne.symm hlN)]
    · intro y h1 h2
      exact ⟨hother y h1 h2, by rw [withLeaves_lo, withSplit_lo _ _ _ _ h2],
        by rw [withLeaves_hi, withSplit_hi _ _ _ _ h1 h2]⟩
    · intro h
      exact hNleaves (List.mem_append_right _ (List.mem_cons_of_mem _ h))
    · intro h
      exact disj h (by simp)
    · intro h
      exact hNleaves (List.mem_append_left _ h)
  · rw [withLeaves_leaves, List.nodup_append]
    refine ⟨ndA, ?_, ?_⟩
    · rw [List.nodup_cons, List.nodup_cons]
      refine ⟨?_, ?_, ndB.2⟩
      · simp only [List.mem_cons, not_or]
        exact ⟨hlN, ndB.1⟩
      · intro h
        exact hNleaves (List.mem_append_right _ (List.mem_cons_of_mem _ h))
    · intro a ha1 ha2
      simp only [List.mem_cons] at ha2
      rcases ha2 with e | e | e
      · exact disj ha1 (by rw [e]; simp)
      · exact hNleaves (List.mem_append_left _ (e ▸ ha1))
      · exact disj ha1 (List.mem_cons_of_mem _ e)
  · intro o k n h
    simp only [Option.some.injEq, Prod.mk.injEq] at h
    obtain ⟨rfl, rfl, rfl⟩ := h
    refine ⟨qF, rF, hl4, hN4, r_par.trans q_par.symm, ?_, ?_, ?_, Ne.symm hlN, ?_, ?_, ?_⟩
    · rw [withLeaves_lv, withSplit_lv_new, withSplit_lv _ _ _ _ hlN]
    · rw [withLeaves_hi, withSplit_hi_old]
    · rw [withLeaves_lo, withSplit_lo_new]
    · rw [hroot4]; exact Ne.symm hrootN
    · rw [q_max]; exact q_sz.1
    · intro x q hx hqty hmem
      have cl : x ≠ l := by
        intro e
        rw [e, hl4] at hx
        simp only [Option.some.injEq] at hx
        subst hx
        rw [q_ty] at hqty
        cases hqty
      have cN : x ≠ t.next_page_id := by
        intro e
        rw [e, hN4] at hx
        simp only [Option.some.injEq] at hx
        subst hx
        rw [r_ty] at hqty
        cases hqty
      rw [hother x cl cN] at hx
      obtain ⟨_, _, _, _, c4, _⟩ := inv.child_facts hx hqty hmem
      exact c4 rfl

end BPlusTree

end cmudb

namespace cmudb

open BPlusTreePage IndexPageType

namespace BPlusTree

/-! ## `InsertIntoLeaf` -/

theorem SetNextPageId_live (p : BPlusTreePage) (x : Int) :
    (BPlusTreeLeafPage.SetNextPageId p x).live = p.live := rfl

theorem SetNextPageId_slot (p : BPlusTreePage) (x : Int) (i : Nat) :
    (BPlusTreeLeafPage.SetNextPageId p x).slot i = p.slot i := rfl

/-- The search of `InsertIntoLeaf` ends at a leaf whose range contains the key and
that does not hold the key. -/
theorem Inv.find_leaf {t : BPlusTree} {G : Ghost} (inv : Inv t G none) (key : Int)
    (hk : key ∉ (contents t G.leaves).map Prod.fst) (fuel : Nat)
    (hf : G.lv t.root_page_id_ < fuel) :
    ∃ l p, FindLeafPage t key false fuel t.root_page_id_ = some l ∧ t.pages l = some p ∧
      p.page_type_ = LEAF_PAGE ∧ inRange (G.lo l) (G.hi l) key ∧
      key ∉ p.live.map Prod.fst ∧ BPlusTreeLeafPage.Lookup p key = none := by
  obtain ⟨r, hr⟩ := inv.root_page
  have hrh : G.hi t.root_page_id_ = none := inv.root_hi
  obtain ⟨l, p, e1, hp, hty, hrange, _⟩ :=
    FindLeafPage_ghost inv key false (G.lv t.root_page_id_) t.root_page_id_ r fuel rfl hr
      (by
        intro _
        rw [inv.root_lo, hrh]
        exact ⟨fun a h => (by cases h), fun a h => (by cases h)⟩) hf
  have ok := inv.page l p hp
  obtain ⟨k1, k2, k3, k4, k5⟩ := ok.leaf hty
  have hkp : key ∉ p.live.map Prod.fst := by
    intro h
    apply hk
    rw [List.mem_map] at h ⊢
    obtain ⟨kv, h1, h2⟩ := h
    exact ⟨kv, mem_contents k5 hp kv h1, h2⟩
  refine ⟨l, p, e1, hp, hty, hrange rfl, hkp, ?_⟩
  cases e : BPlusTreeLeafPage.Lookup p key with
  | none => rfl
  | some v =>
    exfalso
    apply hkp
    have := BPlusTreeLeafPage.Lookup_sound p key v ok.size_le_len e
    rw [List.mem_map]
    exact ⟨(key, v), this, rfl⟩

/-- Conclusion of the split case of `InsertIntoLeaf`, from the state in which
`InsertIntoParent` is called. -/
theorem InsertIntoLeaf_finish {t : BPlusTree} {G : Ghost} (inv : Inv t G none) {l : Int}
    {p : BPlusTreePage} (hp : t.pages l = some p) (hty : p.page_type_ = LEAF_PAGE)
    (t4 : BPlusTree) (qF rF : BPlusTreePage) (sep : Int) {key value : Int} (fuel : Nat)
    (hf : G.lv t.root_page_id_ < fuel)
    (hcode : InsertIntoLeaf fuel t key value =
      (InsertIntoParent fuel t4 l sep t.next_page_id).bind fun t5 => some (true, t5))
    (hroot4 : t4.root_page_id_ = t.root_page_id_)
    (hnext4 : t4.next_page_id = t.next_page_id + 1)
    (hlm : t4.leaf_max_size = t.leaf_max_size)
    (him : t4.internal_max_size = t.internal_max_size)
    (hl4 : t4.pages l = some qF) (hN4 : t4.pages t.next_page_id = some rF)
    (hother : ∀ y, y ≠ l → y ≠ t.next_page_id → t4.pages y = t.pages y)
    (q_ty : qF.page_type_ = LEAF_PAGE) (q_max : qF.max_size_ = p.max_size_)
    (q_par : qF.parent_page_id_ = p.parent_page_id_) (q_id : qF.page_id_ = p.page_id_)
    (q_next : qF.next_page_id_ = t.next_page_id) (q_len : qF.array.length = p.array.length)
    (q_sz : p.max_size_ / 2 ≤ qF.size_ ∧ qF.size_ ≤ p.max_size_)
    (r_ty : rF.page_type_ = LEAF_PAGE) (r_max : rF.max_size_ = t.leaf_max_size)
    (r_par : rF.parent_page_id_ = p.parent_page_id_) (r_id : rF.page_id_ = t.next_page_id)
    (r_next : rF.next_page_id_ = p.next_page_id_) (r_len : rF.array.length = t.leaf_max_size)
    (r_sz : t.leaf_max_size / 2 ≤ rF.size_ ∧ rF.size_ ≤ t.leaf_max_size)
    (q_sorted : (qF.live.map Prod.fst).Pairwise (· < ·))
    (r_sorted : (rF.live.map Prod.fst).Pairwise (· < ·))
    (q_range : ∀ kv ∈ qF.live, inRange (G.lo l) (some sep) kv.1)
    (r_range : ∀ kv ∈ rF.live, inRange (some sep) (G.hi l) kv.1)
    (hlo : loLtHi (G.lo l) (some sep)) (hhi : loLtHi (some sep) (G.hi l))
    (hperm : (qF.live ++ rF.live).Perm ((key, value) :: p.live)) :
    ∃ t1 G1, InsertIntoLeaf fuel t key value = some (true, t1) ∧ Inv t1 G1 none ∧
      (contents t1 G1.leaves).Perm ((key, value) :: contents t G.leaves) ∧
      G1.lv t1.root_page_id_ ≤ G.lv t.root_page_id_ + 1 ∧
      G1.leaves.length ≤ G.leaves.length + 1 := by
  have ok := inv.page l p hp
  obtain ⟨k1, k2, k3, k4, k5⟩ := ok.leaf hty
  obtain ⟨A, B, hAB⟩ := List.append_of_mem k5
  have hfresh := inv.next_fresh
  have hlN : l ≠ t.next_page_id := by
    intro e; rw [e, hfresh] at hp; cases hp
  have hrootN : t.root_page_id_ ≠ t.next_page_id := by
    obtain ⟨r, hr⟩ := inv.root_page
    intro e; rw [e, hfresh] at hr; cases hr
  have inv4 := inv.leaf_split hp hty hroot4 hnext4 hlm him hl4 hN4 hother q_ty q_max q_par q_id
    q_next q_len q_sz r_ty r_max r_par r_id r_next r_len r_sz q_sorted r_sorted q_range r_range
    hlo hhi hAB
  obtain ⟨t5, G5, g1, g2, g3, g4, g5⟩ := InsertIntoParent_Inv fuel _ _ _ _ _ inv4 (by
    rw [hroot4, withLeaves_lv, withSplit_lv _ _ _ _ hrootN, withSplit_lv _ _ _ _ hlN, k1]
    omega)
  rw [withLeaves_leaves] at g3 g4
  refine ⟨t5, G5, ?_, g2, ?_, ?_, ?_⟩
  · rw [hcode, g1]
    rfl
  · rw [g3, contents_congr _ g4, hAB]
    have hnd := inv.leaves_nodup
    rw [hAB, List.nodup_append] at hnd
    obtain ⟨_, ndB, disj⟩ := hnd
    rw [List.nodup_cons] at ndB
    have hNl : ∀ y ∈ G.leaves, y ≠ t.next_page_id := by
      intro y hy e
      obtain ⟨pl, hpl, _⟩ := chainOk_leaf _ _ inv.chain y hy
      rw [e, hfresh] at hpl
      cases hpl
    refine contents_split hp hl4 hN4 ?_ ?_ hperm
    · intro y hy
      have h1 : y ≠ l := by
        intro e
        subst e
        exact disj hy (by simp)
      rw [hother y h1 (hNl y (by rw [hAB]; exact List.mem_append_left _ hy))]
    · intro y hy
      have h1 : y ≠ l := by
        intro e
        subst e
        exact ndB.1 hy
      rw [hother y h1
        (hNl y (by rw [hAB]; exact List.mem_append_right _ (List.mem_cons_of_mem _ hy)))]
  · rw [hroot4, withLeaves_lv, withSplit_lv _ _ _ _ hrootN] at g5
    exact g5
  · rw [g3, hAB]
    simp only [List.length_append, List.length_cons]
    omega

end BPlusTree

end cmudb

namespace cmudb

open BPlusTreePage IndexPageType

namespace BPlusTree

/-- `InsertIntoLeaf` of a key that the tree does not hold: the call returns true, the
invariant holds afterwards and the leaves hold one more pair. -/
theorem InsertIntoLeaf_Inv {t : BPlusTree} {G : Ghost} (inv : Inv t G none) (key value : Int)
    (hk : key ∉ (contents t G.leaves).map Prod.fst) (fuel : Nat)
    (hf : G.lv t.root_page_id_ < fuel) :
    ∃ t1 G1, InsertIntoLeaf fuel t key value = some (true, t1) ∧ Inv t1 G1 none ∧
      (contents t1 G1.leaves).Perm ((key, value) :: contents t G.leaves) ∧
      G1.lv t1.root_page_id_ ≤ G.lv t.root_page_id_ + 1 ∧
      G1.leaves.length ≤ G.leaves.length + 1 := by
  obtain ⟨l, p, e1, hp, hty, hrange, hkp, hlook⟩ := inv.find_leaf key hk fuel hf
  have hfetch : t.FetchAs LEAF_PAGE l = some p := by simp [FetchAs, hp, hty]
  by_cases hroom : p.size_ < p.max_size_
  · obtain ⟨q, f1, f2, f3⟩ := inv.leaf_insert hp hty hroom value hrange hkp
    refine ⟨t.WritePage l q, G, ?_, f2, f3, Nat.le_succ _, Nat.le_succ _⟩
    unfold InsertIntoLeaf
    simp only [e1, hfetch, hlook, Option.bind_eq_bind, Option.some_bind, Option.isSome_none,
      if_pos hroom, f1, Bool.false_eq_true, if_false]
  · have ok := inv.page l p hp
    obtain ⟨k1, k2, k3, k4, k5⟩ := ok.leaf hty
    have hfresh := inv.next_fresh
    have hlN : l ≠ t.next_page_id := by
      intro e; rw [e, hfresh] at hp; cases hp
    have hfull : p.size_ = p.max_size_ := le_antisymm ok.size_le (Nat.le_of_not_lt hroom)
    have hs2 : 2 ≤ p.size_ := by rw [hfull, k2]; exact inv.cfg_leaf
    have hb := half_bounds p.size_ hs2
    have hlen := ok.size_le_len
    obtain ⟨ts, q0, r0, es, s_root, s_next, s_lm, s_im, el, eN, s_other, q0h, q0sz, q0live,
        r_ty, r_sz, r_max, r_par, r_id, r_next, r_len, r_live⟩ :=
      Split_leaf_spec hp hlen (by rw [hfull, k2]; exact Nat.div_le_self _ _) hlN
    obtain ⟨h1, h2, h3, h4, h5, h6⟩ := q0h
    have hr0 : 1 ≤ r0.size_ := by rw [r_sz]; exact hb.2.2.2.1
    have hr0len : r0.size_ ≤ r0.array.length := by
      rw [r_sz, r_len, ← k2, ← hfull]; exact hb.2.2.2.2.1
    obtain ⟨rest, hrest⟩ := live_head hr0 hr0len
    have hsplit : p.live = p.live.take (p.size_ - p.size_ / 2) ++ r0.slot 0 :: rest := by
      rw [← hrest, r_live, List.take_append_drop]
    have hs := k3
    rw [hsplit, List.map_append, List.pairwise_append] at hs
    obtain ⟨sT, sD, cross⟩ := hs
    have sD' := sD
    rw [List.map_cons, List.pairwise_cons] at sD'
    have hmemT : ∀ kv ∈ p.live.take (p.size_ - p.size_ / 2), kv ∈ p.live :=
      fun kv h => List.mem_of_mem_take h
    have hmemD : ∀ kv ∈ r0.slot 0 :: rest, kv ∈ p.live := by
      intro kv h
      rw [hsplit]
      exact List.mem_append_right _ h
    have hT : ∀ kv ∈ p.live.take (p.size_ - p.size_ / 2),
        inRange (G.lo l) (some (r0.slot 0).1) kv.1 := by
      intro kv hkv
      refine ⟨(k4 kv (hmemT kv hkv)).1, ?_⟩
      intro b hb
      simp only [Option.some.injEq] at hb
      rw [← hb]
      exact cross kv.1 (List.mem_map_of_mem _ hkv) (r0.slot 0).1 (by simp)
    have hD : ∀ kv ∈ r0.slot 0 :: rest, inRange (some (r0.slot 0).1) (G.hi l) kv.1 := by
      intro kv hkv
      refine ⟨?_, (k4 kv (hmemD kv hkv)).2⟩
      intro a ha
      simp only [Option.some.injEq] at ha
      rw [← ha]
      rcases List.mem_cons.1 hkv with e | e
      · rw [e]
      · exact le_of_lt (sD'.1 kv.1 (List.mem_map_of_mem _ e))
    have hTne : ∃ kv0, kv0 ∈ p.live.take (p.size_ - p.size_ / 2) := by
      apply List.exists_mem_of_ne_nil
      intro e
      have h7 := congrArg List.length e
      rw [List.length_take, live_length p hlen, List.length_nil,
        Nat.min_eq_left (Nat.sub_le _ _)] at h7
      have h8 := hb.2.2.2.2.2.2.1
      rw [h7] at h8
      exact absurd h8 (by decide)
    obtain ⟨kv0, hkv0⟩ := hTne
    have hlo : loLtHi (G.lo l) (some (r0.slot 0).1) := by
      intro a b ha hb
      exact lt_of_le_of_lt ((hT kv0 hkv0).1 a ha) ((hT kv0 hkv0).2 b hb)
    have hhi : loLtHi (some (r0.slot 0).1) (G.hi l) := by
      intro a b ha hb
      simp only [Option.some.injEq] at ha
      rw [← ha]
      exact (k4 (r0.slot 0) (hmemD _ (by simp))).2 b hb
    by_cases hk2 : key < (r0.slot 0).1
    · -- the pair goes into the old leaf
      have hkc : comparator key (BPlusTreeLeafPage.KeyAt r0 0) < 0 :=
        (comparator_lt_zero _ _).2 hk2
      obtain ⟨q1, i1, i2, i3, i4, i5, _⟩ :=
        BPlusTreeLeafPage.Insert_sorted q0 key value
          (by rw [q0sz, h6]; exact lt_of_lt_of_le hb.2.2.2.2.2.2.2.1 hlen)
          (by rw [q0live]; exact sT)
          (by
            rw [q0live]
            intro h
            apply hkp
            rw [List.mem_map] at h ⊢
            obtain ⟨kv, m1, m2⟩ := h
            exact ⟨kv, hmemT kv m1, m2⟩)
      obtain ⟨j1, j2, j3, j4, j5, j6⟩ := i2
      refine InsertIntoLeaf_finish inv hp hty
        (((ts.WritePage l q1).WritePage t.next_page_id
          (BPlusTreeLeafPage.SetNextPageId r0 q1.next_page_id_)).WritePage l
          (BPlusTreeLeafPage.SetNextPageId q1 r0.page_id_))
        (BPlusTreeLeafPage.SetNextPageId q1 r0.page_id_)
        (BPlusTreeLeafPage.SetNextPageId r0 q1.next_page_id_)
        (r0.slot 0).1 fuel hf ?_ s_root s_next s_lm s_im ?_ ?_ ?_
        (j1.trans (h1.trans hty)) (j2.trans h2) (j3.trans h3) (j4.trans h4) r_id
        (j6.trans h6) ?_ r_ty r_max r_par r_id (j5.trans h5) r_len ?_ i5 ?_ ?_ ?_ hlo hhi ?_
      · unfold InsertIntoLeaf
        simp only [e1, hfetch, hlook, Option.bind_eq_bind, Option.some_bind,
          Option.isSome_none, if_neg hroom, es, el, eN, Bool.false_eq_true, if_false,
          if_pos hkc, i1, Option.map_some', WritePage_pages, if_true, if_neg hlN,
          if_neg (Ne.symm hlN)]
        rfl
      · simp only [WritePage_pages, if_true]
      · simp only [WritePage_pages, if_neg (Ne.symm hlN), if_true]
      · intro y y1 y2
        simp only [WritePage_pages, if_neg y1, if_neg y2]
        exact s_other y y1 y2
      · show p.max_size_ / 2 ≤ q1.size_ ∧ q1.size_ ≤ p.max_size_
        rw [i3, q0sz, ← hfull]
        exact ⟨hb.1, hb.2.2.1⟩
      · show t.leaf_max_size / 2 ≤ r0.size_ ∧ r0.size_ ≤ t.leaf_max_size
        rw [r_sz, ← k2, ← hfull]
        exact ⟨le_refl _, hb.2.2.2.2.1⟩
      · show (r0.live.map Prod.fst).Pairwise (· < ·)
        rw [hrest]
        exact sD
      · intro kv hkv
        rw [SetNextPageId_live] at hkv
        rcases List.mem_cons.1 (i4.mem_iff.1 hkv) with e | e
        · rw [e]
          exact ⟨hrange.1, fun b hb => by
            simp only [Option.some.injEq] at hb
            rw [← hb]
            exact hk2⟩
        · rw [q0live] at e
          exact hT kv e
      · intro kv hkv
        rw [SetNextPageId_live, hrest] at hkv
        exact hD kv hkv
      · rw [SetNextPageId_live, SetNextPageId_live, r_live]
        refine (List.Perm.append_right _ i4).trans ?_
        rw [q0live, List.cons_append, List.take_append_drop]
    · -- the pair goes into the new leaf
      have hkc : ¬ comparator key (BPlusTreeLeafPage.KeyAt r0 0) < 0 := by
        rw [comparator_lt_zero]
        exact hk2
      have hsepkey : (r0.slot 0).1 < key := by
        have hne : (r0.slot 0).1 ≠ key := by
          intro e
          apply hkp
          rw [List.mem_map]
          exact ⟨r0.slot 0, hmemD _ (by simp), e⟩
        exact lt_of_le_of_ne (not_lt.1 hk2) hne
      obtain ⟨r1, i1, i2, i3, i4, i5, i6⟩ :=
        BPlusTreeLeafPage.Insert_sorted r0 key value
          (by rw [r_sz, r_len, ← k2, ← hfull]; exact hb.2.2.2.2.2.2.2.2.1)
          (by rw [hrest]; exact sD)
          (by
            rw [hrest]
            intro h
            apply hkp
            rw [List.mem_map] at h ⊢
            obtain ⟨kv, m1, m2⟩ := h
            exact ⟨kv, hmemD kv m1, m2⟩)
      obtain ⟨j1, j2, j3, j4, j5, j6⟩ := i2
      obtain ⟨rest1, hrest1⟩ := i6 (r0.slot 0) rest hrest hsepkey
      have hslot : r1.slot 0 = r0.slot 0 := by
        have hr1 : 1 ≤ r1.size_ := by rw [i3]; exact Nat.le_add_left _ _
        have hr1len : r1.size_ ≤ r1.array.length := by
          rw [i3, j6, r_sz, r_len, ← k2, ← hfull]; exact hb.2.2.2.2.2.2.2.2.2
        obtain ⟨rest2, h7⟩ := live_head hr1 hr1len
        rw [hrest1] at h7
        simp only [List.cons.injEq] at h7
        exact h7.1.symm
      refine InsertIntoLeaf_finish inv hp hty
        (((ts.WritePage t.next_page_id r1).WritePage t.next_page_id
          (BPlusTreeLeafPage.SetNextPageId r1 q0.next_page_id_)).WritePage l
          (BPlusTreeLeafPage.SetNextPageId q0 r1.page_id_))
        (BPlusTreeLeafPage.SetNextPageId q0 r1.page_id_)
        (BPlusTreeLeafPage.SetNextPageId r1 q0.next_page_id_)
        (r0.slot 0).1 fuel hf ?_ s_root s_next s_lm s_im ?_ ?_ ?_
        (h1.trans hty) h2 h3 h4 (j4.trans r_id) h6 ?_ (j1.trans r_ty) (j2.trans r_max)
        (j3.trans r_par) (j4.trans r_id) h5 (j6.trans r_len) ?_ ?_ i5 ?_ ?_ hlo hhi ?_
      · unfold InsertIntoLeaf
        simp only [e1, hfetch, hlook, Option.bind_eq_bind, Option.some_bind,
          Option.isSome_none, if_neg hroom, es, el, eN, Bool.false_eq_true, if_false,
          if_neg hkc, i1, Option.map_some', WritePage_pages, if_true, if_neg hlN,
          if_neg (Ne.symm hlN)]
        simp only [BPlusTreeLeafPage.KeyAt, SetNextPageId_slot, hslot]
      · simp only [WritePage_pages, if_true]
      · simp only [WritePage_pages, if_neg (Ne.symm hlN), if_true]
      · intro y y1 y2
        simp only [WritePage_pages, if_neg y1, if_neg y2]
        exact s_other y y1 y2
      · show p.max_size_ / 2 ≤ q0.size_ ∧ q0.size_ ≤ p.max_size_
        rw [q0sz, ← hfull]
        exact ⟨hb.2.2.2.2.2.1, Nat.sub_le _ _⟩
      · show t.leaf_max_size / 2 ≤ r1.size_ ∧ r1.size_ ≤ t.leaf_max_size
        rw [i3, r_sz, ← k2, ← hfull]
        exact ⟨Nat.le_add_right _ _, hb.2.2.2.2.2.2.2.2.2⟩
      · show (q0.live.map Prod.fst).Pairwise (· < ·)
        rw [q0live]
        exact sT
      · intro kv hkv
        rw [SetNextPageId_live, q0live] at hkv
        exact hT kv hkv
      · intro kv hkv
        rw [SetNextPageId_live] at hkv
        rcases List.mem_cons.1 (i4.mem_iff.1 hkv) with e | e
        · rw [e]
          exact ⟨fun a ha => by
            simp only [Option.some.injEq] at ha
            rw [← ha]
            exact le_of_lt hsepkey, hrange.2⟩
        · rw [hrest] at e
          exact hD kv e
      · rw [SetNextPageId_live, SetNextPageId_live, q0live]
        refine (List.Perm.append_left _ i4).trans ?_
        refine List.perm_middle.trans ?_
        rw [r_live, List.take_append_drop]

end BPlusTree

end cmudb

namespace cmudb

open BPlusTreePage IndexPageType

namespace BPlusTree

/-! ## `Insert`, `GetValue` and the iteration on a tree that satisfies the invariant -/

theorem Inv.not_empty {t : BPlusTree} {G : Ghost} (inv : Inv t G none) :
    t.root_page_id_ ≠ INVALID_PAGE_ID := by
  obtain ⟨r, hr⟩ := inv.root_page
  exact inv.pos hr

theorem contents_mem {t : BPlusTree} {ls : List Int} {kv : MappingType}
    (h : kv ∈ contents t ls) : ∃ l ∈ ls, ∃ p, t.pages l = some p ∧ kv ∈ p.live := by
  unfold contents at h
  rw [List.mem_flatMap] at h
  obtain ⟨l, hl, hkv⟩ := h
  cases e : t.pages l with
  | none => rw [e] at hkv; simp at hkv
  | some p =>
    rw [e] at hkv
    exact ⟨l, hl, p, e, hkv⟩

/-- The search for a stored key ends at the leaf that holds it. -/
theorem Inv.lookup {t : BPlusTree} {G : Ghost} (inv : Inv t G none) {key v : Int}
    (hkv : (key, v) ∈ contents t G.leaves) (fuel : Nat) (hf : G.lv t.root_page_id_ < fuel) :
    ∃ l p, FindLeafPage t key false fuel t.root_page_id_ = some l ∧
      t.FetchAs LEAF_PAGE l = some p ∧ BPlusTreeLeafPage.Lookup p key = some v := by
  obtain ⟨r, hr⟩ := inv.root_page
  have hrh : G.hi t.root_page_id_ = none := inv.root_hi
  obtain ⟨l, p, e1, hp, hty, hrange, _⟩ :=
    FindLeafPage_ghost inv key false (G.lv t.root_page_id_) t.root_page_id_ r fuel rfl hr
      (by
        intro _
        rw [inv.root_lo, hrh]
        exact ⟨fun a h => (by cases h), fun a h => (by cases h)⟩) hf
  obtain ⟨l', hl', p', hp', hmem⟩ := contents_mem hkv
  have ok := inv.page l p hp
  have ok' := inv.page l' p' hp'
  obtain ⟨_, _, _, _, k5⟩ := ok.leaf hty
  obtain ⟨_, hty'⟩ : ∃ q, t.pages l' = some q ∧ q.page_type_ = LEAF_PAGE := by
    obtain ⟨q, h1, h2⟩ := chainOk_leaf _ _ inv.chain l' hl'
    exact ⟨q, h1, h2⟩
  rename_i q
  have hq : q = p' := by
    rw [hp'] at hty'
    simp only [Option.some.injEq] at hty'
    exact hty'.1.symm
  have hty'' : p'.page_type_ = LEAF_PAGE := by rw [← hq]; exact hty'.2
  obtain ⟨_, _, s3, s4, _⟩ := ok'.leaf hty''
  have heq : l = l' :=
    chainOk_unique (fun x px hx => (inv.page x px hx).range) key _ _ inv.chain l k5 l' hl'
      (hrange rfl) (s4 (key, v) hmem)
  subst heq
  rw [hp] at hp'
  simp only [Option.some.injEq] at hp'
  subst hp'
  refine ⟨l, p, e1, by simp [FetchAs, hp, hty], ?_⟩
  exact BPlusTreeLeafPage.Lookup_complete p (key, v) ok.size_le_len s3 hmem

/-- `Insert` of a new key into a non-empty tree. -/
theorem Insert_Inv {t : BPlusTree} {G : Ghost} (inv : Inv t G none) (key value : Int)
    (hk : key ∉ (contents t G.leaves).map Prod.fst) (fuel : Nat)
    (hf : G.lv t.root_page_id_ < fuel) :
    ∃ t1 G1, t.Insert fuel key value = some (true, t1) ∧ Inv t1 G1 none ∧
      (contents t1 G1.leaves).Perm ((key, value) :: contents t G.leaves) ∧
      G1.lv t1.root_page_id_ ≤ G.lv t.root_page_id_ + 1 ∧
      G1.leaves.length ≤ G.leaves.length + 1 := by
  have hne : t.IsEmpty = false := by simp [IsEmpty, inv.not_empty]
  unfold Insert
  rw [hne]
  exact InsertIntoLeaf_Inv inv key value hk fuel hf

/-- `Insert` of a stored key leaves the tree as it is. -/
theorem Insert_dup {t : BPlusTree} {G : Ghost} (inv : Inv t G none) (key value : Int)
    (hk : key ∈ (contents t G.leaves).map Prod.fst) (fuel : Nat)
    (hf : G.lv t.root_page_id_ < fuel) : t.Insert fuel key value = some (false, t) := by
  have hne : t.IsEmpty = false := by simp [IsEmpty, inv.not_empty]
  rw [List.mem_map] at hk
  obtain ⟨kv, hkv, rfl⟩ := hk
  have hkv' : (kv.1, kv.2) ∈ contents t G.leaves := hkv
  obtain ⟨l, p, e1, e2, e3⟩ := inv.lookup hkv' fuel hf
  unfold Insert
  rw [hne]
  unfold InsertIntoLeaf
  simp [e1, e2, e3]

/-- `GetValue` on a non-empty tree appends the value stored for the key, or nothing. -/
theorem GetValue_Inv {t : BPlusTree} {G : Ghost} (inv : Inv t G none) (key : Int) (fuel : Nat)
    (hf : G.lv t.root_page_id_ < fuel) :
    (∀ v, (key, v) ∈ contents t G.leaves → GetValue fuel t key = some (true, [v])) ∧
      (key ∉ (contents t G.leaves).map Prod.fst → GetValue fuel t key = some (true, [])) := by
  have hne := inv.not_empty
  constructor
  · intro v hkv
    obtain ⟨l, p, e1, e2, e3⟩ := inv.lookup hkv fuel hf
    unfold GetValue
    simp [hne, e1, e2, e3]
  · intro hk
    obtain ⟨l, p, e1, hp, hty, _, _, hlook⟩ := inv.find_leaf key hk fuel hf
    unfold GetValue
    simp [hne, e1, FetchAs, hp, hty, hlook]

/-- The iteration from `Begin()` reads the pairs of the leaves in chain order; their
keys are strictly increasing. -/
theorem iterate_Inv {t : BPlusTree} {G : Ghost} (inv : Inv t G none) (fuel : Nat)
    (hf : G.lv t.root_page_id_ < fuel) (hl : G.leaves.length ≤ fuel) :
    iterate fuel t = some (contents t G.leaves) ∧
      ((contents t G.leaves).map Prod.fst).Pairwise (· < ·) := by
  obtain ⟨r, hr⟩ := inv.root_page
  obtain ⟨l, p, e1, hp, hty, _, hlo⟩ :=
    FindLeafPage_ghost inv 0 true (G.lv t.root_page_id_) t.root_page_id_ r fuel rfl hr
      (by intro h; cases h) hf
  have ok := inv.page l p hp
  obtain ⟨_, _, _, _, k5⟩ := ok.leaf hty
  obtain ⟨l0, rest, hls, hw⟩ :=
    walkFrom_chain (fun x px hx => (inv.alloc x px hx).1) _ _ fuel inv.chain hl
  have hch := inv.chain
  rw [hls] at hch k5
  have hl0 : l = l0 :=
    chainOk_first (fun x px hx => (inv.page x px hx).range) hch k5
      (by rw [hlo rfl]; exact inv.root_lo)
  constructor
  · unfold iterate Begin
    simp only [e1, hl0]
    exact hw
  · refine (chainOk_sorted (fun x px hx => (inv.page x px hx).range) ?_ _ _ inv.chain).1
    intro x px hx hxty
    obtain ⟨_, _, s3, s4, _⟩ := (inv.page x px hx).leaf hxty
    exact ⟨s3, s4⟩

end BPlusTree

end cmudb

namespace cmudb

open BPlusTreePage IndexPageType

namespace BPlusTree

/-! ## Sequences of `Insert` calls -/

theorem insertAll_cons {fuel : Nat} {t t1 t2 : BPlusTree} {kv : MappingType}
    {rest : List MappingType} {b : Bool} {bs : List Bool}
    (h1 : t.Insert fuel kv.1 kv.2 = some (b, t1)) (h2 : insertAll fuel t1 rest = some (bs, t2)) :
    insertAll fuel t (kv :: rest) = some (b :: bs, t2) := by
  simp only [insertAll, h1, h2]

/-- A sequence of `Insert` calls on a non-empty tree keeps the invariant; when the keys
are new and pairwise distinct, every call returns true and the leaves gain exactly the
inserted pairs. -/
theorem insertAll_Inv : ∀ (kvs : List MappingType) (t : BPlusTree) (G : Ghost) (fuel : Nat),
    Inv t G none → G.lv t.root_page_id_ + kvs.length ≤ fuel →
    ∃ bs t1 G1, insertAll fuel t kvs = some (bs, t1) ∧ Inv t1 G1 none ∧
      G1.lv t1.root_page_id_ ≤ G.lv t.root_page_id_ + kvs.length ∧
      G1.leaves.length ≤ G.leaves.length + kvs.length ∧
      ((kvs.map Prod.fst).Nodup → (∀ kv ∈ kvs, kv.1 ∉ (contents t G.leaves).map Prod.fst) →
        bs = List.replicate kvs.length true ∧
          (contents t1 G1.leaves).Perm (kvs ++ contents t G.leaves)) := by
  intro kvs
  induction kvs with
  | nil =>
    intro t G fuel inv _
    exact ⟨[], t, G, rfl, inv, Nat.le_refl _, Nat.le_refl _, fun _ _ => ⟨rfl, List.Perm.refl _⟩⟩
  | cons kv rest ih =>
    intro t G fuel inv hf
    simp only [List.length_cons] at hf ⊢
    by_cases hk : kv.1 ∈ (contents t G.leaves).map Prod.fst
    · have h1 := Insert_dup inv kv.1 kv.2 hk fuel (by omega)
      obtain ⟨bs, t1, G1, e1, e2, e3, e4, _⟩ := ih t G fuel inv (by omega)
      refine ⟨false :: bs, t1, G1, insertAll_cons h1 e1, e2, by omega, by omega, ?_⟩
      intro _ hfresh
      exact absurd hk (hfresh kv (by simp))
    · obtain ⟨t', G', h1, inv', hperm, hlv, hlen⟩ := Insert_Inv inv kv.1 kv.2 hk fuel (by omega)
      obtain ⟨bs, t1, G1, e1, e2, e3, e4, e5⟩ := ih t' G' fuel inv' (by omega)
      refine ⟨true :: bs, t1, G1, insertAll_cons h1 e1, e2, by omega, by omega, ?_⟩
      intro hnd hfresh
      rw [List.map_cons, List.nodup_cons] at hnd
      obtain ⟨g1, g2⟩ := e5 hnd.2 (by
        intro x hx hmem
        rw [List.mem_map] at hmem
        obtain ⟨y, hy, hxy⟩ := hmem
        rcases List.mem_cons.1 (hperm.mem_iff.1 hy) with e | e
        · apply hnd.1
          rw [List.mem_map]
          exact ⟨x, hx, by rw [← hxy, e]⟩
        · apply hfresh x (List.mem_cons_of_mem _ hx)
          rw [List.mem_map]
          exact ⟨y, e, hxy⟩)
      refine ⟨by rw [g1]; rfl, ?_⟩
      refine g2.trans ((List.Perm.append_left _ hperm).trans ?_)
      exact List.perm_middle

/-- A non-empty sequence of `Insert` calls on the empty tree. -/
theorem insertAll_empty (leaf_max_size internal_max_size : Nat) (h1 : 2 ≤ leaf_max_size)
    (h2 : 2 ≤ internal_max_size) (kv : MappingType) (rest : List MappingType) (fuel : Nat)
    (hf : rest.length + 1 ≤ fuel) :
    ∃ bs t1 G1, insertAll fuel (empty leaf_max_size internal_max_size) (kv :: rest) =
        some (bs, t1) ∧ Inv t1 G1 none ∧
      G1.lv t1.root_page_id_ < fuel ∧ G1.leaves.length ≤ fuel ∧
      (((kv :: rest).map Prod.fst).Nodup →
        bs = List.replicate (rest.length + 1) true ∧
          (contents t1 G1.leaves).Perm (kv :: rest)) := by
  obtain ⟨t0, G0, e0, inv0, hc0, hlv0, hlen0⟩ :=
    Insert_empty_Inv leaf_max_size internal_max_size fuel kv.1 kv.2 h1 h2
  obtain ⟨bs, t1, G1, e1, e2, e3, e4, e5⟩ := insertAll_Inv rest t0 G0 fuel inv0 (by omega)
  refine ⟨true :: bs, t1, G1, insertAll_cons e0 e1, e2, by omega, by omega, ?_⟩
  intro hnd
  rw [List.map_cons, List.nodup_cons] at hnd
  obtain ⟨g1, g2⟩ := e5 hnd.2 (by
    intro x hx hmem
    rw [hc0] at hmem
    simp only [List.map_cons, List.map_nil, List.mem_singleton] at hmem
    apply hnd.1
    rw [List.mem_map]
    exact ⟨x, hx, hmem⟩)
  refine ⟨by rw [g1]; rfl, ?_⟩
  rw [hc0] at g2
  refine g2.trans ?_
  have : (rest ++ [(kv.1, kv.2)]).Perm ((kv.1, kv.2) :: (rest ++ [])) := List.perm_middle
  rw [List.append_nil] at this
  exact this

/-- On the empty tree `Begin()` fetches the page `INVALID_PAGE_ID`, which is no page of
the pool: the iteration has no result, whatever the fuel. -/
theorem iterate_empty (leaf_max_size internal_max_size fuel : Nat) :
    iterate fuel (empty leaf_max_size internal_max_size) = none := by
  cases fuel with
  | zero => rfl
  | succ n => rfl

/-- C2: for leaf and internal capacities of at least 3 and every non-empty list of pairs
with pairwise distinct keys, inserting the pairs one at a time into the empty tree
makes every `Insert` return true, and afterwards the walk over the leaves, from the
leftmost leaf along `next_page_id_`, returns exactly the inserted pairs in strictly
ascending key order.  (With no pair inserted the tree has no leaf to start from, see
`iterate_empty`.) -/
theorem C2_insert_then_iterate (leaf_max_size internal_max_size fuel : Nat)
    (kvs : List MappingType) (h1 : 3 ≤ leaf_max_size) (h2 : 3 ≤ internal_max_size)
    (hne : kvs ≠ []) (hnd : (kvs.map Prod.fst).Nodup) (hf : kvs.length ≤ fuel) :
    ∃ t, insertAll fuel (empty leaf_max_size internal_max_size) kvs =
        some (List.replicate kvs.length true, t) ∧
      ∃ w, iterate fuel t = some w ∧ w.Perm kvs ∧ (w.map Prod.fst).Pairwise (· < ·) := by
  cases kvs with
  | nil => exact absurd rfl hne
  | cons kv rest =>
    obtain ⟨bs, t1, G1, e1, inv, hlv, hlen, e5⟩ :=
      insertAll_empty leaf_max_size internal_max_size (by omega) (by omega) kv rest fuel hf
    obtain ⟨g1, g2⟩ := e5 hnd
    obtain ⟨i1, i2⟩ := iterate_Inv inv fuel hlv hlen
    refine ⟨t1, ?_, contents t1 G1.leaves, i1, g2, i2⟩
    rw [e1, g1]
    rfl

/-- C3: on the tree built from the empty tree by inserting pairs with pairwise distinct
keys, `GetValue(k)` appends exactly the value inserted for `k` when `k` was inserted and
appends nothing otherwise; on the empty tree `GetValue` appends nothing and returns
false.  The capacities are at least 2. -/
theorem C3_GetValue_after_inserts (leaf_max_size internal_max_size fuel : Nat)
    (kvs : List MappingType) (h1 : 2 ≤ leaf_max_size) (h2 : 2 ≤ internal_max_size)
    (hnd : (kvs.map Prod.fst).Nodup) (hf : kvs.length ≤ fuel) :
    ∃ bs t, insertAll fuel (empty leaf_max_size internal_max_size) kvs = some (bs, t) ∧
      (∀ k v, (k, v) ∈ kvs → ∃ b, GetValue fuel t k = some (b, [v])) ∧
      (∀ k, k ∉ kvs.map Prod.fst → ∃ b, GetValue fuel t k = some (b, [])) ∧
      ∀ k, GetValue fuel (empty leaf_max_size internal_max_size) k = some (false, []) := by
  have hempty : ∀ k, GetValue fuel (empty leaf_max_size internal_max_size) k =
      some (false, []) := fun k => rfl
  cases kvs with
  | nil =>
    exact ⟨[], empty leaf_max_size internal_max_size, rfl, fun k v h => (by cases h),
      fun k _ => ⟨false, rfl⟩, hempty⟩
  | cons kv rest =>
    obtain ⟨bs, t1, G1, e1, inv, hlv, hlen, e5⟩ :=
      insertAll_empty leaf_max_size internal_max_size h1 h2 kv rest fuel hf
    obtain ⟨g1, g2⟩ := e5 hnd
    refine ⟨bs, t1, e1, ?_, ?_, hempty⟩
    · intro k v hkv
      exact ⟨true, (GetValue_Inv inv k fuel hlv).1 v (g2.mem_iff.2 hkv)⟩
    · intro k hk
      refine ⟨true, (GetValue_Inv inv k fuel hlv).2 ?_⟩
      intro hmem
      apply hk
      rw [List.mem_map] at hmem ⊢
      obtain ⟨y, hy, hxy⟩ := hmem
      exact ⟨y, g2.mem_iff.1 hy, hxy⟩

/-- Witness for C2: four pairs inserted in the order 2, 1, 3, 4 with capacities 3. -/
theorem C2_insert_then_iterate_witness :
    3 ≤ 3 ∧ ([(2, 20), (1, 10), (3, 30), (4, 40)] : List MappingType) ≠ [] ∧
    (([(2, 20), (1, 10), (3, 30), (4, 40)] : List MappingType).map Prod.fst).Nodup ∧
    ∃ t, insertAll 4 (empty 3 3) [(2, 20), (1, 10), (3, 30), (4, 40)] =
        some (List.replicate ([(2, 20), (1, 10), (3, 30), (4, 40)] : List MappingType).length
          true, t) ∧
      ∃ w, iterate 4 t = some w ∧ w.Perm [(2, 20), (1, 10), (3, 30), (4, 40)] ∧
        (w.map Prod.fst).Pairwise (· < ·) :=
  ⟨by decide, by decide, by decide,
    C2_insert_then_iterate 3 3 4 [(2, 20), (1, 10), (3, 30), (4, 40)] (by decide) (by decide)
      (by decide) (by decide) (by decide)⟩

/-- Witness for C3: four pairs inserted in the order 2, 1, 3, 4 with capacities 3. -/
theorem C3_GetValue_after_inserts_witness :
    2 ≤ 3 ∧ (([(2, 20), (1, 10), (3, 30), (4, 40)] : List MappingType).map Prod.fst).Nodup ∧
    ∃ bs t, insertAll 4 (empty 3 3) [(2, 20), (1, 10), (3, 30), (4, 40)] = some (bs, t) ∧
      (∀ k v, (k, v) ∈ ([(2, 20), (1, 10), (3, 30), (4, 40)] : List MappingType) →
        ∃ b, GetValue 4 t k = some (b, [v])) ∧
      (∀ k, k ∉ ([(2, 20), (1, 10), (3, 30), (4, 40)] : List MappingType).map Prod.fst →
        ∃ b, GetValue 4 t k = some (b, [])) ∧
      ∀ k, GetValue 4 (empty 3 3) k = some (false, []) :=
  ⟨by decide, by decide,
    C3_GetValue_after_inserts 3 3 4 [(2, 20), (1, 10), (3, 30), (4, 40)] (by decide) (by decide)
      (by decide) (by decide)⟩

end BPlusTree

end cmudb

namespace cmudb

open BPlusTreePage IndexPageType

/-! ## Page-level results for the deletion path -/

/-- In a list with strictly increasing keys, erasing the slot that holds `key` is the
same as dropping every pair with this key. -/
theorem eraseIdx_eq_filter_key (key : Int) :
    ∀ (l : List MappingType) (i : Nat), (l.map Prod.fst).Pairwise (· < ·) →
      (l[i]?).map Prod.fst = some key →
      l.eraseIdx i = l.filter (fun kv => decide (kv.1 ≠ key)) := by
  intro l
  induction l with
  | nil => intro i _ h; simp at h
  | cons x xs ih =>
    intro i hs hk
    simp only [List.map_cons, List.pairwise_cons] at hs
    cases i with
    | zero =>
      simp only [List.getElem?_cons_zero, Option.map_some', Option.some.injEq] at hk
      have hx : ∀ y ∈ xs, y.1 ≠ key := by
        intro y hy
        have := hs.1 y.1 (List.mem_map_of_mem _ hy)
        omega
      simp only [List.eraseIdx_cons_zero]
      rw [List.filter_cons_of_neg (by simp [hk])]
      exact (List.filter_eq_self.2 (fun y hy => by simpa using hx y hy)).symm
    | succ j =>
      simp only [List.getElem?_cons_succ] at hk
      have hxk : x.1 ≠ key := by
        cases hj : xs[j]? with
        | none => simp [hj] at hk
        | some y =>
          simp only [hj, Option.map_some', Option.some.injEq] at hk
          have := hs.1 y.1 (List.mem_map_of_mem _ (List.mem_iff_getElem?.2 ⟨j, hj⟩))
          omega
      simp only [List.eraseIdx_cons_succ]
      rw [List.filter_cons_of_pos (by simpa using hxk), ih j hs.2 hk]

namespace BPlusTreeLeafPage

/-- `RemoveAndDeleteRecord` of a stored key on a page with strictly increasing keys:
the pair with this key leaves the live slots, the other pairs keep their order. -/
theorem RemoveAndDeleteRecord_spec (p : BPlusTreePage) (key : Int)
    (hlen : p.size_ ≤ p.array.length) (hs : (p.live.map Prod.fst).Pairwise (· < ·))
    (hk : key ∈ p.live.map Prod.fst) :
    ∃ q, RemoveAndDeleteRecord p key = some q ∧ SameHeader p q ∧ q.size_ + 1 = p.size_ ∧
      q.live = p.live.filter (fun kv => decide (kv.1 ≠ key)) := by
  obtain ⟨kv, hkv, hkey⟩ := List.mem_map.1 hk
  obtain ⟨i, hi, hsl⟩ := (mem_live_iff p hlen kv).1 hkv
  have hfind := find_complete p key hlen hs i hi (by rw [hsl]; exact hkey)
  have hmm : p.memmove i (i + 1) (p.size_ - i - 1) =
      some { p with array := p.array.take i ++ (p.array.drop (i + 1)).take (p.size_ - i - 1) ++
        p.array.drop (i + (p.size_ - i - 1)) } := by
    unfold memmove
    rw [if_pos ⟨by omega, by omega⟩]
  refine ⟨{ p with array := p.array.take i ++ (p.array.drop (i + 1)).take (p.size_ - i - 1) ++
        p.array.drop (i + (p.size_ - i - 1)), size_ := p.size_ - 1 }, ?_, ?_, ?_, ?_⟩
  · unfold RemoveAndDeleteRecord
    simp only [hfind, hmm]
    unfold DecreaseSize
    rw [if_pos (by simp only; omega)]
  · refine ⟨rfl, rfl, rfl, rfl, rfl, ?_⟩
    simp only [List.length_append, List.length_take, List.length_drop]
    omega
  · simp only
    omega
  · have hget : (p.live[i]?).map Prod.fst = some key := by
      have hl := live_length p hlen
      rw [List.getElem?_eq_getElem (by omega), live_getElem, hsl]
      simp [hkey]
    rw [← eraseIdx_eq_filter_key key p.live i hs hget]
    simp only [live]
    have hl1 : (p.array.take i ++ (p.array.drop (i + 1)).take (p.size_ - i - 1)).length =
        p.size_ - 1 := by
      simp only [List.length_append, List.length_take, List.length_drop]
      omega
    rw [List.eraseIdx_eq_take_drop_succ, List.take_take, List.drop_take,
      List.take_append_of_le_length (le_of_eq hl1.symm), List.take_of_length_le (le_of_eq hl1)]
    congr 1
    congr 1
    omega

end BPlusTreeLeafPage

namespace BPlusTreeInternalPage

/-- `ValueIndex` returns the first live slot whose value is `value`. -/
theorem ValueIndexLoop_spec (p : BPlusTreePage) (value : Int) (i : Nat)
    (hv : (p.slot i).2 = value) :
    ∀ (n idx : Nat), idx ≤ i → i < idx + n → (∀ j, idx ≤ j → j < i → (p.slot j).2 ≠ value) →
      ValueIndexLoop p value n idx = i := by
  intro n
  induction n with
  | zero => intro idx h1 h2 _; omega
  | succ n ih =>
    intro idx h1 h2 h3
    unfold ValueIndexLoop
    by_cases he : idx = i
    · subst he
      rw [if_pos hv]
    · rw [if_neg (h3 idx (le_refl _) (by omega))]
      exact ih (idx + 1) (by omega) (by omega) (fun j hj1 hj2 => h3 j (by omega) hj2)

theorem ValueIndex_eq (p : BPlusTreePage) (value : Int) (i : Nat) (hi : i < p.size_)
    (hv : (p.slot i).2 = value) (hne : ∀ j, j < i → (p.slot j).2 ≠ value) :
    ValueIndex p value = i :=
  ValueIndexLoop_spec p value i hv p.size_ 0 (Nat.zero_le _) (by omega) (fun j _ hj => hne j hj)

end BPlusTreeInternalPage

end cmudb

namespace cmudb

open BPlusTreePage IndexPageType

namespace BPlusTree

/-! ## Empty-tree transitions -/

theorem FetchAs_eq {t : BPlusTree} {N : IndexPageType} {x : Int} {p : BPlusTreePage}
    (h : t.pages x = some p) (hN : p.page_type_ = N) : t.FetchAs N x = some p := by
  unfold FetchAs
  rw [h]
  simp [hN]

/-- `StartNewTree` allocates the next page id and makes it a root leaf that holds
exactly the pair. -/
theorem StartNewTree_spec (t : BPlusTree) (key value : Int) (h : 1 ≤ t.leaf_max_size) :
    ∃ t1 q, t.StartNewTree key value = some t1 ∧ t1.root_page_id_ = t.next_page_id ∧
      t1.next_page_id = t.next_page_id + 1 ∧ t1.leaf_max_size = t.leaf_max_size ∧
      t1.internal_max_size = t.internal_max_size ∧
      t1.pages t.next_page_id = some q ∧ (∀ y, y ≠ t.next_page_id → t1.pages y = t.pages y) ∧
      q.page_type_ = LEAF_PAGE ∧ q.size_ = 1 ∧ q.max_size_ = t.leaf_max_size ∧
      q.parent_page_id_ = INVALID_PAGE_ID ∧ q.page_id_ = t.next_page_id ∧
      q.next_page_id_ = INVALID_PAGE_ID ∧ q.array.length = t.leaf_max_size ∧
      q.live = [(key, value)] := by
  have hlive0 : (BPlusTreeLeafPage.Init t.leaf_max_size t.next_page_id INVALID_PAGE_ID).live =
      [] := by
    simp [live, BPlusTreeLeafPage.Init]
  obtain ⟨j, q, e1, _, ⟨a1, a2, a3, a4, a5, a6⟩, e3, e4, _⟩ :=
    BPlusTreeLeafPage.Insert_spec
      (BPlusTreeLeafPage.Init t.leaf_max_size t.next_page_id INVALID_PAGE_ID) key value
      (by simp [BPlusTreeLeafPage.Init]; omega)
  rw [hlive0] at e4
  simp only [List.take_nil, List.drop_nil, List.nil_append] at e4
  refine ⟨({ t with next_page_id := t.next_page_id + 1, root_page_id_ := t.next_page_id } :
      BPlusTree).WritePage t.next_page_id q, q, ?_, rfl, rfl, rfl, rfl, by simp, ?_, a1, ?_, a2,
    a3, a4, a5, ?_, e4⟩
  · unfold StartNewTree
    simp only [NewPage]
    rw [e1]
  · intro y hy
    simp [hy]
  · rw [e3]
    rfl
  · rw [a6]
    simp [BPlusTreeLeafPage.Init]

/-- `Insert` into an empty tree is `StartNewTree` and returns true. -/
theorem Insert_IsEmpty (t : BPlusTree) (fuel : Nat) (key value : Int)
    (hroot : t.root_page_id_ = INVALID_PAGE_ID) (h : 1 ≤ t.leaf_max_size) :
    ∃ t1 q, t.Insert fuel key value = some (true, t1) ∧ t1.root_page_id_ = t.next_page_id ∧
      t1.next_page_id = t.next_page_id + 1 ∧ t1.leaf_max_size = t.leaf_max_size ∧
      t1.internal_max_size = t.internal_max_size ∧
      t1.pages t.next_page_id = some q ∧ (∀ y, y ≠ t.next_page_id → t1.pages y = t.pages y) ∧
      q.page_type_ = LEAF_PAGE ∧ q.size_ = 1 ∧ q.max_size_ = t.leaf_max_size ∧
      q.parent_page_id_ = INVALID_PAGE_ID ∧ q.page_id_ = t.next_page_id ∧
      q.next_page_id_ = INVALID_PAGE_ID ∧ q.array.length = t.leaf_max_size ∧
      q.live = [(key, value)] := by
  obtain ⟨t1, q, e, rest⟩ := StartNewTree_spec t key value h
  refine ⟨t1, q, ?_, rest⟩
  unfold Insert
  simp only [IsEmpty, hroot, decide_True, if_true, e]

/-- `Remove` of the only key of a root leaf: the root page id becomes
`INVALID_PAGE_ID` and the page is deleted. -/
theorem Remove_last_pair (t : BPlusTree) (fuel : Nat) (key value : Int) (q : BPlusTreePage)
    (hroot : t.root_page_id_ ≠ INVALID_PAGE_ID) (hq : t.pages t.root_page_id_ = some q)
    (hty : q.page_type_ = LEAF_PAGE) (hpar : q.parent_page_id_ = INVALID_PAGE_ID)
    (hid : q.page_id_ = t.root_page_id_) (hlen : q.size_ ≤ q.array.length)
    (hlive : q.live = [(key, value)]) (hmax : 1 ≤ q.max_size_) :
    ∃ t2, t.Remove (fuel + 1) key = some t2 ∧ t2.root_page_id_ = INVALID_PAGE_ID ∧
      t2.pages t.root_page_id_ = none ∧ (∀ y, y ≠ t.root_page_id_ → t2.pages y = t.pages y) ∧
      t2.next_page_id = t.next_page_id ∧ t2.leaf_max_size = t.leaf_max_size ∧
      t2.internal_max_size = t.internal_max_size := by
  have hsorted : (q.live.map Prod.fst).Pairwise (· < ·) := by
    rw [hlive]
    simp
  have hmem : key ∈ q.live.map Prod.fst := by
    rw [hlive]
    simp
  have hfind : FindLeafPage t key false (fuel + 1) t.root_page_id_ = some t.root_page_id_ := by
    unfold FindLeafPage
    simp only [hq, IsLeafPage, hty, decide_True, Bool.not_true, Bool.false_eq_true, if_false]
  have hlook : BPlusTreeLeafPage.Lookup q key = some value :=
    BPlusTreeLeafPage.Lookup_complete q (key, value) hlen hsorted (by rw [hlive]; simp)
  obtain ⟨q1, r1, ⟨b1, b2, b3, b4, b5, b6⟩, r3, r4⟩ :=
    BPlusTreeLeafPage.RemoveAndDeleteRecord_spec q key hlen hsorted hmem
  have hsz : q.size_ = 1 := by
    have := live_length q hlen
    rw [hlive] at this
    simpa using this.symm
  have hq1sz : q1.size_ = 0 := by omega
  have hhalf : ¬ q1.size_ ≥ (q1.max_size_ + 1) / 2 := by
    rw [hq1sz, b2]
    have : 1 ≤ (q.max_size_ + 1) / 2 := by omega
    omega
  refine ⟨({ (t.WritePage t.root_page_id_ q1) with root_page_id_ := INVALID_PAGE_ID } :
      BPlusTree).DeletePage q1.page_id_, ?_, rfl, ?_, ?_, rfl, rfl, rfl⟩
  · unfold Remove
    have hne : t.IsEmpty = false := by
      simp [IsEmpty, hroot]
    simp only [hne, Bool.false_eq_true, if_false, hfind, FetchAs_eq hq hty, hlook,
      Option.isNone_some, r1]
    unfold CoalesceOrRedistribute
    have hf : (t.WritePage t.root_page_id_ q1).FetchAs LEAF_PAGE t.root_page_id_ = some q1 :=
      FetchAs_eq (by simp) (by rw [b1, hty])
    simp only [Option.bind_eq_bind, hf, Option.some_bind]
    rw [if_neg hhalf]
    have hr : q1.IsRootPage = true := by
      simp [IsRootPage, b3, hpar]
    have hl : q1.IsLeafPage = true := by
      simp [IsLeafPage, b1, hty]
    rw [if_pos hr, if_pos ⟨hl, hq1sz⟩]
  · simp [b4, hid]
  · intro y hy
    simp [b4, hid, hy]

/-- C19: from the empty tree (leaf capacity at least 1), `Insert(k, v)` followed by
`Remove(k)` leaves the tree empty: the root page id is `INVALID_PAGE_ID` and the former
root page is deleted, so that no page is left in the pool.  A following `Insert(k, v)`
returns true and creates a root leaf that holds exactly `(k, v)`, with parent and next
page id `INVALID_PAGE_ID`. -/
theorem C19_insert_remove_insert (leaf_max_size internal_max_size fuel : Nat) (k v : Int)
    (h1 : 1 ≤ leaf_max_size) (hf : 1 ≤ fuel) :
    ∃ t1 t2 t3 p, (empty leaf_max_size internal_max_size).Insert fuel k v = some (true, t1) ∧
      (t1.pages t1.root_page_id_).isSome = true ∧
      t1.Remove fuel k = some t2 ∧ t2.root_page_id_ = INVALID_PAGE_ID ∧ t2.IsEmpty = true ∧
      (∀ y, t2.pages y = none) ∧
      t2.Insert fuel k v = some (true, t3) ∧ t3.pages t3.root_page_id_ = some p ∧
      p.page_type_ = LEAF_PAGE ∧ p.live = [(k, v)] ∧
      p.parent_page_id_ = INVALID_PAGE_ID ∧ p.next_page_id_ = INVALID_PAGE_ID := by
  obtain ⟨n, rfl⟩ : ∃ n, fuel = n + 1 := ⟨fuel - 1, by omega⟩
  obtain ⟨t1, q, e1, a1, a2, a3, a4, a5, a6, a7, a8, a9, a10, a11, a12, a13, a14⟩ :=
    Insert_IsEmpty (empty leaf_max_size internal_max_size) (n + 1) k v rfl h1
  have hr1 : t1.root_page_id_ = 1 := a1
  obtain ⟨t2, e2, b1, b2, b3, b4, b5, b6⟩ :=
    Remove_last_pair t1 n k v q (by rw [hr1]; decide) (by rw [a1]; exact a5) a7 a10
      (by rw [a11, a1]) (by rw [a8, a13]; exact h1) a14 (by rw [a9]; exact h1)
  obtain ⟨t3, p, e3, c1, c2, c3, c4, c5, c6, c7, c8, c9, c10, c11, c12, c13, c14⟩ :=
    Insert_IsEmpty t2 (n + 1) k v b1 (by rw [b5, a3]; exact h1)
  refine ⟨t1, t2, t3, p, e1, ?_, e2, b1, ?_, ?_, e3, ?_, c7, c14, c10, c12⟩
  · rw [a1, a5]
    rfl
  · simp [IsEmpty, b1]
  · intro y
    by_cases hy : y = t1.root_page_id_
    · rw [hy, b2]
    · rw [b3 y hy, a6 y (by rw [← a1]; exact hy)]
      rfl
  · rw [c1]
    exact c5

theorem C19_insert_remove_insert_witness :
    1 ≤ 4 ∧ 1 ≤ 1 ∧
      ∃ t1 t2 t3 p, (empty 4 4).Insert 1 7 70 = some (true, t1) ∧
        (t1.pages t1.root_page_id_).isSome = true ∧
        t1.Remove 1 7 = some t2 ∧ t2.root_page_id_ = INVALID_PAGE_ID ∧ t2.IsEmpty = true ∧
        (∀ y, t2.pages y = none) ∧
        t2.Insert 1 7 70 = some (true, t3) ∧ t3.pages t3.root_page_id_ = some p ∧
        p.page_type_ = LEAF_PAGE ∧ p.live = [(7, 70)] ∧
        p.parent_page_id_ = INVALID_PAGE_ID ∧ p.next_page_id_ = INVALID_PAGE_ID :=
  ⟨by decide, by decide, C19_insert_remove_insert 4 4 1 7 70 (by decide) (by decide)⟩

end BPlusTree

end cmudb

namespace cmudb

open BPlusTreePage IndexPageType

namespace BPlusTree

/-! ## Split of a full root leaf -/

/-- `InsertIntoParent` on a root page: a new internal root with the two children is
created and both children name it as their parent. -/
theorem InsertIntoParent_newRoot {t : BPlusTree} {old new key : Int} {op np : BPlusTreePage}
    (fuel : Nat) (hop : t.pages old = some op) (hnp : t.pages new = some np)
    (hroot : op.parent_page_id_ = INVALID_PAGE_ID) (hoid : op.page_id_ = old)
    (hnid : np.page_id_ = new) (him : 2 ≤ t.internal_max_size) (hne : old ≠ new)
    (holdR : old ≠ t.next_page_id) (hnewR : new ≠ t.next_page_id) :
    ∃ t1 R, InsertIntoParent (fuel + 1) t old key new = some t1 ∧
      t1.root_page_id_ = t.next_page_id ∧ t1.next_page_id = t.next_page_id + 1 ∧
      t1.pages t.next_page_id = some R ∧ R.page_type_ = INTERNAL_PAGE ∧ R.size_ = 2 ∧
      R.parent_page_id_ = INVALID_PAGE_ID ∧ R.page_id_ = t.next_page_id ∧
      R.live = [(0, old), (key, new)] ∧
      t1.pages old = some (op.SetParentPageId t.next_page_id) ∧
      t1.pages new = some (np.SetParentPageId t.next_page_id) ∧
      (∀ y, y ≠ old → y ≠ new → y ≠ t.next_page_id → t1.pages y = t.pages y) := by
  obtain ⟨node1, q, e1, e2, q1, q2, q3, q4, q5, q6, q7⟩ :=
    BPlusTreeInternalPage.newRoot_spec t.internal_max_size t.next_page_id old key new him
  let t2 : BPlusTree :=
    ({ root_page_id_ := t.next_page_id, pages := t.pages, next_page_id := t.next_page_id + 1,
       leaf_max_size := t.leaf_max_size, internal_max_size := t.internal_max_size } :
      BPlusTree).WritePage t.next_page_id q
  let t3 : BPlusTree := t2.WritePage old (op.SetParentPageId t.next_page_id)
  let t4 : BPlusTree := t3.WritePage new (np.SetParentPageId t.next_page_id)
  have h2old : t2.pages old = some op := by
    simp only [t2, WritePage_pages, if_neg holdR]
    exact hop
  have h3new : t3.pages new = some np := by
    simp only [t3, t2, WritePage_pages, if_neg (Ne.symm hne), if_neg hnewR]
    exact hnp
  have hcode : InsertIntoParent (fuel + 1) t old key new = some t4 := by
    unfold InsertIntoParent
    simp only [hop, hnp, Option.bind_eq_bind, Option.some_bind]
    have hr : op.IsRootPage = true := by simp [IsRootPage, hroot]
    rw [if_pos hr]
    simp only [NewPage, hoid, hnid, e1, e2, Option.some_bind]
    have r1 : t2.reparent old t.next_page_id = some t3 := by
      simp only [reparent, h2old]
    have r2 : t3.reparent new t.next_page_id = some t4 := by
      simp only [reparent, h3new]
    have r1' := r1
    simp only [t2] at r1'
    rw [r1']
    exact r2
  refine ⟨t4, q, hcode, rfl, rfl, ?_, q1, q2, q4, q5, q7, ?_, ?_, ?_⟩
  · simp only [t4, t3, t2, WritePage_pages, if_neg (Ne.symm hnewR), if_neg (Ne.symm holdR),
      if_true]
  · simp only [t4, t3, WritePage_pages, if_neg hne, if_true]
  · simp only [t4, WritePage_pages, if_true]
  · intro y y1 y2 y3
    simp only [t4, t3, t2, WritePage_pages, if_neg y1, if_neg y2, if_neg y3]

/-- A key that is not among the keys of the live slots is not found by `Lookup`. -/
theorem Lookup_absent (p : BPlusTreePage) (key : Int) (hlen : p.size_ ≤ p.array.length)
    (hk : key ∉ p.live.map Prod.fst) : BPlusTreeLeafPage.Lookup p key = none := by
  cases h : BPlusTreeLeafPage.Lookup p key with
  | none => rfl
  | some v =>
    exfalso
    apply hk
    rw [List.mem_map]
    exact ⟨(key, v), BPlusTreeLeafPage.Lookup_sound p key v hlen h, rfl⟩

/-- `Insert` of a new key into a full root leaf: the statement of the split, with the
pages of the state afterwards. -/
theorem Insert_full_root_leaf (t : BPlusTree) (p : BPlusTreePage) (fuel : Nat)
    (key value : Int) (hm : 2 ≤ p.size_) (him : 2 ≤ t.internal_max_size)
    (hlm : t.leaf_max_size = p.size_) (hroot : t.root_page_id_ ≠ INVALID_PAGE_ID)
    (hfresh : ∀ y, t.next_page_id ≤ y → t.pages y = none)
    (hp : t.pages t.root_page_id_ = some p) (hty : p.page_type_ = LEAF_PAGE)
    (hpar : p.parent_page_id_ = INVALID_PAGE_ID) (hid : p.page_id_ = t.root_page_id_)
    (hmax : p.max_size_ = p.size_) (hlen : p.array.length = p.size_)
    (hs : (p.live.map Prod.fst).Pairwise (· < ·)) (hk : key ∉ p.live.map Prod.fst) :
    ∃ t1 R L N, t.Insert (fuel + 1) key value = some (true, t1) ∧
      t1.pages t1.root_page_id_ = some R ∧ R.page_type_ = INTERNAL_PAGE ∧ R.size_ = 2 ∧
      R.live = [(0, t.root_page_id_), ((p.slot (p.size_ - p.size_ / 2)).1, t.next_page_id)] ∧
      t1.pages t.root_page_id_ = some L ∧ L.page_type_ = LEAF_PAGE ∧
      t1.pages t.next_page_id = some N ∧ N.page_type_ = LEAF_PAGE ∧
      N.live.head?.map Prod.fst = some (p.slot (p.size_ - p.size_ / 2)).1 ∧
      (key < (p.slot (p.size_ - p.size_ / 2)).1 →
        L.live.Perm ((key, value) :: p.live.take (p.size_ - p.size_ / 2)) ∧
          N.live = p.live.drop (p.size_ - p.size_ / 2)) ∧
      (¬ key < (p.slot (p.size_ - p.size_ / 2)).1 →
        L.live = p.live.take (p.size_ - p.size_ / 2) ∧
          N.live.Perm ((key, value) :: p.live.drop (p.size_ - p.size_ / 2))) ∧
      (L.live.map Prod.fst).Pairwise (· < ·) ∧ (N.live.map Prod.fst).Pairwise (· < ·) := by
  have hlN : t.root_page_id_ ≠ t.next_page_id := by
    intro e
    rw [hfresh _ (le_of_eq e.symm)] at hp
    cases hp
  have hlt : t.root_page_id_ < t.next_page_id := by
    by_contra c
    rw [hfresh _ (not_lt.1 c)] at hp
    cases hp
  have hlen' : p.size_ ≤ p.array.length := le_of_eq hlen.symm
  have hb := half_bounds p.size_ hm
  have e1 : FindLeafPage t key false (fuel + 1) t.root_page_id_ = some t.root_page_id_ := by
    unfold FindLeafPage
    simp only [hp, IsLeafPage, hty, decide_True, Bool.not_true, Bool.false_eq_true, if_false]
  have hfetch : t.FetchAs LEAF_PAGE t.root_page_id_ = some p := FetchAs_eq hp hty
  have hlook : BPlusTreeLeafPage.Lookup p key = none := Lookup_absent p key hlen' hk
  have hroom : ¬ p.size_ < p.max_size_ := by rw [hmax]; exact lt_irrefl _
  have hne : t.IsEmpty = false := by simp [IsEmpty, hroot]
  obtain ⟨ts, q0, r0, es, s_root, s_next, s_lm, s_im, el, eN, s_other, q0h, q0sz, q0live,
      r_ty, r_sz, r_max, r_par, r_id, r_next, r_len, r_live⟩ :=
    Split_leaf_spec hp hlen' (by rw [hlm]; exact Nat.div_le_self _ _) hlN
  obtain ⟨h1, h2, h3, h4, h5, h6⟩ := q0h
  have hr0 : 1 ≤ r0.size_ := by rw [r_sz]; exact hb.2.2.2.1
  have hr0len : r0.size_ ≤ r0.array.length := by
    rw [r_sz, r_len, hlm]; exact hb.2.2.2.2.1
  obtain ⟨rest, hrest⟩ := live_head hr0 hr0len
  have hdrop := live_drop p (p.size_ - p.size_ / 2) hlen' hb.2.2.2.2.2.2.2.1
  have hslot0 : r0.slot 0 = p.slot (p.size_ - p.size_ / 2) := by
    rw [r_live, hdrop] at hrest
    simp only [List.cons.injEq] at hrest
    exact hrest.1.symm
  have hsplit : p.live = p.live.take (p.size_ - p.size_ / 2) ++ r0.slot 0 :: rest := by
    rw [← hrest, r_live, List.take_append_drop]
  have hs' := hs
  rw [hsplit, List.map_append, List.pairwise_append] at hs'
  obtain ⟨sT, sD, cross⟩ := hs'
  have hmemT : ∀ kv ∈ p.live.take (p.size_ - p.size_ / 2), kv ∈ p.live :=
    fun kv h => List.mem_of_mem_take h
  have hmemD : ∀ kv ∈ r0.slot 0 :: rest, kv ∈ p.live := by
    intro kv h
    rw [hsplit]
    exact List.mem_append_right _ h
  have hNR : t.next_page_id ≠ t.next_page_id + 1 := by omega
  have hlR : t.root_page_id_ ≠ t.next_page_id + 1 := by omega
  by_cases hk2 : key < (r0.slot 0).1
  · have hkc : comparator key (BPlusTreeLeafPage.KeyAt r0 0) < 0 :=
      (comparator_lt_zero _ _).2 hk2
    obtain ⟨q1, i1, i2, i3, i4, i5, _⟩ :=
      BPlusTreeLeafPage.Insert_sorted q0 key value
        (by rw [q0sz, h6]; exact lt_of_lt_of_le hb.2.2.2.2.2.2.2.1 hlen')
        (by rw [q0live]; exact sT)
        (by
          rw [q0live]
          intro h
          apply hk
          rw [List.mem_map] at h ⊢
          obtain ⟨kv, m1, m2⟩ := h
          exact ⟨kv, hmemT kv m1, m2⟩)
    obtain ⟨j1, j2, j3, j4, j5, j6⟩ := i2
    have hcode : InsertIntoLeaf (fuel + 1) t key value =
        (InsertIntoParent (fuel + 1)
          (((ts.WritePage t.root_page_id_ q1).WritePage t.next_page_id
            (BPlusTreeLeafPage.SetNextPageId r0 q1.next_page_id_)).WritePage t.root_page_id_
            (BPlusTreeLeafPage.SetNextPageId q1 r0.page_id_))
          t.root_page_id_ (r0.slot 0).1 t.next_page_id).bind fun t5 => some (true, t5) := by
      unfold InsertIntoLeaf
      simp only [e1, hfetch, hlook, Option.bind_eq_bind, Option.some_bind,
        Option.isSome_none, if_neg hroom, es, el, eN, Bool.false_eq_true, if_false,
        if_pos hkc, i1, Option.map_some', WritePage_pages, if_true, if_neg hlN,
        if_neg (Ne.symm hlN)]
      rfl
    obtain ⟨t5, R, c1, c2, c3, c4, c5, c6, c7, c8, c9, c10, c11, c12⟩ :=
      @InsertIntoParent_newRoot (((ts.WritePage t.root_page_id_ q1).WritePage t.next_page_id
            (BPlusTreeLeafPage.SetNextPageId r0 q1.next_page_id_)).WritePage t.root_page_id_
            (BPlusTreeLeafPage.SetNextPageId q1 r0.page_id_))
        t.root_page_id_ t.next_page_id (r0.slot 0).1
        (BPlusTreeLeafPage.SetNextPageId q1 r0.page_id_)
        (BPlusTreeLeafPage.SetNextPageId r0 q1.next_page_id_) fuel
        (by simp only [WritePage_pages, if_true])
        (by simp only [WritePage_pages, if_neg (Ne.symm hlN), if_true])
        (by show q1.parent_page_id_ = _; rw [j3, h3, hpar])
        (by show q1.page_id_ = _; rw [j4, h4, hid])
        (by show r0.page_id_ = _; exact r_id)
        (by simp only [WritePage_internal_max]; rw [s_im]; exact him)
        hlN
        (by simp only [WritePage_next]; rw [s_next]; exact hlR)
        (by simp only [WritePage_next]; rw [s_next]; exact hNR)
    simp only [WritePage_next, s_next] at c2 c3 c4 c8 c10 c11
    refine ⟨t5, R, _, _, ?_, ?_, c5, c6, ?_, c10, ?_, c11, ?_, ?_, ?_, ?_, ?_, ?_⟩
    · unfold Insert
      simp only [hne, Bool.false_eq_true, if_false]
      rw [hcode, c1]
      rfl
    · rw [c2]
      exact c4
    · rw [c9, hslot0]
    · show q1.page_type_ = _
      rw [j1, h1, hty]
    · show r0.page_type_ = _
      exact r_ty
    · show r0.live.head?.map Prod.fst = _
      rw [hrest, ← hslot0]
      rfl
    · intro _
      refine ⟨?_, ?_⟩
      · show q1.live.Perm _
        rw [← q0live]
        exact i4
      · show r0.live = _
        exact r_live
    · intro h
      rw [← hslot0] at h
      exact absurd hk2 h
    · show (q1.live.map Prod.fst).Pairwise (· < ·)
      exact i5
    · show (r0.live.map Prod.fst).Pairwise (· < ·)
      rw [hrest]
      exact sD
  · have hkc : ¬ comparator key (BPlusTreeLeafPage.KeyAt r0 0) < 0 := by
      rw [comparator_lt_zero]
      exact hk2
    have hsepkey : (r0.slot 0).1 < key := by
      have hne : (r0.slot 0).1 ≠ key := by
        intro e
        apply hk
        rw [List.mem_map]
        exact ⟨r0.slot 0, hmemD _ (by simp), e⟩
      exact lt_of_le_of_ne (not_lt.1 hk2) hne
    obtain ⟨r1, i1, i2, i3, i4, i5, i6⟩ :=
      BPlusTreeLeafPage.Insert_sorted r0 key value
        (by rw [r_sz, r_len, hlm]; exact hb.2.2.2.2.2.2.2.2.1)
        (by rw [hrest]; exact sD)
        (by
          rw [hrest]
          intro h
          apply hk
          rw [List.mem_map] at h ⊢
          obtain ⟨kv, m1, m2⟩ := h
          exact ⟨kv, hmemD kv m1, m2⟩)
    obtain ⟨j1, j2, j3, j4, j5, j6⟩ := i2
    obtain ⟨rest1, hrest1⟩ := i6 (r0.slot 0) rest hrest hsepkey
    have hslot : r1.slot 0 = r0.slot 0 := by
      have hr1 : 1 ≤ r1.size_ := by rw [i3]; exact Nat.le_add_left _ _
      have hr1len : r1.size_ ≤ r1.array.length := by
        rw [i3, j6, r_sz, r_len, hlm]; exact hb.2.2.2.2.2.2.2.2.2
      obtain ⟨rest2, h7⟩ := live_head hr1 hr1len
      rw [hrest1] at h7
      simp only [List.cons.injEq] at h7
      exact h7.1.symm
    have hcode : InsertIntoLeaf (fuel + 1) t key value =
        (InsertIntoParent (fuel + 1)
          (((ts.WritePage t.next_page_id r1).WritePage t.next_page_id
            (BPlusTreeLeafPage.SetNextPageId r1 q0.next_page_id_)).WritePage t.root_page_id_
            (BPlusTreeLeafPage.SetNextPageId q0 r1.page_id_))
          t.root_page_id_ (r0.slot 0).1 t.next_page_id).bind fun t5 => some (true, t5) := by
      unfold InsertIntoLeaf
      simp only [e1, hfetch, hlook, Option.bind_eq_bind, Option.some_bind,
        Option.isSome_none, if_neg hroom, es, el, eN, Bool.false_eq_true, if_false,
        if_neg hkc, i1, Option.map_some', WritePage_pages, if_true, if_neg hlN,
        if_neg (Ne.symm hlN)]
      simp only [BPlusTreeLeafPage.KeyAt, SetNextPageId_slot, hslot]
    obtain ⟨t5, R, c1, c2, c3, c4, c5, c6, c7, c8, c9, c10, c11, c12⟩ :=
      @InsertIntoParent_newRoot (((ts.WritePage t.next_page_id r1).WritePage t.next_page_id
            (BPlusTreeLeafPage.SetNextPageId r1 q0.next_page_id_)).WritePage t.root_page_id_
            (BPlusTreeLeafPage.SetNextPageId q0 r1.page_id_))
        t.root_page_id_ t.next_page_id (r0.slot 0).1
        (BPlusTreeLeafPage.SetNextPageId q0 r1.page_id_)
        (BPlusTreeLeafPage.SetNextPageId r1 q0.next_page_id_) fuel
        (by simp only [WritePage_pages, if_true])
        (by simp only [WritePage_pages, if_neg (Ne.symm hlN), if_true])
        (by show q0.parent_page_id_ = _; rw [h3, hpar])
        (by show q0.page_id_ = _; rw [h4, hid])
        (by show r1.page_id_ = _; rw [j4, r_id])
        (by simp only [WritePage_internal_max]; rw [s_im]; exact him)
        hlN
        (by simp only [WritePage_next]; rw [s_next]; exact hlR)
        (by simp only [WritePage_next]; rw [s_next]; exact hNR)
    simp only [WritePage_next, s_next] at c2 c3 c4 c8 c10 c11
    refine ⟨t5, R, _, _, ?_, ?_, c5, c6, ?_, c10, ?_, c11, ?_, ?_, ?_, ?_, ?_, ?_⟩
    · unfold Insert
      simp only [hne, Bool.false_eq_true, if_false]
      rw [hcode, c1]
      rfl
    · rw [c2]
      exact c4
    · rw [c9, hslot0]
    · show q0.page_type_ = _
      rw [h1, hty]
    · show r1.page_type_ = _
      rw [j1, r_ty]
    · show r1.live.head?.map Prod.fst = _
      rw [hrest1, ← hslot0]
      rfl
    · intro h
      rw [← hslot0] at h
      exact absurd h hk2
    · intro _
      refine ⟨?_, ?_⟩
      · show q0.live = _
        exact q0live
      · show r1.live.Perm _
        rw [← r_live]
        exact i4
    · show (q0.live.map Prod.fst).Pairwise (· < ·)
      rw [q0live]
      exact sT
    · show (r1.live.map Prod.fst).Pairwise (· < ·)
      exact i5

/-- The code produces `fullRootLeaf`: inserting 1 to 4 into the empty tree with
`max_size = 4` gives its root page id, its page and its allocation counter. -/
theorem run_fullRootLeaf :
    (run 1 (empty 4 4) [Op.insert 1 10, Op.insert 2 20, Op.insert 3 30, Op.insert 4 40]).map
      (fun t => (t.root_page_id_, t.pages 1, t.next_page_id, t.leaf_max_size,
        t.internal_max_size)) =
      some (fullRootLeaf.root_page_id_, fullRootLeaf.pages 1, fullRootLeaf.next_page_id,
        fullRootLeaf.leaf_max_size, fullRootLeaf.internal_max_size) := by
  decide

/-- C14: for a full root leaf (`size = max_size = m`, `m` at least 2, strictly
increasing keys) and a key that it does not store, `Insert` returns true and turns
the root into an internal page of size 2 whose child 0 is the old leaf and whose child 1
is the page newly allocated, a leaf; the key of slot 1 is the first key of the new leaf.
The old leaf keeps its lowest `m - m / 2` pairs, the new leaf gets the upper `m / 2`
pairs, and the incoming pair goes to the old leaf exactly when its key is less than the
first key of the new leaf.  With `m = 4`, inserting 1 to 5 in order gives the leaves
`[1, 2]` and `[3, 4, 5]` and the separator 3. -/
theorem C14_root_leaf_split (t : BPlusTree) (p : BPlusTreePage) (m fuel : Nat)
    (key value : Int) (hm : 2 ≤ m) (hsize : p.size_ = m) (hmax : p.max_size_ = m)
    (hlen : p.array.length = m) (hlm : t.leaf_max_size = m) (him : 2 ≤ t.internal_max_size)
    (hroot : t.root_page_id_ ≠ INVALID_PAGE_ID)
    (hfresh : ∀ y, t.next_page_id ≤ y → t.pages y = none)
    (hp : t.pages t.root_page_id_ = some p) (hty : p.page_type_ = LEAF_PAGE)
    (hpar : p.parent_page_id_ = INVALID_PAGE_ID) (hid : p.page_id_ = t.root_page_id_)
    (hs : (p.live.map Prod.fst).Pairwise (· < ·)) (hk : key ∉ p.live.map Prod.fst)
    (hf : 1 ≤ fuel) :
    (∃ t1 R L N, t.Insert fuel key value = some (true, t1) ∧
      t1.pages t1.root_page_id_ = some R ∧ R.page_type_ = INTERNAL_PAGE ∧ R.size_ = 2 ∧
      R.live = [(0, t.root_page_id_), ((p.slot (m - m / 2)).1, t.next_page_id)] ∧
      t1.pages t.root_page_id_ = some L ∧ L.page_type_ = LEAF_PAGE ∧
      t1.pages t.next_page_id = some N ∧ N.page_type_ = LEAF_PAGE ∧
      N.live.head?.map Prod.fst = some (p.slot (m - m / 2)).1 ∧
      (p.live.take (m - m / 2)).length = m - m / 2 ∧
      (p.live.drop (m - m / 2)).length = m / 2 ∧
      (key < (p.slot (m - m / 2)).1 →
        L.live.Perm ((key, value) :: p.live.take (m - m / 2)) ∧
          N.live = p.live.drop (m - m / 2)) ∧
      (¬ key < (p.slot (m - m / 2)).1 →
        L.live = p.live.take (m - m / 2) ∧
          N.live.Perm ((key, value) :: p.live.drop (m - m / 2))) ∧
      (L.live.map Prod.fst).Pairwise (· < ·) ∧ (N.live.map Prod.fst).Pairwise (· < ·)) ∧
    ((run 2 (empty 4 4)
        [Op.insert 1 10, Op.insert 2 20, Op.insert 3 30, Op.insert 4 40, Op.insert 5 50]).bind
      (fun t1 => (t1.pages t1.root_page_id_).map fun R => (R.IsLeafPage, R.live)) =
        some (false, [(0, 1), (3, 2)]) ∧
    (run 2 (empty 4 4)
        [Op.insert 1 10, Op.insert 2 20, Op.insert 3 30, Op.insert 4 40, Op.insert 5 50]).map
      (fun t1 => ((t1.pages 1).map live, (t1.pages 2).map live)) =
        some (some [(1, 10), (2, 20)], some [(3, 30), (4, 40), (5, 50)])) := by
  subst hsize
  obtain ⟨n, rfl⟩ : ∃ n, fuel = n + 1 := ⟨fuel - 1, by omega⟩
  obtain ⟨t1, R, L, N, a1, a2, a3, a4, a5, a6, a7, a8, a9, a10, a11, a12, a13, a14⟩ :=
    Insert_full_root_leaf t p n key value hm him hlm hroot hfresh hp hty hpar hid hmax hlen hs hk
  have hl := live_length p (le_of_eq hlen.symm)
  refine ⟨⟨t1, R, L, N, a1, a2, a3, a4, a5, a6, a7, a8, a9, a10, ?_, ?_, a11, a12, a13, a14⟩,
    by decide⟩
  · rw [List.length_take, hl]
    omega
  · rw [List.length_drop, hl]
    omega

theorem C14_root_leaf_split_witness :
    (2 ≤ 4 ∧ 1 ≤ 1 ∧ (5 : Int) ∉ [(1, 10), (2, 20), (3, 30), (4, 40)].map Prod.fst) ∧
    ((∃ t1 R L N, fullRootLeaf.Insert 1 5 50 = some (true, t1) ∧
      t1.pages t1.root_page_id_ = some R ∧ R.page_type_ = INTERNAL_PAGE ∧ R.size_ = 2 ∧
      R.live = [(0, fullRootLeaf.root_page_id_),
        (((⟨LEAF_PAGE, 4, 4, INVALID_PAGE_ID, 1, INVALID_PAGE_ID,
          [(1, 10), (2, 20), (3, 30), (4, 40)]⟩ : BPlusTreePage).slot (4 - 4 / 2)).1,
          fullRootLeaf.next_page_id)] ∧
      t1.pages fullRootLeaf.root_page_id_ = some L ∧ L.page_type_ = LEAF_PAGE ∧
      t1.pages fullRootLeaf.next_page_id = some N ∧ N.page_type_ = LEAF_PAGE ∧
      N.live.head?.map Prod.fst =
        some ((⟨LEAF_PAGE, 4, 4, INVALID_PAGE_ID, 1, INVALID_PAGE_ID,
          [(1, 10), (2, 20), (3, 30), (4, 40)]⟩ : BPlusTreePage).slot (4 - 4 / 2)).1 ∧
      ((⟨LEAF_PAGE, 4, 4, INVALID_PAGE_ID, 1, INVALID_PAGE_ID,
          [(1, 10), (2, 20), (3, 30), (4, 40)]⟩ : BPlusTreePage).live.take (4 - 4 / 2)).length =
        4 - 4 / 2 ∧
      ((⟨LEAF_PAGE, 4, 4, INVALID_PAGE_ID, 1, INVALID_PAGE_ID,
          [(1, 10), (2, 20), (3, 30), (4, 40)]⟩ : BPlusTreePage).live.drop (4 - 4 / 2)).length =
        4 / 2 ∧
      ((5 : Int) < ((⟨LEAF_PAGE, 4, 4, INVALID_PAGE_ID, 1, INVALID_PAGE_ID,
          [(1, 10), (2, 20), (3, 30), (4, 40)]⟩ : BPlusTreePage).slot (4 - 4 / 2)).1 →
        L.live.Perm ((5, 50) :: (⟨LEAF_PAGE, 4, 4, INVALID_PAGE_ID, 1, INVALID_PAGE_ID,
          [(1, 10), (2, 20), (3, 30), (4, 40)]⟩ : BPlusTreePage).live.take (4 - 4 / 2)) ∧
          N.live = (⟨LEAF_PAGE, 4, 4, INVALID_PAGE_ID, 1, INVALID_PAGE_ID,
          [(1, 10), (2, 20), (3, 30), (4, 40)]⟩ : BPlusTreePage).live.drop (4 - 4 / 2)) ∧
      (¬ (5 : Int) < ((⟨LEAF_PAGE, 4, 4, INVALID_PAGE_ID, 1, INVALID_PAGE_ID,
          [(1, 10), (2, 20), (3, 30), (4, 40)]⟩ : BPlusTreePage).slot (4 - 4 / 2)).1 →
        L.live = (⟨LEAF_PAGE, 4, 4, INVALID_PAGE_ID, 1, INVALID_PAGE_ID,
          [(1, 10), (2, 20), (3, 30), (4, 40)]⟩ : BPlusTreePage).live.take (4 - 4 / 2) ∧
          N.live.Perm ((5, 50) :: (⟨LEAF_PAGE, 4, 4, INVALID_PAGE_ID, 1, INVALID_PAGE_ID,
          [(1, 10), (2, 20), (3, 30), (4, 40)]⟩ : BPlusTreePage).live.drop (4 - 4 / 2))) ∧
      (L.live.map Prod.fst).Pairwise (· < ·) ∧ (N.live.map Prod.fst).Pairwise (· < ·)) ∧
    ((run 2 (empty 4 4)
        [Op.insert 1 10, Op.insert 2 20, Op.insert 3 30, Op.insert 4 40, Op.insert 5 50]).bind
      (fun t1 => (t1.pages t1.root_page_id_).map fun R => (R.IsLeafPage, R.live)) =
        some (false, [(0, 1), (3, 2)]) ∧
    (run 2 (empty 4 4)
        [Op.insert 1 10, Op.insert 2 20, Op.insert 3 30, Op.insert 4 40, Op.insert 5 50]).map
      (fun t1 => ((t1.pages 1).map live, (t1.pages 2).map live)) =
        some (some [(1, 10), (2, 20)], some [(3, 30), (4, 40), (5, 50)]))) :=
  ⟨⟨by decide, by decide, by decide⟩,
    C14_root_leaf_split fullRootLeaf
      ⟨LEAF_PAGE, 4, 4, INVALID_PAGE_ID, 1, INVALID_PAGE_ID, [(1, 10), (2, 20), (3, 30), (4, 40)]⟩
      4 1 5 50 (by decide) rfl rfl rfl rfl (by decide) (by decide)
      (by
        intro y hy
        have h1 : y ≠ 1 := by
          have : fullRootLeaf.next_page_id = 2 := rfl
          omega
        simp [fullRootLeaf, h1])
      rfl rfl rfl rfl (by decide) (by decide) (by decide)⟩

end BPlusTree

end cmudb

namespace cmudb

open BPlusTreePage IndexPageType

/-! ## Redistribution from the right sibling of a leftmost leaf -/

namespace BPlusTreeLeafPage

/-- Leaf `CopyLastFrom` on a page with room: the pair is appended. -/
theorem CopyLastFrom_spec (p : BPlusTreePage) (item : MappingType)
    (h : p.size_ < p.array.length) :
    ∃ q, CopyLastFrom p item = some q ∧ SameHeader p q ∧ q.size_ = p.size_ + 1 ∧
      q.live = p.live ++ [item] := by
  refine ⟨({ p with array := p.array.set p.size_ item } : BPlusTreePage).IncreaseSize 1, ?_, ?_,
    rfl, ?_⟩
  · unfold CopyLastFrom
    rw [setSlot_eq_some p p.size_ item h]
  · refine ⟨rfl, rfl, rfl, rfl, rfl, ?_⟩
    simp [IncreaseSize]
  · simp only [live, IncreaseSize]
    rw [List.take_succ]
    have e1 : (p.array.set p.size_ item).take p.size_ = p.array.take p.size_ := by
      apply List.ext_getElem?
      intro j
      by_cases hj : j < p.size_
      · rw [List.getElem?_take_of_lt hj, List.getElem?_take_of_lt hj,
          List.getElem?_set_ne (by omega)]
      · rw [List.getElem?_take_eq_none (by omega), List.getElem?_take_eq_none (by omega)]
    rw [e1, List.getElem?_set_self (by omega)]
    rfl

/-- The statements of the leaf `MoveFirstToEndOf` on the page itself: the first pair
leaves the live slots. -/
theorem popFirst_spec (p : BPlusTreePage) (h1 : 1 ≤ p.size_) (hlen : p.size_ ≤ p.array.length) :
    ∃ p1 p2, p.DecreaseSize 1 = some p1 ∧ p1.memmove 0 1 p1.size_ = some p2 ∧
      SameHeader p p2 ∧ p2.size_ + 1 = p.size_ ∧ p2.live = p.live.drop 1 := by
  have hd : p.DecreaseSize 1 = some { p with size_ := p.size_ - 1 } := by
    unfold DecreaseSize
    rw [if_pos h1]
  refine ⟨{ p with size_ := p.size_ - 1 },
    { p with size_ := p.size_ - 1,
             array := p.array.take 0 ++ (p.array.drop 1).take (p.size_ - 1) ++
               p.array.drop (0 + (p.size_ - 1)) }, hd, ?_, ?_, ?_, ?_⟩
  · unfold memmove
    rw [if_pos ⟨by simp only; omega, by simp only; omega⟩]
  · refine ⟨rfl, rfl, rfl, rfl, rfl, ?_⟩
    simp only [List.take_zero, List.nil_append, Nat.zero_add, List.length_append,
      List.length_take, List.length_drop]
    omega
  · simp only
    omega
  · simp only [live, List.take_zero, List.nil_append, Nat.zero_add]
    rw [List.take_append_of_le_length (by simp only [List.length_take, List.length_drop]; omega),
      List.take_take, Nat.min_self, List.drop_take]

end BPlusTreeLeafPage

namespace BPlusTreeInternalPage

/-- `SetKeyAt` inside the slot memory changes neither the size nor the children. -/
theorem SetKeyAt_spec (p : BPlusTreePage) (i : Nat) (key : Int) (h : i < p.array.length) :
    ∃ q, SetKeyAt p i key = some q ∧ SameHeader p q ∧ q.size_ = p.size_ ∧
      q.live.map Prod.snd = p.live.map Prod.snd ∧ (q.slot i).1 = key := by
  refine ⟨{ p with array := p.array.set i (key, (p.slot i).2) }, ?_, ?_, rfl, ?_, ?_⟩
  · unfold SetKeyAt
    rw [setSlot_eq_some p i _ h]
  · refine ⟨rfl, rfl, rfl, rfl, rfl, ?_⟩
    simp
  · simp only [live]
    rw [List.map_take, List.map_take, List.map_set]
    congr 1
    have : (p.array.map Prod.snd).set i (key, (p.slot i).2).2 = p.array.map Prod.snd := by
      apply List.ext_getElem (by simp)
      intro j h1 h2
      rw [List.getElem_set]
      split
      · rename_i e
        subst e
        simp only [List.getElem_map]
        rw [slot_eq_getElem p i h]
      · rfl
    exact this
  · simp only [slot]
    rw [List.getD_eq_getElem?_getD, List.getElem?_set_self h]
    rfl

end BPlusTreeInternalPage

namespace BPlusTree

/-- `Remove` of a key from a leftmost leaf that falls under the minimum size while the
right sibling cannot be merged: the first pair of the sibling is moved to the end of
the leaf; no page is created or deleted and the parent keeps its size. -/
theorem Remove_redistribute_right (t : BPlusTree) (fuel : Nat) (key : Int) (n par r : Int)
    (pn pp pr : BPlusTreePage)
    (hroot : t.root_page_id_ ≠ INVALID_PAGE_ID)
    (hfind : FindLeafPage t key false fuel t.root_page_id_ = some n)
    (hn : t.pages n = some pn) (hnty : pn.page_type_ = LEAF_PAGE) (hnid : pn.page_id_ = n)
    (hnpar : pn.parent_page_id_ = par) (hparne : par ≠ INVALID_PAGE_ID)
    (hnlen : pn.size_ ≤ pn.array.length)
    (hns : (pn.live.map Prod.fst).Pairwise (· < ·)) (hk : key ∈ pn.live.map Prod.fst)
    (hpp : t.pages par = some pp) (hpty : pp.page_type_ = INTERNAL_PAGE)
    (hpsz : 2 ≤ pp.size_) (hplen : pp.size_ ≤ pp.array.length)
    (hc0 : (pp.slot 0).2 = n) (hc1 : (pp.slot 1).2 = r) (hrn : r ≠ n)
    (hr : t.pages r = some pr) (hrty : pr.page_type_ = LEAF_PAGE) (hrid : pr.page_id_ = r)
    (hrpar : pr.parent_page_id_ = par) (hrlen : pr.size_ ≤ pr.array.length)
    (hmaxeq : pn.max_size_ = pr.max_size_)
    (hunder : pn.size_ - 1 < (pn.max_size_ + 1) / 2)
    (hsum : pr.max_size_ < pn.size_ - 1 + pr.size_) :
    ∃ t1 N1 R1 P1, t.Remove fuel key = some t1 ∧ t1.next_page_id = t.next_page_id ∧
      t1.root_page_id_ = t.root_page_id_ ∧
      t1.pages n = some N1 ∧ t1.pages r = some R1 ∧ t1.pages par = some P1 ∧
      (∀ y, y ≠ n → y ≠ r → y ≠ par → t1.pages y = t.pages y) ∧
      N1.live = pn.live.filter (fun kv => decide (kv.1 ≠ key)) ++ [pr.slot 0] ∧
      R1.live = pr.live.drop 1 ∧ pr.live = pr.slot 0 :: pr.live.drop 1 ∧
      P1.page_type_ = INTERNAL_PAGE ∧ P1.size_ = pp.size_ ∧
      P1.live.map Prod.snd = pp.live.map Prod.snd := by
  obtain ⟨f, rfl⟩ : ∃ f, fuel = f + 1 := by
    cases fuel with
    | zero => simp [FindLeafPage] at hfind
    | succ f => exact ⟨f, rfl⟩
  have hr1 : 1 ≤ pr.size_ := by omega
  have hnpar' : n ≠ par := by
    intro e
    rw [e, hpp] at hn
    simp only [Option.some.injEq] at hn
    rw [hn, hnty] at hpty
    cases hpty
  have hrpar' : r ≠ par := by
    intro e
    rw [e, hpp] at hr
    simp only [Option.some.injEq] at hr
    rw [hr, hrty] at hpty
    cases hpty
  have hne : t.IsEmpty = false := by simp [IsEmpty, hroot]
  obtain ⟨kv, hkv, hkey⟩ := List.mem_map.1 hk
  have hlook : BPlusTreeLeafPage.Lookup pn key = some kv.2 := by
    have := BPlusTreeLeafPage.Lookup_complete pn kv hnlen hns hkv
    rw [hkey] at this
    exact this
  obtain ⟨pn1, e1, ⟨b1, b2, b3, b4, b5, b6⟩, e3, e4⟩ :=
    BPlusTreeLeafPage.RemoveAndDeleteRecord_spec pn key hnlen hns hk
  have hsz1 : pn1.size_ = pn.size_ - 1 := by omega
  obtain ⟨p1, p2, d1, d2, ⟨c1, c2, c3, c4, c5, c6⟩, d4, d5⟩ :=
    BPlusTreeLeafPage.popFirst_spec pr hr1 hrlen
  obtain ⟨n2, g1, ⟨g2, g3, g4, g5, g6, g7⟩, g8, g9⟩ :=
    BPlusTreeLeafPage.CopyLastFrom_spec pn1 (pr.slot 0) (by rw [b6]; omega)
  have hvi0 : BPlusTreeInternalPage.ValueIndex pp n = 0 :=
    BPlusTreeInternalPage.ValueIndex_eq pp n 0 (by omega) hc0 (fun j hj => by omega)
  have hvi1 : BPlusTreeInternalPage.ValueIndex pp r = 1 :=
    BPlusTreeInternalPage.ValueIndex_eq pp r 1 (by omega) hc1 (fun j hj => by
      have : j = 0 := by omega
      subst this
      rw [hc0]
      exact Ne.symm hrn)
  obtain ⟨pp1, s1, ⟨s2, s3, s4, s5, s6, s7⟩, s8, s9, _⟩ :=
    BPlusTreeInternalPage.SetKeyAt_spec pp 1 (pr.slot 0).1 (by omega)
  have hhalf : ¬ pn1.size_ ≥ (pn1.max_size_ + 1) / 2 := by
    rw [hsz1, b2]
    omega
  have hnr : ¬ pn1.IsRootPage = true := by
    simp [IsRootPage, b3, hnpar, hparne]
  have hnomerge : ¬ pn1.size_ + pr.size_ ≤ pr.max_size_ := by
    rw [hsz1]
    omega
  have f1 : (t.WritePage n pn1).FetchAs LEAF_PAGE n = some pn1 :=
    FetchAs_eq (by simp) (by rw [b1, hnty])
  have f2 : (t.WritePage n pn1).FetchAs INTERNAL_PAGE par = some pp :=
    FetchAs_eq (by simp [Ne.symm hnpar', hpp]) hpty
  have f3 : (t.WritePage n pn1).FetchAs LEAF_PAGE r = some pr :=
    FetchAs_eq (by simp [hrn, hr]) hrty
  have f4 : (((t.WritePage n pn1).WritePage r p2).WritePage n n2).FetchAs INTERNAL_PAGE par =
      some pp :=
    FetchAs_eq (by simp [Ne.symm hnpar', Ne.symm hrpar', hpp]) hpty
  have hcode : t.Remove (f + 1) key =
      some ((((t.WritePage n pn1).WritePage r p2).WritePage n n2).WritePage par pp1) := by
    unfold Remove
    simp only [hne, Bool.false_eq_true, if_false, hfind, FetchAs_eq hn hnty, hlook,
      Option.isNone_some, e1]
    unfold CoalesceOrRedistribute
    simp only [Option.bind_eq_bind, f1, Option.some_bind]
    rw [if_neg hhalf, if_neg hnr]
    simp only [b3, b4, hnpar, hnid, f2, Option.some_bind, hvi0, Nat.cast_zero, zero_sub,
      Int.reduceNeg, Int.reduceLT, decide_True, if_true, zero_add, Int.toNat_one,
      BPlusTreeInternalPage.ValueAt, hc1, f3, if_neg hnomerge]
    unfold Redistribute
    simp only [gt_iff_lt, lt_self_iff_false, if_false, if_true]
    unfold LeafMoveFirstToEndOf
    rw [if_neg hrn]
    simp only [Option.bind_eq_bind, f3, Option.some_bind, d1, d2, f1,
      BPlusTreeLeafPage.GetItem, g1, c3, c4, hrpar, hrid, f4, hvi1, s1]
  refine ⟨_, n2, p2, pp1, hcode, rfl, rfl, ?_, ?_, ?_, ?_, ?_, d5, ?_, ?_, s8, s9⟩
  · simp [hnpar']
  · simp [hrn, hrpar']
  · simp
  · intro y y1 y2 y3
    simp [y1, y2, y3]
  · rw [g9, e4]
  · exact live_drop pr 0 hrlen hr1
  · rw [s2]
    exact hpty

/-- The code produces `sixKeysTree`: inserting 1 to 6 into the empty tree with
`max_size = 4` gives its root page id, its three pages and its allocation counter. -/
theorem run_sixKeysTree :
    (run 2 (empty 4 4)
        [Op.insert 1 10, Op.insert 2 20, Op.insert 3 30, Op.insert 4 40, Op.insert 5 50,
          Op.insert 6 60]).map
      (fun t => (t.root_page_id_, t.pages 1, t.pages 2, t.pages 3, t.next_page_id)) =
      some (sixKeysTree.root_page_id_, sixKeysTree.pages 1, sixKeysTree.pages 2,
        sixKeysTree.pages 3, sixKeysTree.next_page_id) := by
  decide

/-- C17: when `Remove(key)` takes `key` out of a leaf `N` that is not the root and is
the leftmost child of its parent, `N` falls under the minimum size and the sizes of `N`
and of its right sibling `R` add up to more than `max_size`, then the call
redistributes: exactly the first pair of `R` is moved to the end of `N`, no page is
created or deleted, the parent keeps its size and its children, and the pairs stored
in `N` and `R` are the old ones without the pair of the removed key (all other pages are
unchanged).  With `max_size = 4` and the leaves `[1, 2]` and `[3, 4, 5, 6]`, `Remove(1)`
leaves `[2, 3]` and `[4, 5, 6]`. -/
theorem C17_redistribute_from_right (t : BPlusTree) (fuel : Nat) (key : Int) (n par r : Int)
    (pn pp pr : BPlusTreePage)
    (hroot : t.root_page_id_ ≠ INVALID_PAGE_ID)
    (hfind : FindLeafPage t key false fuel t.root_page_id_ = some n)
    (hn : t.pages n = some pn) (hnty : pn.page_type_ = LEAF_PAGE) (hnid : pn.page_id_ = n)
    (hnpar : pn.parent_page_id_ = par) (hparne : par ≠ INVALID_PAGE_ID)
    (hnlen : pn.size_ ≤ pn.array.length)
    (hns : (pn.live.map Prod.fst).Pairwise (· < ·)) (hk : key ∈ pn.live.map Prod.fst)
    (hpp : t.pages par = some pp) (hpty : pp.page_type_ = INTERNAL_PAGE)
    (hpsz : 2 ≤ pp.size_) (hplen : pp.size_ ≤ pp.array.length)
    (hc0 : (pp.slot 0).2 = n) (hc1 : (pp.slot 1).2 = r) (hrn : r ≠ n)
    (hr : t.pages r = some pr) (hrty : pr.page_type_ = LEAF_PAGE) (hrid : pr.page_id_ = r)
    (hrpar : pr.parent_page_id_ = par) (hrlen : pr.size_ ≤ pr.array.length)
    (hmaxeq : pn.max_size_ = pr.max_size_)
    (hunder : pn.size_ - 1 < (pn.max_size_ + 1) / 2)
    (hsum : pr.max_size_ < pn.size_ - 1 + pr.size_) :
    (∃ t1 N1 R1 P1, t.Remove fuel key = some t1 ∧ t1.next_page_id = t.next_page_id ∧
      (∀ y, (t1.pages y).isSome = (t.pages y).isSome) ∧
      t1.pages n = some N1 ∧ t1.pages r = some R1 ∧ t1.pages par = some P1 ∧
      (∀ y, y ≠ n → y ≠ r → y ≠ par → t1.pages y = t.pages y) ∧
      N1.live = pn.live.filter (fun kv => decide (kv.1 ≠ key)) ++ [pr.slot 0] ∧
      R1.live = pr.live.drop 1 ∧ pr.live = pr.slot 0 :: pr.live.drop 1 ∧
      P1.size_ = pp.size_ ∧ P1.live.map Prod.snd = pp.live.map Prod.snd ∧
      N1.live ++ R1.live = pn.live.filter (fun kv => decide (kv.1 ≠ key)) ++ pr.live) ∧
    (run 2 (empty 4 4)
        [Op.insert 1 10, Op.insert 2 20, Op.insert 3 30, Op.insert 4 40, Op.insert 5 50,
          Op.insert 6 60]).map
      (fun t0 => ((t0.pages 1).map live, (t0.pages 2).map live)) =
      some (some [(1, 10), (2, 20)], some [(3, 30), (4, 40), (5, 50), (6, 60)]) ∧
    (run 2 (empty 4 4)
        [Op.insert 1 10, Op.insert 2 20, Op.insert 3 30, Op.insert 4 40, Op.insert 5 50,
          Op.insert 6 60, Op.remove 1]).map
      (fun t1 => ((t1.pages 1).map live, (t1.pages 2).map live)) =
      some (some [(2, 20), (3, 30)], some [(4, 40), (5, 50), (6, 60)]) := by
  obtain ⟨t1, N1, R1, P1, a1, a2, a3, a4, a5, a6, a7, a8, a9, a10, a11, a12, a13⟩ :=
    Remove_redistribute_right t fuel key n par r pn pp pr hroot hfind hn hnty hnid hnpar hparne
      hnlen hns hk hpp hpty hpsz hplen hc0 hc1 hrn hr hrty hrid hrpar hrlen hmaxeq hunder hsum
  refine ⟨⟨t1, N1, R1, P1, a1, a2, ?_, a4, a5, a6, a7, a8, a9, a10, a12, a13, ?_⟩,
    by decide, by decide⟩
  · intro y
    by_cases y1 : y = n
    · rw [y1, a4, hn]
      rfl
    · by_cases y2 : y = r
      · rw [y2, a5, hr]
        rfl
      · by_cases y3 : y = par
        · rw [y3, a6, hpp]
          rfl
        · rw [a7 y y1 y2 y3]
  · rw [a8, a9, List.append_assoc]
    congr 1
    exact a10.symm

theorem C17_redistribute_from_right_witness :
    (sixKeysTree.root_page_id_ ≠ INVALID_PAGE_ID ∧
      FindLeafPage sixKeysTree 1 false 2 sixKeysTree.root_page_id_ = some 1 ∧
      sixKeysTree.pages 1 = some sixKeysLeft ∧ sixKeysTree.pages 3 = some sixKeysRoot ∧
      sixKeysTree.pages 2 = some sixKeysRight ∧
      (1 : Int) ∈ sixKeysLeft.live.map Prod.fst ∧
      (sixKeysRoot.slot 0).2 = 1 ∧ (sixKeysRoot.slot 1).2 = 2 ∧
      sixKeysLeft.size_ - 1 < (sixKeysLeft.max_size_ + 1) / 2 ∧
      sixKeysRight.max_size_ < sixKeysLeft.size_ - 1 + sixKeysRight.size_) ∧
    ((∃ t1 N1 R1 P1, sixKeysTree.Remove 2 1 = some t1 ∧
      t1.next_page_id = sixKeysTree.next_page_id ∧
      (∀ y, (t1.pages y).isSome = (sixKeysTree.pages y).isSome) ∧
      t1.pages 1 = some N1 ∧ t1.pages 2 = some R1 ∧ t1.pages 3 = some P1 ∧
      (∀ y, y ≠ 1 → y ≠ 2 → y ≠ 3 → t1.pages y = sixKeysTree.pages y) ∧
      N1.live = sixKeysLeft.live.filter (fun kv => decide (kv.1 ≠ 1)) ++ [sixKeysRight.slot 0] ∧
      R1.live = sixKeysRight.live.drop 1 ∧
      sixKeysRight.live = sixKeysRight.slot 0 :: sixKeysRight.live.drop 1 ∧
      P1.size_ = sixKeysRoot.size_ ∧
      P1.live.map Prod.snd = sixKeysRoot.live.map Prod.snd ∧
      N1.live ++ R1.live =
        sixKeysLeft.live.filter (fun kv => decide (kv.1 ≠ 1)) ++ sixKeysRight.live) ∧
    (run 2 (empty 4 4)
        [Op.insert 1 10, Op.insert 2 20, Op.insert 3 30, Op.insert 4 40, Op.insert 5 50,
          Op.insert 6 60]).map
      (fun t0 => ((t0.pages 1).map live, (t0.pages 2).map live)) =
      some (some [(1, 10), (2, 20)], some [(3, 30), (4, 40), (5, 50), (6, 60)]) ∧
    (run 2 (empty 4 4)
        [Op.insert 1 10, Op.insert 2 20, Op.insert 3 30, Op.insert 4 40, Op.insert 5 50,
          Op.insert 6 60, Op.remove 1]).map
      (fun t1 => ((t1.pages 1).map live, (t1.pages 2).map live)) =
      some (some [(2, 20), (3, 30)], some [(4, 40), (5, 50), (6, 60)])) :=
  ⟨⟨by decide, by decide, rfl, rfl, rfl, by decide, rfl, rfl, by decide, by decide⟩,
    C17_redistribute_from_right sixKeysTree 2 1 1 3 2 sixKeysLeft sixKeysRoot sixKeysRight
      (by decide) (by decide) rfl rfl rfl rfl (by decide) (by decide) (by decide) (by decide)
      rfl rfl (by decide) (by decide) rfl rfl (by decide) rfl rfl rfl rfl (by decide) rfl
      (by decide) (by decide)⟩

end BPlusTree

end cmudb

namespace cmudb

open BPlusTreePage IndexPageType

/-! ## Merge of the two leaves below the root -/

namespace BPlusTreeInternalPage

end BPlusTreeInternalPage

namespace BPlusTree

end BPlusTree

end cmudb

namespace cmudb

open BPlusTreePage IndexPageType

namespace BPlusTree

end BPlusTree

end cmudb

namespace cmudb

open BPlusTreePage IndexPageType

namespace BPlusTree

/-! ## Merge of two leaves and promotion of the left leaf -/

end BPlusTree

end cmudb

namespace cmudb

open BPlusTreePage IndexPageType

namespace BPlusTree

/-! ## More concrete runs on which the code departs from the specification -/

/-- C11 (failing input): with `max_size = 4`, after inserting 2, 22, 8, 21, 15, 3, 12, 9,
19, 17, removing 21 and inserting 20 and 19, page 6 (a leaf) names page 3 as its parent,
but the live child slots of the internal page 3 are `[1, 1]`: page 6 is in none of them
and page 1 is in two.  The parent links do not hold in this state. -/
theorem C11_parent_links_broken :
    (run 3 (empty 4 4)
        [Op.insert 2 20, Op.insert 22 220, Op.insert 8 80, Op.insert 21 210, Op.insert 15 150,
          Op.insert 3 30, Op.insert 12 120, Op.insert 9 90, Op.insert 19 190, Op.insert 17 170,
          Op.remove 21, Op.insert 20 200, Op.insert 19 190]).map
      (fun t => (t.root_page_id_, (t.pages 6).map (fun p => p.parent_page_id_),
        (t.pages 3).map (fun q => q.live))) =
      some (8, some 3, some [(0, 1), (0, 1)]) ∧
    ∀ t, run 3 (empty 4 4)
        [Op.insert 2 20, Op.insert 22 220, Op.insert 8 80, Op.insert 21 210, Op.insert 15 150,
          Op.insert 3 30, Op.insert 12 120, Op.insert 9 90, Op.insert 19 190, Op.insert 17 170,
          Op.remove 21, Op.insert 20 200, Op.insert 19 190] = some t → ¬ ParentLinks t := by
  have key : (run 3 (empty 4 4)
        [Op.insert 2 20, Op.insert 22 220, Op.insert 8 80, Op.insert 21 210, Op.insert 15 150,
          Op.insert 3 30, Op.insert 12 120, Op.insert 9 90, Op.insert 19 190, Op.insert 17 170,
          Op.remove 21, Op.insert 20 200, Op.insert 19 190]).map
      (fun t => (t.root_page_id_, (t.pages 6).map (fun p => p.parent_page_id_),
        (t.pages 3).map (fun q => q.live))) =
      some (8, some 3, some [(0, 1), (0, 1)]) := by
    decide!
  refine ⟨key, ?_⟩
  intro t ht hl
  rw [ht] at key
  simp only [Option.map_some', Option.some.injEq, Prod.mk.injEq] at key
  obtain ⟨k1, k2, k3⟩ := key
  obtain ⟨p, hp, hpar⟩ := Option.map_eq_some'.1 k2
  obtain ⟨q, hq, hlive⟩ := Option.map_eq_some'.1 k3
  have h6 := hl 6 p hp
  rw [if_neg (by rw [k1]; decide)] at h6
  obtain ⟨q1, hq1, hcount⟩ := h6
  rw [hpar] at hq1
  have := (FetchAs_some hq1).1
  rw [hq] at this
  simp only [Option.some.injEq] at this
  subst this
  rw [hlive] at hcount
  revert hcount
  decide

/-- C12 (failing input): with leaf `max_size = 3` and internal `max_size = 4`, after
the 24 calls below the leaves under the root are, from left to right, the pages 1, 4,
12, 4, 10, while following `next_page_id_` from the leftmost leaf visits the pages 1, 4,
10, 5 and ends there: the leaf 12 is reachable from the root and is not visited.  With
`max_size = 4` and the calls of C11, the leaves under the root are the pages 1, 1, 5, 2
and the chain visits 1, 4, 5, 6, 2: it goes through the pages 4 and 6, which no child
slot holds. -/
theorem C12_chain_differs_from_tree :
    (run 3 (empty 3 4)
        [Op.insert 6 60, Op.insert 8 80, Op.insert 0 0, Op.insert 11 110, Op.insert 3 30,
          Op.remove 0, Op.insert 1 10, Op.remove 6, Op.insert 9 90, Op.insert 12 120,
          Op.insert 2 20, Op.remove 9, Op.remove 1, Op.insert 3 30, Op.insert 10 100,
          Op.insert 1 10, Op.remove 11, Op.insert 9 90, Op.insert 6 60, Op.insert 5 50,
          Op.insert 6 60, Op.remove 1, Op.insert 8 80, Op.remove 9]).map
      (fun t => (leavesBelow t 3 t.root_page_id_,
        (Begin 3 t).bind fun c => chainFrom t 6 c.1)) =
      some ([1, 4, 12, 4, 10], some [1, 4, 10, 5]) ∧
    (run 3 (empty 4 4)
        [Op.insert 2 20, Op.insert 22 220, Op.insert 8 80, Op.insert 21 210, Op.insert 15 150,
          Op.insert 3 30, Op.insert 12 120, Op.insert 9 90, Op.insert 19 190, Op.insert 17 170,
          Op.remove 21, Op.insert 20 200, Op.insert 19 190]).map
      (fun t => (leavesBelow t 3 t.root_page_id_,
        (Begin 3 t).bind fun c => chainFrom t 5 c.1)) =
      some ([1, 1, 5, 2], some [1, 4, 5, 6, 2]) := by
  decide!

/-- C13 (failing input): after `Insert(1, 10)` into the empty tree, the call
`Insert(1, 11)` returns false and its only call on the buffer manager is the
`FetchPage` of the root leaf in `FindLeafPage`: the pin count of page 1 is 1 at the end
of the call.  `GetValue(1)` on the same tree pins and unpins the page. -/
theorem C13_duplicate_insert_keeps_pin :
    (run 1 (empty 4 4) [Op.insert 1 10]).bind
      (fun t => (t.Insert 1 1 11).bind fun r => (InsertPins 1 t 1 11).map fun calls =>
        (r.1, calls, pinCount calls 1)) =
      some (false, [PinCall.pin 1], 1) ∧
    (run 1 (empty 4 4) [Op.insert 1 10]).bind
      (fun t => (GetValuePins 1 t 1).map fun calls => (calls, pinCount calls 1)) =
      some ([PinCall.pin 1, PinCall.unpin 1], 0) := by
  decide

/-- C15 (counterexample): with `max_size = 4`, after inserting 1 to 17 in ascending
order the root is an internal page of size 3, with the children 3, 7 and 11. -/
theorem C15_root_children_counterexample :
    (run 3 (empty 4 4)
        [Op.insert 1 10, Op.insert 2 20, Op.insert 3 30, Op.insert 4 40, Op.insert 5 50,
          Op.insert 6 60, Op.insert 7 70, Op.insert 8 80, Op.insert 9 90, Op.insert 10 100,
          Op.insert 11 110, Op.insert 12 120, Op.insert 13 130, Op.insert 14 140,
          Op.insert 15 150, Op.insert 16 160, Op.insert 17 170]).bind
      (fun t => (t.pages t.root_page_id_).map fun p =>
        (p.IsLeafPage, p.size_, p.live.map Prod.snd)) =
      some (false, 3, [3, 7, 11]) := by
  decide!

/-- C15 (amended): with `max_size = 4` for leaves and internal pages, inserting the keys
1 to 17 in ascending order yields a tree of height 3 (the root is internal, its children
are internal and their children are leaves, with the structural invariants) whose root
has exactly three children, and iterating the leaf chain yields the keys 1 to 17 in
ascending order. -/
theorem C15_inserts_1_to_17 :
    (run 3 (empty 4 4)
        [Op.insert 1 10, Op.insert 2 20, Op.insert 3 30, Op.insert 4 40, Op.insert 5 50,
          Op.insert 6 60, Op.insert 7 70, Op.insert 8 80, Op.insert 9 90, Op.insert 10 100,
          Op.insert 11 110, Op.insert 12 120, Op.insert 13 130, Op.insert 14 140,
          Op.insert 15 150, Op.insert 16 160, Op.insert 17 170]).bind
      (fun t => (t.pages t.root_page_id_).map fun p =>
        (decide (WellFormed t 2), p.size_)) =
      some (true, 3) ∧
    (run 3 (empty 4 4)
        [Op.insert 1 10, Op.insert 2 20, Op.insert 3 30, Op.insert 4 40, Op.insert 5 50,
          Op.insert 6 60, Op.insert 7 70, Op.insert 8 80, Op.insert 9 90, Op.insert 10 100,
          Op.insert 11 110, Op.insert 12 120, Op.insert 13 130, Op.insert 14 140,
          Op.insert 15 150, Op.insert 16 160, Op.insert 17 170]).bind
      (fun t => (iterate 8 t).map fun w => w.map Prod.fst) =
      some [1, 2, 3, 4, 5, 6, 7, 8, 9, 10, 11, 12, 13, 14, 15, 16, 17] := by
  decide!

/-- C18 (failing input): with `max_size = 4` and the leaves `[1, 2]` and `[3, 4, 5, 6]`,
after `Remove(1)` the right leaf (page 2) starts with key 4, but the slot of the root
whose child is page 2 holds the separator 3, the key that was moved to the left leaf. -/
theorem C18_separator_is_moved_key :
    (run 2 (empty 4 4)
        [Op.insert 1 10, Op.insert 2 20, Op.insert 3 30, Op.insert 4 40, Op.insert 5 50,
          Op.insert 6 60, Op.remove 1]).map
      (fun t => ((t.pages 1).map live, (t.pages 2).map live, (t.pages 3).map live)) =
      some (some [(2, 20), (3, 30)], some [(4, 40), (5, 50), (6, 60)],
        some [(0, 1), (3, 2)]) := by
  decide

/-- C20 (failing input): in the tree with the leaves `[1, 2]` (page 1) and `[3, 4, 5]`
(page 2), `Begin(5)` returns the cursor `(page 1, index 2)`: the leftmost leaf, at an
index that is not below its size 2, although key 5 is stored in page 2; the walk from
this cursor yields the keys 3, 4, 5 and not only 5. -/
theorem C20_Begin_at_key_starts_in_leftmost_leaf :
    (run 2 (empty 4 4)
        [Op.insert 1 10, Op.insert 2 20, Op.insert 3 30, Op.insert 4 40, Op.insert 5 50]).bind
      (fun t => (BeginAt 2 t 5).bind fun c => (walkFrom t 2 c.1 c.2).map fun w =>
        (c, (t.pages c.1).map (fun p => (p.size_, p.next_page_id_)), w)) =
      some ((1, 2), some (2, 2), [(3, 30), (4, 40), (5, 50)]) := by
  decide

end BPlusTree

end cmudb

namespace cmudb

open BPlusTreePage IndexPageType

/-! ## Contracts of the page operations -/

/-- A list cut in two parts, the first within a predicate and the second outside of
it, is filtered to its first part. -/
theorem filter_append_left {α : Type} (P : α → Bool) (A B : List α)
    (hA : ∀ x ∈ A, P x = true) (hB : ∀ x ∈ B, P x = false) : (A ++ B).filter P = A := by
  rw [List.filter_append, List.filter_eq_self.2 hA]
  have : B.filter P = [] := by
    induction B with
    | nil => rfl
    | cons b bs ih =>
      rw [List.filter_cons_of_neg (by simp [hB b (List.mem_cons_self _ _)])]
      exact ih (fun x hx => hB x (List.mem_cons_of_mem _ hx))
  rw [this, List.append_nil]

/-- A list cut in two parts, the first outside of a predicate and the second within
it, is filtered to its second part. -/
theorem filter_append_right {α : Type} (P : α → Bool) (A B : List α)
    (hA : ∀ x ∈ A, P x = false) (hB : ∀ x ∈ B, P x = true) : (A ++ B).filter P = B := by
  rw [List.filter_append, List.filter_eq_self.2 hB]
  have : A.filter P = [] := by
    induction A with
    | nil => rfl
    | cons a as ih =>
      rw [List.filter_cons_of_neg (by simp [hA a (List.mem_cons_self _ _)])]
      exact ih (fun x hx => hA x (List.mem_cons_of_mem _ hx))
  rw [this, List.nil_append]

namespace BPlusTreeLeafPage

/-- The flag and the stored value of `LookupInto` are the result of `Lookup`. -/
theorem Lookup_eq_LookupInto (p : BPlusTreePage) (key value : Int) :
    Lookup p key =
      if (LookupInto p key value).1 = true then some (LookupInto p key value).2 else none := by
  unfold Lookup LookupInto
  cases find p key <;> simp

/-- C21: on a leaf with strictly increasing keys (the empty leaf included), `Lookup(k)`
returns true exactly when some slot `i < size` holds a key equal to `k`; it then stores
the value of this slot, and otherwise it returns false and the output value is the one
it was before the call. -/
theorem C21_leaf_Lookup_iff_key_stored (p : BPlusTreePage) (key value : Int)
    (hlen : p.size_ ≤ p.array.length) (hs : (p.live.map Prod.fst).Pairwise (· < ·)) :
    ((LookupInto p key value).1 = true ↔ ∃ i, i < p.size_ ∧ (p.slot i).1 = key) ∧
    (∀ i, i < p.size_ → (p.slot i).1 = key →
      LookupInto p key value = (true, (p.slot i).2)) ∧
    ((∀ i, i < p.size_ → (p.slot i).1 ≠ key) → LookupInto p key value = (false, value)) ∧
    Lookup p key =
      if (LookupInto p key value).1 = true then some (LookupInto p key value).2 else none := by
  have hpos : ∀ i, i < p.size_ → (p.slot i).1 = key →
      LookupInto p key value = (true, (p.slot i).2) := by
    intro i hi hk
    unfold LookupInto
    rw [find_complete p key hlen hs i hi hk]
  have hneg : (∀ i, i < p.size_ → (p.slot i).1 ≠ key) →
      LookupInto p key value = (false, value) := by
    intro h
    unfold LookupInto
    cases hf : find p key with
    | none => rfl
    | some m => exact absurd (find_sound p key m hf).2 (h m (find_sound p key m hf).1)
  refine ⟨⟨?_, ?_⟩, hpos, hneg, Lookup_eq_LookupInto p key value⟩
  · intro h
    by_contra hc
    have hall : ∀ i, i < p.size_ → (p.slot i).1 ≠ key := fun i hi hk => hc ⟨i, hi, hk⟩
    rw [hneg hall] at h
    cases h
  · rintro ⟨i, hi, hk⟩
    rw [hpos i hi hk]

theorem C21_leaf_Lookup_iff_key_stored_witness :
    (BPlusTree.scenarioLeft.size_ ≤ BPlusTree.scenarioLeft.array.length ∧
      (BPlusTree.scenarioLeft.live.map Prod.fst).Pairwise (· < ·)) ∧
    (((LookupInto BPlusTree.scenarioLeft 2 0).1 = true ↔
        ∃ i, i < BPlusTree.scenarioLeft.size_ ∧ (BPlusTree.scenarioLeft.slot i).1 = 2) ∧
    (∀ i, i < BPlusTree.scenarioLeft.size_ → (BPlusTree.scenarioLeft.slot i).1 = 2 →
      LookupInto BPlusTree.scenarioLeft 2 0 = (true, (BPlusTree.scenarioLeft.slot i).2)) ∧
    ((∀ i, i < BPlusTree.scenarioLeft.size_ → (BPlusTree.scenarioLeft.slot i).1 ≠ 2) →
      LookupInto BPlusTree.scenarioLeft 2 0 = (false, 0)) ∧
    Lookup BPlusTree.scenarioLeft 2 =
      if (LookupInto BPlusTree.scenarioLeft 2 0).1 = true then
        some (LookupInto BPlusTree.scenarioLeft 2 0).2 else none) :=
  ⟨⟨by decide, by decide⟩,
    C21_leaf_Lookup_iff_key_stored BPlusTree.scenarioLeft 2 0 (by decide) (by decide)⟩

/-- C22: on a leaf with strictly increasing keys and `size < max_size`, `Insert(k, v)`
of a key that is not stored returns the old size plus one; the live slots are then
strictly increasing and consist of the old pairs with smaller keys, in their order, the
pair `(k, v)`, and the old pairs with greater keys, in their order. -/
theorem C22_leaf_Insert_at_sorted_position (p : BPlusTreePage) (key value : Int)
    (hsz : p.size_ < p.max_size_) (hcap : p.max_size_ ≤ p.array.length)
    (hs : (p.live.map Prod.fst).Pairwise (· < ·)) (hk : key ∉ p.live.map Prod.fst) :
    ∃ q, Insert p key value = some q ∧ SameHeader p q ∧ q.size_ = p.size_ + 1 ∧
      (q.live.map Prod.fst).Pairwise (· < ·) ∧
      q.live = p.live.filter (fun kv => decide (kv.1 < key)) ++
        (key, value) :: p.live.filter (fun kv => decide (key < kv.1)) := by
  have hroom : p.size_ < p.array.length := by omega
  obtain ⟨j, q, e1, e2, e3, e4, e5, e6, e7⟩ := Insert_spec p key value hroom
  obtain ⟨q1, f1, f2, f3, f4, f5, f6⟩ := Insert_sorted p key value hroom hs hk
  rw [e1] at f1
  simp only [Option.some.injEq] at f1
  subst f1
  refine ⟨q, e1, e3, e4, f5, ?_⟩
  rw [e5, List.map_append, List.map_cons, List.pairwise_append, List.pairwise_cons] at f5
  obtain ⟨g1, ⟨g2, g3⟩, g4⟩ := f5
  have hlow : ∀ x ∈ p.live.take j, x.1 < key := fun x hx =>
    g4 x.1 (List.mem_map_of_mem _ hx) key (List.mem_cons_self _ _)
  have hhigh : ∀ x ∈ p.live.drop j, key < x.1 := fun x hx =>
    g2 x.1 (List.mem_map_of_mem _ hx)
  have hcut : p.live = p.live.take j ++ p.live.drop j := (List.take_append_drop j p.live).symm
  have h1 : p.live.filter (fun kv => decide (kv.1 < key)) = p.live.take j := by
    conv_lhs => rw [hcut]
    apply filter_append_left
    · intro x hx
      simpa using hlow x hx
    · intro x hx
      have := hhigh x hx
      simp only [decide_eq_false_iff_not]
      omega
  have h2 : p.live.filter (fun kv => decide (key < kv.1)) = p.live.drop j := by
    conv_lhs => rw [hcut]
    apply filter_append_right
    · intro x hx
      have := hlow x hx
      simp only [decide_eq_false_iff_not]
      omega
    · intro x hx
      simpa using hhigh x hx
  rw [e5, h1, h2]

theorem C22_leaf_Insert_at_sorted_position_witness :
    (BPlusTree.scenarioRight.size_ < BPlusTree.scenarioRight.max_size_ ∧
      BPlusTree.scenarioRight.max_size_ ≤ BPlusTree.scenarioRight.array.length ∧
      (BPlusTree.scenarioRight.live.map Prod.fst).Pairwise (· < ·) ∧
      (1 : Int) ∉ BPlusTree.scenarioRight.live.map Prod.fst) ∧
    ∃ q, Insert BPlusTree.scenarioRight 1 10 = some q ∧ SameHeader BPlusTree.scenarioRight q ∧
      q.size_ = BPlusTree.scenarioRight.size_ + 1 ∧
      (q.live.map Prod.fst).Pairwise (· < ·) ∧
      q.live = BPlusTree.scenarioRight.live.filter (fun kv => decide (kv.1 < 1)) ++
        (1, 10) :: BPlusTree.scenarioRight.live.filter (fun kv => decide (1 < kv.1)) :=
  ⟨⟨by decide, by decide, by decide, by decide⟩,
    C22_leaf_Insert_at_sorted_position BPlusTree.scenarioRight 1 10 (by decide) (by decide)
      (by decide) (by decide)⟩

/-- C23: on a leaf with strictly increasing keys, `RemoveAndDeleteRecord(k)` of a stored
key returns the old size minus one and leaves the old live slots without the slot of `k`,
the others in their order; for a key that is not stored (on the empty leaf too) the page
is unchanged, so the returned size is the old one. -/
theorem C23_leaf_RemoveAndDeleteRecord_contract (p : BPlusTreePage) (key : Int)
    (hlen : p.size_ ≤ p.array.length) (hs : (p.live.map Prod.fst).Pairwise (· < ·)) :
    (key ∈ p.live.map Prod.fst →
      ∃ q i, RemoveAndDeleteRecord p key = some q ∧ SameHeader p q ∧
        q.size_ + 1 = p.size_ ∧ i < p.size_ ∧ (p.slot i).1 = key ∧
        q.live = p.live.eraseIdx i ∧
        q.live = p.live.filter (fun kv => decide (kv.1 ≠ key))) ∧
    (key ∉ p.live.map Prod.fst → RemoveAndDeleteRecord p key = some p) := by
  constructor
  · intro hk
    obtain ⟨q, e1, e2, e3, e4⟩ := RemoveAndDeleteRecord_spec p key hlen hs hk
    obtain ⟨kv, hkv, hkey⟩ := List.mem_map.1 hk
    obtain ⟨i, hi, hsl⟩ := (mem_live_iff p hlen kv).1 hkv
    have hget : (p.live[i]?).map Prod.fst = some key := by
      have hl := live_length p hlen
      rw [List.getElem?_eq_getElem (by omega), live_getElem, hsl]
      simp [hkey]
    refine ⟨q, i, e1, e2, e3, hi, by rw [hsl]; exact hkey, ?_, e4⟩
    rw [e4]
    exact (eraseIdx_eq_filter_key key p.live i hs hget).symm
  · intro hk
    unfold RemoveAndDeleteRecord
    cases hf : find p key with
    | none => rfl
    | some m =>
      exfalso
      apply hk
      obtain ⟨m1, m2⟩ := find_sound p key m hf
      exact List.mem_map.2 ⟨p.slot m, slot_mem_live p m hlen m1, m2⟩

theorem C23_leaf_RemoveAndDeleteRecord_contract_witness :
    (BPlusTree.scenarioRight.size_ ≤ BPlusTree.scenarioRight.array.length ∧
      (BPlusTree.scenarioRight.live.map Prod.fst).Pairwise (· < ·)) ∧
    (((4 : Int) ∈ BPlusTree.scenarioRight.live.map Prod.fst →
      ∃ q i, RemoveAndDeleteRecord BPlusTree.scenarioRight 4 = some q ∧
        SameHeader BPlusTree.scenarioRight q ∧
        q.size_ + 1 = BPlusTree.scenarioRight.size_ ∧ i < BPlusTree.scenarioRight.size_ ∧
        (BPlusTree.scenarioRight.slot i).1 = 4 ∧
        q.live = BPlusTree.scenarioRight.live.eraseIdx i ∧
        q.live = BPlusTree.scenarioRight.live.filter (fun kv => decide (kv.1 ≠ 4))) ∧
    ((4 : Int) ∉ BPlusTree.scenarioRight.live.map Prod.fst →
      RemoveAndDeleteRecord BPlusTree.scenarioRight 4 = some BPlusTree.scenarioRight)) :=
  ⟨⟨by decide, by decide⟩,
    C23_leaf_RemoveAndDeleteRecord_contract BPlusTree.scenarioRight 4 (by decide) (by decide)⟩

end BPlusTreeLeafPage

namespace BPlusTreeInternalPage

/-- The loop of `ValueIndex` over slots that do not hold `value` ends with 0. -/
theorem ValueIndexLoop_absent (p : BPlusTreePage) (value : Int) :
    ∀ (n idx : Nat), (∀ j, idx ≤ j → j < idx + n → (p.slot j).2 ≠ value) →
      ValueIndexLoop p value n idx = 0 := by
  intro n
  induction n with
  | zero => intro idx _; rfl
  | succ n ih =>
    intro idx h
    unfold ValueIndexLoop
    rw [if_neg (h idx (le_refl _) (by omega))]
    exact ih (idx + 1) (fun j h1 h2 => h j (by omega) (by omega))

/-- C24: `ValueIndex(v)` returns the smallest slot index `i < size` whose child pointer
is `v` when there is one, and 0 when no slot holds `v`; the result is not negative. -/
theorem C24_ValueIndex_first_slot_or_zero (p : BPlusTreePage) (v : Int) :
    (∀ i, i < p.size_ → ValueAt p i = v → (∀ j, j < i → ValueAt p j ≠ v) →
      ValueIndex p v = i) ∧
    ((∀ i, i < p.size_ → ValueAt p i ≠ v) → ValueIndex p v = 0) ∧
    (0 : Int) ≤ ((ValueIndex p v : Nat) : Int) ∧
    (ValueIndex p v = 0 ∨ (ValueIndex p v < p.size_ ∧ ValueAt p (ValueIndex p v) = v)) := by
  have hfirst : ∀ i, i < p.size_ → ValueAt p i = v → (∀ j, j < i → ValueAt p j ≠ v) →
      ValueIndex p v = i := fun i hi hv hne => ValueIndex_eq p v i hi hv hne
  have habs : (∀ i, i < p.size_ → ValueAt p i ≠ v) → ValueIndex p v = 0 := fun h =>
    ValueIndexLoop_absent p v p.size_ 0 (fun j _ hj => h j (by omega))
  refine ⟨hfirst, habs, Int.natCast_nonneg _, ?_⟩
  by_cases hex : ∃ i, i < p.size_ ∧ ValueAt p i = v
  · right
    obtain ⟨h1, h2⟩ := Nat.find_spec hex
    have e := hfirst (Nat.find hex) h1 h2 (fun j hj hv =>
      Nat.find_min hex hj ⟨by omega, hv⟩)
    rw [e]
    exact ⟨h1, h2⟩
  · left
    exact habs (fun i hi hv => hex ⟨i, hi, hv⟩)

/-- The loop of internal `Lookup` stops at the first slot whose key is greater. -/
theorem LookupLoop_first (p : BPlusTreePage) (key : Int) (i : Nat)
    (hi : key < (p.slot i).1) :
    ∀ (n idx : Nat), idx ≤ i → i < idx + n → (∀ j, idx ≤ j → j < i → ¬ key < (p.slot j).1) →
      LookupLoop p key n idx = (p.slot (i - 1)).2 := by
  intro n
  induction n with
  | zero => intro idx h1 h2 _; omega
  | succ n ih =>
    intro idx h1 h2 h3
    unfold LookupLoop
    by_cases he : idx = i
    · subst he
      rw [if_pos ((comparator_lt_zero _ _).2 hi)]
    · rw [if_neg (fun h => h3 idx (le_refl _) (by omega) ((comparator_lt_zero _ _).1 h))]
      exact ih (idx + 1) (by omega) (by omega) (fun j hj1 hj2 => h3 j (by omega) hj2)

/-- The loop of internal `Lookup` over slots without a greater key ends at the last
slot. -/
theorem LookupLoop_last (p : BPlusTreePage) (key : Int) :
    ∀ (n idx : Nat), (∀ j, idx ≤ j → j < idx + n → ¬ key < (p.slot j).1) →
      LookupLoop p key n idx = (p.slot (p.size_ - 1)).2 := by
  intro n
  induction n with
  | zero => intro idx _; rfl
  | succ n ih =>
    intro idx h
    unfold LookupLoop
    rw [if_neg (fun c => h idx (le_refl _) (by omega) ((comparator_lt_zero _ _).1 c))]
    exact ih (idx + 1) (fun j h1 h2 => h j (by omega) (by omega))

/-- The loop of internal `Lookup` reads the child pointers and the keys from slot 1
on, and nothing else. -/
theorem LookupLoop_congr (p q : BPlusTreePage) (key : Int) (hsz : q.size_ = p.size_)
    (hv : ∀ i, (q.slot i).2 = (p.slot i).2) (hk : ∀ i, 1 ≤ i → (q.slot i).1 = (p.slot i).1) :
    ∀ (n idx : Nat), 1 ≤ idx → LookupLoop q key n idx = LookupLoop p key n idx := by
  intro n
  induction n with
  | zero =>
    intro idx _
    simp only [LookupLoop, hsz, hv]
  | succ n ih =>
    intro idx h1
    simp only [LookupLoop, hv, hk idx h1, ih (idx + 1) (by omega)]

/-- C25: on an internal page of size at least 1, `Lookup(k)` returns `ValueAt(i - 1)` for
the first `i` in `1 .. size - 1` with `k < key_i`, and `ValueAt(size - 1)` when there is
none; the key of slot 0 is not read (pages that differ in it give the same result); and
when the keys `1 .. size - 1` are strictly increasing the result is the child `j` with
`key_j ≤ k < key_{j+1}`, where slot 0 has no lower and the last slot no upper bound. -/
theorem C25_internal_Lookup_routing (p : BPlusTreePage) (key : Int) (h1 : 1 ≤ p.size_) :
    (∀ i, 1 ≤ i → i < p.size_ → key < KeyAt p i → (∀ j, 1 ≤ j → j < i → ¬ key < KeyAt p j) →
      Lookup p key = ValueAt p (i - 1)) ∧
    ((∀ j, 1 ≤ j → j < p.size_ → ¬ key < KeyAt p j) → Lookup p key = ValueAt p (p.size_ - 1)) ∧
    (∀ q : BPlusTreePage, q.size_ = p.size_ → (∀ i, ValueAt q i = ValueAt p i) →
      (∀ i, 1 ≤ i → KeyAt q i = KeyAt p i) → Lookup q key = Lookup p key) ∧
    ((∀ i j, 1 ≤ i → i < j → j < p.size_ → KeyAt p i < KeyAt p j) →
      (∀ j, j < p.size_ → (j = 0 ∨ KeyAt p j ≤ key) →
        (j + 1 = p.size_ ∨ key < KeyAt p (j + 1)) → Lookup p key = ValueAt p j) ∧
      ∃ j, j < p.size_ ∧ (j = 0 ∨ KeyAt p j ≤ key) ∧
        (j + 1 = p.size_ ∨ key < KeyAt p (j + 1)) ∧ Lookup p key = ValueAt p j) := by
  have hfirst : ∀ i, 1 ≤ i → i < p.size_ → key < KeyAt p i →
      (∀ j, 1 ≤ j → j < i → ¬ key < KeyAt p j) → Lookup p key = ValueAt p (i - 1) := by
    intro i hi1 hi2 hlt hmin
    unfold Lookup
    rw [if_neg (by omega)]
    exact LookupLoop_first p key i hlt (p.size_ - 1) 1 hi1 (by omega) hmin
  have hlast : (∀ j, 1 ≤ j → j < p.size_ → ¬ key < KeyAt p j) →
      Lookup p key = ValueAt p (p.size_ - 1) := by
    intro h
    unfold Lookup
    rw [if_neg (by omega)]
    exact LookupLoop_last p key (p.size_ - 1) 1 (fun j hj1 hj2 => h j hj1 (by omega))
  have hroute : (∀ i j, 1 ≤ i → i < j → j < p.size_ → KeyAt p i < KeyAt p j) →
      ∀ j, j < p.size_ → (j = 0 ∨ KeyAt p j ≤ key) →
        (j + 1 = p.size_ ∨ key < KeyAt p (j + 1)) → Lookup p key = ValueAt p j := by
    intro hsorted j hj hlo hhi
    have hbelow : ∀ m, 1 ≤ m → m ≤ j → ¬ key < KeyAt p m := by
      intro m hm1 hm2 hlt
      rcases hlo with h0 | hle
      · omega
      · rcases Nat.lt_or_eq_of_le hm2 with c | c
        · have := hsorted m j hm1 c hj
          omega
        · subst c
          omega
    by_cases hend : j + 1 = p.size_
    · have e : j = p.size_ - 1 := by omega
      rw [e]
      exact hlast (fun m hm1 hm2 => hbelow m hm1 (by omega))
    · have hlt : key < KeyAt p (j + 1) := hhi.resolve_left hend
      have := hfirst (j + 1) (by omega) (by omega) hlt
        (fun m hm1 hm2 => hbelow m hm1 (by omega))
      simpa using this
  refine ⟨hfirst, hlast, ?_, ?_⟩
  · intro q hsz hv hk
    unfold Lookup
    rw [hsz]
    split_ifs with h0
    · rfl
    · exact LookupLoop_congr p q key hsz hv hk (p.size_ - 1) 1 (le_refl 1)
  · intro hsorted
    refine ⟨hroute hsorted, ?_⟩
    by_cases hex : ∃ i, 1 ≤ i ∧ i < p.size_ ∧ key < KeyAt p i
    · obtain ⟨a1, a2, a3⟩ := Nat.find_spec hex
      have hnot : ∀ m, 1 ≤ m → m < Nat.find hex → ¬ key < KeyAt p m := fun m hm1 hm2 hlt =>
        Nat.find_min hex hm2 ⟨hm1, by omega, hlt⟩
      refine ⟨Nat.find hex - 1, by omega, ?_, ?_, hfirst _ a1 a2 a3 hnot⟩
      · by_cases c : Nat.find hex - 1 = 0
        · exact Or.inl c
        · right
          have := hnot (Nat.find hex - 1) (by omega) (by omega)
          omega
      · right
        have e : Nat.find hex - 1 + 1 = Nat.find hex := by omega
        rw [e]
        exact a3
    · have hnot : ∀ m, 1 ≤ m → m < p.size_ → ¬ key < KeyAt p m := fun m hm1 hm2 hlt =>
        hex ⟨m, hm1, hm2, hlt⟩
      refine ⟨p.size_ - 1, by omega, ?_, Or.inl (by omega), hlast hnot⟩
      by_cases c : p.size_ - 1 = 0
      · exact Or.inl c
      · right
        have := hnot (p.size_ - 1) (by omega) (by omega)
        omega

theorem C25_internal_Lookup_routing_witness :
    1 ≤ BPlusTree.scenarioRoot.size_ ∧
    ((∀ i, 1 ≤ i → i < BPlusTree.scenarioRoot.size_ → 4 < KeyAt BPlusTree.scenarioRoot i →
      (∀ j, 1 ≤ j → j < i → ¬ 4 < KeyAt BPlusTree.scenarioRoot j) →
      Lookup BPlusTree.scenarioRoot 4 = ValueAt BPlusTree.scenarioRoot (i - 1)) ∧
    ((∀ j, 1 ≤ j → j < BPlusTree.scenarioRoot.size_ → ¬ 4 < KeyAt BPlusTree.scenarioRoot j) →
      Lookup BPlusTree.scenarioRoot 4 =
        ValueAt BPlusTree.scenarioRoot (BPlusTree.scenarioRoot.size_ - 1)) ∧
    (∀ q : BPlusTreePage, q.size_ = BPlusTree.scenarioRoot.size_ →
      (∀ i, ValueAt q i = ValueAt BPlusTree.scenarioRoot i) →
      (∀ i, 1 ≤ i → KeyAt q i = KeyAt BPlusTree.scenarioRoot i) →
      Lookup q 4 = Lookup BPlusTree.scenarioRoot 4) ∧
    ((∀ i j, 1 ≤ i → i < j → j < BPlusTree.scenarioRoot.size_ →
        KeyAt BPlusTree.scenarioRoot i < KeyAt BPlusTree.scenarioRoot j) →
      (∀ j, j < BPlusTree.scenarioRoot.size_ → (j = 0 ∨ KeyAt BPlusTree.scenarioRoot j ≤ 4) →
        (j + 1 = BPlusTree.scenarioRoot.size_ ∨ 4 < KeyAt BPlusTree.scenarioRoot (j + 1)) →
        Lookup BPlusTree.scenarioRoot 4 = ValueAt BPlusTree.scenarioRoot j) ∧
      ∃ j, j < BPlusTree.scenarioRoot.size_ ∧ (j = 0 ∨ KeyAt BPlusTree.scenarioRoot j ≤ 4) ∧
        (j + 1 = BPlusTree.scenarioRoot.size_ ∨ 4 < KeyAt BPlusTree.scenarioRoot (j + 1)) ∧
        Lookup BPlusTree.scenarioRoot 4 = ValueAt BPlusTree.scenarioRoot j)) :=
  ⟨by decide, C25_internal_Lookup_routing BPlusTree.scenarioRoot 4 (by decide)⟩

/-- C26: on an internal page with `size < max_size` in which `old_child` is the child
pointer of exactly one slot `j`, `InsertNodeAfter(old_child, new_key, new_child)` returns
the old size plus one; the slots `0 .. j` are unchanged, slot `j + 1` is
`(new_key, new_child)`, and the old slots `j + 1 .. size - 1` follow, each one slot
further right. -/
theorem C26_InsertNodeAfter_unique_slot (p : BPlusTreePage) (old_child new_key new_child : Int)
    (j : Nat) (hsz : p.size_ < p.max_size_) (hcap : p.max_size_ ≤ p.array.length)
    (hj : j < p.size_) (hold : ValueAt p j = old_child)
    (huniq : ∀ i, i < p.size_ → ValueAt p i = old_child → i = j) :
    ∃ q, InsertNodeAfter p old_child new_key new_child = some q ∧ SameHeader p q ∧
      q.size_ = p.size_ + 1 ∧ (∀ i, i ≤ j → q.slot i = p.slot i) ∧
      q.slot (j + 1) = (new_key, new_child) ∧
      (∀ i, j + 1 ≤ i → i < p.size_ → q.slot (i + 1) = p.slot i) ∧
      q.live = p.live.take (j + 1) ++ (new_key, new_child) :: p.live.drop (j + 1) := by
  have hroom : p.size_ < p.array.length := by omega
  obtain ⟨m, q, e1, e2, e3, e4, e5, e6, e7⟩ :=
    InsertNodeAfterLoop_spec old_child new_key new_child p.size_ p hroom ⟨j, hj, hold⟩
  have hm : m = j := huniq m e1 e5
  subst hm
  have hl : p.live.length = p.size_ := live_length p (by omega)
  refine ⟨q, e2, e3, e4, ?_, ?_, ?_, ?_⟩
  · intro i hi
    rw [slot_def, slot_def, e7 i, if_neg (by omega), if_neg (by omega)]
  · rw [slot_def, e7 (m + 1), if_neg (by omega), if_pos rfl]
    rfl
  · intro i hi1 hi2
    rw [slot_def, slot_def, e7 (i + 1), if_pos ⟨by omega, by omega⟩]
    rfl
  · apply List.ext_getElem?
    intro i
    simp only [live_getElem?, List.getElem?_append, List.getElem?_cons, List.getElem?_drop,
      List.getElem?_take, List.length_take, e4, e7]
    rw [hl, Nat.min_eq_left (by omega)]
    by_cases c1 : i < m + 1
    · have h1 : i < p.size_ + 1 := by omega
      have h2 : ¬ (i = m + 1) := by omega
      have h3 : ¬ (m + 1 < i ∧ i ≤ p.size_) := by omega
      have h4 : i < p.size_ := by omega
      simp only [c1, h1, h2, h3, h4, if_true, if_false]
    · by_cases c3 : i = m + 1
      · subst c3
        have h1 : m + 1 < p.size_ + 1 := by omega
        have h3 : ¬ (m + 1 < m + 1 ∧ m + 1 ≤ p.size_) := by omega
        simp only [c1, h1, h3, if_true, if_false, Nat.sub_self, false_and]
      · have h4 : ¬ (i - (m + 1) = 0) := by omega
        by_cases c4 : i < p.size_ + 1
        · have h6 : m + 1 < i ∧ i ≤ p.size_ := by omega
          have h7 : m + 1 + (i - (m + 1) - 1) = i - 1 := by omega
          have h8 : i - 1 < p.size_ := by omega
          simp only [c1, c3, c4, h4, h6, h7, h8, if_true, if_false]
          simp
        · have h7 : ¬ (m + 1 + (i - (m + 1) - 1) < p.size_) := by omega
          simp only [c1, c4, h4, h7, if_false]

theorem C26_InsertNodeAfter_unique_slot_witness :
    (BPlusTree.scenarioRoot.size_ < BPlusTree.scenarioRoot.max_size_ ∧
      BPlusTree.scenarioRoot.max_size_ ≤ BPlusTree.scenarioRoot.array.length ∧
      0 < BPlusTree.scenarioRoot.size_ ∧ ValueAt BPlusTree.scenarioRoot 0 = 1 ∧
      ∀ i, i < BPlusTree.scenarioRoot.size_ → ValueAt BPlusTree.scenarioRoot i = 1 → i = 0) ∧
    ∃ q, InsertNodeAfter BPlusTree.scenarioRoot 1 2 4 = some q ∧
      SameHeader BPlusTree.scenarioRoot q ∧
      q.size_ = BPlusTree.scenarioRoot.size_ + 1 ∧
      (∀ i, i ≤ 0 → q.slot i = BPlusTree.scenarioRoot.slot i) ∧
      q.slot (0 + 1) = (2, 4) ∧
      (∀ i, 0 + 1 ≤ i → i < BPlusTree.scenarioRoot.size_ →
        q.slot (i + 1) = BPlusTree.scenarioRoot.slot i) ∧
      q.live = BPlusTree.scenarioRoot.live.take (0 + 1) ++
        (2, 4) :: BPlusTree.scenarioRoot.live.drop (0 + 1) :=
  ⟨⟨by decide, by decide, by decide, by decide, by decide⟩,
    C26_InsertNodeAfter_unique_slot BPlusTree.scenarioRoot 1 2 4 0 (by decide) (by decide)
      (by decide) (by decide) (by decide)⟩

end BPlusTreeInternalPage

end cmudb

namespace cmudb

open BPlusTreePage IndexPageType

namespace BPlusTree

/-! ## Runs on which a redistribution leaves a wrong separator -/

/-- C27 (failing input): with `max_size = 4`, after inserting 1 to 6, `GetValue(3)` finds
the value 30.  After `Remove(1)`, which refills the left leaf from its right sibling,
key 3 is still stored (the left leaf, page 1, holds the keys 2 and 3) but `GetValue(3)`
finds nothing; `GetValue(1)` finds nothing either, and `GetValue(4)` still finds 40. -/
theorem C27_GetValue_misses_key_after_Remove :
    (run 2 (empty 4 4)
        [Op.insert 1 10, Op.insert 2 20, Op.insert 3 30, Op.insert 4 40, Op.insert 5 50,
          Op.insert 6 60]).bind
      (fun t => (GetValue 2 t 3).map fun r => (r, (GetValue 2 t 1).map Prod.snd)) =
      some ((true, [30]), some [10]) ∧
    (run 2 (empty 4 4)
        [Op.insert 1 10, Op.insert 2 20, Op.insert 3 30, Op.insert 4 40, Op.insert 5 50,
          Op.insert 6 60, Op.remove 1]).bind
      (fun t => (GetValue 2 t 3).map fun r => (r, (t.pages 1).map live)) =
      some ((true, []), some [(2, 20), (3, 30)]) ∧
    (run 2 (empty 4 4)
        [Op.insert 1 10, Op.insert 2 20, Op.insert 3 30, Op.insert 4 40, Op.insert 5 50,
          Op.insert 6 60, Op.remove 1]).bind
      (fun t => (GetValue 2 t 1).map fun r => (r, (GetValue 2 t 4).map Prod.snd)) =
      some ((true, []), some [40]) := by
  decide

/-- C29 (failing input): with `max_size = 4`, after inserting 10, 20, 30, 40, 50, 5, 7
and removing 50 the root (page 3) has the slots `(_, 1)` and `(30, 2)` and the leaves are
`[5, 7, 10, 20]` (page 1) and `[30, 40]` (page 2).  `Remove(40)` moves the pair of key 20
from page 1 to the front of page 2, whose slot in the root is slot 1; the separator of
slot 1 stays 30, and the key 20 is written to slot 2 of the root, the slot whose index is
the page id of page 2.  `GetValue(20)` then finds nothing. -/
theorem C29_separator_written_at_page_id :
    (run 2 (empty 4 4)
        [Op.insert 10 100, Op.insert 20 200, Op.insert 30 300, Op.insert 40 400,
          Op.insert 50 500, Op.insert 5 50, Op.insert 7 70, Op.remove 50]).map
      (fun t => ((t.pages 1).map live, (t.pages 2).map live,
        (t.pages 3).map (fun p => p.array))) =
      some (some [(5, 50), (7, 70), (10, 100), (20, 200)], some [(30, 300), (40, 400)],
        some [(0, 1), (30, 2), (0, 0), (0, 0)]) ∧
    (run 2 (empty 4 4)
        [Op.insert 10 100, Op.insert 20 200, Op.insert 30 300, Op.insert 40 400,
          Op.insert 50 500, Op.insert 5 50, Op.insert 7 70, Op.remove 50, Op.remove 40]).map
      (fun t => ((t.pages 1).map live, (t.pages 2).map live,
        (t.pages 3).map (fun p => p.array))) =
      some (some [(5, 50), (7, 70), (10, 100)], some [(20, 200), (30, 300)],
        some [(0, 1), (30, 2), (20, 0), (0, 0)]) ∧
    (run 2 (empty 4 4)
        [Op.insert 10 100, Op.insert 20 200, Op.insert 30 300, Op.insert 40 400,
          Op.insert 50 500, Op.insert 5 50, Op.insert 7 70, Op.remove 50, Op.remove 40]).bind
      (fun t => (GetValue 2 t 20).map fun r => ((t.pages 3).map live, r)) =
      some (some [(0, 1), (30, 2)], (true, [])) := by
  exact ⟨by decide, by decide, by decide⟩

/-- C30 (failing input): with `max_size = 4`, after inserting 10, 20, ..., 130 the root
(page 8) has the slots `(0, 3)` and `(50, 7)`, page 3 has the children 1 and 2, and page 7
the slots `(50, 4)`, `(70, 5)`, `(90, 6)` and `(110, 9)`.  `Remove(10)` merges the leaves
of page 3, and page 7 gives its first slot to page 3: page 4 gets the parent 3 and page 7
starts with the slot `(70, 5)`; in the root, the key of slot 1, whose child is page 7,
stays 50, and the key 70 is written to slot 0.  `GetValue(50)` then finds nothing
although page 4 stores key 50. -/
theorem C30_root_slot_0_key_written :
    (run 3 (empty 4 4)
        [Op.insert 10 100, Op.insert 20 200, Op.insert 30 300, Op.insert 40 400,
          Op.insert 50 500, Op.insert 60 600, Op.insert 70 700, Op.insert 80 800,
          Op.insert 90 900, Op.insert 100 1000, Op.insert 110 1100, Op.insert 120 1200,
          Op.insert 130 1300]).map
      (fun t => ((t.pages 8).map live, (t.pages 3).map live, (t.pages 7).map live)) =
      some (some [(0, 3), (50, 7)], some [(0, 1), (30, 2)],
        some [(50, 4), (70, 5), (90, 6), (110, 9)]) ∧
    (run 3 (empty 4 4)
        [Op.insert 10 100, Op.insert 20 200, Op.insert 30 300, Op.insert 40 400,
          Op.insert 50 500, Op.insert 60 600, Op.insert 70 700, Op.insert 80 800,
          Op.insert 90 900, Op.insert 100 1000, Op.insert 110 1100, Op.insert 120 1200,
          Op.insert 130 1300, Op.remove 10]).map
      (fun t => ((t.pages 8).map live, (t.pages 3).map live, (t.pages 7).map live)) =
      some (some [(70, 3), (50, 7)], some [(0, 1), (50, 4)],
        some [(70, 5), (90, 6), (110, 9)]) ∧
    (run 3 (empty 4 4)
        [Op.insert 10 100, Op.insert 20 200, Op.insert 30 300, Op.insert 40 400,
          Op.insert 50 500, Op.insert 60 600, Op.insert 70 700, Op.insert 80 800,
          Op.insert 90 900, Op.insert 100 1000, Op.insert 110 1100, Op.insert 120 1200,
          Op.insert 130 1300, Op.remove 10]).bind
      (fun t => (GetValue 3 t 50).map fun r => ((t.pages 4).map live, r)) =
      some (some [(50, 500), (60, 600)], (true, [])) ∧
    (run 3 (empty 4 4)
        [Op.insert 10 100, Op.insert 20 200, Op.insert 30 300, Op.insert 40 400,
          Op.insert 50 500, Op.insert 60 600, Op.insert 70 700, Op.insert 80 800,
          Op.insert 90 900, Op.insert 100 1000, Op.insert 110 1100, Op.insert 120 1200,
          Op.insert 130 1300, Op.remove 10]).map
      (fun t => (t.root_page_id_, (t.pages 4).map (fun p => p.parent_page_id_))) =
      some (8, some 3) := by
  exact ⟨by decide!, by decide!, by decide!, by decide!⟩

end BPlusTree

end cmudb

namespace cmudb

open BPlusTreePage IndexPageType

/-! ## Page-level results for merge and redistribution -/

namespace BPlusTreePage

end BPlusTreePage

namespace BPlusTreeInternalPage

end BPlusTreeInternalPage

end cmudb

namespace cmudb

open BPlusTreePage IndexPageType

/-! ## `Coalesce` of a page into its left neighbour -/

namespace BPlusTreeInternalPage

end BPlusTreeInternalPage

namespace BPlusTree

end BPlusTree

end cmudb

namespace cmudb

open BPlusTreePage IndexPageType

/-! ## `Redistribute`: one slot moves between two siblings -/

namespace BPlusTree

end BPlusTree

end cmudb

namespace cmudb

open BPlusTreePage IndexPageType

/-! ## The minimum size that `CoalesceOrRedistribute` enforces -/

namespace BPlusTree

end BPlusTree

end cmudb

namespace cmudb

open BPlusTreePage IndexPageType

namespace BPlusTree

end BPlusTree

end cmudb

namespace cmudb

open BPlusTreePage IndexPageType

namespace BPlusTree

/-! ## Internal `MoveHalfTo` -/

/-- Internal `MoveHalfTo` to a page of size 1 with room for the moved slots: the page
keeps its lower slots, the recipient holds the upper `size_ / 2` slots and becomes the
parent of the children in them. -/
theorem InternalMoveHalfTo_spec {t : BPlusTree} {self recipient : Int} {p r : BPlusTreePage}
    (hp : t.pages self = some p) (hr : t.pages recipient = some r) (hne : self ≠ recipient)
    (hlen : p.size_ ≤ p.array.length) (h2 : 2 ≤ p.size_) (hr1 : r.size_ = 1)
    (hcap : p.size_ / 2 ≤ r.array.length)
    (hch : ∀ c ∈ (p.live.drop (p.size_ - p.size_ / 2)).map Prod.snd,
      c ≠ self ∧ c ≠ recipient ∧ ∃ cp, t.pages c = some cp) :
    ∃ t2 r1, t.InternalMoveHalfTo self recipient = some t2 ∧
      t2.root_page_id_ = t.root_page_id_ ∧ t2.next_page_id = t.next_page_id ∧
      t2.leaf_max_size = t.leaf_max_size ∧ t2.internal_max_size = t.internal_max_size ∧
      t2.pages self = some { p with size_ := p.size_ - p.size_ / 2 } ∧
      t2.pages recipient = some r1 ∧ SameHeader r r1 ∧ r1.size_ = p.size_ / 2 ∧
      r1.live = p.live.drop (p.size_ - p.size_ / 2) ∧
      (∀ y ∈ (p.live.drop (p.size_ - p.size_ / 2)).map Prod.snd,
        t2.pages y = (t.pages y).map fun cp => cp.SetParentPageId r.page_id_) ∧
      (∀ y, y ∉ (p.live.drop (p.size_ - p.size_ / 2)).map Prod.snd → y ≠ self →
        y ≠ recipient → t2.pages y = t.pages y) := by
  have hhalf : 1 ≤ p.size_ / 2 := by omega
  have hle : p.size_ / 2 ≤ p.size_ := Nat.div_le_self _ _
  have hc := copyFrom_eq r 0 (p.array.drop (p.size_ - p.size_ / 2)) (p.size_ / 2)
    (by simp; omega) (by omega)
  let r1 : BPlusTreePage :=
    ({ r with
        array := r.array.take 0 ++ (p.array.drop (p.size_ - p.size_ / 2)).take (p.size_ / 2) ++
          r.array.drop (0 + p.size_ / 2) } : BPlusTreePage).IncreaseSize (p.size_ / 2 - 1)
  have hcopy : BPlusTreeInternalPage.CopyHalfFrom r (p.array.drop (p.size_ - p.size_ / 2))
      (p.size_ / 2) = some r1 := by
    unfold BPlusTreeInternalPage.CopyHalfFrom
    rw [hc]
    simp only
    rw [if_neg (by omega)]
  have hid : r1.page_id_ = r.page_id_ := rfl
  have hs : r1.size_ = p.size_ / 2 := by
    simp only [r1, IncreaseSize, hr1]
    omega
  let t1 : BPlusTree := t.WritePage recipient r1
  have ht1P : t1.pages self = some p := by
    simp only [t1, WritePage_pages, if_neg hne]
    exact hp
  have hslots : ∀ i, p.size_ - p.size_ / 2 ≤ i → i < p.size_ - p.size_ / 2 + p.size_ / 2 →
      (p.slot i).2 ≠ self ∧ ∃ cp, t1.pages (p.slot i).2 = some cp := by
    intro i h1 h3
    obtain ⟨a, b, cp, hcp⟩ := hch (p.slot i).2
      ((mem_drop_live_iff p hlen _ _).2 ⟨i, h1, by omega, rfl⟩)
    refine ⟨a, cp, ?_⟩
    simp only [t1, WritePage_pages, if_neg b]
    exact hcp
  obtain ⟨t2, e1, e2, e3, e4, e5, e6, e7⟩ :=
    reparentLoop_spec self r.page_id_ p (p.size_ / 2) (p.size_ - p.size_ / 2) t1 ht1P hslots
  have hiff : ∀ y, (∃ i, p.size_ - p.size_ / 2 ≤ i ∧ i < p.size_ - p.size_ / 2 + p.size_ / 2 ∧
      (p.slot i).2 = y) ↔ y ∈ (p.live.drop (p.size_ - p.size_ / 2)).map Prod.snd := by
    intro y
    rw [mem_drop_live_iff p hlen]
    constructor
    · rintro ⟨i, a, b, c⟩
      exact ⟨i, a, by omega, c⟩
    · rintro ⟨i, a, b, c⟩
      exact ⟨i, a, by omega, c⟩
  have hPnot : ¬ ∃ i, p.size_ - p.size_ / 2 ≤ i ∧ i < p.size_ - p.size_ / 2 + p.size_ / 2 ∧
      (p.slot i).2 = self := by
    rw [hiff]
    intro h
    exact (hch self h).1 rfl
  have hNnot : ¬ ∃ i, p.size_ - p.size_ / 2 ≤ i ∧ i < p.size_ - p.size_ / 2 + p.size_ / 2 ∧
      (p.slot i).2 = recipient := by
    rw [hiff]
    intro h
    exact (hch _ h).2.1 rfl
  have ht2P : t2.pages self = some p := by rw [e7 self hPnot, ht1P]
  refine ⟨t2.WritePage self { p with size_ := p.size_ - p.size_ / 2 }, r1, ?_, ?_, ?_, ?_, ?_,
    ?_, ?_, ?_, hs, ?_, ?_, ?_⟩
  · unfold InternalMoveHalfTo
    simp only [hp, hr, Option.bind_eq_bind, Option.some_bind, hcopy, hid]
    have e1' := e1
    simp only [t1] at e1'
    simp only [e1', Option.some_bind, ht2P, DecreaseSize, if_pos hle]
  · simp only [WritePage_root, e2]
    rfl
  · simp only [WritePage_next, e3]
    rfl
  · simp only [WritePage_leaf_max, e4]
    rfl
  · simp only [WritePage_internal_max, e5]
    rfl
  · simp only [WritePage_pages, if_true]
  · simp only [WritePage_pages, if_neg (Ne.symm hne)]
    rw [e7 _ hNnot]
    simp only [t1, WritePage_pages, if_true]
  · refine ⟨rfl, rfl, rfl, rfl, rfl, ?_⟩
    simp only [r1, IncreaseSize, List.length_append, List.length_take, List.length_drop]
    omega
  · simp only [live, hs]
    simp only [r1, IncreaseSize, List.take_zero, List.nil_append, Nat.zero_add]
    rw [List.take_append_of_le_length (by simp; omega), List.take_take, Nat.min_self,
      List.drop_take]
    congr 1
    omega
  · intro y hy
    have hyP : y ≠ self := (hch y hy).1
    have hyN : y ≠ recipient := (hch y hy).2.1
    simp only [WritePage_pages, if_neg hyP]
    rw [e6 y ((hiff y).2 hy)]
    simp only [t1, WritePage_pages, if_neg hyN]
  · intro y hy hyP hyN
    simp only [WritePage_pages, if_neg hyP]
    rw [e7 y (fun h => hy ((hiff y).1 h))]
    simp only [t1, WritePage_pages, if_neg hyN]

/-- C31: internal `MoveHalfTo` of a page `self` with `n ≥ 2` slots to a sibling on which
`Init` has just run (size 1).  The call returns; the sibling then has size `n / 2`
(integer division, the number of children moved) and holds the upper `n / 2` slots of
the page in their order; the page has size `n - n / 2` and its slot array is unchanged,
so its live slots are the lower `n - n / 2` ones; every child in a moved slot has the
page id of the sibling as parent page id and is otherwise unchanged, and all other pages
are unchanged. -/
theorem C31_internal_MoveHalfTo_sizes_and_parents (t : BPlusTree) (self recipient : Int)
    (parent_id : Int) (m : Nat) (p : BPlusTreePage)
    (hp : t.pages self = some p)
    (hr : t.pages recipient = some (BPlusTreeInternalPage.Init m recipient parent_id))
    (hne : self ≠ recipient) (h2 : 2 ≤ p.size_) (hlen : p.size_ ≤ p.array.length)
    (hcap : p.size_ / 2 ≤ m)
    (hch : ∀ c ∈ (p.live.drop (p.size_ - p.size_ / 2)).map Prod.snd,
      c ≠ self ∧ c ≠ recipient ∧ (t.pages c).isSome = true) :
    ∃ t1 s, t.InternalMoveHalfTo self recipient = some t1 ∧
      t1.pages recipient = some s ∧ s.size_ = p.size_ / 2 ∧
      s.live = p.live.drop (p.size_ - p.size_ / 2) ∧
      s.page_type_ = INTERNAL_PAGE ∧ s.page_id_ = recipient ∧ s.parent_page_id_ = parent_id ∧
      s.max_size_ = m ∧
      t1.pages self = some { p with size_ := p.size_ - p.size_ / 2 } ∧
      ({ p with size_ := p.size_ - p.size_ / 2 } : BPlusTreePage).live =
        p.live.take (p.size_ - p.size_ / 2) ∧
      (∀ c ∈ (p.live.drop (p.size_ - p.size_ / 2)).map Prod.snd,
        t1.pages c = (t.pages c).map fun cp => cp.SetParentPageId s.page_id_) ∧
      (∀ y, y ∉ (p.live.drop (p.size_ - p.size_ / 2)).map Prod.snd → y ≠ self →
        y ≠ recipient → t1.pages y = t.pages y) := by
  obtain ⟨t2, r1, e1, _, _, _, _, e6, e7, ⟨a1, a2, a3, a4, a5, a6⟩, e9, e10, e11, e12⟩ :=
    InternalMoveHalfTo_spec hp hr hne hlen h2 rfl
      (by simp only [BPlusTreeInternalPage.Init, List.length_replicate]; exact hcap)
      (fun c hc => ⟨(hch c hc).1, (hch c hc).2.1, Option.isSome_iff_exists.1 (hch c hc).2.2⟩)
  refine ⟨t2, r1, e1, e7, e9, e10, a1, a4, a3, a2, e6, live_resize p _ (Nat.sub_le _ _), ?_,
    e12⟩
  intro c hc
  rw [e11 c hc, a4]

/-- Witness for C31: page 6 of `wideTree` has five children; its upper two slots move
to the fresh page 7. -/
theorem C31_internal_MoveHalfTo_sizes_and_parents_witness :
    (wideTree.pages 6 = some wideNode ∧
      wideTree.pages 7 = some (BPlusTreeInternalPage.Init 5 7 INVALID_PAGE_ID) ∧
      (6 : Int) ≠ 7 ∧ 2 ≤ wideNode.size_ ∧ wideNode.size_ ≤ wideNode.array.length ∧
      wideNode.size_ / 2 ≤ 5 ∧
      ∀ c ∈ (wideNode.live.drop (wideNode.size_ - wideNode.size_ / 2)).map Prod.snd,
        c ≠ 6 ∧ c ≠ 7 ∧ (wideTree.pages c).isSome = true) ∧
    ∃ t1 s, wideTree.InternalMoveHalfTo 6 7 = some t1 ∧
      t1.pages 7 = some s ∧ s.size_ = wideNode.size_ / 2 ∧
      s.live = wideNode.live.drop (wideNode.size_ - wideNode.size_ / 2) ∧
      s.page_type_ = INTERNAL_PAGE ∧ s.page_id_ = 7 ∧ s.parent_page_id_ = INVALID_PAGE_ID ∧
      s.max_size_ = 5 ∧
      t1.pages 6 = some { wideNode with size_ := wideNode.size_ - wideNode.size_ / 2 } ∧
      ({ wideNode with size_ := wideNode.size_ - wideNode.size_ / 2 } : BPlusTreePage).live =
        wideNode.live.take (wideNode.size_ - wideNode.size_ / 2) ∧
      (∀ c ∈ (wideNode.live.drop (wideNode.size_ - wideNode.size_ / 2)).map Prod.snd,
        t1.pages c = (wideTree.pages c).map fun cp => cp.SetParentPageId s.page_id_) ∧
      (∀ y, y ∉ (wideNode.live.drop (wideNode.size_ - wideNode.size_ / 2)).map Prod.snd →
        y ≠ 6 → y ≠ 7 → t1.pages y = wideTree.pages y) :=
  ⟨⟨rfl, rfl, by decide, by decide, by decide, by decide, by decide⟩,
    C31_internal_MoveHalfTo_sizes_and_parents wideTree 6 7 INVALID_PAGE_ID 5 wideNode rfl rfl
      (by decide) (by decide) (by decide) (by decide) (by decide)⟩

end BPlusTree

end cmudb

namespace cmudb

open BPlusTreePage IndexPageType

namespace BPlusTree

/-! ## The two leaves after a leaf split -/

end BPlusTree

end cmudb

namespace cmudb

open BPlusTreePage IndexPageType

namespace BPlusTree

/-! ## Sizes of the two leaves after a split, against the minimum of the delete path -/

end BPlusTree

end cmudb

namespace cmudb

open BPlusTreePage IndexPageType

namespace BPlusTree

/-! ## Sizes after `Insert` sequences, and a node without a sibling -/

/-- A sequence of `Insert` calls keeps the size invariant and the capacities. -/
theorem insertAll_SizeInv (fuel : Nat) : ∀ (kvs : List MappingType) (t : BPlusTree)
    (bs : List Bool) (t1 : BPlusTree), SizeInv t → insertAll fuel t kvs = some (bs, t1) →
    SizeInv t1 ∧ t1.leaf_max_size = t.leaf_max_size ∧
      t1.internal_max_size = t.internal_max_size := by
  intro kvs
  induction kvs with
  | nil =>
    intro t bs t1 h e
    simp only [insertAll, Option.some.injEq, Prod.mk.injEq] at e
    obtain ⟨_, rfl⟩ := e
    exact ⟨h, rfl, rfl⟩
  | cons kv rest ih =>
    intro t bs t1 h e
    unfold insertAll at e
    cases h1 : t.Insert fuel kv.1 kv.2 with
    | none => rw [h1] at e; cases e
    | some r =>
      obtain ⟨b, t2⟩ := r
      rw [h1] at e
      simp only at e
      cases h2 : insertAll fuel t2 rest with
      | none => rw [h2] at e; cases e
      | some r2 =>
        obtain ⟨bs2, t3⟩ := r2
        rw [h2] at e
        simp only [Option.some.injEq, Prod.mk.injEq] at e
        obtain ⟨_, rfl⟩ := e
        have s := Insert_SizeStep h h1
        obtain ⟨a1, a2, a3⟩ := ih t2 bs2 t3 s.1 h2
        exact ⟨a1, a2.trans s.2.1, a3.trans s.2.2.1⟩

/-- Every sequence of `Insert` calls on the empty tree (capacities at least 2, fuel at
least the number of calls) has a result, and every page of the final state, leaf or
internal, holds at most `max_size_` slots, with `max_size_` the capacity of its type:
the splits happen before a full page receives a new entry. -/
theorem insertAll_size_le_max_size (leaf_max_size internal_max_size fuel : Nat)
    (kvs : List MappingType) (h1 : 2 ≤ leaf_max_size) (h2 : 2 ≤ internal_max_size)
    (hf : kvs.length ≤ fuel) :
    ∃ bs t, insertAll fuel (empty leaf_max_size internal_max_size) kvs = some (bs, t) ∧
      ∀ page_id p, t.pages page_id = some p →
        p.size_ ≤ p.max_size_ ∧
          p.max_size_ = (match p.page_type_ with
            | LEAF_PAGE => leaf_max_size
            | INTERNAL_PAGE => internal_max_size) := by
  obtain ⟨bs, t, e⟩ : ∃ bs t,
      insertAll fuel (empty leaf_max_size internal_max_size) kvs = some (bs, t) := by
    cases kvs with
    | nil => exact ⟨[], _, rfl⟩
    | cons kv rest =>
      obtain ⟨bs, t1, G1, e1, _⟩ :=
        insertAll_empty leaf_max_size internal_max_size h1 h2 kv rest fuel hf
      exact ⟨bs, t1, e1⟩
  refine ⟨bs, t, e, ?_⟩
  intro page_id p hp
  obtain ⟨a1, a2, a3⟩ := insertAll_SizeInv fuel kvs _ bs t (empty_SizeInv _ _ h1 h2) e
  have hb := a1.bound hp
  rw [a2, a3] at hb
  exact hb

/-- With leaf and internal `max_size = 2`, the calls `Insert` 8, 5, 7, 6 build a tree
in which the internal page 5 is not the root and has a single child, the leaf `[8]`
(page 2): the internal split left it with one slot.  Slot 1 of page 5 is beyond its
size and holds the page id 0, which is no page of the pool.  `Remove(8)` empties page 2,
`CoalesceOrRedistribute` takes `parent->ValueAt(1)` as the sibling and fetches page 0:
the call has no result. -/
theorem only_child_has_no_sibling :
    (run 3 (empty 2 2) [Op.insert 8 80, Op.insert 5 50, Op.insert 7 70, Op.insert 6 60]).map
      (fun t => (t.root_page_id_, t.shapeAt 5)) = some (6, some (INTERNAL_PAGE, 1, 2)) ∧
    (run 3 (empty 2 2) [Op.insert 8 80, Op.insert 5 50, Op.insert 7 70, Op.insert 6 60]).map
      (fun t => (t.pages 5).map fun p => p.array) = some (some [(8, 2), (0, 0)]) ∧
    (run 3 (empty 2 2) [Op.insert 8 80, Op.insert 5 50, Op.insert 7 70, Op.insert 6 60]).map
      (fun t => (t.pages 2).map fun p => (p.page_type_, p.parent_page_id_, p.live)) =
      some (some (LEAF_PAGE, 5, [(8, 80)])) ∧
    (run 3 (empty 2 2) [Op.insert 8 80, Op.insert 5 50, Op.insert 7 70, Op.insert 6 60]).map
      (fun t => t.pages 0) = some none ∧
    (run 3 (empty 2 2) [Op.insert 8 80, Op.insert 5 50, Op.insert 7 70, Op.insert 6 60,
      Op.remove 8]).isNone = true := by
  exact ⟨by decide, by decide, by decide, by decide, by decide⟩

end BPlusTree

end cmudb
